import Mathlib

/-!
# The exact-number kernel of `real/exact_number.hpp`

A shallow embedding of `boost::real::exact_number<T>` and a verification of its
specification.

Conventions of the embedding.

* A digit (`T`, `int` by default) and an exponent (`int`) are modelled by `Int`;
  a `std::vector<T>` is a `List Int`, most significant digit first.  The arithmetic
  is exact: the theorems carry the digit-range hypotheses under which no
  intermediate digit value of the C++ code leaves `[0, T_MAX]`.
* `normalize`, `add_vector`, `subtract_vector`, `multiply_vector`, the operators `+`, `-`
  and `*`, `round_up_abs`, `round_up`, `round_down` and `up_to` are defined twice.  The
  definitions named after the methods compute sizes, indices and exponents as integers
  without a bound.  The definitions with the suffix `_int` follow the type `int` of the
  source for these values: a signed overflow is undefined behaviour, and without one the
  result is that of the first definition.  The parser `number_from_string` checks the
  range of its `int` variable `exponent` in the same way.
* `T_MAX` is `std::numeric_limits<T>::max()`, a parameter.  The multiplicative core
  is the one of the default instantiation `T = int`, whose `mulmod` and `mult_div`
  are the `long long` specialisations at the end of the header.  The generic `mulmod` and
  `mult_div` are modelled apart, with every arithmetic result checked against the
  range of `T`.
* C++ integer division truncates towards zero: it is `Int.tdiv`, the remainder is
  `Int.tmod`.
* A `while`/`for` loop is a recursion on a counter of its iterations; the loop
  condition is tested at every step as in the source.
* A method that mutates `*this` is a function returning the new value; `operator<`
  and its relatives are `operator_lt`, `operator_gt`, `operator_eq`, `operator_add`,
  `operator_sub`, `operator_mul`.
-/

namespace BoostReal

/-- The triple `(digits, exponent, positive)` of `struct exact_number`. -/
structure exact_number where
  digits : List Int
  exponent : Int
  positive : Bool
  deriving DecidableEq, Repr

/-- The default-constructed number: `digits = {}`, `exponent = 0`, `positive = true`. -/
def exact_number.default : exact_number := ⟨[], 0, true⟩

/-- The working radix `(std::numeric_limits<T>::max() / 4) * 2`. -/
def radix (T_MAX : Int) : Int := (Int.tdiv T_MAX 4) * 2

/-- The default `base` argument of `add_vector`/`subtract_vector`:
`(std::numeric_limits<T>::max() / 4) * 2 - 1`, the largest digit. -/
def default_base (T_MAX : Int) : Int := (Int.tdiv T_MAX 4) * 2 - 1

/-! ## `normalize` -/

/-- First loop of `normalize`:
`while (digits.size() > 1 && digits.front() == 0) { digits.erase(begin); exponent--; }`. -/
def normalize_front : Nat → List Int → Int → List Int × Int
  | 0, ds, e => (ds, e)
  | n + 1, ds, e =>
    if 1 < ds.length ∧ ds.head? = some 0 then normalize_front n ds.tail (e - 1)
    else (ds, e)

/-- Second loop of `normalize`:
`while (digits.size() > 1 && digits.back() == 0) digits.pop_back();`. -/
def normalize_back : Nat → List Int → List Int
  | 0, ds => ds
  | n + 1, ds =>
    if 1 < ds.length ∧ ds.getLast? = some 0 then normalize_back n ds.dropLast
    else ds

/-- The method `normalize()`.  Each loop removes one digit per iteration, so the
number of digits bounds the iterations. -/
def normalize (x : exact_number) : exact_number :=
  let s := normalize_front x.digits.length x.digits x.exponent
  let ds := normalize_back s.1.length s.1
  if ds.length = 1 ∧ ds.head? = some 0 then ⟨ds, 0, true⟩
  else ⟨ds, s.2, x.positive⟩

/-! ## The numeric value -/

/-- The magnitude `Σ digits[i] · B^(exponent − 1 − i)` of a digit vector. -/
def magnitude (B : Int) : List Int → Int → ℚ
  | [], _ => 0
  | d :: ds, e => (d : ℚ) * (B : ℚ) ^ (e - 1) + magnitude B ds (e - 1)

/-- The numeric value `sign · Σ digits[i] · B^(exponent − 1 − i)`. -/
def value (B : Int) (x : exact_number) : ℚ :=
  (if x.positive then 1 else -1) * magnitude B x.digits x.exponent

/-- Normalized form of the data model: a non-empty digit vector, no leading and no
trailing zero when there is more than one digit, and the zero digit alone only as
the canonical zero. -/
def is_normalized (x : exact_number) : Prop :=
  x.digits ≠ [] ∧
  (1 < x.digits.length → x.digits.head? ≠ some 0 ∧ x.digits.getLast? ≠ some 0) ∧
  (x.digits = [0] → x.exponent = 0 ∧ x.positive = true)

instance (x : exact_number) : Decidable (is_normalized x) := by
  unfold is_normalized; infer_instance

/-- Every digit lies in `[0, b]`. -/
def digits_in (b : Int) (ds : List Int) : Prop := ∀ d ∈ ds, 0 ≤ d ∧ d ≤ b

instance (b : Int) (ds : List Int) : Decidable (digits_in b ds) := by
  unfold digits_in; infer_instance

/-! ## Comparison -/

/-- The static method `aligned_vectors_is_lower(lhs, rhs, equal)`: the `while` loop
advances both iterators over the common prefix; the last equation is the code after
the loop, reached when an iterator is at its end. -/
def aligned_vectors_is_lower : List Int → List Int → Bool → Bool
  | l :: ls, r :: rs, equal =>
    if l = r then aligned_vectors_is_lower ls rs equal else decide (l < r)
  | ls, rs, equal =>
    if equal && rs.isEmpty && ls.isEmpty then false
    else (ls.all fun d => decide (d = 0)) && !(rs.all fun d => decide (d = 0))

/-- The method `abs()`. -/
def abs (x : exact_number) : exact_number := ⟨x.digits, x.exponent, true⟩

/-- The method `operator<`. -/
def operator_lt (a other : exact_number) : Bool :=
  if a.digits = [0] ∨ a.digits = [] then
    !(decide (other.digits = [0]) || !other.positive || decide (other.digits = []))
  else if (other.digits = [0] ∨ other.digits = []) ∧ a.positive = false then true
  else if a.positive ≠ other.positive then !a.positive
  else if a.positive = true then
    if a.exponent = other.exponent then
      aligned_vectors_is_lower a.digits other.digits false
    else decide (a.exponent < other.exponent)
  else
    if a.exponent = other.exponent then
      aligned_vectors_is_lower other.digits a.digits false
    else decide (other.exponent < a.exponent)

/-- The method `operator>`. -/
def operator_gt (a other : exact_number) : Bool :=
  if a.digits = [0] ∨ a.digits = [] then
    !(decide (other.digits = [0]) || other.positive || decide (other.digits = []))
  else if other.digits = [0] ∧ a.positive = true then true
  else if a.positive ≠ other.positive then a.positive
  else if a.positive = true then
    if a.exponent = other.exponent then
      aligned_vectors_is_lower other.digits a.digits false
    else decide (a.exponent > other.exponent)
  else
    if a.exponent = other.exponent then
      aligned_vectors_is_lower a.digits other.digits false
    else decide (other.exponent > a.exponent)

/-- The method `operator==`: `!(*this < other || other < *this)`. -/
def operator_eq (a other : exact_number) : Bool :=
  !(operator_lt a other || operator_lt other a)

/-! ## The additive core -/

/-- The digit of `x` at the aligned index `i` of `add_vector`/`subtract_vector`:
`digits[exponent + i]` when `0 <= exponent + i < digits.size()`, else `0`. -/
def digit_at (x : exact_number) (i : Int) : Int :=
  if 0 ≤ x.exponent + i ∧ x.exponent + i < (x.digits.length : Int) then
    x.digits.getD (x.exponent + i).toNat 0
  else 0

/-- The body of the loop of `add_vector` after the two digits are fetched: the pair
`(digit, carry)` it produces from `lhs_digit`, `rhs_digit` and the incoming carry. -/
def add_digit (base lhs_digit rhs_digit orig_carry : Int) : Int × Int :=
  let s : Int × Int :=
    if base - lhs_digit < rhs_digit then
      let mn := min lhs_digit rhs_digit
      let mx := max lhs_digit rhs_digit
      if mn ≤ Int.tdiv base 2 then
        let remaining := Int.tdiv base 2 - mn
        ((mx - Int.tdiv base 2) - remaining - 2, 1)
      else
        ((mn - Int.tdiv base 2) + (mx - Int.tdiv base 2) - 2, 1)
    else (rhs_digit + lhs_digit, 0)
  if s.1 < base ∨ orig_carry = 0 then (s.1 + orig_carry, s.2) else (0, 1)

/-- The loop of `add_vector` after `k` iterations: the pair `(carry, temp)`.
Iteration number `k` (from 0) handles `i = fractional_length - 1 - k` and inserts
its digit at the front of `temp`. -/
def add_vector_loop (a other : exact_number) (base fractional_length : Int) :
    Nat → Int × List Int
  | 0 => (0, [])
  | k + 1 =>
    let s := add_vector_loop a other base fractional_length k
    let i := fractional_length - 1 - (k : Int)
    let r := add_digit base (digit_at a i) (digit_at other i) s.1
    (r.2, r.1 :: s.2)

/-- The method `add_vector(other, base)`; the loop runs for
`i = fractional_length - 1, ..., -integral_length`. -/
def add_vector (a other : exact_number) (base : Int) : exact_number :=
  let fractional_length :=
    max ((a.digits.length : Int) - a.exponent) ((other.digits.length : Int) - other.exponent)
  let integral_length := max a.exponent other.exponent
  let s := add_vector_loop a other base fractional_length
    (fractional_length + integral_length).toNat
  if s.1 = 1 then normalize ⟨1 :: s.2, integral_length + 1, a.positive⟩
  else normalize ⟨s.2, integral_length, a.positive⟩

/-- The body of the loop of `subtract_vector` after the two digits are fetched: the
pair `(digit, borrow)`. -/
def subtract_digit (base lhs_digit rhs_digit borrow : Int) : Int × Int :=
  if lhs_digit < borrow then ((base - rhs_digit) + 1 - borrow, borrow)
  else
    let lhs := lhs_digit - borrow
    if lhs < rhs_digit then ((base - (rhs_digit - 1)) + lhs, 1)
    else (lhs - rhs_digit, 0)

/-- The loop of `subtract_vector` after `k` iterations: the pair `(borrow, result)`. -/
def subtract_vector_loop (a other : exact_number) (base fractional_length : Int) :
    Nat → Int × List Int
  | 0 => (0, [])
  | k + 1 =>
    let s := subtract_vector_loop a other base fractional_length k
    let i := fractional_length - 1 - (k : Int)
    let r := subtract_digit base (digit_at a i) (digit_at other i) s.1
    (r.2, r.1 :: s.2)

/-- The method `subtract_vector(other, base)`. -/
def subtract_vector (a other : exact_number) (base : Int) : exact_number :=
  let fractional_length :=
    max ((a.digits.length : Int) - a.exponent) ((other.digits.length : Int) - other.exponent)
  let integral_length := max a.exponent other.exponent
  let s := subtract_vector_loop a other base fractional_length
    (fractional_length + integral_length).toNat
  normalize ⟨s.2, integral_length, a.positive⟩

/-- The method `operator+`, with the default base of `add_vector`/`subtract_vector`. -/
def operator_add (T_MAX : Int) (a other : exact_number) : exact_number :=
  if a.positive = other.positive then add_vector a other (default_base T_MAX)
  else if operator_lt (abs other) (abs a) = true then
    let r := subtract_vector a other (default_base T_MAX)
    ⟨r.digits, r.exponent, a.positive⟩
  else
    let r := subtract_vector other a (default_base T_MAX)
    ⟨r.digits, r.exponent, !a.positive⟩

/-- The method `operator-`. -/
def operator_sub (T_MAX : Int) (a other : exact_number) : exact_number :=
  if a.positive ≠ other.positive then
    let r := add_vector a other (default_base T_MAX)
    ⟨r.digits, r.exponent, a.positive⟩
  else if operator_lt (abs other) (abs a) = true then
    let r := subtract_vector a other (default_base T_MAX)
    ⟨r.digits, r.exponent, a.positive⟩
  else
    let r := subtract_vector other a (default_base T_MAX)
    ⟨r.digits, r.exponent, !a.positive⟩

/-! ## The multiplicative core -/

/-- The specialisation `exact_number<int>::mulmod`:
`((long long)a * (long long)b) % c`.  The product of two `int` fits in `long long`. -/
def mulmod_int (a b c : Int) : Int := Int.tmod (a * b) c

/-- The specialisation `exact_number<int>::mult_div`:
`((long long)a * (long long)b) / c`. -/
def mult_div_int (a b c : Int) : Int := Int.tdiv (a * b) c

/-- The body of the inner loop of `multiply_vector` for the digits `ai = digits[i]`,
`bj = other.digits[j]`, the cell `temp[i_n1 - i_n2]` and the running `carry`: the pair
(new cell, new carry).  The class is instantiated at its default `T = int`, so
`mulmod` and `mult_div` are the specialisations. -/
def multiply_step (base ai bj cell carry : Int) : Int × Int :=
  let rem := mulmod_int ai bj base
  let q := mult_div_int ai bj base
  let s : Int × Int :=
    if cell ≥ base - carry then (carry - (base - cell), q + 1)
    else (cell + carry, q)
  if rem ≥ base - s.1 then (rem - (base - s.1), s.2 + 1)
  else (rem + s.1, s.2)

/-- The inner loop of `multiply_vector` after `k` iterations, started on `temp`
with `carry = 0`: the pair `(temp, carry)`.  Iteration number `k` (from 0) handles
`j = other.digits.size() - 1 - k` and `i_n2 = k`. -/
def multiply_inner (base ai : Int) (other : List Int) (i_n1 : Int) (temp : List Int) :
    Nat → List Int × Int
  | 0 => (temp, 0)
  | k + 1 =>
    let s := multiply_inner base ai other i_n1 temp k
    let j := (other.length : Int) - 1 - (k : Int)
    let idx := (i_n1 - (k : Int)).toNat
    let r := multiply_step base ai (other.getD j.toNat 0) (s.1.getD idx 0) s.2
    (s.1.set idx r.1, r.2)

/-- The outer loop of `multiply_vector` after `m` iterations: the vector `temp`.
Iteration number `m` (from 0) handles `i = digits.size() - 1 - m` with
`i_n1 = temp.size() - 1 - m`, runs the inner loop over all of `other.digits` and
stores the last carry in the next cell. -/
def multiply_outer (base : Int) (a other : List Int) (new_size : Nat) : Nat → List Int
  | 0 => List.replicate new_size 0
  | m + 1 =>
    let temp := multiply_outer base a other new_size m
    let i := (a.length : Int) - 1 - (m : Int)
    let i_n1 := (new_size : Int) - 1 - (m : Int)
    let s := multiply_inner base (a.getD i.toNat 0) other i_n1 temp other.length
    if s.2 > 0 then
      let idx := (i_n1 - (other.length : Int)).toNat
      s.1.set idx (s.1.getD idx 0 + s.2)
    else s.1

/-- The digit vector and exponent `multiply_vector` assigns before it calls
`normalize`. -/
def multiply_vector_raw (a other : exact_number) (base : Int) : exact_number :=
  let new_size : Int := (a.digits.length : Int) + (other.digits.length : Int)
  let new_size := if a.exponent < 0 then new_size - a.exponent else new_size
  let new_size := if other.exponent < 0 then new_size - other.exponent else new_size
  let temp := multiply_outer base a.digits other.digits new_size.toNat a.digits.length
  let fractional_part := ((a.digits.length : Int) - a.exponent)
    + ((other.digits.length : Int) - other.exponent)
  let result_exponent := (temp.length : Int) - fractional_part
  ⟨temp, result_exponent, a.positive == other.positive⟩

/-- The method `multiply_vector(other, base)`. -/
def multiply_vector (a other : exact_number) (base : Int) : exact_number :=
  normalize (multiply_vector_raw a other base)

/-- The method `operator*`: `multiply_vector` with the default base
`(std::numeric_limits<T>::max() / 4) * 2`, then the sign flag is set again. -/
def operator_mul (T_MAX : Int) (a other : exact_number) : exact_number :=
  let r := multiply_vector a other (radix T_MAX)
  ⟨r.digits, r.exponent, a.positive == other.positive⟩

/-! ## Outcomes of the fallible routines -/

/-- The exceptions the kernel throws. -/
inductive exception
  | divide_by_zero
  | exponent_overflow_exception
  | invalid_string_number_exception
  | octal_input_not_supported_exception
  deriving DecidableEq, Repr

/-- The outcome of a routine that can fail: a value, a thrown exception, undefined
behaviour of the C++ code (an element read from, or `pop_back` on, an empty vector; a
signed overflow), or `unfinished` when the iteration counter of the model ran out
before the loop ended. -/
inductive outcome (α : Type)
  | ok (a : α)
  | throws (e : exception)
  | undefined
  | unfinished
  deriving DecidableEq, Repr

/-- Sequencing: the second routine runs on the value of the first; an exception,
undefined behaviour or an exhausted counter of the first is the outcome. -/
def outcome.bind {α β : Type} (m : outcome α) (f : α → outcome β) : outcome β :=
  match m with
  | outcome.ok a => f a
  | outcome.throws e => outcome.throws e
  | outcome.undefined => outcome.undefined
  | outcome.unfinished => outcome.unfinished

/-- The value of an arithmetic expression of a signed integer type with the largest
value `T_MAX` (the digit type `T`, or `int` with `T_MAX = 2147483647`): a result outside
the range of the type is a signed overflow, undefined behaviour. -/
def checked (T_MAX v : Int) : outcome Int :=
  if -T_MAX - 1 ≤ v ∧ v ≤ T_MAX then outcome.ok v else outcome.undefined

/-- The canonical zero, also the local `zero` with `zero.digits = {0}` of the long
division. -/
def canonical_zero : exact_number := ⟨[0], 0, true⟩

/-- The loop `while ((x.exponent - (int)x.digits.size()) > 0) x.digits.push_back(0);`
that the long division runs after `normalize`: it appends `exponent − size` zeros. -/
def pad_zeros (x : exact_number) : exact_number :=
  ⟨x.digits ++ List.replicate (x.exponent - (x.digits.length : Int)).toNat 0,
    x.exponent, x.positive⟩

/-! ## Rounding -/

/-- The loop of `round_up_abs`: the state `(digits, index, keep_carrying)`. -/
def round_up_abs_loop (base : Int) : Nat → List Int → Int → Bool → List Int × Int × Bool
  | 0, ds, index, keep_carrying => (ds, index, keep_carrying)
  | n + 1, ds, index, keep_carrying =>
    if 0 < index ∧ keep_carrying = true then
      if ds.getD index.toNat 0 ≠ base then
        round_up_abs_loop base n (ds.set index.toNat (ds.getD index.toNat 0 + 1))
          (index - 1) false
      else round_up_abs_loop base n (ds.set index.toNat 0) (index - 1) true
    else (ds, index, keep_carrying)

/-- The method `round_up_abs(base)`. -/
def round_up_abs (x : exact_number) (base : Int) : exact_number :=
  let s := round_up_abs_loop base x.digits.length x.digits ((x.digits.length : Int) - 1) true
  if s.2.1 = 0 ∧ s.2.2 = true then
    if s.1.getD 0 0 = base then ⟨1 :: s.1.set 0 0, x.exponent + 1, x.positive⟩
    else ⟨s.1.set 0 (s.1.getD 0 0 + 1), x.exponent, x.positive⟩
  else ⟨s.1, x.exponent, x.positive⟩

/-- The loop of `round_down_abs`: the state `(digits, index, keep_carrying)`. -/
def round_down_abs_loop (base : Int) : Nat → List Int → Int → Bool → List Int × Int × Bool
  | 0, ds, index, keep_carrying => (ds, index, keep_carrying)
  | n + 1, ds, index, keep_carrying =>
    if 0 < index ∧ keep_carrying = true then
      if ds.getD index.toNat 0 ≠ 0 then
        round_down_abs_loop base n (ds.set index.toNat (ds.getD index.toNat 0 - 1))
          (index - 1) false
      else round_down_abs_loop base n (ds.set index.toNat base) (index - 1) true
    else (ds, index, keep_carrying)

/-- The method `round_down_abs(base)`. -/
def round_down_abs (x : exact_number) (base : Int) : exact_number :=
  let s := round_down_abs_loop base x.digits.length x.digits ((x.digits.length : Int) - 1) true
  if s.2.1 = 0 ∧ s.2.2 = true then ⟨s.1.set 0 (s.1.getD 0 0 - 1), x.exponent, x.positive⟩
  else ⟨s.1, x.exponent, x.positive⟩

/-- The method `round_up(base)`. -/
def round_up (x : exact_number) (base : Int) : exact_number :=
  if x.positive = true then round_up_abs x base else round_down_abs x base

/-- The method `round_down(base)`. -/
def round_down (x : exact_number) (base : Int) : exact_number :=
  if x.positive = true then round_down_abs x base else round_up_abs x base

/-! ## Long division -/

/-- The binary search for one quotient digit that `DivisionBySingleDigit` and
`knuthDivision` share: the loop `while (left <= right)` on the state
`(left, right, mid, tempDividend)`, for the number `target` to divide by
`exact_divisor`.  It returns `mid` and the last `tempDividend`.  The sign flag of the
local `tempQuotient` is `true` throughout. -/
def quotient_digit_search (base : Int) (target exact_divisor : exact_number) :
    Nat → Int → Int → Int → exact_number → Int × exact_number
  | 0, _, _, mid, tempDividend => (mid, tempDividend)
  | fuel + 1, left, right, mid, tempDividend =>
    if left ≤ right then
      let mid := Int.tdiv (right - left) 2 + left
      let tempQuotient := multiply_vector ⟨[mid], 1, true⟩ exact_divisor base
      if operator_gt tempQuotient target = true then
        quotient_digit_search base target exact_divisor fuel left (mid - 1) mid target
      else if operator_eq tempQuotient target = true then (mid, canonical_zero)
      else
        let rest := subtract_vector target tempQuotient (base - 1)
        if operator_lt rest exact_divisor = true then (mid, rest)
        else if operator_eq rest exact_divisor = true then (mid + 1, canonical_zero)
        else quotient_digit_search base target exact_divisor fuel (mid + 1) right mid rest
    else (mid, tempDividend)

/-- The search started as the code does: `left = 1`, `right = base - 1`,
`mid = (right - left)/2 + left`; at most `base` iterations are needed. -/
def quotient_digit (base : Int) (target exact_divisor tempDividend : exact_number) :
    Int × exact_number :=
  quotient_digit_search base target exact_divisor base.toNat 1 (base - 1)
    (Int.tdiv (base - 1 - 1) 2 + 1) tempDividend

/-- The loop `while (dividend[nextDigit] == 0 && nextDigit < dividendSize)` of
`DivisionBySingleDigit` on the state `(nextDigit, quotient)`.  The source reads
`dividend[nextDigit]` before it tests the bound; at `nextDigit = dividendSize` the
value read does not matter, the conjunction being false. -/
def skip_zero_digits (dividend : List Int) : Nat → Nat → List Int → Nat × List Int
  | 0, nextDigit, quotient => (nextDigit, quotient)
  | fuel + 1, nextDigit, quotient =>
    if dividend.getD nextDigit 0 = 0 ∧ nextDigit < dividend.length then
      skip_zero_digits dividend fuel (nextDigit + 1) (quotient ++ [0])
    else (nextDigit, quotient)

/-- The main loop `while (nextDigit <= dividendSize)` of `DivisionBySingleDigit` on the
state `(nextDigit, exact_remainder, tempRemainder, quotient)`; it returns the quotient
and `exact_remainder`. -/
def DivisionBySingleDigit_loop (base : Int) (dividend : List Int)
    (exact_divisor : exact_number) :
    Nat → Nat → exact_number → exact_number → List Int → outcome (List Int × exact_number)
  | 0, _, _, _, _ => outcome.unfinished
  | fuel + 1, nextDigit, exact_remainder, tempRemainder, quotient =>
    if nextDigit ≤ dividend.length then
      let s := quotient_digit base exact_remainder exact_divisor tempRemainder
      let quotient := quotient ++ [s.1]
      let exact_remainder := s.2
      if operator_eq exact_remainder canonical_zero = true then
        if nextDigit < dividend.length then
          let z := skip_zero_digits dividend dividend.length nextDigit quotient
          if z.1 = dividend.length then
            outcome.ok (z.2, ⟨[], exact_remainder.exponent, exact_remainder.positive⟩)
          else
            let exact_remainder : exact_number :=
              ⟨[dividend.getD z.1 0], 1, exact_remainder.positive⟩
            if operator_lt exact_remainder exact_divisor = true then
              if z.1 + 1 < dividend.length then
                DivisionBySingleDigit_loop base dividend exact_divisor fuel (z.1 + 2)
                  ⟨exact_remainder.digits ++ [dividend.getD (z.1 + 1) 0], 2,
                    exact_remainder.positive⟩ s.2 (z.2 ++ [0])
              else outcome.ok (z.2 ++ [0], exact_remainder)
            else
              DivisionBySingleDigit_loop base dividend exact_divisor fuel (z.1 + 1)
                exact_remainder s.2 z.2
        else outcome.ok (quotient, exact_remainder)
      else if nextDigit < dividend.length then
        DivisionBySingleDigit_loop base dividend exact_divisor fuel (nextDigit + 1)
          ⟨exact_remainder.digits ++ [dividend.getD nextDigit 0], 2, exact_remainder.positive⟩
          s.2 quotient
      else outcome.ok (quotient, exact_remainder)
    else outcome.ok (quotient, exact_remainder)

/-- The static method `DivisionBySingleDigit(dividend, divisor, quotient, remainder,
base)`; the result is the pair of the vectors `quotient` and `remainder` it leaves.
Reading `divisor[0]` or `dividend[0]` of an empty vector is undefined behaviour. -/
def DivisionBySingleDigit (dividend divisor quotient remainder : List Int) (base : Int) :
    outcome (List Int × List Int) :=
  match divisor with
  | [] => outcome.undefined
  | v :: _ =>
    if v = 0 then outcome.throws exception.divide_by_zero
    else if v = 1 then outcome.ok (quotient ++ dividend, remainder ++ [0])
    else
      match dividend with
      | [] => outcome.undefined
      | [a] => outcome.ok (quotient ++ [Int.tdiv a v], remainder ++ [Int.tmod a v])
      | d0 :: d1 :: _ =>
        let exact_divisor : exact_number := ⟨divisor, 1, true⟩
        let start : Nat × exact_number :=
          if d0 < v then (2, ⟨[d0, d1], 2, true⟩) else (1, ⟨[d0], 1, true⟩)
        (DivisionBySingleDigit_loop base dividend exact_divisor (dividend.length + 1)
          start.1 start.2 exact_number.default quotient).bind
          fun r => outcome.ok (r.1, r.2.digits)

/-- The loop `while (exact_divisor.digits[0] < base/2)` of `knuthDivision` on the state
`(exact_divisor, exact_dividend, lnNormalizationFator)`. -/
def knuth_normalization (base : Int) :
    Nat → exact_number → exact_number → Nat → outcome (exact_number × exact_number × Nat)
  | 0, _, _, _ => outcome.unfinished
  | fuel + 1, exact_divisor, exact_dividend, k =>
    match exact_divisor.digits with
    | [] => outcome.undefined
    | d0 :: _ =>
      if d0 < Int.tdiv base 2 then
        knuth_normalization base fuel (multiply_vector exact_divisor ⟨[2], 1, true⟩ base)
          (multiply_vector exact_dividend ⟨[2], 1, true⟩ base) (k + 1)
      else outcome.ok (exact_divisor, exact_dividend, k)

/-- The loop `while (tempDividend < exact_divisor)` at the head of the body of the
`for` loop of `knuthDivision`, on the state `(j, tempDividend, quotient)`. -/
def knuth_pull_digits (digits : List Int) (exact_divisor : exact_number) (m : Nat) :
    Nat → Nat → exact_number → List Int → Nat × exact_number × List Int
  | 0, j, tempDividend, quotient => (j, tempDividend, quotient)
  | fuel + 1, j, tempDividend, quotient =>
    if operator_lt tempDividend exact_divisor = true then
      if j + 1 = m then (j, tempDividend, quotient)
      else
        knuth_pull_digits digits exact_divisor m fuel (j + 1)
          ⟨tempDividend.digits ++ [digits.getD (j + 1) 0], tempDividend.exponent + 1,
            tempDividend.positive⟩ (quotient ++ [0])
    else (j, tempDividend, quotient)

/-- The loop `while (temp > tempDividend)` of `knuthDivision` that lowers the estimated
quotient, on the state `(tempQuotient, temp)`. -/
def knuth_lower_estimate (base : Int) (exact_divisor tempDividend : exact_number) :
    Nat → exact_number → exact_number → outcome (exact_number × exact_number)
  | 0, _, _ => outcome.unfinished
  | fuel + 1, tempQuotient, temp =>
    if operator_gt temp tempDividend = true then
      let lowered := subtract_vector tempQuotient ⟨[1], 1, true⟩ (base - 1)
      knuth_lower_estimate base exact_divisor tempDividend fuel lowered
        (multiply_vector lowered exact_divisor base)
    else outcome.ok (tempQuotient, temp)

/-- The loop `for (long int j = n; j < m; ++j)` of `knuthDivision` on the state
`(j, tempDividend, quotient, remainder)`; `digits` are those of `exact_dividend`.  The
sign flags of the locals `firstDigit`, `secondDigit` and `tempQuotient` are `true`
throughout. -/
def knuth_loop (base : Int) (digits : List Int) (exact_divisor : exact_number) (n m : Nat) :
    Nat → Nat → exact_number → List Int → List Int → outcome (List Int × List Int)
  | 0, _, _, _, _ => outcome.unfinished
  | fuel + 1, j, tempDividend, quotient, remainder =>
    if j < m then
      let pushed : exact_number :=
        ⟨tempDividend.digits ++ [digits.getD j 0], tempDividend.exponent + 1,
          tempDividend.positive⟩
      let cleared : exact_number :=
        if operator_eq pushed canonical_zero = true then ⟨[], 0, pushed.positive⟩ else pushed
      let s := knuth_pull_digits digits exact_divisor m m j cleared quotient
      if operator_lt s.2.1 exact_divisor = true then
        outcome.ok (s.2.2 ++ [0], (pad_zeros (normalize s.2.1)).digits)
      else if s.2.1.digits.length = n then
        let d := quotient_digit base s.2.1 exact_divisor exact_number.default
        let rest := normalize d.2
        if operator_eq rest canonical_zero = true then
          knuth_loop base digits exact_divisor n m fuel (s.1 + 1)
            ⟨[], rest.exponent, rest.positive⟩ (s.2.2 ++ [d.1]) remainder
        else if s.1 + 1 = m then outcome.ok (s.2.2 ++ [d.1], (pad_zeros rest).digits)
        else
          knuth_loop base digits exact_divisor n m fuel (s.1 + 1) (pad_zeros rest)
            (s.2.2 ++ [d.1]) remainder
      else
        match s.2.1.digits with
        | t0 :: t1 :: _ =>
          let current : exact_number := ⟨s.2.1.digits, (n : Int) + 1, s.2.1.positive⟩
          let firstDigit := pad_zeros
            (add_vector (multiply_vector ⟨[t0], 1, true⟩ ⟨[1, 0], 2, true⟩ base)
              ⟨[t1], 1, true⟩ base)
          (DivisionBySingleDigit firstDigit.digits [exact_divisor.digits.getD 0 0]
            [] [] base).bind fun qr =>
            (knuth_lower_estimate base exact_divisor current (base * base).toNat.succ
              ⟨qr.1, qr.1.length, true⟩
              (multiply_vector ⟨qr.1, qr.1.length, true⟩ exact_divisor base)).bind fun e =>
              let rest := pad_zeros (normalize (subtract_vector current e.2 (base - 1)))
              knuth_loop base digits exact_divisor n m fuel (s.1 + 1)
                (if operator_eq rest canonical_zero = true then
                  ⟨[], rest.exponent, rest.positive⟩ else rest)
                (s.2.2 ++ (pad_zeros e.1).digits)
                (if s.1 + 1 = m then rest.digits else remainder)
        | _ => outcome.undefined
    else outcome.ok (quotient, remainder)

/-- The part of `knuthDivision` after the divisor is normalized: the three cases on the
sizes `m` and `n`, which leave `(quotient, remainder)`. -/
def knuth_cases (base : Int) (exact_divisor exact_dividend : exact_number)
    (quotient remainder : List Int) : outcome (List Int × List Int) :=
  let n := exact_divisor.digits.length
  let m := exact_dividend.digits.length
  if m < n then outcome.ok (quotient ++ [0], exact_divisor.digits)
  else if m = n then
    if operator_lt exact_dividend exact_divisor = true then
      outcome.ok (quotient ++ [0], exact_dividend.digits)
    else
      let d := quotient_digit base exact_dividend exact_divisor exact_number.default
      outcome.ok (quotient ++ [d.1], (pad_zeros (normalize d.2)).digits)
  else
    knuth_loop base exact_dividend.digits exact_divisor n m (m + 1) n
      ⟨exact_dividend.digits.take n, n, true⟩ quotient remainder

/-- The static method `knuthDivision(dividend, divisor, quotient, remainder, base)`; the
result is the pair of the vectors `quotient` and `remainder` it leaves. -/
def knuthDivision (dividend divisor quotient remainder : List Int) (base : Int) :
    outcome (List Int × List Int) :=
  let aligned_dividend := dividend.dropWhile fun d => decide (d = 0)
  if aligned_dividend = [] then outcome.ok ([], [])
  else if (aligned_dividend.length = divisor.length
        ∧ aligned_vectors_is_lower aligned_dividend divisor false = true)
      ∨ aligned_dividend.length < divisor.length then
    outcome.ok ([], aligned_dividend)
  else if divisor.length = 1 then
    DivisionBySingleDigit dividend divisor quotient remainder base
  else
    let exact_dividend := normalize ⟨dividend, dividend.length, true⟩
    let exact_divisor := normalize ⟨divisor, divisor.length, true⟩
    match exact_divisor.digits with
    | [] => outcome.undefined
    | v0 :: _ =>
      if v0 = 0 then outcome.throws exception.divide_by_zero
      else
        (knuth_normalization base base.toNat.succ exact_divisor exact_dividend 0).bind
          fun s =>
          (knuth_cases base (pad_zeros s.1) (pad_zeros s.2.1) quotient remainder).bind
            fun qr =>
            if 1 ≤ s.2.2 then
              (DivisionBySingleDigit qr.2 [2 ^ s.2.2] [] [] base).bind
                fun r => outcome.ok (qr.1, r.1)
            else outcome.ok qr

/-- The method `long_divide_vectors(dividend, divisor, quotient)`: `knuthDivision` in
base 10; it returns the remainder, here paired with the quotient it leaves. -/
def long_divide_vectors (dividend divisor quotient : List Int) :
    outcome (List Int × List Int) :=
  (knuthDivision dividend divisor quotient [] 10).bind fun qr =>
    outcome.ok (if qr.1 = [0] then [] else qr.1, if qr.2 = [0] then [] else qr.2)

/-! ## Newton–Raphson division -/

/-- Conversion of an integer to `unsigned int` (32 bits). -/
def to_unsigned (z : Int) : Int := z % 4294967296

/-- Conversion of an `unsigned int` to `int` (two's complement). -/
def to_signed (u : Int) : Int :=
  if u % 4294967296 < 2147483648 then u % 4294967296 else u % 4294967296 - 4294967296

/-- The bound `(unsigned int) std::abs(std::numeric_limits<exponent_t>::min())` of the
precision: `2^31`. -/
def max_precision : Int := 2147483648

/-- The loop `while (x.digits.size() > maximum_precision + 1) x.digits.pop_back();` of
`binary_search_division`, with `limit = maximum_precision + 1` as `unsigned int`. -/
def truncate_digits (x : exact_number) (limit : Int) : exact_number :=
  ⟨x.digits.take limit.toNat, x.exponent, x.positive⟩

/-- The loop of `binary_search_division` on the state
`(*this, left, length, residual)`; it returns `*this`. -/
def binary_search_loop (T_MAX : Int) (numerator denominator maximum_error
    neg_maximum_error max_residual_error : exact_number) (limit : Int) :
    Nat → exact_number → exact_number → exact_number → exact_number → outcome exact_number
  | 0, _, _, _, _ => outcome.unfinished
  | fuel + 1, this, left, length, residual =>
    if (!operator_lt (abs residual) max_residual_error) = true
        ∧ (!decide (length.exponent < maximum_error.exponent)) = true then
      let left := if operator_lt residual neg_maximum_error = true then this else left
      let length := truncate_digits (normalize (operator_mul T_MAX length
        ⟨[Int.tdiv (default_base T_MAX) 2 + 1], 0, true⟩)) limit
      let this := truncate_digits (operator_add T_MAX left length) limit
      let residual := normalize
        (operator_sub T_MAX (operator_mul T_MAX this denominator) numerator)
      binary_search_loop T_MAX numerator denominator maximum_error neg_maximum_error
        max_residual_error limit fuel this left length residual
    else outcome.ok this

/-- The end of `binary_search_division`, after its loop: `*this` is normalized and
truncated, rounded away from the sign of the residual, and gets its sign and exponent. -/
def binary_search_rounding (T_MAX : Int) (found numerator denominator : exact_number)
    (limit exponent_diff : Int) (positive : Bool) : exact_number :=
  let this := truncate_digits (normalize found) limit
  let residual := normalize
    (operator_sub T_MAX (operator_mul T_MAX this denominator) numerator)
  let this :=
    if operator_lt residual exact_number.default = true then
      round_up this (default_base T_MAX)
    else this
  let this :=
    if operator_gt residual exact_number.default = true then
      round_down this (default_base T_MAX)
    else this
  normalize ⟨this.digits, this.exponent + exponent_diff, positive⟩

/-- The method `binary_search_division(divisor, maximum_precision)`, which replaces
`*this = x` by an approximate quotient.  `fuel` bounds the iterations of its loop. -/
def binary_search_division (T_MAX : Int) (fuel : Nat) (x divisor : exact_number)
    (maximum_precision : Nat) : outcome exact_number :=
  if (maximum_precision : Int) > max_precision then
    outcome.throws exception.exponent_overflow_exception
  else if operator_eq divisor exact_number.default = true then
    outcome.throws exception.divide_by_zero
  else if operator_eq x exact_number.default = true then outcome.ok x
  else if operator_eq divisor ⟨[1], 1, true⟩ = true then outcome.ok x
  else if operator_eq divisor ⟨[1], 1, false⟩ = true then
    outcome.ok ⟨x.digits, x.exponent, x.positive == divisor.positive⟩
  else if operator_eq divisor x = true then outcome.ok ⟨[1], 1, true⟩
  else
    let positive := x.positive == divisor.positive
    let base := default_base T_MAX
    let half : exact_number := ⟨[Int.tdiv base 2 + 1], 0, true⟩
    let numerator : exact_number := ⟨x.digits, 1, true⟩
    let denominator : exact_number := ⟨divisor.digits, 1, true⟩
    let exponent_diff := (x.exponent - 1) - (divisor.exponent - 1)
    let left : exact_number :=
      if operator_gt numerator denominator = true then ⟨[1], 1, true⟩
      else exact_number.default
    let right : exact_number :=
      if operator_gt numerator denominator = true then numerator else ⟨[1], 1, true⟩
    let length := operator_mul T_MAX (operator_sub T_MAX right left) half
    let this := operator_add T_MAX length left
    let residual := operator_sub T_MAX (operator_mul T_MAX this denominator) numerator
    if operator_eq residual exact_number.default = true then
      outcome.ok ⟨this.digits, this.exponent + exponent_diff, positive⟩
    else
      let maximum_error : exact_number :=
        ⟨[1], to_signed (to_unsigned (-(maximum_precision : Int))), true⟩
      let neg_maximum_error : exact_number := ⟨[1], maximum_error.exponent, false⟩
      let max_residual_error := operator_mul T_MAX maximum_error denominator
      let limit := to_unsigned ((maximum_precision : Int) + 1)
      (binary_search_loop T_MAX numerator denominator maximum_error neg_maximum_error
        max_residual_error limit fuel this left length residual).bind fun found =>
        outcome.ok (binary_search_rounding T_MAX found numerator denominator limit
          exponent_diff positive)

/-- The loop `while (denominator.digits[0] < base/2)` of `newton_raphson_division` on
the state `(denominator, numerator)`. -/
def newton_raphson_scaling (T_MAX : Int) :
    Nat → exact_number → exact_number → outcome (exact_number × exact_number)
  | 0, _, _ => outcome.unfinished
  | fuel + 1, denominator, numerator =>
    match denominator.digits with
    | [] => outcome.undefined
    | d0 :: _ =>
      if d0 < Int.tdiv (radix T_MAX) 2 then
        newton_raphson_scaling T_MAX fuel (operator_mul T_MAX denominator ⟨[2], 1, true⟩)
          (operator_mul T_MAX numerator ⟨[2], 1, true⟩)
      else outcome.ok (denominator, numerator)

/-- The truncation loops `while ((int)digits.size() - offset > maximum_precision + 1)
digits.pop_back();` of `newton_raphson_division`.  The left side is an `int` compared
with an `unsigned int`, so it is converted to `unsigned int`; `pop_back` on an empty
vector is undefined behaviour. -/
def truncate_fraction (offset limit : Int) : Nat → List Int → outcome (List Int)
  | 0, _ => outcome.unfinished
  | fuel + 1, ds =>
    if to_unsigned ((ds.length : Int) - offset) > limit then
      match ds with
      | [] => outcome.undefined
      | _ :: _ => truncate_fraction offset limit fuel ds.dropLast
    else outcome.ok ds

/-- The `do ... while (error > max_error)` loop of `newton_raphson_division` on the
state `(reciprocal, answer)`; it returns `answer`. -/
def newton_raphson_loop (T_MAX : Int) (numerator denominator max_error : exact_number)
    (limit : Int) : Nat → exact_number → exact_number → outcome exact_number
  | 0, _, _ => outcome.unfinished
  | fuel + 1, reciprocal, answer =>
    let improved := normalize (operator_mul T_MAX reciprocal
      (operator_sub T_MAX ⟨[2], 1, true⟩ (operator_mul T_MAX reciprocal denominator)))
    (truncate_fraction (improved.exponent + numerator.exponent) limit
      (improved.digits.length + 1) improved.digits).bind fun ds =>
      let reciprocal : exact_number := ⟨ds, improved.exponent, improved.positive⟩
      let product := normalize (operator_mul T_MAX reciprocal numerator)
      (truncate_fraction product.exponent limit (product.digits.length + 1)
        product.digits).bind fun ps =>
        let more_precise_answer : exact_number := ⟨ps, product.exponent, product.positive⟩
        if operator_eq more_precise_answer answer = true then outcome.ok answer
        else if operator_gt (abs (operator_sub T_MAX more_precise_answer answer)) max_error
            = true then
          newton_raphson_loop T_MAX numerator denominator max_error limit fuel reciprocal
            more_precise_answer
        else outcome.ok more_precise_answer

/-- The directional rounding at the end of `newton_raphson_division`. -/
def newton_raphson_rounding (T_MAX : Int) (answer numerator denominator max_error :
    exact_number) (upper : Bool) : exact_number :=
  let residual := normalize
    (operator_sub T_MAX (operator_mul T_MAX answer denominator) numerator)
  if upper = true then
    let this :=
      if operator_lt residual exact_number.default = true then
        operator_add T_MAX answer max_error
      else answer
    if operator_gt residual exact_number.default = true then
      let tmp_lower := operator_sub T_MAX this max_error
      if operator_eq (normalize (operator_sub T_MAX
          (operator_mul T_MAX tmp_lower denominator) numerator)) exact_number.default = true
      then tmp_lower else this
    else this
  else
    let this :=
      if operator_gt residual exact_number.default = true then
        operator_sub T_MAX answer max_error
      else answer
    if operator_lt residual exact_number.default = true then
      let tmp_upper := operator_add T_MAX this max_error
      if operator_eq (normalize (operator_sub T_MAX
          (operator_mul T_MAX tmp_upper denominator) numerator)) exact_number.default = true
      then tmp_upper else this
    else this

/-- The part of `newton_raphson_division` after the special cases. -/
def newton_raphson_body (T_MAX : Int) (fuel : Nat) (x divisor : exact_number)
    (maximum_precision : Nat) (upper : Bool) : outcome exact_number :=
  (newton_raphson_scaling T_MAX fuel ⟨divisor.digits, 0, true⟩ ⟨x.digits, 0, true⟩).bind
    fun s =>
    (binary_search_division T_MAX fuel
      (operator_sub T_MAX ⟨[48], 1, true⟩ (operator_mul T_MAX ⟨[32], 1, true⟩ s.1))
      ⟨[17], 1, true⟩ maximum_precision).bind fun reciprocal =>
      let precision := to_unsigned ((maximum_precision : Int) - 1)
      let max_error : exact_number := ⟨[1], to_signed (to_unsigned (-precision)), true⟩
      (newton_raphson_loop T_MAX s.2 s.1 max_error (to_unsigned (precision + 1)) fuel
        reciprocal (operator_mul T_MAX reciprocal s.2)).bind fun answer =>
        let this := newton_raphson_rounding T_MAX answer s.2 s.1 max_error upper
        outcome.ok (normalize
          ⟨this.digits, this.exponent + (x.exponent - divisor.exponent),
            x.positive == divisor.positive⟩)

/-- The method `newton_raphson_division(divisor, maximum_precision, upper)`, which
replaces `*this = x` by the quotient.  `maximum_precision` is an `unsigned int`;
`fuel` bounds the iterations of each loop. -/
def newton_raphson_division (T_MAX : Int) (fuel : Nat) (x divisor : exact_number)
    (maximum_precision : Nat) (upper : Bool) : outcome exact_number :=
  if (maximum_precision : Int) > max_precision then
    outcome.throws exception.exponent_overflow_exception
  else if operator_eq divisor exact_number.default = true then
    outcome.throws exception.divide_by_zero
  else if operator_eq x exact_number.default = true then outcome.ok x
  else if operator_eq divisor ⟨[1], 1, true⟩ = true then outcome.ok x
  else if operator_eq divisor ⟨[1], 1, false⟩ = true then
    outcome.ok ⟨x.digits, x.exponent, x.positive == divisor.positive⟩
  else if operator_eq divisor x = true then outcome.ok ⟨[1], 1, true⟩
  else newton_raphson_body T_MAX fuel x divisor maximum_precision upper

/-- The method `divide_vector(divisor, maximum_precision, upper)`. -/
def divide_vector (T_MAX : Int) (fuel : Nat) (x divisor : exact_number)
    (maximum_precision : Nat) (upper : Bool) : outcome exact_number :=
  newton_raphson_division T_MAX fuel x divisor maximum_precision upper

/-! ## The lexical front end -/

/-- The local variables of `number_from_string` that its loop updates. -/
structure scan_state where
  exponent : Int
  exp_positive : Bool
  has_exponent : Bool
  has_decimal : Bool
  decimal_start_index : Nat
  integer_count : Nat
  decimal_count : Nat
  integer_rhs_zeros : Nat
  integer_lhs_zeros : Nat
  decimal_lhs_zeros : Nat
  decimal_rhs_zeros : Nat
  deriving DecidableEq, Repr

/-- The values of the local variables before the loop. -/
def scan_state.initial : scan_state := ⟨0, true, false, false, 0, 0, 0, 0, 0, 0, 0⟩

/-- The digit value `c - '0'` of a character. -/
def digit_value (c : Char) : Int := (c.toNat : Int) - 48

/-- The loop `for (; index < number.size(); index++)` of `number_from_string` on the
characters from `index` on; `first` is `number[has_sign]`.  The flag `skip` says that
the character at `index` is the sign after the first `e`, which the source steps over
with its extra `index++`.  After the first `e` the source reads `number[index+1]`; at
the end of a `std::string` this is the terminating zero character, which is no sign.
The steps `exponent *= 10; exponent += number[index] - '0';` are arithmetic of `int`: a
result above the largest `int` is a signed overflow, undefined behaviour.  (The test
`exponent < 0` is written for a value that has wrapped: on `"1e3000000000"` a build by
g++ 12 at `-O0` throws `exponent_overflow_exception`, and a build at `-O2` returns the
exponent `-1294967295`.) -/
def number_from_string_loop (first : Char) :
    List Char → Nat → Bool → scan_state → outcome scan_state
  | [], _, _, s => outcome.ok s
  | _ :: rest, index, true, s => number_from_string_loop first rest (index + 1) false s
  | c :: rest, index, false, s =>
    if s.has_exponent = false ∧ c = 'e' then
      number_from_string_loop first rest (index + 1)
        (decide (rest.head? = some '-') || decide (rest.head? = some '+'))
        ⟨s.exponent, if rest.head? = some '-' then false else s.exp_positive, true,
          s.has_decimal, s.decimal_start_index, s.integer_count, s.decimal_count,
          s.integer_rhs_zeros, s.integer_lhs_zeros, s.decimal_lhs_zeros, s.decimal_rhs_zeros⟩
    else if s.has_exponent = false ∧ s.has_decimal = false ∧ c = '.' then
      number_from_string_loop first rest (index + 1) false
        ⟨s.exponent, s.exp_positive, s.has_exponent, true, index + 1, s.integer_count,
          s.decimal_count, s.integer_rhs_zeros, s.integer_lhs_zeros, s.decimal_lhs_zeros,
          s.decimal_rhs_zeros⟩
    else if c.isDigit = false then
      if first = '0' then outcome.throws exception.octal_input_not_supported_exception
      else outcome.throws exception.invalid_string_number_exception
    else if s.has_exponent = true then
      (checked 2147483647 (s.exponent * 10)).bind fun exponent =>
      (checked 2147483647 (exponent + digit_value c)).bind fun exponent =>
        if exponent < 0 then outcome.throws exception.exponent_overflow_exception
        else
          number_from_string_loop first rest (index + 1) false
            ⟨exponent, s.exp_positive, s.has_exponent, s.has_decimal, s.decimal_start_index,
              s.integer_count, s.decimal_count, s.integer_rhs_zeros, s.integer_lhs_zeros,
              s.decimal_lhs_zeros, s.decimal_rhs_zeros⟩
    else if s.has_decimal = true then
      if c = '0' then
        if s.decimal_count = 0 then
          number_from_string_loop first rest (index + 1) false
            ⟨s.exponent, s.exp_positive, s.has_exponent, s.has_decimal, s.decimal_start_index,
              s.integer_count, s.decimal_count, s.integer_rhs_zeros, s.integer_lhs_zeros,
              s.decimal_lhs_zeros + 1, s.decimal_rhs_zeros⟩
        else
          number_from_string_loop first rest (index + 1) false
            ⟨s.exponent, s.exp_positive, s.has_exponent, s.has_decimal, s.decimal_start_index,
              s.integer_count, s.decimal_count, s.integer_rhs_zeros, s.integer_lhs_zeros,
              s.decimal_lhs_zeros, s.decimal_rhs_zeros + 1⟩
      else
        number_from_string_loop first rest (index + 1) false
          ⟨s.exponent, s.exp_positive, s.has_exponent, s.has_decimal, s.decimal_start_index,
            s.integer_count, s.decimal_count + 1 + s.decimal_rhs_zeros, s.integer_rhs_zeros,
            s.integer_lhs_zeros, s.decimal_lhs_zeros, 0⟩
    else
      if c = '0' then
        if s.integer_count = 0 then
          number_from_string_loop first rest (index + 1) false
            ⟨s.exponent, s.exp_positive, s.has_exponent, s.has_decimal, s.decimal_start_index,
              s.integer_count, s.decimal_count, s.integer_rhs_zeros, s.integer_lhs_zeros + 1,
              s.decimal_lhs_zeros, s.decimal_rhs_zeros⟩
        else
          number_from_string_loop first rest (index + 1) false
            ⟨s.exponent, s.exp_positive, s.has_exponent, s.has_decimal, s.decimal_start_index,
              s.integer_count, s.decimal_count, s.integer_rhs_zeros + 1, s.integer_lhs_zeros,
              s.decimal_lhs_zeros, s.decimal_rhs_zeros⟩
      else
        number_from_string_loop first rest (index + 1) false
          ⟨s.exponent, s.exp_positive, s.has_exponent, s.has_decimal, s.decimal_start_index,
            s.integer_count + 1 + s.integer_rhs_zeros, s.decimal_count, 0,
            s.integer_lhs_zeros, s.decimal_lhs_zeros, s.decimal_rhs_zeros⟩

/-- The call `number.substr(pos, count)` for `pos ≤ number.size()`. -/
def substr (number : List Char) (pos count : Nat) : List Char := (number.drop pos).take count

/-- The loop `while (part[idx-1] == '0') idx--;` on the index `idx`, for `idx ≥ 1`. -/
def trailing_zeros_index (part : List Char) : Nat → Nat
  | 0 => 0
  | idx + 1 => if part.getD idx '0' = '0' then trailing_zeros_index part idx else idx + 1

/-- The steps `idx = part.size(); while (part[idx-1] == '0') idx--; part = part.substr(0, idx);`
of `number_from_string`.  On an empty view the source reads the characters in front of
the view; `substr(0, idx)` of an empty view is empty for every `idx`, so the result
does not depend on what is read.  On a non-empty view made of `'0'` only the scan
leaves the view and the result depends on the character in front of it. -/
def trim_trailing_zeros (part : List Char) : outcome (List Char) :=
  if part = [] then outcome.ok []
  else if trailing_zeros_index part part.length = 0 then outcome.undefined
  else outcome.ok (substr part 0 (trailing_zeros_index part part.length))

/-- The value of the local variable `has_sign` of `number_from_string` after the
optional sign is read, as a number of characters.  The source reads `number[0]`; for
an empty `std::string` this is the terminating zero character, which is no sign. -/
def has_sign (number : List Char) : Nat :=
  if number.head? = some '-' ∨ number.head? = some '+' then 1 else 0

/-- The static method `number_from_string(number)`; the result is
`(integer_part, decimal_part, exponent, positive)`.  The additions of the `size_t`
counters to the `int` variable `exponent` are made in `size_t` and converted back to
`int`: they wrap to 32 bits and are no signed overflow.  The product `exponent *= -1` of
a value in `[0, 2147483647]` stays in the range of `int`. -/
def number_from_string (number : List Char) : outcome (List Char × List Char × Int × Bool) :=
  let positive : Bool := !decide (number.head? = some '-')
  (number_from_string_loop (number.getD (has_sign number) (Char.ofNat 0))
      (number.drop (has_sign number)) (has_sign number) false scan_state.initial).bind fun s =>
    let exponent := if s.exp_positive = false then to_signed (s.exponent * -1) else s.exponent
    let exponent := to_signed (exponent + s.integer_count)
    let decimal_start_index :=
      if s.integer_count = 0 then s.decimal_start_index + s.decimal_lhs_zeros
      else s.decimal_start_index
    let exponent :=
      if s.integer_count = 0 then to_signed (exponent - s.decimal_lhs_zeros)
      else to_signed (exponent + s.integer_rhs_zeros)
    let integer_count :=
      if s.integer_count = 0 then s.integer_count else s.integer_count + s.integer_rhs_zeros
    let decimal_count :=
      if s.integer_count = 0 then s.decimal_count
      else if s.decimal_count ≠ 0 then s.decimal_count + s.decimal_lhs_zeros
      else s.decimal_count
    let integer_part := substr number (has_sign number + s.integer_lhs_zeros) integer_count
    (trim_trailing_zeros (substr number decimal_start_index decimal_count)).bind
      fun decimal_part =>
      if decimal_part = [] then
        (trim_trailing_zeros integer_part).bind fun integer_part =>
          outcome.ok (integer_part, decimal_part, exponent, positive)
      else outcome.ok (integer_part, decimal_part, exponent, positive)

/-- The constructor `exact_number(const std::string& number)`.  In the branch of the
empty parts the assignment `exponent = 0` goes to the local binding, and the members
`exponent` and `positive` keep their default values `0` and `true`. -/
def exact_number.of_string (number : List Char) : outcome exact_number :=
  (number_from_string number).bind fun r =>
    if r.1 = [] ∧ r.2.1 = [] then outcome.ok ⟨[0], 0, true⟩
    else outcome.ok ⟨r.1.map digit_value ++ r.2.1.map digit_value, r.2.2.1, r.2.2.2⟩

/-! ## The base-10 renderer -/

/-- The method `base10_add(other)`: `operator+` with the base 9 for `add_vector` and
`subtract_vector`. -/
def base10_add (a other : exact_number) : exact_number :=
  if a.positive = other.positive then
    let r := add_vector a other 9
    ⟨r.digits, r.exponent, a.positive⟩
  else if operator_lt (abs other) (abs a) = true then
    let r := subtract_vector a other 9
    ⟨r.digits, r.exponent, a.positive⟩
  else
    let r := subtract_vector other a 9
    ⟨r.digits, r.exponent, !a.positive⟩

/-- The method `base10_mult(other)`: `multiply_vector` with the base 10. -/
def base10_mult (a other : exact_number) : exact_number :=
  let r := multiply_vector a other 10
  ⟨r.digits, r.exponent, a.positive == other.positive⟩

/-- The constructor `exact_number(std::vector<T> vec, bool pos = true)`: the exponent is
the number of digits. -/
def exact_number.of_vector (vec : List Int) : exact_number := ⟨vec, vec.length, true⟩

/-- The decimal digits of a natural number, most significant first, in front of `acc`;
`n + 1` steps are enough for `n`. -/
def to_string_loop : Nat → Nat → List Char → List Char
  | 0, _, acc => acc
  | fuel + 1, n, acc =>
    if n / 10 = 0 then Char.ofNat (48 + n % 10) :: acc
    else to_string_loop fuel (n / 10) (Char.ofNat (48 + n % 10) :: acc)

/-- The function `std::to_string` on an `int`. -/
def to_string (d : Int) : List Char :=
  if d < 0 then '-' :: to_string_loop (d.natAbs + 1) d.natAbs []
  else to_string_loop (d.toNat + 1) d.toNat []

/-- The output of `std::copy(v.begin(), v.end(), std::ostream_iterator<T>(ss, ""))`: the
digits of the vector printed one after the other. -/
def vector_to_string (v : List Int) : List Char := v.flatMap to_string

/-- The digits `c - '0'` of the characters of a string. -/
def string_to_vector (s : List Char) : List Int := s.map digit_value

/-- The first part of `as_string`: the digits of the internal representation, each
followed by a space, with a dot at the radix point. -/
def internal_string (x : exact_number) : List Char :=
  if x.exponent ≤ 0 then
    '.' :: (List.range ((x.digits.length : Int) - x.exponent).toNat).flatMap fun k =>
      if x.exponent + (k : Int) < 0 then ['0', ' ']
      else to_string (x.digits.getD (x.exponent + (k : Int)).toNat 0) ++ [' ']
  else
    let digit_amount := max x.exponent (x.digits.length : Int)
    let result := (List.range digit_amount.toNat).flatMap fun i =>
      (if (i : Int) = x.exponent then ['.'] else [])
        ++ (if i < x.digits.length then to_string (x.digits.getD i 0) ++ [' ']
            else ['0', ' '])
    if result.getLast? = some '.' then result.dropLast else result

/-- The words of a string that `std::istream_iterator<std::string>` yields: the maximal
runs of characters that are not white space; `word` is the run being read. -/
def words_loop : List Char → List Char → List (List Char)
  | [], word => if word = [] then [] else [word]
  | c :: cs, word =>
    if c.isWhitespace = true then
      if word = [] then words_loop cs [] else word :: words_loop cs []
    else words_loop cs (word ++ [c])

/-- The vector `integer` of `as_string`: the words in front of the first dot. -/
def integer_words (result : List Char) : List (List Char) :=
  words_loop (result.takeWhile fun c => !decide (c = '.')) []

/-- The vector `decimal` of `as_string` before it is reversed: the words after the first
dot. -/
def decimal_words (result : List Char) : List (List Char) :=
  words_loop ((result.dropWhile fun c => !decide (c = '.')).drop 1) []

/-- The loop `while (b != 0) { base.push_back(b % 10); b /= 10; }` of `as_string`. -/
def base_digits_loop : Nat → Int → List Int → List Int
  | 0, _, base => base
  | fuel + 1, b, base =>
    if b ≠ 0 then base_digits_loop fuel (Int.tdiv b 10) (base ++ [Int.tmod b 10]) else base

/-- The vector `base` of `as_string`: the decimal digits of `(T_MAX/4)*2`. -/
def base_digits (T_MAX : Int) : List Int :=
  (base_digits_loop (radix T_MAX).natAbs (radix T_MAX) []).reverse

/-- The steps of `as_string` that follow a call of `base10_mult` or `base10_add`: the
zeros up to the exponent are appended and the leading zeros are erased. -/
def padded_digits (tmp : exact_number) : List Int :=
  (pad_zeros tmp).digits.dropWhile fun d => decide (d = 0)

/-- The loop `while (!integer.empty())` of `as_string` on the state
`(integer, new_result)`; each iteration removes one word. -/
def as_string_integer_loop (base : List Int) : Nat → List (List Char) → List Int → List Int
  | 0, _, new_result => new_result
  | fuel + 1, integer, new_result =>
    match integer.getLast? with
    | none => new_result
    | some num =>
      let tmp := base10_add (exact_number.of_vector new_result)
        (exact_number.of_vector (string_to_vector num))
      as_string_integer_loop base fuel
        (integer.dropLast.map fun tempstr =>
          vector_to_string (padded_digits
            (base10_mult (exact_number.of_vector (string_to_vector tempstr))
              (exact_number.of_vector base))))
        (pad_zeros tmp).digits

/-- The loop that fills `powers` in `as_string`, on the state `(new_base, powers)`; it
runs `decimal.size()` times. -/
def as_string_powers (base : List Int) : Nat → List Int → List (List Int) → List (List Int)
  | 0, _, powers => powers
  | n + 1, new_base, powers =>
    let next := padded_digits
      (base10_mult (exact_number.of_vector new_base) (exact_number.of_vector base))
    as_string_powers base n next (powers ++ [next])

/-- The loop `while (!decimal.empty())` of `as_string` on the words in the order in which
`decimal.back()` yields them, with the index `pwr` into `powers` and the vector
`fraction`. -/
def as_string_fraction_loop (powers : List (List Int)) (zeroes : List Char) :
    List (List Char) → Nat → List Int → outcome (List Int)
  | [], _, fraction => outcome.ok fraction
  | tempstr :: decimal, pwr, fraction =>
    (long_divide_vectors (string_to_vector (tempstr ++ zeroes)) (powers.getD pwr []) []).bind
      fun qr =>
      as_string_fraction_loop powers zeroes decimal (pwr + 1)
        (pad_zeros (base10_add (exact_number.of_vector fraction)
          (exact_number.of_vector qr.1))).digits

/-- The loop `while (!fraction.empty() && fraction.back() == 0)` of `as_string` on the
state `(fraction, precision)`; `precision` is a `size_t`, kept here as an integer. -/
def as_string_trim : Nat → List Int → Int → List Int × Int
  | 0, fraction, precision => (fraction, precision)
  | fuel + 1, fraction, precision =>
    if fraction.getLast? = some 0 then as_string_trim fuel fraction.dropLast (precision - 1)
    else (fraction, precision)

/-- The method `as_string()` for the digit type with maximum `T_MAX`.  A `precision`
that became negative stands for a huge `size_t`, with which the loop that pads
`fractionstr` does not end. -/
def as_string (T_MAX : Int) (x : exact_number) : outcome (List Char) :=
  let result := internal_string x
  let integer := integer_words result
  let decimal := (decimal_words result).reverse
  let base := base_digits T_MAX
  let new_result := as_string_integer_loop base integer.length integer [0]
  let res_decimal := vector_to_string new_result
  let powers := as_string_powers base decimal.length base [base]
  let precision := (powers.getLast?.getD []).length + 1
  let zeroes := List.replicate precision '0'
  (as_string_fraction_loop powers zeroes decimal.reverse 0 [0]).bind fun fraction =>
    let t := as_string_trim fraction.length fraction precision
    let fractionstr := vector_to_string t.1
    if t.2 < 0 then outcome.unfinished
    else
      let fractionstr :=
        List.replicate (t.2.toNat - fractionstr.length) '0' ++ fractionstr
      if t.1 = [] then outcome.ok ((if x.positive then [] else ['-']) ++ res_decimal)
      else outcome.ok ((if x.positive then [] else ['-']) ++ res_decimal ++ ['.'] ++ fractionstr)

/-! ## Truncation to a precision and integrality -/

/-- The method `up_to(precision, upper)`; on the path after the early return the flag
`round = (precision < digits.size())` is true. -/
def up_to (T_MAX : Int) (x : exact_number) (precision : Nat) (upper : Bool) : exact_number :=
  if precision ≥ x.digits.length then x
  else
    let ret : exact_number := ⟨x.digits.take precision, x.exponent, x.positive⟩
    if upper = true then round_up ret (default_base T_MAX)
    else round_down ret (default_base T_MAX)

/-- The method `is_integral()`; for `exponent ≥ 0` the cast `(size_t) exponent` keeps the
value. -/
def is_integral (x : exact_number) : Bool :=
  if x.exponent < 0 then false else decide ((x.digits.length : Int) ≤ x.exponent)

/-! ## The generic split product -/

/-- The loop `while (b > 0)` of the generic `mulmod` on the state `(res, a, b)`. -/
def mulmod_loop (T_MAX mod : Int) : Nat → Int → Int → Int → outcome Int
  | 0, _, _, _ => outcome.unfinished
  | fuel + 1, res, a, b =>
    if b > 0 then
      (if Int.tmod b 2 = 1 then
          (checked T_MAX (res + a)).bind fun s => outcome.ok (Int.tmod s mod)
        else outcome.ok res).bind fun res =>
      (checked T_MAX (a * 2)).bind fun a2 =>
        mulmod_loop T_MAX mod fuel res (Int.tmod a2 mod) (Int.tdiv b 2)
    else outcome.ok res

/-- The generic member `mulmod(a, b, mod)`.  A remainder by zero is undefined behaviour.
The loop halves `b`, so `b + 1` iterations are enough. -/
def mulmod (T_MAX a b mod : Int) : outcome Int :=
  if mod = 0 then outcome.undefined
  else
    (mulmod_loop T_MAX mod (b.toNat + 1) 0 (Int.tmod a mod) b).bind fun res =>
      outcome.ok (Int.tmod res mod)

/-- The loop `while (b != 0)` of the generic `mult_div` on the state `(rem, res, a, b)`;
`b & 1` is the parity of `b`. -/
def mult_div_loop (T_MAX c : Int) : Nat → Int → Int → Int → Int → outcome Int
  | 0, _, _, _, _ => outcome.unfinished
  | fuel + 1, rem, res, a, b =>
    if b ≠ 0 then
      (if b % 2 ≠ 0 then
          (checked T_MAX (rem + a)).bind fun rem =>
            if rem ≥ c then
              (checked T_MAX (rem - c)).bind fun rem =>
                (checked T_MAX (res + 1)).bind fun res => outcome.ok (rem, res)
            else outcome.ok (rem, res)
        else outcome.ok (rem, res)).bind fun s =>
      (checked T_MAX (a * 2)).bind fun a2 =>
        (if a2 ≥ c then
            (checked T_MAX (a2 - c)).bind fun a3 =>
              (checked T_MAX (s.2 + Int.tdiv b 2)).bind fun res => outcome.ok (a3, res)
          else outcome.ok (a2, s.2)).bind fun t =>
        mult_div_loop T_MAX c fuel s.1 t.2 t.1 (Int.tdiv b 2)
    else outcome.ok res

/-- The generic member `mult_div(a, b, c)`.  A division by zero is undefined behaviour.
The loop halves `b`, so `|b| + 1` iterations are enough. -/
def mult_div (T_MAX a b c : Int) : outcome Int :=
  if c = 0 then outcome.undefined
  else
    (checked T_MAX (Int.tdiv a c * b)).bind fun res =>
      mult_div_loop T_MAX c (b.natAbs + 1) 0 res (Int.tmod a c) b

/-! ## The values inside the overflow branch of `add_vector` -/

/-- The values that the branch `(base - lhs_digit) < rhs_digit` of the loop body of
`add_vector` computes, in the order of the source: `base - lhs_digit`, `min`, `max`,
`base/2`; then `remaining`, `max - base/2`, `(max - base/2) - remaining` and `digit` when
`min <= base/2`, or `min - base/2`, `max - base/2`, their sum and `digit` otherwise. -/
def add_digit_overflow_values (base lhs_digit rhs_digit : Int) : List Int :=
  let mn := min lhs_digit rhs_digit
  let mx := max lhs_digit rhs_digit
  if mn ≤ Int.tdiv base 2 then
    let remaining := Int.tdiv base 2 - mn
    [base - lhs_digit, mn, mx, Int.tdiv base 2, remaining, mx - Int.tdiv base 2,
      (mx - Int.tdiv base 2) - remaining, (mx - Int.tdiv base 2) - remaining - 2]
  else
    [base - lhs_digit, mn, mx, Int.tdiv base 2, mn - Int.tdiv base 2, mx - Int.tdiv base 2,
      (mn - Int.tdiv base 2) + (mx - Int.tdiv base 2),
      (mn - Int.tdiv base 2) + (mx - Int.tdiv base 2) - 2]

/-! ## The methods with the arithmetic of `int`

The definitions above compute exponents, sizes and indices as integers without a bound.
The definitions of this section are the same methods with the arithmetic of the type
`int` of the source (`exponent_t`, 32 bits): each value of type `int` that the method
forms is checked against the range of `int`, and a result outside it, a signed overflow,
is undefined behaviour.  When every check passes, the result is the one of the
definition above. -/

/-- The method `normalize()` with the arithmetic of `int`: the loop that erases the
leading zeros runs `exponent--` once for each of them, so `exponent` goes down step by
step to the value the loop leaves; a decrement below the least `int` is a signed
overflow. -/
def normalize_int (x : exact_number) : outcome exact_number :=
  (checked 2147483647 (normalize_front x.digits.length x.digits x.exponent).2).bind fun _ =>
    outcome.ok (normalize x)

/-- The values of `int` that `add_vector` and `subtract_vector` form before and in their
loop, in the order of the source: the casts `(int)digits.size()`, the two differences
`(int)digits.size() - exponent`, the first index `fractional_length - 1` and the last
index `-integral_length` of the loop and, when the loop runs, the sums `exponent + i`
at the first and the last index (the others lie between) and the index after the last
decrement.  The result is the pair `(fractional_length, integral_length)`.  A size above
the largest `int`, where the cast does not keep the value, is left out of the model as
undefined. -/
def aligned_lengths_int (a other : exact_number) : outcome (Int × Int) :=
  (checked 2147483647 (a.digits.length : Int)).bind fun size =>
  (checked 2147483647 (other.digits.length : Int)).bind fun other_size =>
  (checked 2147483647 (size - a.exponent)).bind fun lhs_length =>
  (checked 2147483647 (other_size - other.exponent)).bind fun rhs_length =>
  let fractional_length := max lhs_length rhs_length
  let integral_length := max a.exponent other.exponent
  (checked 2147483647 (fractional_length - 1)).bind fun first =>
  (checked 2147483647 (-integral_length)).bind fun last =>
  if first < last then outcome.ok (fractional_length, integral_length)
  else
    (checked 2147483647 (a.exponent + first)).bind fun _ =>
    (checked 2147483647 (a.exponent + last)).bind fun _ =>
    (checked 2147483647 (other.exponent + first)).bind fun _ =>
    (checked 2147483647 (other.exponent + last)).bind fun _ =>
    (checked 2147483647 (last - 1)).bind fun _ =>
      outcome.ok (fractional_length, integral_length)

/-- The method `add_vector(other, base)` with the arithmetic of `int` on exponents and
indices; `integral_length++` after a final carry is checked too. -/
def add_vector_int (a other : exact_number) (base : Int) : outcome exact_number :=
  (aligned_lengths_int a other).bind fun l =>
  let s := add_vector_loop a other base l.1 (l.1 + l.2).toNat
  if s.1 = 1 then
    (checked 2147483647 (l.2 + 1)).bind fun integral_length =>
      normalize_int ⟨1 :: s.2, integral_length, a.positive⟩
  else normalize_int ⟨s.2, l.2, a.positive⟩

/-- The method `subtract_vector(other, base)` with the arithmetic of `int` on exponents
and indices. -/
def subtract_vector_int (a other : exact_number) (base : Int) : outcome exact_number :=
  (aligned_lengths_int a other).bind fun l =>
  let s := subtract_vector_loop a other base l.1 (l.1 + l.2).toNat
  normalize_int ⟨s.2, l.2, a.positive⟩

/-- The method `operator+` with the arithmetic of `int` on exponents. -/
def operator_add_int (T_MAX : Int) (a other : exact_number) : outcome exact_number :=
  if a.positive = other.positive then add_vector_int a other (default_base T_MAX)
  else if operator_lt (abs other) (abs a) = true then
    (subtract_vector_int a other (default_base T_MAX)).bind fun r =>
      outcome.ok ⟨r.digits, r.exponent, a.positive⟩
  else
    (subtract_vector_int other a (default_base T_MAX)).bind fun r =>
      outcome.ok ⟨r.digits, r.exponent, !a.positive⟩

/-- The method `operator-` with the arithmetic of `int` on exponents. -/
def operator_sub_int (T_MAX : Int) (a other : exact_number) : outcome exact_number :=
  if a.positive ≠ other.positive then
    (add_vector_int a other (default_base T_MAX)).bind fun r =>
      outcome.ok ⟨r.digits, r.exponent, a.positive⟩
  else if operator_lt (abs other) (abs a) = true then
    (subtract_vector_int a other (default_base T_MAX)).bind fun r =>
      outcome.ok ⟨r.digits, r.exponent, a.positive⟩
  else
    (subtract_vector_int other a (default_base T_MAX)).bind fun r =>
      outcome.ok ⟨r.digits, r.exponent, !a.positive⟩

/-- The method `multiply_vector(other, base)` with the arithmetic of `int` on sizes and
exponents: the cast `(int) temp.size()`, the two differences
`(int)digits.size() - exponent`, their sum `fractional_part` and `result_exponent`.  The
computation of `new_size` is arithmetic of `size_t`. -/
def multiply_vector_int (a other : exact_number) (base : Int) : outcome exact_number :=
  let raw := multiply_vector_raw a other base
  (checked 2147483647 (raw.digits.length : Int)).bind fun size =>
  (checked 2147483647 (a.digits.length : Int)).bind fun lhs_size =>
  (checked 2147483647 (other.digits.length : Int)).bind fun rhs_size =>
  (checked 2147483647 (lhs_size - a.exponent)).bind fun lhs_length =>
  (checked 2147483647 (rhs_size - other.exponent)).bind fun rhs_length =>
  (checked 2147483647 (lhs_length + rhs_length)).bind fun fractional_part =>
  (checked 2147483647 (size - fractional_part)).bind fun result_exponent =>
    normalize_int ⟨raw.digits, result_exponent, a.positive == other.positive⟩

/-- The method `operator*` with the arithmetic of `int` on exponents. -/
def operator_mul_int (T_MAX : Int) (a other : exact_number) : outcome exact_number :=
  (multiply_vector_int a other (radix T_MAX)).bind fun r =>
    outcome.ok ⟨r.digits, r.exponent, a.positive == other.positive⟩

/-- The method `round_up_abs(base)` with the arithmetic of `int` on the exponent: the
step `++this->exponent` of the branch that inserts a leading `1` is checked. -/
def round_up_abs_int (x : exact_number) (base : Int) : outcome exact_number :=
  let s := round_up_abs_loop base x.digits.length x.digits ((x.digits.length : Int) - 1) true
  if s.2.1 = 0 ∧ s.2.2 = true then
    if s.1.getD 0 0 = base then
      (checked 2147483647 (x.exponent + 1)).bind fun exponent =>
        outcome.ok ⟨1 :: s.1.set 0 0, exponent, x.positive⟩
    else outcome.ok ⟨s.1.set 0 (s.1.getD 0 0 + 1), x.exponent, x.positive⟩
  else outcome.ok ⟨s.1, x.exponent, x.positive⟩

/-- The method `round_up(base)` with the arithmetic of `int` on the exponent. -/
def round_up_int (x : exact_number) (base : Int) : outcome exact_number :=
  if x.positive = true then round_up_abs_int x base else outcome.ok (round_down_abs x base)

/-- The method `round_down(base)` with the arithmetic of `int` on the exponent. -/
def round_down_int (x : exact_number) (base : Int) : outcome exact_number :=
  if x.positive = true then outcome.ok (round_down_abs x base) else round_up_abs_int x base

/-- The method `up_to(precision, upper)` with the arithmetic of `int` on the exponent. -/
def up_to_int (T_MAX : Int) (x : exact_number) (precision : Nat) (upper : Bool) :
    outcome exact_number :=
  if precision ≥ x.digits.length then outcome.ok x
  else
    let ret : exact_number := ⟨x.digits.take precision, x.exponent, x.positive⟩
    if upper = true then round_up_int ret (default_base T_MAX)
    else round_down_int ret (default_base T_MAX)

/-! ## Auxiliary definitions of the proofs -/

/-- The integer a digit vector denotes in radix `B`, most significant digit first. -/
def ival (B : Int) : List Int → Int
  | [] => 0
  | d :: ds => d * B ^ ds.length + ival B ds

/-- The integer denoted by the `k` least significant digits of `ds`. -/
def low_value (B : Int) (ds : List Int) : Nat → Int
  | 0 => 0
  | k + 1 => low_value B ds k + ds.getD ((ds.length : Int) - 1 - (k : Int)).toNat 0 * B ^ k

/-- The sum `Σ f(i) · B^(−1−i)` over the aligned indices
`i = F − 1, F − 2, ..., F − k` that the loops of `add_vector` and `subtract_vector`
visit in their first `k` iterations. -/
def aligned_sum (B : Int) (f : Int → Int) (F : Int) : Nat → ℚ
  | 0 => 0
  | k + 1 => aligned_sum B f F k + (f (F - 1 - (k : Int)) : ℚ) * (B : ℚ) ^ ((k : Int) - F)

/-- The exit condition of the first loop of `normalize`. -/
def front_done (ds : List Int) : Prop := ¬ (1 < ds.length ∧ ds.head? = some 0)

/-- The exit condition of the second loop of `normalize`. -/
def back_done (ds : List Int) : Prop := ¬ (1 < ds.length ∧ ds.getLast? = some 0)

/-! ## Definitions that follow the words of the specification -/

/-- A digit vector padded on the right with zeros to the length `n`. -/
def zero_padded (n : Nat) (a : List Int) : List Int := a ++ List.replicate (n - a.length) 0

/-- The strict lexicographic order on digit vectors. -/
def lexicographic_lt : List Int → List Int → Prop
  | a :: as, b :: bs => a < b ∨ (a = b ∧ lexicographic_lt as bs)
  | [], _ :: _ => True
  | _, [] => False

/-- A digit string without its trailing `'0'` characters. -/
def strip_trailing_zeros : List Char → List Char
  | [] => []
  | c :: cs => if strip_trailing_zeros cs = [] ∧ c = '0' then [] else c :: strip_trailing_zeros cs

/-- A digit string without its leading `'0'` characters. -/
def strip_leading_zeros (cs : List Char) : List Char := cs.dropWhile fun c => decide (c = '0')

/-- The number of leading `'0'` characters. -/
def leading_zeros (cs : List Char) : Nat := (cs.takeWhile fun c => decide (c = '0')).length

/-- The integer that a string of decimal digits denotes. -/
def decimal_value (cs : List Char) : Int := cs.foldl (fun a c => a * 10 + digit_value c) 0

/-- The counters `(count, rhs_zeros, lhs_zeros)` that the loop of `number_from_string`
keeps for the integer part and for the decimal part, after the digits `ds`. -/
def digit_counts : List Char → Nat × Nat × Nat → Nat × Nat × Nat
  | [], t => t
  | c :: ds, t =>
    digit_counts ds
      (if c = '0' then (if t.1 = 0 then (t.1, t.2.1, t.2.2 + 1) else (t.1, t.2.1 + 1, t.2.2))
        else (t.1 + 1 + t.2.1, 0, t.2.2))

/-- The characters of an optional fraction: nothing, or the dot and its digits. -/
def fraction_chars : Option (List Char) → List Char
  | none => []
  | some fp => '.' :: fp

/-- The characters of an optional exponent: nothing, or `e`, a sign string and digits. -/
def exponent_chars : Option (List Char × List Char) → List Char
  | none => []
  | some (es, ds) => 'e' :: (es ++ ds)

/-- The decimal numeral `sign digits [. digits] [e sign digits]` as a string. -/
def numeral (sign ds : List Char) (frac : Option (List Char))
    (expo : Option (List Char × List Char)) : List Char :=
  sign ++ (ds ++ (fraction_chars frac ++ exponent_chars expo))

/-- The integer that the optional exponent denotes. -/
def exponent_value : Option (List Char × List Char) → Int
  | none => 0
  | some (es, ds) => if es = ['-'] then -decimal_value ds else decimal_value ds

/-- A sign string: empty, `+` or `-`. -/
def is_sign (s : List Char) : Prop := s = [] ∨ s = ['+'] ∨ s = ['-']

/-- A string of decimal digits. -/
def is_digits (ds : List Char) : Prop := ∀ c ∈ ds, c.isDigit = true

/-- The parts of a numeral are well formed: sign strings and digit strings. -/
def well_formed (sign ds : List Char) (frac : Option (List Char))
    (expo : Option (List Char × List Char)) : Prop :=
  is_sign sign ∧ is_digits ds ∧ (∀ fp, frac = some fp → is_digits fp)
  ∧ (∀ es ds3, expo = some (es, ds3) → is_sign es ∧ is_digits ds3)

/-- The state of the loop of `number_from_string` after a well-formed numeral. -/
def scan_final (sign ds : List Char) (frac : Option (List Char))
    (expo : Option (List Char × List Char)) : scan_state :=
  ⟨decimal_value (expo.getD ([], [])).2, !decide ((expo.getD ([], [])).1 = ['-']), expo.isSome,
    frac.isSome, if frac.isSome then sign.length + ds.length + 1 else 0,
    (strip_trailing_zeros (strip_leading_zeros ds)).length,
    (strip_trailing_zeros (strip_leading_zeros (frac.getD []))).length,
    ds.length - leading_zeros ds - (strip_trailing_zeros (strip_leading_zeros ds)).length,
    leading_zeros ds, leading_zeros (frac.getD []),
    (frac.getD []).length - leading_zeros (frac.getD [])
      - (strip_trailing_zeros (strip_leading_zeros (frac.getD []))).length⟩

/-- The result `(integer_part, decimal_part, exponent, positive)` of the parser on a
well-formed numeral, written with the parts of the numeral. -/
def parsed (sign ds : List Char) (frac : Option (List Char))
    (expo : Option (List Char × List Char)) : List Char × List Char × Int × Bool :=
  if strip_leading_zeros ds = [] then
    ([], strip_trailing_zeros (strip_leading_zeros (frac.getD [])),
      exponent_value expo - leading_zeros (frac.getD []), !decide (sign = ['-']))
  else
    (if strip_trailing_zeros (frac.getD []) = [] then
        strip_trailing_zeros (strip_leading_zeros ds)
      else strip_leading_zeros ds,
      strip_trailing_zeros (frac.getD []),
      (strip_leading_zeros ds).length + exponent_value expo, !decide (sign = ['-']))

/-- The rational number that the numeral `sign digits [. digits] [e sign digits]`
denotes in base 10. -/
def numeral_value (sign ds : List Char) (frac : Option (List Char))
    (expo : Option (List Char × List Char)) : ℚ :=
  (if sign = ['-'] then -1 else 1)
    * (((decimal_value ds : Int) : ℚ)
        + ((decimal_value (frac.getD []) : Int) : ℚ) / (10 : ℚ) ^ (frac.getD []).length)
    * (10 : ℚ) ^ (exponent_value expo)

/-- A character that the grammar of the parser admits after the characters `pre` (the
characters from the optional leading sign on): a decimal digit, the first `e`, the sign
that follows the first `e`, or the first `.` when no `e` precedes it. -/
def allowed_after (pre : List Char) (c : Char) : Prop :=
  c.isDigit = true
  ∨ (c = 'e' ∧ 'e' ∉ pre)
  ∨ ((c = '+' ∨ c = '-') ∧ ∃ p, pre = p ++ ['e'] ∧ 'e' ∉ p)
  ∨ (c = '.' ∧ '.' ∉ pre ∧ 'e' ∉ pre)

/-- What the state of the loop of `number_from_string` records of the characters `pre`
read so far. -/
def scan_invariant (pre rest : List Char) (skip : Bool) (s : scan_state) : Prop :=
  (s.has_exponent = false → 'e' ∉ pre) ∧ (s.has_decimal = false → '.' ∉ pre)
  ∧ (skip = true →
      ∃ c p, (c = '+' ∨ c = '-') ∧ rest.head? = some c ∧ pre = p ++ ['e'] ∧ 'e' ∉ p)

/-- An exponent between `-n` and `n` and at most `n` digits. -/
def exponent_within (n : Int) (x : exact_number) : Prop :=
  -n ≤ x.exponent ∧ x.exponent ≤ n ∧ (x.digits.length : Int) ≤ n

instance (n : Int) (x : exact_number) : Decidable (exponent_within n x) := by
  unfold exponent_within; infer_instance

/-- The written exponent of a numeral plus the number of the digits of its integer and
decimal parts is at most `n`. -/
def numeral_within (n : Int) (ds : List Char) (frac : Option (List Char))
    (expo : Option (List Char × List Char)) : Prop :=
  decimal_value (expo.getD ([], [])).2 + (ds.length : Int) + ((frac.getD []).length : Int) ≤ n

/-- The characters `text` hold, after an `e`, a run of decimal digits that denotes more
than the largest `int`. -/
def exponent_overflows (text : List Char) : Prop :=
  ∃ p ds q, text = p ++ ds ++ q ∧ 'e' ∈ p ∧ is_digits ds ∧ 2147483647 < decimal_value ds

/-- What the variable `exponent` of the loop of `number_from_string` is after the
characters `pre`: the value of the digits read since the first `e`. -/
def exponent_invariant (pre : List Char) (skip : Bool) (s : scan_state) : Prop :=
  0 ≤ s.exponent ∧ (s.has_exponent = false → s.exponent = 0) ∧ (skip = true → s.exponent = 0)
  ∧ (s.has_exponent = true →
      ∃ p ds, pre = p ++ ds ∧ 'e' ∈ p ∧ is_digits ds ∧ decimal_value ds = s.exponent)

/-- The integer that the words of `as_string` denote, each word a decimal numeral and
the words the digits of a numeral in base `B`, most significant first. -/
def words_value (B : Int) (ws : List (List Char)) : Int :=
  ws.foldl (fun acc w => acc * B + decimal_value w) 0

/-! # Theorems -/

/-! ## Lemmas on `normalize` -/

theorem normalize_front_done (n : Nat) (ds : List Int) (e : Int) (h : ds.length ≤ n) :
    front_done (normalize_front n ds e).1 := by
  induction n generalizing ds e with
  | zero =>
    simp only [normalize_front, front_done]
    intro h1; omega
  | succ n ih =>
    simp only [normalize_front]
    split
    · rename_i hc
      apply ih
      simp only [List.length_tail]; omega
    · rename_i hc
      exact hc

theorem normalize_front_fix (n : Nat) (ds : List Int) (e : Int) (h : front_done ds) :
    normalize_front n ds e = (ds, e) := by
  cases n with
  | zero => rfl
  | succ n => simp only [normalize_front]; rw [if_neg h]

theorem normalize_back_done (n : Nat) (ds : List Int) (h : ds.length ≤ n) :
    back_done (normalize_back n ds) := by
  induction n generalizing ds with
  | zero =>
    simp only [normalize_back, back_done]
    intro h1; omega
  | succ n ih =>
    simp only [normalize_back]
    split
    · apply ih
      simp only [List.length_dropLast]; omega
    · rename_i hc
      exact hc

theorem normalize_back_fix (n : Nat) (ds : List Int) (h : back_done ds) :
    normalize_back n ds = ds := by
  cases n with
  | zero => rfl
  | succ n => simp only [normalize_back]; rw [if_neg h]

theorem head_dropLast (ds : List Int) (h : 1 < ds.length) :
    ds.dropLast.head? = ds.head? := by
  match ds, h with
  | a :: b :: t, _ => simp [List.dropLast]

theorem normalize_back_front (n : Nat) (ds : List Int) (h : front_done ds) :
    front_done (normalize_back n ds) := by
  induction n generalizing ds with
  | zero => exact h
  | succ n ih =>
    simp only [normalize_back]
    split
    · rename_i hc
      apply ih
      intro hd
      apply h
      refine ⟨hc.1, ?_⟩
      rw [← head_dropLast ds hc.1]; exact hd.2
    · exact h

theorem normalize_back_ne_nil (n : Nat) (ds : List Int) (h : ds ≠ []) :
    normalize_back n ds ≠ [] := by
  induction n generalizing ds with
  | zero => exact h
  | succ n ih =>
    simp only [normalize_back]
    split
    · rename_i hc
      apply ih
      intro hd
      have := congrArg List.length hd
      simp only [List.length_dropLast, List.length_nil] at this
      omega
    · exact h

theorem normalize_front_ne_nil (n : Nat) (ds : List Int) (e : Int) (h : ds ≠ []) :
    (normalize_front n ds e).1 ≠ [] := by
  induction n generalizing ds e with
  | zero => exact h
  | succ n ih =>
    simp only [normalize_front]
    split
    · rename_i hc
      apply ih
      intro hd
      have := congrArg List.length hd
      simp only [List.length_tail, List.length_nil] at this
      omega
    · exact h

theorem normalize_back_nil (n : Nat) : normalize_back n [] = [] := by
  cases n <;> simp [normalize_back]

theorem normalize_front_nil (n : Nat) (e : Int) : normalize_front n [] e = ([], e) := by
  cases n <;> simp [normalize_front]

/-- The digits `normalize` leaves satisfy both loop exit conditions. -/
theorem normalize_digits_done (x : exact_number) :
    front_done (normalize x).digits ∧ back_done (normalize x).digits := by
  have hf := normalize_front_done x.digits.length x.digits x.exponent (le_refl _)
  have hb := normalize_back_done
    (normalize_front x.digits.length x.digits x.exponent).1.length
    (normalize_front x.digits.length x.digits x.exponent).1 (le_refl _)
  have hbf := normalize_back_front
    (normalize_front x.digits.length x.digits x.exponent).1.length
    (normalize_front x.digits.length x.digits x.exponent).1 hf
  unfold normalize
  simp only
  split <;> exact ⟨hbf, hb⟩

/-- On a value whose digits satisfy both exit conditions and whose lone zero digit
is the canonical zero, `normalize` changes nothing. -/
theorem normalize_fix (x : exact_number) (hf : front_done x.digits)
    (hb : back_done x.digits)
    (hz : x.digits.length = 1 ∧ x.digits.head? = some 0 → x.exponent = 0 ∧ x.positive = true) :
    normalize x = x := by
  unfold normalize
  simp only [normalize_front_fix _ _ _ hf, normalize_back_fix _ _ hb]
  split
  · rename_i hc
    obtain ⟨h1, h2⟩ := hz hc
    cases x
    simp_all
  · rfl

/-! ## The value under `normalize` -/

theorem magnitude_append_zero (B : Int) (ds : List Int) (e : Int) :
    magnitude B (ds ++ [0]) e = magnitude B ds e := by
  induction ds generalizing e with
  | nil => simp [magnitude]
  | cons d ds ih => simp [magnitude, ih]

theorem magnitude_dropLast (B : Int) (ds : List Int) (e : Int)
    (h : ds.getLast? = some 0) : magnitude B ds.dropLast e = magnitude B ds e := by
  have hne : ds ≠ [] := by
    intro h0; rw [h0] at h; simp at h
  have hl : ds.getLast hne = 0 := by
    rw [List.getLast?_eq_getLast ds hne] at h
    exact Option.some.inj h
  conv_rhs => rw [← List.dropLast_append_getLast hne, hl]
  rw [magnitude_append_zero]

theorem magnitude_normalize_back (B : Int) (n : Nat) (ds : List Int) (e : Int) :
    magnitude B (normalize_back n ds) e = magnitude B ds e := by
  induction n generalizing ds with
  | zero => rfl
  | succ n ih =>
    simp only [normalize_back]
    split
    · rename_i hc
      rw [ih, magnitude_dropLast B ds e hc.2]
    · rfl

theorem magnitude_normalize_front (B : Int) (n : Nat) (ds : List Int) (e : Int) :
    magnitude B (normalize_front n ds e).1 (normalize_front n ds e).2 = magnitude B ds e := by
  induction n generalizing ds e with
  | zero => rfl
  | succ n ih =>
    simp only [normalize_front]
    split
    · rename_i hc
      rw [ih]
      match ds, hc with
      | d :: t, hc =>
        simp only [List.head?_cons, Option.some.injEq] at hc
        simp [magnitude, hc.2]
    · rfl

theorem magnitude_single_zero (B : Int) (ds : List Int) (e : Int)
    (h : ds.length = 1 ∧ ds.head? = some 0) : magnitude B ds e = 0 := by
  match ds, h with
  | [d], h =>
    simp only [List.head?_cons, Option.some.injEq] at h
    simp [magnitude, h.2]

/-- The magnitude is the same before and after `normalize`, in every radix. -/
theorem magnitude_normalize (B : Int) (x : exact_number) :
    magnitude B (normalize x).digits (normalize x).exponent
      = magnitude B x.digits x.exponent := by
  have h1 := magnitude_normalize_front B x.digits.length x.digits x.exponent
  have h2 := magnitude_normalize_back B
    (normalize_front x.digits.length x.digits x.exponent).1.length
    (normalize_front x.digits.length x.digits x.exponent).1
    (normalize_front x.digits.length x.digits x.exponent).2
  unfold normalize
  simp only
  split
  · rename_i hc
    rw [magnitude_single_zero B _ 0 hc, ← h1, ← h2]
    exact (magnitude_single_zero B _ _ hc).symm
  · simp only
    rw [h2, h1]

/-! ## The additive core -/

theorem aligned_sum_add (B : Int) (f g : Int → Int) (F : Int) (k : Nat) :
    aligned_sum B (fun i => f i + g i) F k = aligned_sum B f F k + aligned_sum B g F k := by
  induction k with
  | zero => simp [aligned_sum]
  | succ k ih => simp only [aligned_sum, ih]; push_cast; ring

theorem aligned_sum_single (B : Int) (j d F : Int) (k : Nat) :
    aligned_sum B (fun i => if i = j then d else 0) F k
      = if 0 ≤ F - 1 - j ∧ F - 1 - j < (k : Int) then (d : ℚ) * (B : ℚ) ^ (-1 - j) else 0 := by
  induction k with
  | zero =>
    simp only [aligned_sum]
    rw [if_neg]; push_cast; omega
  | succ k ih =>
    simp only [aligned_sum, ih]
    by_cases h1 : F - 1 - (k : Int) = j
    · have e1 : (k : Int) - F = -1 - j := by omega
      rw [if_pos h1, e1, if_neg (by omega), if_pos (by push_cast; omega)]
      simp
    · rw [if_neg h1]
      by_cases h2 : 0 ≤ F - 1 - j ∧ F - 1 - j < (k : Int)
      · rw [if_pos h2, if_pos (by push_cast; omega)]; simp
      · rw [if_neg h2, if_neg (by push_cast; omega)]; simp

theorem digit_at_cons (d : Int) (ds : List Int) (e : Int) (p q : Bool) (i : Int) :
    digit_at ⟨d :: ds, e, p⟩ i = (if i = -e then d else 0) + digit_at ⟨ds, e - 1, q⟩ i := by
  unfold digit_at
  simp only [List.length_cons]
  by_cases h0 : i = -e
  · subst h0
    simp
  · rw [if_neg h0]
    by_cases h1 : 0 ≤ e + i ∧ e + i < ((ds.length + 1 : Nat) : Int)
    · rw [if_pos h1, if_pos (by push_cast at h1; omega)]
      obtain ⟨n, hn⟩ : ∃ n : Nat, e + i = (n : Int) + 1 := ⟨(e + i - 1).toNat, by omega⟩
      have e2 : e - 1 + i = (n : Int) := by omega
      rw [hn, e2]
      simp [Int.toNat_ofNat_add_one]
    · rw [if_neg h1, if_neg (by push_cast at h1; omega)]
      simp

theorem aligned_sum_digit_at (B : Int) (ds : List Int) (e : Int) (p : Bool) (F : Int) (k : Nat)
    (hF : (ds.length : Int) - e ≤ F) (hk : F + e ≤ (k : Int)) :
    aligned_sum B (digit_at ⟨ds, e, p⟩) F k = magnitude B ds e := by
  induction ds generalizing e with
  | nil =>
    have : digit_at ⟨[], e, p⟩ = fun _ => 0 := by
      funext i; unfold digit_at; simp
    rw [this]
    have h := aligned_sum_single B 0 0 F k
    simp only [ite_self, Int.cast_zero, zero_mul] at h
    simpa [magnitude] using h
  | cons d ds ih =>
    have : digit_at ⟨d :: ds, e, p⟩
        = fun i => (fun i => if i = -e then d else 0) i + digit_at ⟨ds, e - 1, p⟩ i := by
      funext i; exact digit_at_cons d ds e p p i
    rw [this, aligned_sum_add, aligned_sum_single, ih (e - 1)]
    · simp only [List.length_cons] at hF
      push_cast at hF
      rw [if_pos (by omega)]
      simp only [magnitude]
      have e1 : -1 - -e = e - 1 := by omega
      rw [e1]
    · simp only [List.length_cons] at hF
      push_cast at hF
      omega
    · omega

theorem add_digit_spec (base L R c : Int) (hb : 1 ≤ base) (hodd : base % 2 = 1)
    (hL : 0 ≤ L ∧ L ≤ base) (hR : 0 ≤ R ∧ R ≤ base) (hc : c = 0 ∨ c = 1) :
    (add_digit base L R c).1 + (add_digit base L R c).2 * (base + 1) = L + R + c
    ∧ 0 ≤ (add_digit base L R c).1 ∧ (add_digit base L R c).1 ≤ base
    ∧ ((add_digit base L R c).2 = 0 ∨ (add_digit base L R c).2 = 1) := by
  unfold add_digit
  rw [Int.tdiv_eq_ediv (by omega) (by omega)]
  have hs := min_add_max L R
  have h1 : min L R ≤ max L R := le_trans (min_le_left _ _) (le_max_left _ _)
  have h2 : 0 ≤ min L R := le_min hL.1 hR.1
  have h3 : max L R ≤ base := max_le hL.2 hR.2
  generalize min L R = mn at *
  generalize max L R = mx at *
  by_cases h4 : base - L < R
  · by_cases h5 : mn ≤ base / 2
    · simp only [if_pos h4, if_pos h5]
      rcases hc with rfl | rfl <;> split_ifs <;> dsimp only <;> omega
    · simp only [if_pos h4, if_neg h5]
      rcases hc with rfl | rfl <;> split_ifs <;> dsimp only <;> omega
  · simp only [if_neg h4]
    rcases hc with rfl | rfl <;> split_ifs <;> dsimp only <;> omega

theorem subtract_digit_spec (base L R c : Int)
    (hL : 0 ≤ L ∧ L ≤ base) (hR : 0 ≤ R ∧ R ≤ base) (hc : c = 0 ∨ c = 1) :
    (subtract_digit base L R c).1 - (subtract_digit base L R c).2 * (base + 1) = L - R - c
    ∧ 0 ≤ (subtract_digit base L R c).1 ∧ (subtract_digit base L R c).1 ≤ base
    ∧ ((subtract_digit base L R c).2 = 0 ∨ (subtract_digit base L R c).2 = 1) := by
  unfold subtract_digit
  rcases hc with rfl | rfl <;> dsimp only <;> split_ifs <;> dsimp only <;> omega

theorem digit_at_range (b : Int) (x : exact_number) (hb : 0 ≤ b)
    (hx : digits_in b x.digits) (i : Int) : 0 ≤ digit_at x i ∧ digit_at x i ≤ b := by
  unfold digit_at
  split
  · rename_i h
    have hlt : (x.exponent + i).toNat < x.digits.length := by omega
    rw [List.getD_eq_getElem _ _ hlt]
    exact hx _ (List.getElem_mem _)
  · exact ⟨le_refl _, hb⟩

theorem zpow_pred (B : ℚ) (hB : B ≠ 0) (e : Int) : B ^ e = B * B ^ (e - 1) := by
  have h := zpow_add_one₀ hB (e - 1)
  rw [sub_add_cancel] at h
  rw [h]; ring

/-- Digits in `[0, B - 1]` give a magnitude in `[0, B^e - B^(e - n)]`. -/
theorem magnitude_bounds (B : Int) (hB : 1 ≤ B) (ds : List Int) (e : Int)
    (hd : digits_in (B - 1) ds) :
    0 ≤ magnitude B ds e
    ∧ magnitude B ds e + (B : ℚ) ^ (e - (ds.length : Int)) ≤ (B : ℚ) ^ e := by
  have hBq : (0 : ℚ) < (B : ℚ) := by exact_mod_cast (by omega : 0 < B)
  induction ds generalizing e with
  | nil => simp [magnitude]
  | cons d ds ih =>
    have hd0 := hd d (List.mem_cons_self _ _)
    obtain ⟨i1, i2⟩ := ih (e - 1) (fun x hx => hd x (List.mem_cons_of_mem _ hx))
    have hp : (0 : ℚ) < (B : ℚ) ^ (e - 1) := zpow_pos hBq _
    have hdq0 : (0 : ℚ) ≤ (d : ℚ) := by exact_mod_cast hd0.1
    have hdq1 : (d : ℚ) ≤ (B : ℚ) - 1 := by exact_mod_cast hd0.2
    have e1 : e - ((d :: ds).length : Int) = e - 1 - (ds.length : Int) := by
      simp only [List.length_cons]; push_cast; ring
    simp only [magnitude]
    rw [e1, zpow_pred (B : ℚ) (ne_of_gt hBq) e]
    constructor
    · positivity
    · nlinarith

theorem add_vector_loop_inv (a c : exact_number) (base F : Int) (hb : 1 ≤ base)
    (hodd : base % 2 = 1) (ha : digits_in base a.digits) (hc : digits_in base c.digits)
    (k : Nat) :
    ((add_vector_loop a c base F k).1 = 0 ∨ (add_vector_loop a c base F k).1 = 1)
    ∧ digits_in base (add_vector_loop a c base F k).2
    ∧ magnitude (base + 1) (add_vector_loop a c base F k).2 ((k : Int) - F)
        + ((add_vector_loop a c base F k).1 : ℚ) * ((base + 1 : Int) : ℚ) ^ ((k : Int) - F)
      = aligned_sum (base + 1) (digit_at a) F k + aligned_sum (base + 1) (digit_at c) F k := by
  have hBq : ((base + 1 : Int) : ℚ) ≠ 0 := by
    have : (0 : ℚ) < ((base + 1 : Int) : ℚ) := by exact_mod_cast (by omega : 0 < base + 1)
    exact ne_of_gt this
  induction k with
  | zero =>
    simp only [add_vector_loop, aligned_sum, magnitude]
    refine ⟨Or.inl trivial, ?_, by simp⟩
    intro d hd; simp at hd
  | succ k ih =>
    obtain ⟨ih1, ih2, ih3⟩ := ih
    have hs := add_digit_spec base (digit_at a (F - 1 - k)) (digit_at c (F - 1 - k))
      (add_vector_loop a c base F k).1 hb hodd
      (digit_at_range base a (by omega) ha _) (digit_at_range base c (by omega) hc _) ih1
    obtain ⟨s1, s2, s3, s4⟩ := hs
    simp only [add_vector_loop, aligned_sum, magnitude]
    refine ⟨s4, ?_, ?_⟩
    · intro d hd
      rcases List.mem_cons.mp hd with h | h
      · rw [h]; exact ⟨s2, s3⟩
      · exact ih2 d h
    · have e1 : ((k + 1 : Nat) : Int) - F - 1 = (k : Int) - F := by push_cast; ring
      have e2 : ((k + 1 : Nat) : Int) - F = (k : Int) - F + 1 := by push_cast; ring
      rw [e1, e2, zpow_add_one₀ hBq]
      have s1q : ((add_digit base (digit_at a (F - 1 - k)) (digit_at c (F - 1 - k))
            (add_vector_loop a c base F k).1).1 : ℚ)
          + ((add_digit base (digit_at a (F - 1 - k)) (digit_at c (F - 1 - k))
            (add_vector_loop a c base F k).1).2 : ℚ) * ((base + 1 : Int) : ℚ)
          = (digit_at a (F - 1 - k) : ℚ) + (digit_at c (F - 1 - k) : ℚ)
            + ((add_vector_loop a c base F k).1 : ℚ) := by
        exact_mod_cast s1
      linear_combination ih3 + ((base + 1 : Int) : ℚ) ^ ((k : Int) - F) * s1q

theorem subtract_vector_loop_inv (a c : exact_number) (base F : Int) (hb : 0 ≤ base)
    (ha : digits_in base a.digits) (hc : digits_in base c.digits) (k : Nat) :
    ((subtract_vector_loop a c base F k).1 = 0 ∨ (subtract_vector_loop a c base F k).1 = 1)
    ∧ digits_in base (subtract_vector_loop a c base F k).2
    ∧ (subtract_vector_loop a c base F k).2.length = k
    ∧ magnitude (base + 1) (subtract_vector_loop a c base F k).2 ((k : Int) - F)
        - ((subtract_vector_loop a c base F k).1 : ℚ) * ((base + 1 : Int) : ℚ) ^ ((k : Int) - F)
      = aligned_sum (base + 1) (digit_at a) F k - aligned_sum (base + 1) (digit_at c) F k := by
  have hBq : ((base + 1 : Int) : ℚ) ≠ 0 := by
    have : (0 : ℚ) < ((base + 1 : Int) : ℚ) := by exact_mod_cast (by omega : 0 < base + 1)
    exact ne_of_gt this
  induction k with
  | zero =>
    simp only [subtract_vector_loop, aligned_sum, magnitude]
    refine ⟨Or.inl trivial, ?_, by simp, by simp⟩
    intro d hd; simp at hd
  | succ k ih =>
    obtain ⟨ih1, ih2, ihl, ih3⟩ := ih
    have hs := subtract_digit_spec base (digit_at a (F - 1 - k)) (digit_at c (F - 1 - k))
      (subtract_vector_loop a c base F k).1
      (digit_at_range base a hb ha _) (digit_at_range base c hb hc _) ih1
    obtain ⟨s1, s2, s3, s4⟩ := hs
    simp only [subtract_vector_loop, aligned_sum, magnitude]
    refine ⟨s4, ?_, by simp [ihl], ?_⟩
    · intro d hd
      rcases List.mem_cons.mp hd with h | h
      · rw [h]; exact ⟨s2, s3⟩
      · exact ih2 d h
    · have e1 : ((k + 1 : Nat) : Int) - F - 1 = (k : Int) - F := by push_cast; ring
      have e2 : ((k + 1 : Nat) : Int) - F = (k : Int) - F + 1 := by push_cast; ring
      rw [e1, e2, zpow_add_one₀ hBq]
      have s1q : ((subtract_digit base (digit_at a (F - 1 - k)) (digit_at c (F - 1 - k))
            (subtract_vector_loop a c base F k).1).1 : ℚ)
          - ((subtract_digit base (digit_at a (F - 1 - k)) (digit_at c (F - 1 - k))
            (subtract_vector_loop a c base F k).1).2 : ℚ) * ((base + 1 : Int) : ℚ)
          = (digit_at a (F - 1 - k) : ℚ) - (digit_at c (F - 1 - k) : ℚ)
            - ((subtract_vector_loop a c base F k).1 : ℚ) := by
        exact_mod_cast s1
      linear_combination ih3 + ((base + 1 : Int) : ℚ) ^ ((k : Int) - F) * s1q

theorem aligned_sum_number (B : Int) (x : exact_number) (F : Int) (k : Nat)
    (hF : (x.digits.length : Int) - x.exponent ≤ F) (hk : F + x.exponent ≤ (k : Int)) :
    aligned_sum B (digit_at x) F k = magnitude B x.digits x.exponent := by
  cases x with
  | mk ds e p => exact aligned_sum_digit_at B ds e p F k hF hk

/-- The magnitude `add_vector` leaves, for an odd largest digit `base`. -/
theorem magnitude_add_vector (a c : exact_number) (base : Int) (hb : 1 ≤ base)
    (hodd : base % 2 = 1) (ha : digits_in base a.digits) (hc : digits_in base c.digits) :
    magnitude (base + 1) (add_vector a c base).digits (add_vector a c base).exponent
      = magnitude (base + 1) a.digits a.exponent
        + magnitude (base + 1) c.digits c.exponent := by
  have hF1 := le_max_left ((a.digits.length : Int) - a.exponent)
    ((c.digits.length : Int) - c.exponent)
  have hF2 := le_max_right ((a.digits.length : Int) - a.exponent)
    ((c.digits.length : Int) - c.exponent)
  have hI1 := le_max_left a.exponent c.exponent
  have hI2 := le_max_right a.exponent c.exponent
  unfold add_vector
  generalize max ((a.digits.length : Int) - a.exponent)
    ((c.digits.length : Int) - c.exponent) = F at *
  generalize max a.exponent c.exponent = I at *
  have hn : (((F + I).toNat : Nat) : Int) = F + I := by omega
  obtain ⟨i1, i2, i3⟩ := add_vector_loop_inv a c base F hb hodd ha hc (F + I).toNat
  rw [aligned_sum_number (base + 1) a F _ hF1 (by omega),
    aligned_sum_number (base + 1) c F _ hF2 (by omega)] at i3
  have e1 : (((F + I).toNat : Nat) : Int) - F = I := by omega
  rw [e1] at i3
  rw [← i3]
  dsimp only
  split
  · rename_i h1
    rw [magnitude_normalize]
    simp only [magnitude, h1]
    have e2 : I + 1 - 1 = I := by ring
    rw [e2]
    push_cast
    ring
  · rename_i h1
    have h0 : (add_vector_loop a c base F (F + I).toNat).1 = 0 := by
      rcases i1 with h | h
      · exact h
      · exact absurd h h1
    rw [magnitude_normalize]
    simp only [h0]
    push_cast
    ring

/-- The magnitude `subtract_vector` leaves and its final borrow, when the magnitude
of `*this` is at least that of `other`. -/
theorem magnitude_subtract_vector (a c : exact_number) (base : Int) (hb : 0 ≤ base)
    (ha : digits_in base a.digits) (hc : digits_in base c.digits)
    (hge : magnitude (base + 1) c.digits c.exponent
      ≤ magnitude (base + 1) a.digits a.exponent) :
    magnitude (base + 1) (subtract_vector a c base).digits (subtract_vector a c base).exponent
      = magnitude (base + 1) a.digits a.exponent
        - magnitude (base + 1) c.digits c.exponent
    ∧ (subtract_vector_loop a c base
        (max ((a.digits.length : Int) - a.exponent) ((c.digits.length : Int) - c.exponent))
        (max ((a.digits.length : Int) - a.exponent) ((c.digits.length : Int) - c.exponent)
          + max a.exponent c.exponent).toNat).1 = 0 := by
  have hF1 := le_max_left ((a.digits.length : Int) - a.exponent)
    ((c.digits.length : Int) - c.exponent)
  have hF2 := le_max_right ((a.digits.length : Int) - a.exponent)
    ((c.digits.length : Int) - c.exponent)
  have hI1 := le_max_left a.exponent c.exponent
  have hI2 := le_max_right a.exponent c.exponent
  unfold subtract_vector
  generalize max ((a.digits.length : Int) - a.exponent)
    ((c.digits.length : Int) - c.exponent) = F at *
  generalize max a.exponent c.exponent = I at *
  have hn : (((F + I).toNat : Nat) : Int) = F + I := by omega
  obtain ⟨i1, i2, il, i3⟩ := subtract_vector_loop_inv a c base F hb ha hc (F + I).toNat
  rw [aligned_sum_number (base + 1) a F _ hF1 (by omega),
    aligned_sum_number (base + 1) c F _ hF2 (by omega)] at i3
  have e1 : (((F + I).toNat : Nat) : Int) - F = I := by omega
  rw [e1] at i3
  have hbd := magnitude_bounds (base + 1) (by omega)
    (subtract_vector_loop a c base F (F + I).toNat).2 I (by simpa using i2)
  have hBq : (0 : ℚ) < ((base + 1 : Int) : ℚ) := by exact_mod_cast (by omega : 0 < base + 1)
  have hp : (0 : ℚ) < ((base + 1 : Int) : ℚ)
      ^ (I - ((subtract_vector_loop a c base F (F + I).toNat).2.length : Int)) :=
    zpow_pos hBq _
  have h0 : (subtract_vector_loop a c base F (F + I).toNat).1 = 0 := by
    rcases i1 with h | h
    · exact h
    · exfalso
      rw [h] at i3
      push_cast at i3 hbd hp
      linarith [hbd.2]
  refine ⟨?_, h0⟩
  dsimp only
  rw [magnitude_normalize]
  rw [h0] at i3
  simp only [Int.cast_zero, zero_mul, sub_zero] at i3
  exact i3

/-! ## Claims on `normalize` -/

/-- C8: `normalize` is idempotent: for every exact_number (any digits, exponent and
sign) a second `normalize` leaves the digits, the exponent and the sign flag that
the first one produced. -/
theorem normalize_idempotent (x : exact_number) :
    normalize (normalize x) = normalize x := by
  obtain ⟨hf, hb⟩ := normalize_digits_done x
  apply normalize_fix _ hf hb
  unfold normalize
  simp only
  split
  · intro _; exact ⟨rfl, rfl⟩
  · rename_i hc
    intro h; exact absurd h hc

/-- C9: for a non-empty digit vector, after `normalize` either there is more than
one digit and neither the first nor the last digit is zero, or there is exactly one
digit; and a lone zero digit comes with `exponent = 0` and `positive = true`. -/
theorem normalize_shape (x : exact_number) (hne : x.digits ≠ []) :
    ((1 < (normalize x).digits.length ∧ (normalize x).digits.head? ≠ some 0
        ∧ (normalize x).digits.getLast? ≠ some 0)
      ∨ (normalize x).digits.length = 1)
    ∧ ((normalize x).digits = [0] →
        (normalize x).exponent = 0 ∧ (normalize x).positive = true) := by
  obtain ⟨hf, hb⟩ := normalize_digits_done x
  have hnn : (normalize x).digits ≠ [] := by
    have h1 := normalize_front_ne_nil x.digits.length x.digits x.exponent hne
    have h2 := normalize_back_ne_nil
      (normalize_front x.digits.length x.digits x.exponent).1.length _ h1
    unfold normalize
    simp only
    split <;> exact h2
  constructor
  · by_cases hl : 1 < (normalize x).digits.length
    · left
      refine ⟨hl, ?_, ?_⟩
      · intro h; exact hf ⟨hl, h⟩
      · intro h; exact hb ⟨hl, h⟩
    · right
      have : (normalize x).digits.length ≠ 0 := by
        intro h0; exact hnn (List.length_eq_zero.mp h0)
      omega
  · unfold normalize
    simp only
    split
    · intro _; exact ⟨rfl, rfl⟩
    · rename_i hc
      intro h
      simp only at h
      exact absurd (by rw [h]; simp) hc

theorem normalize_shape_witness :
    ((1 < (normalize ⟨[0, 0, 7, 0, 3, 0], 4, false⟩).digits.length
        ∧ (normalize ⟨[0, 0, 7, 0, 3, 0], 4, false⟩).digits.head? ≠ some 0
        ∧ (normalize ⟨[0, 0, 7, 0, 3, 0], 4, false⟩).digits.getLast? ≠ some 0)
      ∨ (normalize ⟨[0, 0, 7, 0, 3, 0], 4, false⟩).digits.length = 1)
    ∧ ((normalize ⟨[0, 0, 7, 0, 3, 0], 4, false⟩).digits = [0] →
        (normalize ⟨[0, 0, 7, 0, 3, 0], 4, false⟩).exponent = 0
          ∧ (normalize ⟨[0, 0, 7, 0, 3, 0], 4, false⟩).positive = true) :=
  normalize_shape ⟨[0, 0, 7, 0, 3, 0], 4, false⟩ (by decide)

/-- In exact arithmetic `normalize` preserves the numeric value. -/
theorem normalize_value_exact (B : Int) (x : exact_number) (_hB : 2 ≤ B)
    (_hne : x.digits ≠ []) : value B (normalize x) = value B x := by
  have hm := magnitude_normalize B x
  unfold value
  rw [hm]
  by_cases hz : magnitude B x.digits x.exponent = 0
  · rw [hz]; simp
  · congr 1
    unfold normalize
    simp only
    split
    · rename_i hc
      exfalso
      apply hz
      rw [← hm]
      unfold normalize
      simp only
      rw [if_pos hc]
      exact magnitude_single_zero B _ 0 hc
    · rfl

/-! ## Comparison of magnitudes -/

theorem magnitude_nonneg (B : Int) (hB : 1 ≤ B) (ds : List Int) (e : Int)
    (hd : digits_in (B - 1) ds) : 0 ≤ magnitude B ds e :=
  (magnitude_bounds B hB ds e hd).1

theorem magnitude_lt_pow (B : Int) (hB : 1 ≤ B) (ds : List Int) (e : Int)
    (hd : digits_in (B - 1) ds) : magnitude B ds e < (B : ℚ) ^ e := by
  have hBq : (0 : ℚ) < (B : ℚ) := by exact_mod_cast (by omega : 0 < B)
  have hp : (0 : ℚ) < (B : ℚ) ^ (e - (ds.length : Int)) := zpow_pos hBq _
  linarith [(magnitude_bounds B hB ds e hd).2]

theorem digits_in_tail (b d : Int) (ds : List Int) (h : digits_in b (d :: ds)) :
    digits_in b ds := fun x hx => h x (List.mem_cons_of_mem _ hx)

theorem magnitude_all_zero (B : Int) (hB : 1 ≤ B) (ds : List Int) (e : Int)
    (hd : digits_in (B - 1) ds) :
    (ds.all fun d => decide (d = 0)) = true ↔ magnitude B ds e = 0 := by
  have hBq : (0 : ℚ) < (B : ℚ) := by exact_mod_cast (by omega : 0 < B)
  induction ds generalizing e with
  | nil => simp [magnitude]
  | cons d ds ih =>
    have hd0 := hd d (List.mem_cons_self _ _)
    have ht := digits_in_tail _ d ds hd
    have hp : (0 : ℚ) < (B : ℚ) ^ (e - 1) := zpow_pos hBq _
    have hn := magnitude_nonneg B hB ds (e - 1) ht
    have hdq0 : (0 : ℚ) ≤ (d : ℚ) := by exact_mod_cast hd0.1
    simp only [List.all_cons, Bool.and_eq_true, decide_eq_true_eq, magnitude]
    have ih1 := ih (e - 1) ht
    constructor
    · rintro ⟨h1, h2⟩
      rw [h1, ih1.mp h2]; simp
    · intro h
      have hm : (d : ℚ) * (B : ℚ) ^ (e - 1) ≥ 0 := by positivity
      have h1 : (d : ℚ) * (B : ℚ) ^ (e - 1) = 0 := by linarith
      have h2 : magnitude B ds (e - 1) = 0 := by linarith
      refine ⟨?_, ih1.mpr h2⟩
      rcases mul_eq_zero.mp h1 with h3 | h3
      · exact_mod_cast h3
      · exact absurd h3 (ne_of_gt hp)

/-- With digits in `[0, B − 1]`, `aligned_vectors_is_lower` decides the order of the
two magnitudes read at a common exponent, whatever the flag `equal`. -/
theorem aligned_vectors_is_lower_iff (B : Int) (hB : 1 ≤ B) (ls rs : List Int) (equal : Bool)
    (e : Int) (hl : digits_in (B - 1) ls) (hr : digits_in (B - 1) rs) :
    aligned_vectors_is_lower ls rs equal = true ↔ magnitude B ls e < magnitude B rs e := by
  have hBq : (0 : ℚ) < (B : ℚ) := by exact_mod_cast (by omega : 0 < B)
  induction ls generalizing rs e with
  | nil =>
    have hz := magnitude_all_zero B hB rs e hr
    have hn := magnitude_nonneg B hB rs e hr
    cases rs with
    | nil => simp [aligned_vectors_is_lower, magnitude]
    | cons r rs =>
      simp only [aligned_vectors_is_lower, List.isEmpty_cons, Bool.and_false, Bool.false_and,
        Bool.false_eq_true, if_false, List.all_nil, Bool.true_and, Bool.not_eq_true',
        magnitude] at hz ⊢
      simp only [magnitude] at hn
      constructor
      · intro h
        rcases lt_or_eq_of_le hn with h1 | h1
        · exact h1
        · exfalso
          have := hz.mpr h1.symm
          rw [this] at h; exact Bool.noConfusion h
      · intro h
        simp only [List.all_cons] at hz ⊢
        cases hc : (decide (r = 0) && rs.all fun d => decide (d = 0)) with
        | false => rfl
        | true =>
          exfalso
          have := hz.mp hc
          linarith
  | cons l ls ih =>
    cases rs with
    | nil =>
      have hn := magnitude_nonneg B hB (l :: ls) e hl
      simp only [aligned_vectors_is_lower, List.isEmpty_cons, List.isEmpty_nil, Bool.and_false,
        Bool.false_eq_true, if_false, List.all_nil, Bool.not_true, magnitude]
      constructor
      · intro h; exact absurd h (by simp)
      · intro h
        simp only [magnitude] at hn
        linarith
    | cons r rs =>
      have hl0 := hl l (List.mem_cons_self _ _)
      have hr0 := hr r (List.mem_cons_self _ _)
      have hlt := digits_in_tail _ l ls hl
      have hrt := digits_in_tail _ r rs hr
      have hp : (0 : ℚ) < (B : ℚ) ^ (e - 1) := zpow_pos hBq _
      have b1 := magnitude_nonneg B hB ls (e - 1) hlt
      have b2 := magnitude_lt_pow B hB ls (e - 1) hlt
      have b3 := magnitude_nonneg B hB rs (e - 1) hrt
      have b4 := magnitude_lt_pow B hB rs (e - 1) hrt
      simp only [aligned_vectors_is_lower, magnitude]
      split
      · rename_i heq
        have ih1 := ih rs (e - 1) hlt hrt
        rw [heq]
        constructor
        · intro h
          have := ih1.mp h
          linarith
        · intro h
          apply ih1.mpr
          linarith
      · rename_i hne
        simp only [decide_eq_true_eq]
        constructor
        · intro h
          have h1 : (l : ℚ) + 1 ≤ (r : ℚ) := by exact_mod_cast (by omega : l + 1 ≤ r)
          nlinarith
        · intro h
          by_contra hge
          have h1 : (r : ℚ) + 1 ≤ (l : ℚ) := by exact_mod_cast (by omega : r + 1 ≤ l)
          nlinarith

theorem is_normalized_head (b : Int) (x : exact_number) (hx : is_normalized x)
    (hd : digits_in b x.digits) (h0 : x.digits ≠ [0]) :
    ∃ d ds, x.digits = d :: ds ∧ 1 ≤ d := by
  obtain ⟨h1, h2, _⟩ := hx
  match hxd : x.digits, h1 with
  | d :: ds, _ =>
    refine ⟨d, ds, rfl, ?_⟩
    have hd0 : 0 ≤ d := (hd d (by rw [hxd]; exact List.mem_cons_self _ _)).1
    have hne : d ≠ 0 := by
      intro hz
      cases ds with
      | nil => apply h0; rw [hxd, hz]
      | cons d2 ds =>
        rw [hxd] at h2
        have := (h2 (by simp)).1
        apply this
        simp [hz]
    omega

/-- A normalized non-zero number has its magnitude in `[B^(e−1), B^e)`. -/
theorem magnitude_normalized_bounds (B : Int) (hB : 1 ≤ B) (x : exact_number)
    (hx : is_normalized x) (hd : digits_in (B - 1) x.digits) (h0 : x.digits ≠ [0]) :
    (B : ℚ) ^ (x.exponent - 1) ≤ magnitude B x.digits x.exponent
    ∧ magnitude B x.digits x.exponent < (B : ℚ) ^ x.exponent := by
  have hBq : (0 : ℚ) < (B : ℚ) := by exact_mod_cast (by omega : 0 < B)
  refine ⟨?_, magnitude_lt_pow B hB _ _ hd⟩
  obtain ⟨d, ds, hds, h1⟩ := is_normalized_head (B - 1) x hx hd h0
  rw [hds] at hd ⊢
  have hn := magnitude_nonneg B hB ds (x.exponent - 1) (digits_in_tail _ d ds hd)
  have hp : (0 : ℚ) < (B : ℚ) ^ (x.exponent - 1) := zpow_pos hBq _
  have h1q : (1 : ℚ) ≤ (d : ℚ) := by exact_mod_cast h1
  simp only [magnitude]
  nlinarith

/-- On two normalized numbers with `positive = true`, `operator<` decides the order
of the magnitudes, except when the right operand is zero and the left one has a
negative exponent. -/
theorem operator_lt_magnitude (B : Int) (hB : 1 ≤ B) (x y : exact_number)
    (hxp : x.positive = true) (hyp : y.positive = true)
    (hx : is_normalized x) (hy : is_normalized y)
    (hxd : digits_in (B - 1) x.digits) (hyd : digits_in (B - 1) y.digits)
    (hns : ¬ (y.digits = [0] ∧ x.exponent < 0)) :
    operator_lt x y = true
      ↔ magnitude B x.digits x.exponent < magnitude B y.digits y.exponent := by
  have hBq : (0 : ℚ) < (B : ℚ) := by exact_mod_cast (by omega : 0 < B)
  have hB1 : (1 : ℚ) ≤ (B : ℚ) := by exact_mod_cast hB
  have hxne := hx.1
  have hyne := hy.1
  unfold operator_lt
  by_cases hx0 : x.digits = [0]
  · rw [if_pos (Or.inl hx0), hx0, hyp]
    have hmx : magnitude B [0] x.exponent = 0 := by simp [magnitude]
    rw [hmx]
    by_cases hy0 : y.digits = [0]
    · rw [hy0]; simp [magnitude]
    · have := (magnitude_normalized_bounds B hB y hy hyd hy0).1
      have hp : (0 : ℚ) < (B : ℚ) ^ (y.exponent - 1) := zpow_pos hBq _
      simp only [hy0, hyne, decide_False, Bool.not_true, Bool.or_self, Bool.not_false,
        true_iff]
      linarith
  · have hbx := magnitude_normalized_bounds B hB x hx hxd hx0
    have hpx : (0 : ℚ) < (B : ℚ) ^ (x.exponent - 1) := zpow_pos hBq _
    rw [if_neg (by simp [hx0, hxne]), if_neg (by simp [hxp]), if_neg (by simp [hxp, hyp]),
      if_pos hxp]
    by_cases he : x.exponent = y.exponent
    · rw [if_pos he, aligned_vectors_is_lower_iff B hB _ _ false x.exponent hxd hyd, he]
    · rw [if_neg he]
      simp only [decide_eq_true_eq]
      by_cases hy0 : y.digits = [0]
      · have hye := (hy.2.2 hy0).1
        have hmy : magnitude B y.digits y.exponent = 0 := by rw [hy0]; simp [magnitude]
        rw [hmy, hye]
        have : ¬ x.exponent < 0 := fun h => hns ⟨hy0, h⟩
        constructor
        · intro h; exact absurd h this
        · intro h; linarith [hbx.1]
      · have hby := magnitude_normalized_bounds B hB y hy hyd hy0
        constructor
        · intro h
          have := zpow_le_zpow_right₀ hB1 (by omega : x.exponent ≤ y.exponent - 1)
          linarith [hbx.2, hby.1]
        · intro h
          by_contra hlt
          have := zpow_le_zpow_right₀ hB1 (by omega : y.exponent ≤ x.exponent - 1)
          linarith [hbx.1, hby.2]

theorem normalize_sign (B : Int) (x : exact_number) :
    (normalize x).positive = x.positive
    ∨ magnitude B (normalize x).digits (normalize x).exponent = 0 := by
  unfold normalize
  dsimp only
  split
  · rename_i hc
    right
    exact magnitude_single_zero B _ 0 hc
  · left; rfl

theorem value_normalize (B : Int) (x : exact_number) :
    value B (normalize x) = value B x := by
  unfold value
  rcases normalize_sign B x with h | h
  · rw [h, magnitude_normalize]
  · rw [h, ← magnitude_normalize B x, h]; simp

theorem add_vector_sign (B : Int) (a c : exact_number) (base : Int) :
    (add_vector a c base).positive = a.positive
    ∨ magnitude B (add_vector a c base).digits (add_vector a c base).exponent = 0 := by
  unfold add_vector
  dsimp only
  split <;> exact normalize_sign B _

theorem default_base_facts (T_MAX : Int) (hT : 4 ≤ T_MAX) :
    1 ≤ default_base T_MAX ∧ default_base T_MAX % 2 = 1
    ∧ default_base T_MAX + 1 = radix T_MAX ∧ default_base T_MAX = radix T_MAX - 1
    ∧ 2 ≤ radix T_MAX ∧ radix T_MAX ≤ T_MAX := by
  unfold default_base radix
  rw [Int.tdiv_eq_ediv (by omega) (by omega)]
  omega

theorem is_normalized_abs (x : exact_number) (h : is_normalized x) : is_normalized (abs x) :=
  ⟨h.1, h.2.1, fun h0 => ⟨(h.2.2 h0).1, rfl⟩⟩

/-- The value of `a + b` when the sign flags agree. -/
theorem operator_add_same_sign (T_MAX : Int) (a b : exact_number) (hT : 4 ≤ T_MAX)
    (ha : digits_in (radix T_MAX - 1) a.digits) (hb : digits_in (radix T_MAX - 1) b.digits)
    (hs : a.positive = b.positive) :
    value (radix T_MAX) (operator_add T_MAX a b)
      = value (radix T_MAX) a + value (radix T_MAX) b := by
  obtain ⟨f1, f2, f3, f4, f5, _⟩ := default_base_facts T_MAX hT
  rw [← f4] at ha hb
  have hm := magnitude_add_vector a b (default_base T_MAX) f1 f2 ha hb
  have hsg := add_vector_sign (default_base T_MAX + 1) a b (default_base T_MAX)
  rw [f3] at hm hsg
  unfold operator_add
  rw [if_pos hs]
  unfold value
  rcases hsg with h | h
  · rw [h, hm, ← hs]; ring
  · rw [h]
    rw [h] at hm
    rw [← hs]
    linear_combination (if a.positive = true then (1 : ℚ) else -1) * hm

/-- The value of the two subtracting branches of `operator+` and `operator-`. -/
theorem subtract_branch_value (T_MAX : Int) (a b : exact_number) (hT : 4 ≤ T_MAX)
    (ha : digits_in (radix T_MAX - 1) a.digits) (hb : digits_in (radix T_MAX - 1) b.digits)
    (hna : is_normalized a) (hnb : is_normalized b)
    (hns : ¬ (a.digits = [0] ∧ b.exponent < 0)) :
    (operator_lt (abs b) (abs a) = true →
      magnitude (radix T_MAX) (subtract_vector a b (default_base T_MAX)).digits
          (subtract_vector a b (default_base T_MAX)).exponent
        = magnitude (radix T_MAX) a.digits a.exponent
          - magnitude (radix T_MAX) b.digits b.exponent)
    ∧ (¬ operator_lt (abs b) (abs a) = true →
      magnitude (radix T_MAX) (subtract_vector b a (default_base T_MAX)).digits
          (subtract_vector b a (default_base T_MAX)).exponent
        = magnitude (radix T_MAX) b.digits b.exponent
          - magnitude (radix T_MAX) a.digits a.exponent) := by
  obtain ⟨f1, f2, f3, f4, f5, _⟩ := default_base_facts T_MAX hT
  have hlt := operator_lt_magnitude (radix T_MAX) (by omega) (abs b) (abs a) rfl rfl
    (is_normalized_abs b hnb) (is_normalized_abs a hna) hb ha hns
  simp only [abs] at hlt
  rw [← f4] at ha hb
  constructor
  · intro h
    have h1 := (magnitude_subtract_vector a b (default_base T_MAX) (by omega) ha hb
      (by rw [f3]; exact le_of_lt (hlt.mp h))).1
    rw [f3] at h1
    exact h1
  · intro h
    have hge : magnitude (radix T_MAX) a.digits a.exponent
        ≤ magnitude (radix T_MAX) b.digits b.exponent := by
      by_contra hc
      exact h (hlt.mpr (lt_of_not_ge hc))
    have h1 := (magnitude_subtract_vector b a (default_base T_MAX) (by omega) hb ha
      (by rw [f3]; exact hge)).1
    rw [f3] at h1
    exact h1

set_option linter.unnecessarySeqFocus false in
/-- In exact arithmetic the value of `a + b` is `value(a) + value(b)` when the sign flags
agree, and when they differ for normalized operands other than `a` zero with `b` of
negative exponent. -/
theorem operator_add_value_exact (T_MAX : Int) (a b : exact_number) (hT : 4 ≤ T_MAX)
    (ha : digits_in (radix T_MAX - 1) a.digits) (hb : digits_in (radix T_MAX - 1) b.digits)
    (h : a.positive = b.positive
      ∨ (is_normalized a ∧ is_normalized b ∧ ¬ (a.digits = [0] ∧ b.exponent < 0))) :
    value (radix T_MAX) (operator_add T_MAX a b)
      = value (radix T_MAX) a + value (radix T_MAX) b := by
  by_cases hs : a.positive = b.positive
  · exact operator_add_same_sign T_MAX a b hT ha hb hs
  · rcases h with h | ⟨hna, hnb, hns⟩
    · exact absurd h hs
    · obtain ⟨h1, h2⟩ := subtract_branch_value T_MAX a b hT ha hb hna hnb hns
      unfold operator_add
      rw [if_neg hs]
      split
      · rename_i hc
        have := h1 hc
        unfold value
        dsimp only
        rw [this]
        cases hpa : a.positive <;> cases hpb : b.positive <;> simp_all <;> ring
      · rename_i hc
        have := h2 hc
        unfold value
        dsimp only
        rw [this]
        cases hpa : a.positive <;> cases hpb : b.positive <;> simp_all <;> ring

set_option linter.unnecessarySeqFocus false in
/-- In exact arithmetic the value of `a − b` is `value(a) − value(b)` when the sign flags
differ, and when they agree for normalized operands other than `a` zero with `b` of
negative exponent. -/
theorem operator_sub_value_exact (T_MAX : Int) (a b : exact_number) (hT : 4 ≤ T_MAX)
    (ha : digits_in (radix T_MAX - 1) a.digits) (hb : digits_in (radix T_MAX - 1) b.digits)
    (h : a.positive ≠ b.positive
      ∨ (is_normalized a ∧ is_normalized b ∧ ¬ (a.digits = [0] ∧ b.exponent < 0))) :
    value (radix T_MAX) (operator_sub T_MAX a b)
      = value (radix T_MAX) a - value (radix T_MAX) b := by
  by_cases hs : a.positive ≠ b.positive
  · obtain ⟨f1, f2, f3, f4, f5, _⟩ := default_base_facts T_MAX hT
    rw [← f4] at ha hb
    have hm := magnitude_add_vector a b (default_base T_MAX) f1 f2 ha hb
    rw [f3] at hm
    unfold operator_sub
    rw [if_pos hs]
    unfold value
    dsimp only
    rw [hm]
    cases hpa : a.positive <;> cases hpb : b.positive <;> simp_all <;> ring
  · rcases h with h | ⟨hna, hnb, hns⟩
    · exact absurd h hs
    · obtain ⟨h1, h2⟩ := subtract_branch_value T_MAX a b hT ha hb hna hnb hns
      unfold operator_sub
      rw [if_neg hs]
      split
      · rename_i hc
        have := h1 hc
        unfold value
        dsimp only
        rw [this]
        cases hpa : a.positive <;> cases hpb : b.positive <;> simp_all <;> ring
      · rename_i hc
        have := h2 hc
        unfold value
        dsimp only
        rw [this]
        cases hpa : a.positive <;> cases hpb : b.positive <;> simp_all <;> ring

/-- C6, the failing input: the normalized positive number `[5]` with exponent −1
compares lower than the canonical zero although its value is positive. -/
theorem operator_lt_positive_below_zero :
    is_normalized ⟨[5], -1, true⟩ ∧ is_normalized ⟨[0], 0, true⟩
    ∧ operator_lt ⟨[5], -1, true⟩ ⟨[0], 0, true⟩ = true
    ∧ value (radix 2147483647) ⟨[0], 0, true⟩ < value (radix 2147483647) ⟨[5], -1, true⟩ := by
  refine ⟨by decide, by decide, by decide, ?_⟩
  have hr : radix 2147483647 = 1073741822 := by decide
  rw [hr]
  norm_num [value, magnitude]

/-- C7, the failing input: for the normalized numbers `[5]` with exponent −1 and the
canonical zero, both `a < b` and `a > b` return true (and `a == b` false). -/
theorem trichotomy_positive_vs_zero :
    is_normalized ⟨[5], -1, true⟩ ∧ is_normalized ⟨[0], 0, true⟩
    ∧ operator_lt ⟨[5], -1, true⟩ ⟨[0], 0, true⟩ = true
    ∧ operator_gt ⟨[5], -1, true⟩ ⟨[0], 0, true⟩ = true
    ∧ operator_eq ⟨[5], -1, true⟩ ⟨[0], 0, true⟩ = false := by
  decide

/-! ## The multiplicative core -/

theorem ival_set (B : Int) (l : List Int) (p : Nat) (v : Int) (h : p < l.length) :
    ival B (l.set p v) = ival B l + (v - l.getD p 0) * B ^ (l.length - 1 - p) := by
  induction l generalizing p with
  | nil => simp at h
  | cons d ds ih =>
    cases p with
    | zero => simp [ival]; ring
    | succ p =>
      simp only [List.length_cons] at h
      have hp : p < ds.length := by omega
      have e : ds.length + 1 - 1 - (p + 1) = ds.length - 1 - p := by omega
      simp only [List.set_cons_succ, ival, List.length_set, List.length_cons, ih p hp,
        List.getD_cons_succ, e]
      ring

theorem getD_set_eq (l : List Int) (p : Nat) (v : Int) (h : p < l.length) :
    (l.set p v).getD p 0 = v := by
  induction l generalizing p with
  | nil => simp at h
  | cons d ds ih =>
    cases p with
    | zero => simp
    | succ p =>
      simp only [List.length_cons] at h
      simp only [List.set_cons_succ, List.getD_cons_succ]
      exact ih p (by omega)

theorem getD_set_ne (l : List Int) (p q : Nat) (v : Int) (h : p ≠ q) :
    (l.set p v).getD q 0 = l.getD q 0 := by
  induction l generalizing p q with
  | nil => simp
  | cons d ds ih =>
    cases p with
    | zero =>
      cases q with
      | zero => exact absurd rfl h
      | succ q => simp
    | succ p =>
      cases q with
      | zero => simp
      | succ q =>
        simp only [List.set_cons_succ, List.getD_cons_succ]
        exact ih p q (by omega)

theorem digits_in_set (b : Int) (l : List Int) (p : Nat) (v : Int) (hl : digits_in b l)
    (hv : 0 ≤ v ∧ v ≤ b) : digits_in b (l.set p v) := by
  intro d hd
  rcases List.mem_or_eq_of_mem_set hd with h | h
  · exact hl d h
  · rw [h]; exact hv

theorem getD_range (b : Int) (l : List Int) (p : Nat) (hb : 0 ≤ b) (hl : digits_in b l) :
    0 ≤ l.getD p 0 ∧ l.getD p 0 ≤ b := by
  by_cases h : p < l.length
  · rw [List.getD_eq_getElem _ _ h]
    exact hl _ (List.getElem_mem _)
  · rw [List.getD_eq_default _ _ (by omega)]
    exact ⟨le_refl _, hb⟩

theorem low_value_cons (B d : Int) (ds : List Int) (k : Nat) (h : k ≤ ds.length) :
    low_value B (d :: ds) k = low_value B ds k := by
  induction k with
  | zero => rfl
  | succ k ih =>
    simp only [low_value, ih (by omega), List.length_cons]
    have e1 : ((((ds.length + 1 : Nat) : Int) - 1 - (k : Int)).toNat)
        = ((ds.length : Int) - 1 - (k : Int)).toNat + 1 := by omega
    rw [e1, List.getD_cons_succ]

theorem low_value_all (B : Int) (ds : List Int) : low_value B ds ds.length = ival B ds := by
  induction ds with
  | nil => rfl
  | cons d ds ih =>
    simp only [List.length_cons, low_value, low_value_cons B d ds ds.length (le_refl _), ih,
      ival]
    have e1 : ((((ds.length + 1 : Nat) : Int) - 1 - (ds.length : Int)).toNat) = 0 := by omega
    rw [e1]
    simp
    ring

theorem multiply_step_spec (B ai bj cell carry : Int) (hB : 1 ≤ B)
    (ha : 0 ≤ ai ∧ ai ≤ B - 1) (hb : 0 ≤ bj ∧ bj ≤ B - 1)
    (hc : 0 ≤ cell ∧ cell ≤ B - 1) (hk : 0 ≤ carry ∧ carry ≤ B - 1) :
    (multiply_step B ai bj cell carry).1 + (multiply_step B ai bj cell carry).2 * B
      = ai * bj + cell + carry
    ∧ 0 ≤ (multiply_step B ai bj cell carry).1 ∧ (multiply_step B ai bj cell carry).1 ≤ B - 1
    ∧ 0 ≤ (multiply_step B ai bj cell carry).2 ∧ (multiply_step B ai bj cell carry).2 ≤ B - 1 := by
  have hP0 : 0 ≤ ai * bj := mul_nonneg ha.1 hb.1
  have hP1 : ai * bj ≤ (B - 1) * (B - 1) := by nlinarith
  have hdm := Int.emod_add_ediv (ai * bj) B
  have hm0 := Int.emod_nonneg (ai * bj) (by omega : B ≠ 0)
  have hm1 := Int.emod_lt_of_pos (ai * bj) (by omega : 0 < B)
  have hq0 : 0 ≤ ai * bj / B := Int.ediv_nonneg hP0 (by omega)
  unfold multiply_step mulmod_int mult_div_int
  rw [Int.tmod_eq_emod hP0 (by omega), Int.tdiv_eq_ediv hP0 (by omega)]
  generalize ai * bj % B = rem at *
  generalize ai * bj / B = q at *
  generalize ai * bj = P at *
  have key : ∀ r q2 : Int, r + q2 * B = P + cell + carry → 0 ≤ r → q2 ≤ B - 1 := by
    intro r q2 h1 h2
    by_contra hcon
    have : B ≤ q2 := by omega
    nlinarith
  dsimp only
  split_ifs with h1 h2 h2
  · dsimp only
    have e : rem - (B - (carry - (B - cell))) + (q + 1 + 1) * B = P + cell + carry := by
      linear_combination hdm
    exact ⟨e, by omega, by omega, by omega, key _ _ e (by omega)⟩
  · dsimp only
    have e : rem + (carry - (B - cell)) + (q + 1) * B = P + cell + carry := by
      linear_combination hdm
    exact ⟨e, by omega, by omega, by omega, key _ _ e (by omega)⟩
  · dsimp only
    have e : rem - (B - (cell + carry)) + (q + 1) * B = P + cell + carry := by
      linear_combination hdm
    exact ⟨e, by omega, by omega, by omega, key _ _ e (by omega)⟩
  · dsimp only
    have e : rem + (cell + carry) + q * B = P + cell + carry := by
      linear_combination hdm
    exact ⟨e, by omega, by omega, by omega, key _ _ e (by omega)⟩

theorem multiply_inner_inv (B ai : Int) (bs temp0 : List Int) (N m : Nat) (hB : 1 ≤ B)
    (ha : 0 ≤ ai ∧ ai ≤ B - 1) (hbs : digits_in (B - 1) bs)
    (hN : temp0.length = N) (ht : digits_in (B - 1) temp0) (k : Nat)
    (hk : k ≤ bs.length) (hmk : m + bs.length ≤ N) :
    (multiply_inner B ai bs ((N : Int) - 1 - (m : Int)) temp0 k).1.length = N
    ∧ digits_in (B - 1) (multiply_inner B ai bs ((N : Int) - 1 - (m : Int)) temp0 k).1
    ∧ 0 ≤ (multiply_inner B ai bs ((N : Int) - 1 - (m : Int)) temp0 k).2
    ∧ (multiply_inner B ai bs ((N : Int) - 1 - (m : Int)) temp0 k).2 ≤ B - 1
    ∧ ival B (multiply_inner B ai bs ((N : Int) - 1 - (m : Int)) temp0 k).1
        + (multiply_inner B ai bs ((N : Int) - 1 - (m : Int)) temp0 k).2 * B ^ (m + k)
      = ival B temp0 + ai * low_value B bs k * B ^ m
    ∧ (∀ p : Nat, p + m + k < N →
        (multiply_inner B ai bs ((N : Int) - 1 - (m : Int)) temp0 k).1.getD p 0
          = temp0.getD p 0) := by
  induction k with
  | zero =>
    simp only [multiply_inner, low_value]
    refine ⟨hN, ht, le_refl _, by omega, by ring, fun p _ => trivial⟩
  | succ k ih =>
    obtain ⟨i1, i2, i3, i4, i5, i6⟩ := ih (by omega)
    simp only [multiply_inner, low_value]
    generalize multiply_inner B ai bs ((N : Int) - 1 - (m : Int)) temp0 k = s at *
    obtain ⟨idx, hidx⟩ : ∃ idx : Nat, ((N : Int) - 1 - (m : Int) - (k : Int)).toNat = idx :=
      ⟨_, rfl⟩
    have hidx2 : idx + m + k + 1 = N := by omega
    rw [hidx]
    have hs := multiply_step_spec B ai (bs.getD ((bs.length : Int) - 1 - (k : Int)).toNat 0)
      (s.1.getD idx 0) s.2 hB ha (getD_range (B - 1) bs _ (by omega) hbs)
      (getD_range (B - 1) s.1 idx (by omega) i2) ⟨i3, i4⟩
    generalize multiply_step B ai (bs.getD ((bs.length : Int) - 1 - (k : Int)).toNat 0)
      (s.1.getD idx 0) s.2 = r at *
    obtain ⟨s1, s2, s3, s4, s5⟩ := hs
    have hlt : idx < s.1.length := by omega
    have he : s.1.length - 1 - idx = m + k := by omega
    refine ⟨by rw [List.length_set]; exact i1, digits_in_set _ _ _ _ i2 ⟨s2, s3⟩, s4, s5, ?_, ?_⟩
    · rw [ival_set B s.1 idx r.1 hlt, he]
      have e2 : m + (k + 1) = m + k + 1 := by omega
      rw [e2, pow_succ]
      have e3 : B ^ (m + k) = B ^ m * B ^ k := pow_add B m k
      rw [e3] at i5 ⊢
      linear_combination i5 + (B ^ m * B ^ k) * s1
    · intro p hp
      rw [getD_set_ne s.1 idx p r.1 (by omega)]
      exact i6 p (by omega)

theorem getD_replicate_zero (n p : Nat) : (List.replicate n (0 : Int)).getD p 0 = 0 := by
  by_cases h : p < (List.replicate n (0 : Int)).length
  · rw [List.getD_eq_getElem _ _ h]; simp
  · rw [List.getD_eq_default _ _ (by omega)]

theorem ival_replicate_zero (B : Int) (n : Nat) : ival B (List.replicate n 0) = 0 := by
  induction n with
  | zero => rfl
  | succ n ih => simp [List.replicate_succ, ival, ih]

theorem multiply_outer_inv (B : Int) (as bs : List Int) (N : Nat) (hB : 1 ≤ B)
    (has : digits_in (B - 1) as) (hbs : digits_in (B - 1) bs)
    (hN : as.length + bs.length ≤ N) (m : Nat) (hm : m ≤ as.length) :
    (multiply_outer B as bs N m).length = N
    ∧ digits_in (B - 1) (multiply_outer B as bs N m)
    ∧ ival B (multiply_outer B as bs N m) = low_value B as m * ival B bs
    ∧ (∀ p : Nat, p + m + bs.length < N → (multiply_outer B as bs N m).getD p 0 = 0) := by
  induction m with
  | zero =>
    simp only [multiply_outer, low_value]
    refine ⟨by simp, ?_, by rw [ival_replicate_zero]; ring, fun p _ => getD_replicate_zero N p⟩
    intro d hd
    rw [List.eq_of_mem_replicate hd]
    omega
  | succ m ih =>
    obtain ⟨i1, i2, i3, i4⟩ := ih (by omega)
    have hinv := multiply_inner_inv B
      (as.getD ((as.length : Int) - 1 - (m : Int)).toNat 0) bs
      (multiply_outer B as bs N m) N m hB (getD_range (B - 1) as _ (by omega) has) hbs i1 i2
      bs.length (le_refl _) (by omega)
    simp only [multiply_outer, low_value]
    generalize multiply_inner B (as.getD ((as.length : Int) - 1 - (m : Int)).toNat 0) bs
      ((N : Int) - 1 - (m : Int)) (multiply_outer B as bs N m) bs.length = s at *
    obtain ⟨j1, j2, j3, j4, j5, j6⟩ := hinv
    rw [low_value_all] at j5
    obtain ⟨idx, hidx⟩ :
        ∃ idx : Nat, ((N : Int) - 1 - (m : Int) - (bs.length : Int)).toNat = idx := ⟨_, rfl⟩
    have hidx2 : idx + m + bs.length + 1 = N := by omega
    have hcell : s.1.getD idx 0 = 0 := by
      rw [j6 idx (by omega)]
      exact i4 idx (by omega)
    split
    · rename_i hpos
      rw [hidx, hcell]
      have hlt : idx < s.1.length := by omega
      have he : s.1.length - 1 - idx = m + bs.length := by omega
      refine ⟨by rw [List.length_set]; exact j1,
        digits_in_set _ _ _ _ j2 ⟨by omega, by omega⟩, ?_, ?_⟩
      · rw [ival_set B s.1 idx _ hlt, he, hcell]
        linear_combination j5 + i3
      · intro p hp
        rw [getD_set_ne s.1 idx p _ (by omega), j6 p (by omega)]
        exact i4 p (by omega)
    · rename_i hpos
      have h0 : s.2 = 0 := by omega
      rw [h0] at j5
      refine ⟨j1, j2, ?_, ?_⟩
      · linear_combination j5 + i3
      · intro p hp
        rw [j6 p (by omega)]
        exact i4 p (by omega)

theorem magnitude_eq_ival (B : Int) (hB : B ≠ 0) (ds : List Int) (e : Int) :
    magnitude B ds e = (ival B ds : ℚ) * (B : ℚ) ^ (e - (ds.length : Int)) := by
  have hBq : (B : ℚ) ≠ 0 := by exact_mod_cast hB
  induction ds generalizing e with
  | nil => simp [magnitude, ival]
  | cons d ds ih =>
    simp only [magnitude, ival, ih (e - 1), List.length_cons]
    have e1 : e - ((ds.length + 1 : Nat) : Int) = e - 1 - (ds.length : Int) := by
      push_cast; ring
    have e2 : (B : ℚ) ^ (e - 1) = (B : ℚ) ^ ds.length * (B : ℚ) ^ (e - 1 - (ds.length : Int)) := by
      rw [← zpow_natCast, ← zpow_add₀ hBq]
      congr 1
      ring
    rw [e1, e2]
    push_cast
    ring

/-- The digits `multiply_vector` assigns before `normalize` denote the product of the
magnitudes, and every one of them lies in `[0, B − 1]`. -/
theorem multiply_vector_raw_magnitude (B : Int) (a b : exact_number) (hB : 1 ≤ B)
    (had : digits_in (B - 1) a.digits) (hbd : digits_in (B - 1) b.digits) :
    magnitude B (multiply_vector_raw a b B).digits (multiply_vector_raw a b B).exponent
      = magnitude B a.digits a.exponent * magnitude B b.digits b.exponent
    ∧ digits_in (B - 1) (multiply_vector_raw a b B).digits
    ∧ a.digits.length + b.digits.length ≤ (multiply_vector_raw a b B).digits.length := by
  have hBq : (B : ℚ) ≠ 0 := by exact_mod_cast (by omega : B ≠ 0)
  unfold multiply_vector_raw
  dsimp only
  obtain ⟨N, hNdef⟩ : ∃ N : Nat,
      (if b.exponent < 0 then
        (if a.exponent < 0 then (a.digits.length : Int) + (b.digits.length : Int) - a.exponent
          else (a.digits.length : Int) + (b.digits.length : Int)) - b.exponent
      else
        (if a.exponent < 0 then (a.digits.length : Int) + (b.digits.length : Int) - a.exponent
          else (a.digits.length : Int) + (b.digits.length : Int))).toNat = N := ⟨_, rfl⟩
  have hN : a.digits.length + b.digits.length ≤ N := by
    rw [← hNdef]
    split_ifs <;> omega
  rw [hNdef]
  obtain ⟨i1, i2, i3, _⟩ := multiply_outer_inv B a.digits b.digits N hB had hbd hN
    a.digits.length (le_refl _)
  rw [low_value_all] at i3
  refine ⟨?_, i2, by rw [i1]; exact hN⟩
  rw [magnitude_eq_ival B (by omega) (multiply_outer B a.digits b.digits N a.digits.length),
    magnitude_eq_ival B (by omega) a.digits, magnitude_eq_ival B (by omega) b.digits, i3, i1]
  have e1 : (N : Int) - ((a.digits.length : Int) - a.exponent
        + ((b.digits.length : Int) - b.exponent)) - (N : Int)
      = (a.exponent - (a.digits.length : Int)) + (b.exponent - (b.digits.length : Int)) := by
    ring
  rw [e1, zpow_add₀ hBq]
  push_cast
  ring

theorem normalize_digits (x : exact_number) :
    (normalize x).digits
      = normalize_back (normalize_front x.digits.length x.digits x.exponent).1.length
          (normalize_front x.digits.length x.digits x.exponent).1 := by
  unfold normalize
  dsimp only
  split <;> rfl

theorem normalize_positive (x : exact_number) :
    (normalize x).positive
      = if (normalize x).digits.length = 1 ∧ (normalize x).digits.head? = some 0 then true
        else x.positive := by
  rw [normalize_digits]
  unfold normalize
  dsimp only
  split
  · rfl
  · rfl

theorem digits_in_normalize_front (b : Int) (n : Nat) (ds : List Int) (e : Int)
    (h : digits_in b ds) : digits_in b (normalize_front n ds e).1 := by
  induction n generalizing ds e with
  | zero => exact h
  | succ n ih =>
    simp only [normalize_front]
    split
    · exact ih _ _ (fun d hd => h d (List.mem_of_mem_tail hd))
    · exact h

theorem digits_in_normalize_back (b : Int) (n : Nat) (ds : List Int)
    (h : digits_in b ds) : digits_in b (normalize_back n ds) := by
  induction n generalizing ds with
  | zero => exact h
  | succ n ih =>
    simp only [normalize_back]
    split
    · exact ih _ (fun d hd => h d (List.mem_of_mem_dropLast hd))
    · exact h

theorem digits_in_normalize (b : Int) (x : exact_number) (h : digits_in b x.digits) :
    digits_in b (normalize x).digits := by
  rw [normalize_digits]
  exact digits_in_normalize_back b _ _ (digits_in_normalize_front b _ _ _ h)

theorem normalize_ne_nil (x : exact_number) (h : x.digits ≠ []) :
    (normalize x).digits ≠ [] := by
  rw [normalize_digits]
  exact normalize_back_ne_nil _ _ (normalize_front_ne_nil _ _ _ h)

/-- The sign flag `normalize` leaves on a number with digits in `[0, B − 1]`: the
flag it had when the magnitude is not zero, `true` when it is zero. -/
theorem normalize_positive_magnitude (B : Int) (hB : 1 ≤ B) (x : exact_number)
    (hne : x.digits ≠ []) (hd : digits_in (B - 1) x.digits) :
    (magnitude B x.digits x.exponent ≠ 0 → (normalize x).positive = x.positive)
    ∧ (magnitude B x.digits x.exponent = 0 → (normalize x).positive = true) := by
  constructor
  · intro h
    rcases normalize_sign B x with h1 | h1
    · exact h1
    · rw [magnitude_normalize] at h1
      exact absurd h1 h
  · intro h
    rw [normalize_positive]
    have hz := (magnitude_all_zero B hB (normalize x).digits (normalize x).exponent
      (digits_in_normalize (B - 1) x hd)).mpr (by rw [magnitude_normalize]; exact h)
    have hnn := normalize_ne_nil x hne
    have hf := (normalize_digits_done x).1
    generalize (normalize x).digits = ds at *
    match ds, hnn with
    | d :: t, _ =>
      simp only [List.all_cons, Bool.and_eq_true, decide_eq_true_eq] at hz
      have hh : (d :: t).head? = some 0 := by simp [hz.1]
      have hl : (d :: t).length = 1 := by
        by_contra hc
        apply hf
        refine ⟨?_, hh⟩
        simp only [List.length_cons] at hc ⊢
        omega
      rw [if_pos ⟨hl, hh⟩]

/-- In exact arithmetic `multiply_vector` leaves the product of the magnitudes, the exponent
`|result| − ((|a.digits| − a.exp) + (|b.digits| − b.exp))` before `normalize`, and the
sign flag `(a.positive == b.positive)` unless the product is zero. -/
theorem multiply_vector_product_exact (B : Int) (a b : exact_number) (hB : 2 ≤ B)
    (hane : a.digits ≠ []) (_hbne : b.digits ≠ [])
    (had : digits_in (B - 1) a.digits) (hbd : digits_in (B - 1) b.digits) :
    magnitude B (multiply_vector a b B).digits (multiply_vector a b B).exponent
      = magnitude B a.digits a.exponent * magnitude B b.digits b.exponent
    ∧ (multiply_vector_raw a b B).exponent
      = ((multiply_vector_raw a b B).digits.length : Int)
        - (((a.digits.length : Int) - a.exponent) + ((b.digits.length : Int) - b.exponent))
    ∧ (magnitude B a.digits a.exponent * magnitude B b.digits b.exponent ≠ 0 →
        (multiply_vector a b B).positive = (a.positive == b.positive))
    ∧ (magnitude B a.digits a.exponent * magnitude B b.digits b.exponent = 0 →
        (multiply_vector a b B).positive = true) := by
  obtain ⟨h1, h2, h3⟩ := multiply_vector_raw_magnitude B a b (by omega) had hbd
  have hne : (multiply_vector_raw a b B).digits ≠ [] := by
    intro h0
    rw [h0] at h3
    have := List.length_pos.mpr hane
    simp only [List.length_nil] at h3
    omega
  obtain ⟨s1, s2⟩ := normalize_positive_magnitude B (by omega) (multiply_vector_raw a b B) hne h2
  rw [h1] at s1 s2
  refine ⟨?_, rfl, s1, s2⟩
  unfold multiply_vector
  rw [magnitude_normalize, h1]

/-! ## Uniqueness of the normalized form -/

theorem add_vector_loop_length (a c : exact_number) (base F : Int) (k : Nat) :
    (add_vector_loop a c base F k).2.length = k := by
  induction k with
  | zero => rfl
  | succ k ih => simp [add_vector_loop, ih]

theorem subtract_vector_loop_length (a c : exact_number) (base F : Int) (k : Nat) :
    (subtract_vector_loop a c base F k).2.length = k := by
  induction k with
  | zero => rfl
  | succ k ih => simp [subtract_vector_loop, ih]

/-- On a non-empty digit vector `normalize` produces the normalized form. -/
theorem normalize_is_normalized (x : exact_number) (h : x.digits ≠ []) :
    is_normalized (normalize x) := by
  obtain ⟨hf, hb⟩ := normalize_digits_done x
  refine ⟨normalize_ne_nil x h, fun hl => ⟨fun hh => hf ⟨hl, hh⟩, fun hh => hb ⟨hl, hh⟩⟩, ?_⟩
  intro h0
  have hp := normalize_positive x
  rw [h0] at hp
  simp only [List.length_singleton, List.head?_cons, and_self, if_true] at hp
  refine ⟨?_, hp⟩
  have hd := normalize_digits x
  unfold normalize at h0 ⊢
  dsimp only at h0 ⊢
  split
  · rfl
  · rename_i hc
    rw [if_neg hc] at h0
    dsimp only at h0
    exact absurd (by rw [h0]; simp) hc

theorem all_zero_getLast (ds : List Int) (hne : ds ≠ [])
    (hz : (ds.all fun d => decide (d = 0)) = true) : ds.getLast? = some 0 := by
  rw [List.getLast?_eq_getLast ds hne]
  have := List.all_eq_true.mp hz (ds.getLast hne) (List.getLast_mem hne)
  simp only [decide_eq_true_eq] at this
  rw [this]

theorem getLast_tail (l : Int) (ls : List Int) (h : (l :: ls).getLast? ≠ some 0) :
    ls.getLast? ≠ some 0 := by
  cases ls with
  | nil => simp
  | cons a t => simpa [List.getLast?_cons_cons] using h

/-- Two digit vectors in `[0, B − 1]` without a trailing zero that have the same
magnitude at the same exponent are equal. -/
theorem digits_eq_of_magnitude_eq (B : Int) (hB : 1 ≤ B) (ls rs : List Int) (e : Int)
    (hl : digits_in (B - 1) ls) (hr : digits_in (B - 1) rs)
    (hll : ls.getLast? ≠ some 0) (hrl : rs.getLast? ≠ some 0)
    (hm : magnitude B ls e = magnitude B rs e) : ls = rs := by
  induction ls generalizing rs e with
  | nil =>
    cases rs with
    | nil => rfl
    | cons r rs =>
      exfalso
      apply hrl
      apply all_zero_getLast _ (by simp)
      exact (magnitude_all_zero B hB (r :: rs) e hr).mpr (by rw [← hm]; rfl)
  | cons l ls ih =>
    cases rs with
    | nil =>
      exfalso
      apply hll
      apply all_zero_getLast _ (by simp)
      exact (magnitude_all_zero B hB (l :: ls) e hl).mpr (by rw [hm]; rfl)
    | cons r rs =>
      have h1 := aligned_vectors_is_lower_iff B hB (l :: ls) (r :: rs) false e hl hr
      have h2 := aligned_vectors_is_lower_iff B hB (r :: rs) (l :: ls) false e hr hl
      have heq : l = r := by
        by_contra hne
        simp only [aligned_vectors_is_lower, if_neg hne, decide_eq_true_eq] at h1
        have hne2 : ¬ r = l := fun h => hne h.symm
        simp only [aligned_vectors_is_lower, if_neg hne2, decide_eq_true_eq] at h2
        rcases lt_or_gt_of_ne hne with h | h
        · have := h1.mp h
          rw [hm] at this
          exact lt_irrefl _ this
        · have := h2.mp h
          rw [hm] at this
          exact lt_irrefl _ this
      subst heq
      simp only [magnitude, add_right_inj] at hm
      rw [ih rs (e - 1) (digits_in_tail _ l ls hl) (digits_in_tail _ l rs hr)
        (getLast_tail l ls hll) (getLast_tail l rs hrl) hm]

theorem is_normalized_last (x : exact_number) (hx : is_normalized x) (h0 : x.digits ≠ [0]) :
    x.digits.getLast? ≠ some 0 := by
  obtain ⟨h1, h2, _⟩ := hx
  match hxd : x.digits, h1 with
  | [d], _ =>
    intro h
    apply h0
    rw [hxd]
    simp only [List.getLast?_singleton, Option.some.injEq] at h
    rw [h]
  | d :: d2 :: ds, _ =>
    rw [hxd] at h2
    exact (h2 (by simp)).2

theorem magnitude_zero_digits (B : Int) (e : Int) : magnitude B [0] e = 0 := by
  simp [magnitude]

/-- A normalized number with magnitude zero is the canonical zero. -/
theorem is_normalized_zero (B : Int) (hB : 1 ≤ B) (x : exact_number) (hx : is_normalized x)
    (hd : digits_in (B - 1) x.digits) (hm : magnitude B x.digits x.exponent = 0) :
    x.digits = [0] ∧ x.exponent = 0 ∧ x.positive = true := by
  have hBq : (0 : ℚ) < (B : ℚ) := by exact_mod_cast (by omega : 0 < B)
  have h0 : x.digits = [0] := by
    by_contra h0
    have := (magnitude_normalized_bounds B hB x hx hd h0).1
    have hp : (0 : ℚ) < (B : ℚ) ^ (x.exponent - 1) := zpow_pos hBq _
    linarith
  exact ⟨h0, hx.2.2 h0⟩

/-- The normalized form of a magnitude is unique: two normalized numbers with digits
in `[0, B − 1]` and the same magnitude have the same digits and exponent. -/
theorem normalized_unique (B : Int) (hB : 1 ≤ B) (x y : exact_number)
    (hx : is_normalized x) (hy : is_normalized y)
    (hxd : digits_in (B - 1) x.digits) (hyd : digits_in (B - 1) y.digits)
    (hm : magnitude B x.digits x.exponent = magnitude B y.digits y.exponent) :
    x.digits = y.digits ∧ x.exponent = y.exponent := by
  have hB1 : (1 : ℚ) ≤ (B : ℚ) := by exact_mod_cast hB
  by_cases hx0 : x.digits = [0]
  · have hmx : magnitude B x.digits x.exponent = 0 := by rw [hx0]; exact magnitude_zero_digits B _
    obtain ⟨h1, h2, _⟩ := is_normalized_zero B hB y hy hyd (by rw [← hm]; exact hmx)
    exact ⟨by rw [hx0, h1], by rw [(hx.2.2 hx0).1, h2]⟩
  · have hy0 : y.digits ≠ [0] := by
      intro hy0
      have hmy : magnitude B y.digits y.exponent = 0 := by
        rw [hy0]; exact magnitude_zero_digits B _
      exact hx0 (is_normalized_zero B hB x hx hxd (by rw [hm]; exact hmy)).1
    have bx := magnitude_normalized_bounds B hB x hx hxd hx0
    have by' := magnitude_normalized_bounds B hB y hy hyd hy0
    have he : x.exponent = y.exponent := by
      by_contra hne
      rcases lt_or_gt_of_ne hne with h | h
      · have := zpow_le_zpow_right₀ hB1 (by omega : x.exponent ≤ y.exponent - 1)
        linarith [bx.2, by'.1]
      · have := zpow_le_zpow_right₀ hB1 (by omega : y.exponent ≤ x.exponent - 1)
        linarith [bx.1, by'.2]
    refine ⟨?_, he⟩
    rw [← he] at hm
    exact digits_eq_of_magnitude_eq B hB _ _ x.exponent hxd hyd
      (is_normalized_last x hx hx0) (is_normalized_last y hy hy0) hm

/-- The result of `add_vector` is normalized and its digits stay in `[0, base]`. -/
theorem add_vector_normalized (a c : exact_number) (base : Int) (hb : 1 ≤ base)
    (hodd : base % 2 = 1) (ha : digits_in base a.digits) (hc : digits_in base c.digits)
    (hne : a.digits ≠ []) :
    is_normalized (add_vector a c base) ∧ digits_in base (add_vector a c base).digits := by
  have hF1 := le_max_left ((a.digits.length : Int) - a.exponent)
    ((c.digits.length : Int) - c.exponent)
  have hI1 := le_max_left a.exponent c.exponent
  have hpos : 0 < a.digits.length := List.length_pos.mpr hne
  unfold add_vector
  generalize max ((a.digits.length : Int) - a.exponent)
    ((c.digits.length : Int) - c.exponent) = F at *
  generalize max a.exponent c.exponent = I at *
  obtain ⟨_, i2, _⟩ := add_vector_loop_inv a c base F hb hodd ha hc (F + I).toNat
  have hlen := add_vector_loop_length a c base F (F + I).toNat
  dsimp only
  split
  · refine ⟨normalize_is_normalized _ (by simp), digits_in_normalize base _ ?_⟩
    intro d hd
    rcases List.mem_cons.mp hd with h | h
    · rw [h]; omega
    · exact i2 d h
  · have hnn : (add_vector_loop a c base F (F + I).toNat).2 ≠ [] := by
      intro h0
      rw [h0] at hlen
      simp only [List.length_nil] at hlen
      omega
    exact ⟨normalize_is_normalized _ hnn, digits_in_normalize base _ i2⟩

/-- The result of `subtract_vector` is normalized and its digits stay in `[0, base]`. -/
theorem subtract_vector_normalized (a c : exact_number) (base : Int) (hb : 0 ≤ base)
    (ha : digits_in base a.digits) (hc : digits_in base c.digits) (hne : a.digits ≠ []) :
    is_normalized (subtract_vector a c base)
    ∧ digits_in base (subtract_vector a c base).digits := by
  have hF1 := le_max_left ((a.digits.length : Int) - a.exponent)
    ((c.digits.length : Int) - c.exponent)
  have hI1 := le_max_left a.exponent c.exponent
  have hpos : 0 < a.digits.length := List.length_pos.mpr hne
  unfold subtract_vector
  generalize max ((a.digits.length : Int) - a.exponent)
    ((c.digits.length : Int) - c.exponent) = F at *
  generalize max a.exponent c.exponent = I at *
  obtain ⟨_, i2, hlen, _⟩ := subtract_vector_loop_inv a c base F hb ha hc (F + I).toNat
  have hnn : (subtract_vector_loop a c base F (F + I).toNat).2 ≠ [] := by
    intro h0
    rw [h0] at hlen
    simp only [List.length_nil] at hlen
    omega
  exact ⟨normalize_is_normalized _ hnn, digits_in_normalize base _ i2⟩

theorem aligned_vectors_is_lower_irrefl (ls : List Int) (equal : Bool) :
    aligned_vectors_is_lower ls ls equal = false := by
  induction ls with
  | nil => cases equal <;> simp [aligned_vectors_is_lower]
  | cons l ls ih => simp [aligned_vectors_is_lower, ih]

/-- No number is lower than itself for `operator<`. -/
theorem operator_lt_irrefl (x : exact_number) : operator_lt x x = false := by
  unfold operator_lt
  by_cases h0 : x.digits = [0] ∨ x.digits = []
  · rw [if_pos h0]
    rcases h0 with h | h <;> simp [h]
  · rw [if_neg h0, if_neg (fun h => h0 h.1), if_neg (fun h => h rfl)]
    split_ifs <;> simp [aligned_vectors_is_lower_irrefl]

theorem operator_eq_refl (x : exact_number) : operator_eq x x = true := by
  simp [operator_eq, operator_lt_irrefl]

/-- Every number whose digit vector is `[0]` compares equal to the canonical zero. -/
theorem operator_eq_zero_digits (e : Int) (p : Bool) :
    operator_eq ⟨[0], e, p⟩ ⟨[0], 0, true⟩ = true := by
  simp [operator_eq, operator_lt]

/-- Subtracting a number from one with the same digits and exponent leaves the digit
vector `[0]`. -/
theorem subtract_vector_self (B : Int) (hB : 1 ≤ B) (ds : List Int) (e : Int) (p q : Bool)
    (hne : ds ≠ []) (hd : digits_in (B - 1) ds) :
    (subtract_vector ⟨ds, e, p⟩ ⟨ds, e, q⟩ (B - 1)).digits = [0] := by
  have hm := (magnitude_subtract_vector ⟨ds, e, p⟩ ⟨ds, e, q⟩ (B - 1) (by omega) hd hd
    (le_refl _)).1
  obtain ⟨hn, hdn⟩ := subtract_vector_normalized ⟨ds, e, p⟩ ⟨ds, e, q⟩ (B - 1) (by omega) hd hd hne
  simp only [sub_add_cancel, sub_self] at hm
  exact (is_normalized_zero B hB _ hn hdn hm).1

/-! ## Claims on the empty digit vector and the additive laws -/

/-- In exact arithmetic `x + zero` is `x` for a normalized `x`. -/
theorem operator_add_zero_exact (T_MAX : Int) (x : exact_number) (hT : 4 ≤ T_MAX)
    (hx : is_normalized x) (hd : digits_in (radix T_MAX - 1) x.digits) :
    operator_add T_MAX x ⟨[0], 0, true⟩ = x
    ∧ operator_eq (operator_add T_MAX x ⟨[0], 0, true⟩) x = true := by
  obtain ⟨f1, f2, f3, f4, f5, _⟩ := default_base_facts T_MAX hT
  have hz : digits_in (default_base T_MAX) ([0] : List Int) := by
    intro d hd0
    simp only [List.mem_singleton] at hd0
    rw [hd0]; omega
  have hd' : digits_in (default_base T_MAX) x.digits := by rw [f4]; exact hd
  have main : operator_add T_MAX x ⟨[0], 0, true⟩ = x := by
    unfold operator_add
    cases hp : x.positive with
    | true =>
      rw [if_pos (by simp)]
      obtain ⟨hn, hdn⟩ := add_vector_normalized x ⟨[0], 0, true⟩ (default_base T_MAX) f1 f2
        hd' hz hx.1
      have hm := magnitude_add_vector x ⟨[0], 0, true⟩ (default_base T_MAX) f1 f2 hd' hz
      rw [f3] at hm
      simp only [magnitude_zero_digits, add_zero] at hm
      rw [f4] at hdn
      obtain ⟨u1, u2⟩ := normalized_unique (radix T_MAX) (by omega) _ x hn hx hdn hd hm
      have hs : (add_vector x ⟨[0], 0, true⟩ (default_base T_MAX)).positive = true := by
        rcases add_vector_sign (radix T_MAX) x ⟨[0], 0, true⟩ (default_base T_MAX) with h | h
        · rw [h, hp]
        · exact (is_normalized_zero (radix T_MAX) (by omega) _ hn hdn h).2.2
      cases hr : add_vector x ⟨[0], 0, true⟩ (default_base T_MAX) with
      | mk rd re rp =>
        rw [hr] at u1 u2 hs
        cases x
        simp_all
    | false =>
      rw [if_neg (by simp)]
      have hx0 : x.digits ≠ [0] := by
        intro h0
        have := (hx.2.2 h0).2
        rw [hp] at this
        exact Bool.noConfusion this
      have hlt : operator_lt (abs ⟨[0], 0, true⟩) (abs x) = true := by
        simp [operator_lt, abs, hx0, hx.1]
      rw [if_pos hlt]
      obtain ⟨hn, hdn⟩ := subtract_vector_normalized x ⟨[0], 0, true⟩ (default_base T_MAX)
        (by omega) hd' hz hx.1
      have hm := (magnitude_subtract_vector x ⟨[0], 0, true⟩ (default_base T_MAX) (by omega)
        hd' hz (by
          rw [magnitude_zero_digits]
          exact magnitude_nonneg (default_base T_MAX + 1) (by omega) _ _
            (by simpa using hd'))).1
      rw [f3] at hm
      simp only [magnitude_zero_digits, sub_zero] at hm
      rw [f4] at hdn
      obtain ⟨u1, u2⟩ := normalized_unique (radix T_MAX) (by omega) _ x hn hx hdn hd hm
      cases x
      simp_all
  exact ⟨main, by rw [main]; exact operator_eq_refl x⟩

/-- In exact arithmetic `x − x` and `x + (−x)` compare equal to the canonical zero for a
normalized `x`. -/
theorem operator_sub_self_exact (T_MAX : Int) (x : exact_number) (hT : 4 ≤ T_MAX)
    (hx : is_normalized x) (hd : digits_in (radix T_MAX - 1) x.digits) :
    operator_eq (operator_sub T_MAX x x) ⟨[0], 0, true⟩ = true
    ∧ operator_eq (operator_add T_MAX x ⟨x.digits, x.exponent, !x.positive⟩) ⟨[0], 0, true⟩
        = true := by
  obtain ⟨f1, f2, f3, f4, f5, _⟩ := default_base_facts T_MAX hT
  have hlt : operator_lt (abs x) (abs x) = false := operator_lt_irrefl _
  have hs := subtract_vector_self (radix T_MAX) (by omega) x.digits x.exponent x.positive
    x.positive hx.1 hd
  have hs2 := subtract_vector_self (radix T_MAX) (by omega) x.digits x.exponent (!x.positive)
    x.positive hx.1 hd
  rw [← f4] at hs hs2
  constructor
  · unfold operator_sub
    rw [if_neg (by simp), hlt, if_neg (by simp)]
    dsimp only
    cases x with
    | mk ds e p =>
      simp only at hs
      rw [hs]
      exact operator_eq_zero_digits _ _
  · unfold operator_add
    have hlt2 : operator_lt (abs ⟨x.digits, x.exponent, !x.positive⟩) (abs x) = false := by
      have : abs ⟨x.digits, x.exponent, !x.positive⟩ = abs x := rfl
      rw [this]; exact hlt
    rw [if_neg (by cases x.positive <;> simp), hlt2, if_neg (by simp)]
    dsimp only
    cases x with
    | mk ds e p =>
      simp only at hs2
      rw [hs2]
      exact operator_eq_zero_digits _ _

/-- C14, the failing input: with `x` the canonical zero and `y = −[5]` of exponent −1
(both normalized), `x + y` is a positive number and `y + x` is `y`, and `operator==`
tells them apart. -/
theorem operator_add_not_commutative :
    is_normalized ⟨[0], 0, true⟩ ∧ is_normalized ⟨[5], -1, false⟩
    ∧ operator_add 2147483647 ⟨[0], 0, true⟩ ⟨[5], -1, false⟩
        = ⟨[1073741821, 1073741817], 0, true⟩
    ∧ operator_add 2147483647 ⟨[5], -1, false⟩ ⟨[0], 0, true⟩ = ⟨[5], -1, false⟩
    ∧ operator_eq (operator_add 2147483647 ⟨[0], 0, true⟩ ⟨[5], -1, false⟩)
        (operator_add 2147483647 ⟨[5], -1, false⟩ ⟨[0], 0, true⟩) = false := by
  decide

/-- C15, the failing input: with `x = [1]` of exponent 2, `y` the canonical zero and
`z = −[5]` of exponent −1 (all normalized), `x · (y + z)` is a positive number and
`x·y + x·z` is the negative number `x·z`, and `operator==` tells them apart. -/
theorem operator_mul_not_distributive :
    is_normalized ⟨[1], 2, true⟩ ∧ is_normalized ⟨[0], 0, true⟩
    ∧ is_normalized ⟨[5], -1, false⟩
    ∧ operator_mul 2147483647 ⟨[1], 2, true⟩
        (operator_add 2147483647 ⟨[0], 0, true⟩ ⟨[5], -1, false⟩)
        = ⟨[1073741821, 1073741817], 1, true⟩
    ∧ operator_add 2147483647 (operator_mul 2147483647 ⟨[1], 2, true⟩ ⟨[0], 0, true⟩)
        (operator_mul 2147483647 ⟨[1], 2, true⟩ ⟨[5], -1, false⟩) = ⟨[5], 0, false⟩
    ∧ operator_eq
        (operator_mul 2147483647 ⟨[1], 2, true⟩
          (operator_add 2147483647 ⟨[0], 0, true⟩ ⟨[5], -1, false⟩))
        (operator_add 2147483647 (operator_mul 2147483647 ⟨[1], 2, true⟩ ⟨[0], 0, true⟩)
          (operator_mul 2147483647 ⟨[1], 2, true⟩ ⟨[5], -1, false⟩)) = false := by
  decide

/-! ## Exceptions of the division -/

theorem checked_ok (T_MAX v : Int) (h : -T_MAX - 1 ≤ v ∧ v ≤ T_MAX) :
    checked T_MAX v = outcome.ok v := by
  unfold checked
  rw [if_pos h]

theorem checked_undefined (T_MAX v : Int) (h : ¬ (-T_MAX - 1 ≤ v ∧ v ≤ T_MAX)) :
    checked T_MAX v = outcome.undefined := by
  unfold checked
  rw [if_neg h]

theorem checked_cases (T_MAX v : Int) :
    (checked T_MAX v = outcome.ok v ∧ -T_MAX - 1 ≤ v ∧ v ≤ T_MAX)
      ∨ (checked T_MAX v = outcome.undefined ∧ ¬ (-T_MAX - 1 ≤ v ∧ v ≤ T_MAX)) := by
  by_cases h : -T_MAX - 1 ≤ v ∧ v ≤ T_MAX
  · exact Or.inl ⟨checked_ok T_MAX v h, h⟩
  · exact Or.inr ⟨checked_undefined T_MAX v h, h⟩

theorem bind_ok_eq {α β : Type} (a : α) (f : α → outcome β) :
    (outcome.ok a).bind f = f a := rfl

theorem bind_undefined_eq {α β : Type} (f : α → outcome β) :
    (outcome.undefined : outcome α).bind f = outcome.undefined := rfl

theorem bind_throws {α β : Type} (m : outcome α) (f : α → outcome β) (e : exception)
    (h : m.bind f = outcome.throws e) :
    m = outcome.throws e ∨ ∃ a, m = outcome.ok a ∧ f a = outcome.throws e := by
  cases m with
  | ok a => exact Or.inr ⟨a, rfl, h⟩
  | throws x =>
    left
    simp only [outcome.bind, outcome.throws.injEq] at h
    rw [h]
  | undefined => simp [outcome.bind] at h
  | unfinished => simp [outcome.bind] at h

theorem ite_ok_bind_throws {α β : Type} (c : Prop) [Decidable c] (a : β) (m : outcome α)
    (g : α → β) (e : exception)
    (h : (if c then outcome.ok a else m.bind fun v => outcome.ok (g v)) = outcome.throws e) :
    m = outcome.throws e := by
  split at h
  · simp at h
  · rcases bind_throws _ _ e h with h1 | ⟨v, _, h2⟩
    · exact h1
    · simp at h2

/-- A number whose digit vector is `[0]` or empty compares equal to the
default-constructed zero. -/
theorem operator_eq_default_of_zero (d : exact_number) (h : d.digits = [0] ∨ d.digits = []) :
    operator_eq d exact_number.default = true := by
  rcases h with h | h <;> simp [operator_eq, operator_lt, exact_number.default, h]

theorem binary_search_loop_no_throw (T_MAX : Int) (numerator denominator maximum_error
    neg_maximum_error max_residual_error : exact_number) (limit : Int) (fuel : Nat)
    (this left length residual : exact_number) (e : exception) :
    binary_search_loop T_MAX numerator denominator maximum_error neg_maximum_error
      max_residual_error limit fuel this left length residual ≠ outcome.throws e := by
  induction fuel generalizing this left length residual with
  | zero => simp [binary_search_loop]
  | succ fuel ih =>
    unfold binary_search_loop
    split
    · exact ih _ _ _ _
    · simp

theorem newton_raphson_scaling_no_throw (T_MAX : Int) (fuel : Nat)
    (denominator numerator : exact_number) (e : exception) :
    newton_raphson_scaling T_MAX fuel denominator numerator ≠ outcome.throws e := by
  induction fuel generalizing denominator numerator with
  | zero => simp [newton_raphson_scaling]
  | succ fuel ih =>
    unfold newton_raphson_scaling
    split
    · simp
    · split
      · exact ih _ _
      · simp

theorem truncate_fraction_no_throw (offset limit : Int) (fuel : Nat) (ds : List Int)
    (e : exception) : truncate_fraction offset limit fuel ds ≠ outcome.throws e := by
  induction fuel generalizing ds with
  | zero => simp [truncate_fraction]
  | succ fuel ih =>
    unfold truncate_fraction
    split
    · split
      · simp
      · exact ih _
    · simp

theorem newton_raphson_loop_no_throw (T_MAX : Int) (numerator denominator max_error :
    exact_number) (limit : Int) (fuel : Nat) (reciprocal answer : exact_number)
    (e : exception) :
    newton_raphson_loop T_MAX numerator denominator max_error limit fuel reciprocal answer
      ≠ outcome.throws e := by
  induction fuel generalizing reciprocal answer with
  | zero => simp [newton_raphson_loop]
  | succ fuel ih =>
    intro h
    unfold newton_raphson_loop at h
    rcases bind_throws _ _ e h with h1 | ⟨ds, _, h2⟩
    · exact truncate_fraction_no_throw _ _ _ _ _ h1
    · rcases bind_throws _ _ e h2 with h3 | ⟨ps, _, h4⟩
      · exact truncate_fraction_no_throw _ _ _ _ _ h3
      · dsimp only at h4
        split at h4
        · simp at h4
        · split at h4
          · exact ih _ _ h4
          · simp at h4

/-- The only exception `binary_search_division` throws at a precision of at most `2^31`
is `divide_by_zero`. -/
theorem binary_search_division_throws (T_MAX : Int) (fuel : Nat) (x divisor : exact_number)
    (p : Nat) (e : exception) (hp : (p : Int) ≤ max_precision)
    (h : binary_search_division T_MAX fuel x divisor p = outcome.throws e) :
    e = exception.divide_by_zero := by
  unfold binary_search_division at h
  rw [if_neg (by omega)] at h
  split at h
  · injection h with h; exact h.symm
  · split at h
    · simp at h
    · split at h
      · simp at h
      · split at h
        · simp at h
        · split at h
          · simp at h
          · dsimp only at h
            exact absurd (ite_ok_bind_throws _ _ _ _ e h)
              (binary_search_loop_no_throw _ _ _ _ _ _ _ _ _ _ _ _ _)

theorem newton_raphson_body_throws (T_MAX : Int) (fuel : Nat) (x divisor : exact_number)
    (p : Nat) (upper : Bool) (e : exception) (hp : (p : Int) ≤ max_precision)
    (h : newton_raphson_body T_MAX fuel x divisor p upper = outcome.throws e) :
    e = exception.divide_by_zero := by
  unfold newton_raphson_body at h
  rcases bind_throws _ _ e h with h1 | ⟨s, _, h2⟩
  · exact absurd h1 (newton_raphson_scaling_no_throw _ _ _ _ _)
  · rcases bind_throws _ _ e h2 with h3 | ⟨r, _, h4⟩
    · exact binary_search_division_throws T_MAX fuel _ _ p e hp h3
    · rcases bind_throws _ _ e h4 with h5 | ⟨a, _, h6⟩
      · exact absurd h5 (newton_raphson_loop_no_throw _ _ _ _ _ _ _ _ _)
      · simp at h6

/-! ## Claims on the division -/

theorem radix_int : radix 2147483647 = 1073741822 := by decide

theorem divide_five_by_seven_upper :
    divide_vector 2147483647 200 ⟨[5], 1, true⟩ ⟨[7], 1, true⟩ 1 true
      = outcome.ok ⟨[766958444], 0, true⟩ := by decide!

/-- C16, the defect: at `x = 5`, `y = 7`, `p = 1` and `upper = true` (normalized
operands, `T = int`, `B = 1073741822`), `x.divide_vector(y, p, upper)` returns the one
digit `766958444` with exponent 0, a `q` below `x/y`: the residual `q·y − x` is negative,
outside the interval `[0, B^(−p)]` of the claim, and the error of the quotient is
negative too, against the comment `upper: if true: error lies in [0, +epsilon]` of the
source. -/
theorem divide_vector_upper_below :
    is_normalized ⟨[5], 1, true⟩ ∧ is_normalized ⟨[7], 1, true⟩
    ∧ ∃ q, divide_vector 2147483647 200 ⟨[5], 1, true⟩ ⟨[7], 1, true⟩ 1 true = outcome.ok q
      ∧ value (radix 2147483647) q * value (radix 2147483647) ⟨[7], 1, true⟩
          - value (radix 2147483647) ⟨[5], 1, true⟩ < 0
      ∧ value (radix 2147483647) q
          < value (radix 2147483647) ⟨[5], 1, true⟩ / value (radix 2147483647) ⟨[7], 1, true⟩ := by
  rw [radix_int]
  refine ⟨by decide, by decide, _, divide_five_by_seven_upper, ?_, ?_⟩ <;>
    norm_num [value, magnitude]

/-- C17 (amended): for every dividend `x`, either value of `upper` and every precision
`p ≤ 2^31`, `x.divide_vector(d, p, upper)` with a divisor `d` whose digits are `[0]` or
empty fails with `divide_by_zero`. -/
theorem divide_vector_by_zero (T_MAX : Int) (fuel : Nat) (x d : exact_number) (p : Nat)
    (upper : Bool) (hp : (p : Int) ≤ 2147483648) (hd : d.digits = [0] ∨ d.digits = []) :
    divide_vector T_MAX fuel x d p upper = outcome.throws exception.divide_by_zero := by
  unfold divide_vector newton_raphson_division
  rw [if_neg (by unfold max_precision; omega), if_pos (operator_eq_default_of_zero d hd)]

theorem divide_vector_by_zero_witness :
    ((10 : Nat) : Int) ≤ 2147483648
    ∧ divide_vector 2147483647 100 ⟨[1], 1, true⟩ ⟨[0], 0, true⟩ 10 false
      = outcome.throws exception.divide_by_zero :=
  ⟨by decide, divide_vector_by_zero 2147483647 100 ⟨[1], 1, true⟩ ⟨[0], 0, true⟩ 10 false
    (by decide) (Or.inl rfl)⟩

/-- C17 as stated fails: at the precision `2^31 + 1` the division by the canonical zero
fails with `exponent_overflow_exception`, not with `divide_by_zero`. -/
theorem divide_vector_by_zero_counterexample :
    (2147483649 : Nat) < 4294967296
    ∧ divide_vector 2147483647 100 ⟨[1], 1, true⟩ ⟨[0], 0, true⟩ 2147483649 false
      = outcome.throws exception.exponent_overflow_exception
    ∧ divide_vector 2147483647 100 ⟨[1], 1, true⟩ ⟨[0], 0, true⟩ 2147483649 false
      ≠ outcome.throws exception.divide_by_zero := by
  decide

/-- C18: for every `x`, every divisor `d` and every unsigned 32-bit precision `p`,
`newton_raphson_division(d, p, upper)` fails with `exponent_overflow_exception` when
`p > 2^31`, and never fails with `exponent_overflow_exception` when `p ≤ 2^31`. -/
theorem newton_raphson_division_overflow (T_MAX : Int) (fuel : Nat) (x d : exact_number)
    (p : Nat) (upper : Bool) (_hp : p < 4294967296) :
    ((p : Int) > 2147483648 →
      newton_raphson_division T_MAX fuel x d p upper
        = outcome.throws exception.exponent_overflow_exception)
    ∧ ((p : Int) ≤ 2147483648 →
      newton_raphson_division T_MAX fuel x d p upper
        ≠ outcome.throws exception.exponent_overflow_exception) := by
  constructor
  · intro h
    unfold newton_raphson_division
    rw [if_pos (by unfold max_precision; omega)]
  · intro h hc
    unfold newton_raphson_division at hc
    rw [if_neg (by unfold max_precision; omega)] at hc
    split at hc
    · simp at hc
    · split at hc
      · simp at hc
      · split at hc
        · simp at hc
        · split at hc
          · simp at hc
          · split at hc
            · simp at hc
            · have := newton_raphson_body_throws T_MAX fuel x d p upper _
                (by unfold max_precision; omega) hc
              simp at this

theorem newton_raphson_division_overflow_witness :
    (3000000000 : Nat) < 4294967296
    ∧ newton_raphson_division 2147483647 100 ⟨[1], 1, true⟩ ⟨[3], 1, true⟩ 3000000000 true
      = outcome.throws exception.exponent_overflow_exception :=
  ⟨by decide, (newton_raphson_division_overflow 2147483647 100 ⟨[1], 1, true⟩ ⟨[3], 1, true⟩
    3000000000 true (by decide)).1 (by decide)⟩

theorem operator_eq_minus_one_negative (d : exact_number)
    (h : operator_eq d ⟨[1], 1, false⟩ = true) : d.positive = false := by
  cases hp : d.positive with
  | false => rfl
  | true =>
    exfalso
    have hlt : operator_lt ⟨[1], 1, false⟩ d = true := by
      unfold operator_lt
      by_cases hz : d.digits = [0] ∨ d.digits = []
      · simp [hz]
      · simp [hz, hp]
    simp [operator_eq, hlt] at h

theorem operator_eq_minus_one_not_one (d : exact_number)
    (h : operator_eq d ⟨[1], 1, false⟩ = true) : operator_eq d ⟨[1], 1, true⟩ = false := by
  have hneg := operator_eq_minus_one_negative d h
  by_cases hz : d.digits = [0] ∨ d.digits = []
  · exfalso
    have hlt : operator_lt ⟨[1], 1, false⟩ d = true := by
      unfold operator_lt
      simp [hz]
    simp [operator_eq, hlt] at h
  · have hlt : operator_lt d ⟨[1], 1, true⟩ = true := by
      unfold operator_lt
      simp [hz, hneg]
    simp [operator_eq, hlt]

/-- C19: for `p ≤ 2^31` and a non-zero divisor `d`, `newton_raphson_division` returns
without iterating, for every bound on the iterations: `x` unchanged if `x` is zero;
`x` unchanged if `d == 1`; `x` with its sign flipped if `d == −1` and `x` is not zero;
the number 1 (digits `[1]`, exponent 1, positive) if `d == x` and none of the earlier
cases applies.  The cases are tried in the order in which the claim lists them. -/
theorem newton_raphson_division_special (T_MAX : Int) (fuel : Nat) (x d : exact_number)
    (p : Nat) (upper : Bool) (hp : (p : Int) ≤ 2147483648)
    (hd : operator_eq d exact_number.default = false) :
    (operator_eq x exact_number.default = true →
      newton_raphson_division T_MAX fuel x d p upper = outcome.ok x)
    ∧ (operator_eq d ⟨[1], 1, true⟩ = true →
      newton_raphson_division T_MAX fuel x d p upper = outcome.ok x)
    ∧ (operator_eq x exact_number.default = false → operator_eq d ⟨[1], 1, false⟩ = true →
      newton_raphson_division T_MAX fuel x d p upper
        = outcome.ok ⟨x.digits, x.exponent, !x.positive⟩)
    ∧ (operator_eq x exact_number.default = false → operator_eq d ⟨[1], 1, true⟩ = false →
      operator_eq d ⟨[1], 1, false⟩ = false → operator_eq d x = true →
      newton_raphson_division T_MAX fuel x d p upper = outcome.ok ⟨[1], 1, true⟩) := by
  have hmax : ¬ (p : Int) > max_precision := by unfold max_precision; omega
  refine ⟨?_, ?_, ?_, ?_⟩
  · intro h1
    unfold newton_raphson_division
    rw [if_neg hmax, if_neg (by simp [hd]), if_pos h1]
  · intro h2
    unfold newton_raphson_division
    rw [if_neg hmax, if_neg (by simp [hd])]
    by_cases h1 : operator_eq x exact_number.default = true
    · rw [if_pos h1]
    · rw [if_neg h1, if_pos h2]
  · intro h1 h3
    have hneg := operator_eq_minus_one_negative d h3
    have h2 := operator_eq_minus_one_not_one d h3
    unfold newton_raphson_division
    rw [if_neg hmax, if_neg (by simp [hd]), if_neg (by simp [h1]), if_neg (by simp [h2]),
      if_pos h3, hneg]
    cases x.positive <;> rfl
  · intro h1 h2 h3 h4
    unfold newton_raphson_division
    rw [if_neg hmax, if_neg (by simp [hd]), if_neg (by simp [h1]), if_neg (by simp [h2]),
      if_neg (by simp [h3]), if_pos h4]

theorem newton_raphson_division_special_witness :
    ((10 : Nat) : Int) ≤ 2147483648
    ∧ operator_eq ⟨[1], 1, false⟩ exact_number.default = false
    ∧ operator_eq ⟨[5, 7], 1, true⟩ exact_number.default = false
    ∧ operator_eq ⟨[1], 1, false⟩ ⟨[1], 1, false⟩ = true
    ∧ newton_raphson_division 2147483647 0 ⟨[5, 7], 1, true⟩ ⟨[1], 1, false⟩ 10 true
      = outcome.ok ⟨[5, 7], 1, !true⟩ :=
  ⟨by decide, by decide, by decide, by decide,
    (newton_raphson_division_special 2147483647 0 ⟨[5, 7], 1, true⟩ ⟨[1], 1, false⟩ 10 true
      (by decide) (by decide)).2.2.1 (by decide) (by decide)⟩

/-- C20, the failing input: dividing `200` by `10` in base 10 ends in undefined
behaviour.  The remainder is zero and is left as the empty vector; the divisor was
doubled three times, so the remainder is divided by 8 with `DivisionBySingleDigit`,
which reads `dividend[0]` of the empty vector. -/
theorem knuthDivision_exact_undefined :
    knuthDivision [2, 0, 0] [1, 0] [] [] 10 = outcome.undefined
    ∧ long_divide_vectors [2, 0, 0] [1, 0] [] = outcome.undefined
    ∧ DivisionBySingleDigit [] [8] [] [] 10 = outcome.undefined := by
  decide

/-! ## The aligned comparison -/

theorem lexicographic_lt_zeros_left (b : List Int) (hb : ∀ d ∈ b, 0 ≤ d) :
    lexicographic_lt (List.replicate b.length 0) b ↔ ¬ (b.all fun d => decide (d = 0)) = true := by
  induction b with
  | nil => simp [lexicographic_lt]
  | cons x xs ih =>
    have hx : 0 ≤ x := hb x (List.mem_cons_self _ _)
    have ih2 := ih (fun d hd => hb d (List.mem_cons_of_mem _ hd))
    simp only [List.length_cons, List.replicate_succ, lexicographic_lt, ih2, List.all_cons,
      Bool.and_eq_true, decide_eq_true_eq]
    constructor
    · rintro (h | ⟨h, h2⟩)
      · intro ⟨h3, _⟩; omega
      · intro ⟨_, h3⟩; exact h2 h3
    · intro h
      by_cases hx0 : x = 0
      · right; exact ⟨hx0.symm, fun h3 => h ⟨hx0, h3⟩⟩
      · left; omega

theorem lexicographic_lt_zeros_right (a : List Int) (ha : ∀ d ∈ a, 0 ≤ d) :
    ¬ lexicographic_lt a (List.replicate a.length 0) := by
  induction a with
  | nil => simp [lexicographic_lt]
  | cons x xs ih =>
    have hx : 0 ≤ x := ha x (List.mem_cons_self _ _)
    have ih2 := ih (fun d hd => ha d (List.mem_cons_of_mem _ hd))
    simp only [List.length_cons, List.replicate_succ, lexicographic_lt]
    rintro (h | ⟨_, h2⟩)
    · omega
    · exact ih2 h2

/-- C30: for digit vectors `a` and `b` of non-negative digits,
`aligned_vectors_is_lower(a, b, equal)` is true exactly when `a`, padded on the right
with zeros to the longer length, is strictly lexicographically smaller than `b` padded
the same way; the result is the same for `equal = true` and `equal = false`. -/
theorem aligned_vectors_is_lower_lexicographic (a b : List Int) (equal : Bool)
    (ha : ∀ d ∈ a, 0 ≤ d) (hb : ∀ d ∈ b, 0 ≤ d) :
    (aligned_vectors_is_lower a b equal = true ↔
      lexicographic_lt (zero_padded (max a.length b.length) a)
        (zero_padded (max a.length b.length) b))
    ∧ aligned_vectors_is_lower a b true = aligned_vectors_is_lower a b false := by
  induction a generalizing b with
  | nil =>
    cases b with
    | nil => simp [aligned_vectors_is_lower, zero_padded, lexicographic_lt]
    | cons y ys =>
      have h := lexicographic_lt_zeros_left (y :: ys) hb
      simp only [List.length_cons] at h
      simp only [zero_padded, List.length_nil, List.length_cons, Nat.zero_max, Nat.sub_zero,
        List.nil_append, Nat.sub_self, List.replicate_zero, List.append_nil, h]
      simp [aligned_vectors_is_lower]
      tauto
  | cons x xs ih =>
    cases b with
    | nil =>
      have h := lexicographic_lt_zeros_right (x :: xs) ha
      simp only [List.length_cons] at h
      simp only [zero_padded, List.length_nil, List.length_cons, Nat.max_zero, Nat.sub_zero,
        List.nil_append, Nat.sub_self, List.replicate_zero, List.append_nil, h]
      simp [aligned_vectors_is_lower]
    | cons y ys =>
      have ih2 := ih ys (fun d hd => ha d (List.mem_cons_of_mem _ hd))
        (fun d hd => hb d (List.mem_cons_of_mem _ hd))
      have hmax : max (xs.length + 1) (ys.length + 1) = max xs.length ys.length + 1 := by
        omega
      simp only [zero_padded, List.length_cons, hmax, Nat.add_sub_add_right, List.cons_append,
        lexicographic_lt] at ih2 ⊢
      by_cases hxy : x = y
      · subst hxy
        simp only [aligned_vectors_is_lower, if_true, lt_self_iff_false, false_or, true_and]
        exact ih2
      · simp [aligned_vectors_is_lower, hxy]

theorem aligned_vectors_is_lower_lexicographic_witness :
    (∀ d ∈ [1, 2], (0 : Int) ≤ d) ∧ (∀ d ∈ [1, 2, 0, 5], (0 : Int) ≤ d)
    ∧ aligned_vectors_is_lower [1, 2] [1, 2, 0, 5] true = true
    ∧ lexicographic_lt (zero_padded 4 [1, 2]) (zero_padded 4 [1, 2, 0, 5]) :=
  have h := aligned_vectors_is_lower_lexicographic [1, 2] [1, 2, 0, 5] true
    (by decide) (by decide)
  ⟨by decide, by decide, by decide, h.1.mp (by decide)⟩

/-! ## Division by zero in the long division -/

theorem normalize_all_zero (v : List Int) (e : Int) (p : Bool) (hv : v ≠ [])
    (hz : ∀ d ∈ v, d = 0) : (normalize ⟨v, e, p⟩).digits = [0] := by
  have hd : digits_in (2 - 1) v := fun d hd => by rw [hz d hd]; omega
  have hall : (v.all fun d => decide (d = 0)) = true := by
    simp only [List.all_eq_true, decide_eq_true_eq]; exact hz
  have hm := (magnitude_all_zero 2 (by omega) v e hd).mp hall
  have hn := normalize_is_normalized ⟨v, e, p⟩ hv
  have hdn := digits_in_normalize (2 - 1) ⟨v, e, p⟩ hd
  have hmn := magnitude_normalize 2 ⟨v, e, p⟩
  exact (is_normalized_zero 2 (by omega) _ hn hdn (by rw [hmn]; exact hm)).1

theorem dropWhile_zero_head (u : List Int) (hu : ∀ d ∈ u, 0 ≤ d) (a : Int) (as : List Int)
    (h : u.dropWhile (fun d => decide (d = 0)) = a :: as) : 0 < a := by
  have hmem : a ∈ u := by
    have : a ∈ u.dropWhile (fun d => decide (d = 0)) := by rw [h]; exact List.mem_cons_self _ _
    exact (List.dropWhile_sublist _).subset this
  have h0 := hu a hmem
  have hne : ¬ ((fun d : Int => decide (d = 0)) a = true) := by
    have := List.head_dropWhile_not (fun d : Int => decide (d = 0)) u (by rw [h]; simp)
    simp only [h, List.head_cons] at this
    simpa using this
  simp only [decide_eq_true_eq] at hne
  omega

theorem knuthDivision_throws (u v q r : List Int) (base : Int) (hv : v ≠ [])
    (hz : ∀ d ∈ v, d = 0) (hu : ∀ d ∈ u, 0 ≤ d)
    (hlen : v.length ≤ (u.dropWhile fun d => decide (d = 0)).length) :
    knuthDivision u v q r base = outcome.throws exception.divide_by_zero := by
  unfold knuthDivision
  have hvl : 0 < v.length := List.length_pos.mpr hv
  cases hal : u.dropWhile (fun d => decide (d = 0)) with
  | nil => rw [hal, List.length_nil] at hlen; omega
  | cons a as =>
    have ha := dropWhile_zero_head u hu a as hal
    rw [hal] at hlen
    cases v with
    | nil => exact absurd rfl hv
    | cons v0 vs =>
      have hv0 : v0 = 0 := hz v0 (List.mem_cons_self _ _)
      subst hv0
      have hlow : aligned_vectors_is_lower (a :: as) (0 :: vs) false = false := by
        have hne : a ≠ 0 := by omega
        simp only [aligned_vectors_is_lower, if_neg hne, decide_eq_false_iff_not]
        omega
      dsimp only
      have hsecond : ¬ (((a :: as).length = (0 :: vs).length ∧ false = true)
          ∨ (a :: as).length < (0 :: vs).length) := by
        intro h
        rcases h with ⟨_, h⟩ | h
        · cases h
        · omega
      rw [if_neg (by simp), hlow, if_neg hsecond]
      by_cases h1 : (0 :: vs).length = 1
      · rw [if_pos h1]
        simp [DivisionBySingleDigit]
      · rw [if_neg h1, normalize_all_zero (0 :: vs) _ true (by simp) hz]
        simp

theorem knuthDivision_zero_dividend (u v q r : List Int) (base : Int)
    (hz : ∀ d ∈ u, d = 0) : knuthDivision u v q r base = outcome.ok ([], []) := by
  unfold knuthDivision
  have h : u.dropWhile (fun d => decide (d = 0)) = [] := by
    rw [List.dropWhile_eq_nil_iff]
    intro d hd
    simpa using hz d hd
  simp only [h, if_true]

theorem knuthDivision_short_dividend (u v q r : List Int) (base : Int)
    (hne : (u.dropWhile fun d => decide (d = 0)) ≠ [])
    (hlen : (u.dropWhile fun d => decide (d = 0)).length < v.length) :
    knuthDivision u v q r base = outcome.ok ([], u.dropWhile fun d => decide (d = 0)) := by
  unfold knuthDivision
  simp only [if_neg hne, hlen, or_true, if_true]

/-- C22 (amended): for every base and every divisor `v`, zero or not, `knuthDivision`
returns the empty quotient and remainder when all digits of the dividend `u` are 0, and
returns the empty quotient and `u` without its leading zeros as the remainder when that
is not empty and shorter than `v`.  It fails with `divide_by_zero` when `v` is not
empty, all digits of `v` are 0, and `u` (digits non-negative) without its leading zeros
is at least as long as `v`. -/
theorem knuthDivision_zero_divisor (u v q r : List Int) (base : Int) :
    ((∀ d ∈ u, d = 0) → knuthDivision u v q r base = outcome.ok ([], []))
    ∧ ((u.dropWhile fun d => decide (d = 0)) ≠ [] →
        (u.dropWhile fun d => decide (d = 0)).length < v.length →
        knuthDivision u v q r base = outcome.ok ([], u.dropWhile fun d => decide (d = 0)))
    ∧ (v ≠ [] → (∀ d ∈ v, d = 0) → (∀ d ∈ u, 0 ≤ d) →
        v.length ≤ (u.dropWhile fun d => decide (d = 0)).length →
        knuthDivision u v q r base = outcome.throws exception.divide_by_zero) :=
  ⟨knuthDivision_zero_dividend u v q r base, knuthDivision_short_dividend u v q r base,
    knuthDivision_throws u v q r base⟩

theorem knuthDivision_zero_divisor_witness :
    (([0, 0] : List Int) ≠ [] ∧ (∀ d ∈ ([0, 0] : List Int), d = 0)
      ∧ (∀ d ∈ ([0, 1, 2, 3] : List Int), 0 ≤ d)
      ∧ knuthDivision [0, 1, 2, 3] [0, 0] [] [] 10 = outcome.throws exception.divide_by_zero)
    ∧ ((∀ d ∈ ([0, 0] : List Int), d = 0)
      ∧ knuthDivision [0, 0] [0] [] [] 10 = outcome.ok ([], []))
    ∧ knuthDivision [0, 5] [0, 0, 0] [] [] 10
        = outcome.ok ([], ([0, 5] : List Int).dropWhile fun d => decide (d = 0)) :=
  ⟨⟨by decide, by decide, by decide,
      (knuthDivision_zero_divisor [0, 1, 2, 3] [0, 0] [] [] 10).2.2 (by decide) (by decide)
        (by decide) (by decide)⟩,
    ⟨by decide, (knuthDivision_zero_divisor [0, 0] [0] [] [] 10).1 (by decide)⟩,
    (knuthDivision_zero_divisor [0, 5] [0, 0, 0] [] [] 10).2.1 (by decide) (by decide)⟩

/-- C22 as stated fails: with the divisor `[0]` an all-zero dividend returns empty
vectors; with the divisor `[0, 0]` the shorter dividend `[5]` is returned as the
remainder; the divisor `[0, 5]`, whose leading digit is 0, divides `[1, 0, 0]`, and with
the dividend `[7]`, shorter than `[0, 5]` as a vector, it returns `[7]` as the remainder. -/
theorem knuthDivision_zero_divisor_counterexample :
    knuthDivision [0, 0] [0] [] [] 10 = outcome.ok ([], [])
    ∧ knuthDivision [5] [0, 0] [] [] 10 = outcome.ok ([], [5])
    ∧ knuthDivision [1, 0, 0] [0, 5] [] [] 10 = outcome.ok ([2, 0], [])
    ∧ knuthDivision [7] [0, 5] [] [] 10 = outcome.ok ([], [7]) := by
  decide

/-! ## The lexical front end -/

theorem isDigit_ne (c : Char) (h : c.isDigit = true) : c ≠ 'e' ∧ c ≠ '.' ∧ c ≠ '+' ∧ c ≠ '-' := by
  refine ⟨?_, ?_, ?_, ?_⟩ <;> (intro hc; subst hc; revert h; decide)

/-- The loop over a run of digits of the integer part. -/
theorem loop_integer_digits (first : Char) (ds rest : List Char)
    (hds : ∀ c ∈ ds, c.isDigit = true) (index : Nat) (e : Int) (ep : Bool)
    (dsi ic dc irz ilz dlz drz : Nat) :
    number_from_string_loop first (ds ++ rest) index false
        ⟨e, ep, false, false, dsi, ic, dc, irz, ilz, dlz, drz⟩
      = number_from_string_loop first rest (index + ds.length) false
        ⟨e, ep, false, false, dsi, (digit_counts ds (ic, irz, ilz)).1, dc,
          (digit_counts ds (ic, irz, ilz)).2.1, (digit_counts ds (ic, irz, ilz)).2.2, dlz, drz⟩ := by
  induction ds generalizing index ic irz ilz with
  | nil => simp [digit_counts]
  | cons c ds ih =>
    have hc := hds c (List.mem_cons_self _ _)
    obtain ⟨h1, h2, _, _⟩ := isDigit_ne c hc
    have happ : ds.append rest = ds ++ rest := rfl
    have ih2 := fun i a b d => ih (fun c hc => hds c (List.mem_cons_of_mem _ hc)) i a b d
    simp only [List.cons_append, number_from_string_loop, h1, h2, and_false, if_false, hc,
      Bool.true_eq_false, Bool.false_eq_true, digit_counts, List.length_cons]
    by_cases h0 : c = '0'
    · by_cases hic : ic = 0
      · simp only [h0, hic, if_true]
        rw [happ, ih2, show index + 1 + ds.length = index + (ds.length + 1) by omega]
      · simp only [h0, hic, if_true, if_false]
        rw [happ, ih2, show index + 1 + ds.length = index + (ds.length + 1) by omega]
    · simp only [h0, if_false]
      rw [happ, ih2, show index + 1 + ds.length = index + (ds.length + 1) by omega]

theorem digit_value_range (c : Char) (h : c.isDigit = true) :
    0 ≤ digit_value c ∧ digit_value c ≤ 9 := by
  unfold Char.isDigit at h
  simp only [Bool.and_eq_true, decide_eq_true_eq, ge_iff_le] at h
  obtain ⟨h1, h2⟩ := h
  have h1n : (48 : Nat) ≤ c.val.toNat := by
    have := UInt32.le_def.mp h1
    simpa using this
  have h2n : c.val.toNat ≤ 57 := by
    have := UInt32.le_def.mp h2
    simpa using this
  unfold digit_value Char.toNat
  omega

theorem to_signed_id (x : Int) (h0 : -2147483648 ≤ x) (h1 : x < 2147483648) : to_signed x = x := by
  unfold to_signed
  split <;> omega

theorem foldl_decimal_le (ds : List Char) (hds : ∀ c ∈ ds, c.isDigit = true) (e : Int)
    (he : 0 ≤ e) : e ≤ ds.foldl (fun a c => a * 10 + digit_value c) e := by
  induction ds generalizing e with
  | nil => simp
  | cons c ds ih =>
    have hc := digit_value_range c (hds c (List.mem_cons_self _ _))
    have := ih (fun c hc => hds c (List.mem_cons_of_mem _ hc)) (e * 10 + digit_value c) (by omega)
    simp only [List.foldl_cons]
    omega

/-- The loop over a run of digits of the decimal part. -/
theorem loop_decimal_digits (first : Char) (ds rest : List Char)
    (hds : ∀ c ∈ ds, c.isDigit = true) (index : Nat) (e : Int) (ep : Bool)
    (dsi ic dc irz ilz dlz drz : Nat) :
    number_from_string_loop first (ds ++ rest) index false
        ⟨e, ep, false, true, dsi, ic, dc, irz, ilz, dlz, drz⟩
      = number_from_string_loop first rest (index + ds.length) false
        ⟨e, ep, false, true, dsi, ic, (digit_counts ds (dc, drz, dlz)).1, irz, ilz,
          (digit_counts ds (dc, drz, dlz)).2.2, (digit_counts ds (dc, drz, dlz)).2.1⟩ := by
  induction ds generalizing index dc drz dlz with
  | nil => simp [digit_counts]
  | cons c ds ih =>
    have hc := hds c (List.mem_cons_self _ _)
    obtain ⟨h1, h2, _, _⟩ := isDigit_ne c hc
    have happ : ds.append rest = ds ++ rest := rfl
    have ih2 := fun i a b d => ih (fun c hc => hds c (List.mem_cons_of_mem _ hc)) i a b d
    simp only [List.cons_append, number_from_string_loop, h1, h2, and_false, if_false, hc,
      Bool.true_eq_false, Bool.false_eq_true, digit_counts, List.length_cons, if_true]
    by_cases h0 : c = '0'
    · by_cases hic : dc = 0
      · simp only [h0, hic, if_true]
        rw [happ, ih2, show index + 1 + ds.length = index + (ds.length + 1) by omega]
      · simp only [h0, hic, if_true, if_false]
        rw [happ, ih2, show index + 1 + ds.length = index + (ds.length + 1) by omega]
    · simp only [h0, if_false]
      rw [happ, ih2, show index + 1 + ds.length = index + (ds.length + 1) by omega]

/-- The two steps `exponent *= 10; exponent += digit` of the parser: the new value when
both results are values of `int`, undefined behaviour otherwise. -/
theorem exponent_step_eq {β : Type} (e d : Int) (f : Int → outcome β) :
    ((checked 2147483647 (e * 10)).bind fun x => (checked 2147483647 (x + d)).bind f)
      = if (-2147483647 - 1 ≤ e * 10 ∧ e * 10 ≤ 2147483647)
            ∧ (-2147483647 - 1 ≤ e * 10 + d ∧ e * 10 + d ≤ 2147483647)
        then f (e * 10 + d) else outcome.undefined := by
  rcases checked_cases 2147483647 (e * 10) with ⟨h1, h2⟩ | ⟨h1, h2⟩
  · rcases checked_cases 2147483647 (e * 10 + d) with ⟨h3, h4⟩ | ⟨h3, h4⟩
    · rw [h1, bind_ok_eq, h3, bind_ok_eq, if_pos ⟨h2, h4⟩]
    · rw [h1, bind_ok_eq, h3, bind_undefined_eq, if_neg (fun h => h4 h.2)]
  · rw [h1, bind_undefined_eq, if_neg (fun h => h2 h.1)]

/-- The loop over a run of digits of the exponent, when the exponent does not overflow. -/
theorem loop_exponent_digits (first : Char) (ds rest : List Char)
    (hds : ∀ c ∈ ds, c.isDigit = true) (index : Nat) (e : Int) (ep hd : Bool)
    (dsi ic dc irz ilz dlz drz : Nat) (he : 0 ≤ e)
    (hlt : ds.foldl (fun a c => a * 10 + digit_value c) e < 2147483648) :
    number_from_string_loop first (ds ++ rest) index false
        ⟨e, ep, true, hd, dsi, ic, dc, irz, ilz, dlz, drz⟩
      = number_from_string_loop first rest (index + ds.length) false
        ⟨ds.foldl (fun a c => a * 10 + digit_value c) e, ep, true, hd, dsi, ic, dc, irz, ilz,
          dlz, drz⟩ := by
  induction ds generalizing index e with
  | nil => simp
  | cons c ds ih =>
    have hc := hds c (List.mem_cons_self _ _)
    have hr := digit_value_range c hc
    have hds2 : ∀ c ∈ ds, c.isDigit = true := fun c hc => hds c (List.mem_cons_of_mem _ hc)
    simp only [List.foldl_cons] at hlt
    have hle := foldl_decimal_le ds hds2 (e * 10 + digit_value c) (by omega)
    have happ : ds.append rest = ds ++ rest := rfl
    have e1 : checked 2147483647 (e * 10) = outcome.ok (e * 10) :=
      checked_ok _ _ ⟨by omega, by omega⟩
    have e2 : checked 2147483647 (e * 10 + digit_value c)
        = outcome.ok (e * 10 + digit_value c) := checked_ok _ _ ⟨by omega, by omega⟩
    simp only [List.cons_append, number_from_string_loop, Bool.true_eq_false, false_and,
      if_false, hc, Bool.false_eq_true, if_true, e1, e2, bind_ok_eq, List.foldl_cons,
      List.length_cons]
    rw [if_neg (by omega), happ, ih hds2 _ _ (by omega) hlt,
      show index + 1 + ds.length = index + (ds.length + 1) by omega]

theorem strip_trailing_zeros_cons (c : Char) (cs : List Char) :
    strip_trailing_zeros (c :: cs)
      = if strip_trailing_zeros cs = [] ∧ c = '0' then [] else c :: strip_trailing_zeros cs := by
  simp only [strip_trailing_zeros]

theorem strip_trailing_zeros_decomp (x : List Char) :
    x = strip_trailing_zeros x
      ++ List.replicate (x.length - (strip_trailing_zeros x).length) '0'
    ∧ (strip_trailing_zeros x).length ≤ x.length := by
  induction x with
  | nil => simp [strip_trailing_zeros]
  | cons c cs ih =>
    obtain ⟨ih1, ih2⟩ := ih
    unfold strip_trailing_zeros
    by_cases h : strip_trailing_zeros cs = [] ∧ c = '0'
    · rw [if_pos h]
      obtain ⟨h1, h2⟩ := h
      rw [h1] at ih1
      simp only [List.length_nil, Nat.sub_zero, List.nil_append] at ih1 ⊢
      refine ⟨?_, Nat.zero_le _⟩
      rw [List.length_cons, List.replicate_succ, ← ih1, h2]
    · rw [if_neg h]
      simp only [List.length_cons, Nat.add_sub_add_right, List.cons_append]
      exact ⟨by rw [← ih1], by omega⟩

theorem strip_trailing_zeros_take (x : List Char) :
    x.take (strip_trailing_zeros x).length = strip_trailing_zeros x := by
  have h := (strip_trailing_zeros_decomp x).1
  generalize strip_trailing_zeros x = s at h ⊢
  generalize x.length - s.length = k at h
  subst h
  exact List.take_left' rfl

theorem strip_trailing_zeros_snoc (y : List Char) (c : Char) :
    strip_trailing_zeros (y ++ [c]) = if c = '0' then strip_trailing_zeros y else y ++ [c] := by
  induction y with
  | nil =>
    by_cases h : c = '0' <;> simp [strip_trailing_zeros, h]
  | cons d ds ih =>
    rw [List.cons_append, strip_trailing_zeros_cons, ih, strip_trailing_zeros_cons]
    by_cases h : c = '0'
    · simp only [h, if_true]
    · simp [h]

theorem trailing_zeros_index_append (y w : List Char) (idx : Nat) (h : idx ≤ y.length) :
    trailing_zeros_index (y ++ w) idx = trailing_zeros_index y idx := by
  induction idx with
  | zero => simp [trailing_zeros_index]
  | succ n ih =>
    have hn : n < y.length := by omega
    simp only [trailing_zeros_index, List.getD_eq_getElem?_getD, List.getElem?_append_left hn,
      ih (by omega)]

theorem trailing_zeros_index_strip (x : List Char) :
    trailing_zeros_index x x.length = (strip_trailing_zeros x).length := by
  induction x using List.reverseRecOn with
  | nil => simp [trailing_zeros_index, strip_trailing_zeros]
  | append_singleton y c ih =>
    rw [strip_trailing_zeros_snoc]
    simp only [List.length_append, List.length_singleton, trailing_zeros_index,
      List.getD_eq_getElem?_getD]
    rw [List.getElem?_append_right (le_refl _)]
    simp only [Nat.sub_self, List.getElem?_cons_zero, Option.getD_some]
    by_cases h : c = '0'
    · rw [if_pos h, if_pos h, trailing_zeros_index_append y [c] _ (le_refl _), ih]
    · rw [if_neg h, if_neg h]; simp

theorem trim_trailing_zeros_strip (x : List Char) (h : x = [] ∨ strip_trailing_zeros x ≠ []) :
    trim_trailing_zeros x = outcome.ok (strip_trailing_zeros x) := by
  unfold trim_trailing_zeros
  by_cases hx : x = []
  · subst hx; simp [strip_trailing_zeros]
  · have hs : strip_trailing_zeros x ≠ [] := h.resolve_left hx
    rw [if_neg hx, trailing_zeros_index_strip, if_neg (by simpa using hs)]
    simp [substr, strip_trailing_zeros_take]

theorem strip_trailing_zeros_idem (x : List Char) :
    strip_trailing_zeros (strip_trailing_zeros x) = strip_trailing_zeros x := by
  induction x with
  | nil => simp [strip_trailing_zeros]
  | cons c cs ih =>
    by_cases h : strip_trailing_zeros cs = [] ∧ c = '0'
    · simp [strip_trailing_zeros, h]
    · have e1 : strip_trailing_zeros (c :: cs) = c :: strip_trailing_zeros cs := by
        simp only [strip_trailing_zeros, if_neg h]
      rw [e1]
      simp only [strip_trailing_zeros, ih, if_neg h]

theorem strip_trailing_zeros_append (a b : List Char) :
    strip_trailing_zeros (a ++ b)
      = if strip_trailing_zeros b = [] then strip_trailing_zeros a
        else a ++ strip_trailing_zeros b := by
  induction a with
  | nil =>
    by_cases h : strip_trailing_zeros b = [] <;> simp [h, strip_trailing_zeros]
  | cons c cs ih =>
    rw [List.cons_append, strip_trailing_zeros_cons, ih, strip_trailing_zeros_cons]
    by_cases h : strip_trailing_zeros b = []
    · simp only [h, if_true]
    · simp [h]

theorem strip_trailing_zeros_head (x : List Char) (c : Char) (h : x.head? = some c)
    (hc : c ≠ '0') : strip_trailing_zeros x ≠ [] := by
  cases x with
  | nil => simp at h
  | cons d ds =>
    simp only [List.head?_cons, Option.some.injEq] at h
    subst h
    simp [strip_trailing_zeros, hc]

theorem digit_counts_counting (ds : List Char) (k r l : Nat) (hk : 0 < k) :
    digit_counts ds (k, r, l)
      = (if strip_trailing_zeros ds = [] then k else k + r + (strip_trailing_zeros ds).length,
         if strip_trailing_zeros ds = [] then r + ds.length
           else ds.length - (strip_trailing_zeros ds).length, l) := by
  induction ds generalizing k r with
  | nil => simp [digit_counts, strip_trailing_zeros]
  | cons c ds ih =>
    have hle := (strip_trailing_zeros_decomp ds).2
    simp only [digit_counts, List.length_cons]
    by_cases h0 : c = '0'
    · rw [if_pos h0, if_neg (by omega), ih k (r + 1) hk]
      by_cases hs : strip_trailing_zeros ds = []
      · have e1 : strip_trailing_zeros (c :: ds) = [] := by
          rw [strip_trailing_zeros_cons, if_pos ⟨hs, h0⟩]
        rw [e1, hs]
        simp only [if_true, Prod.mk.injEq, true_and, and_true]
        omega
      · have e1 : strip_trailing_zeros (c :: ds) = c :: strip_trailing_zeros ds := by
          rw [strip_trailing_zeros_cons, if_neg (fun h => hs h.1)]
        rw [e1, if_neg hs, if_neg hs, if_neg (List.cons_ne_nil _ _),
          if_neg (List.cons_ne_nil _ _)]
        simp only [List.length_cons, Prod.mk.injEq, and_true]
        constructor <;> omega
    · have e1 : strip_trailing_zeros (c :: ds) = c :: strip_trailing_zeros ds := by
        rw [strip_trailing_zeros_cons, if_neg (fun h => h0 h.2)]
      rw [if_neg h0, ih (k + 1 + r) 0 (by omega), e1, if_neg (List.cons_ne_nil _ _),
        if_neg (List.cons_ne_nil _ _)]
      by_cases hs : strip_trailing_zeros ds = []
      · rw [if_pos hs, if_pos hs]
        simp only [hs, List.length_cons, List.length_nil, Prod.mk.injEq, and_true]
        constructor <;> omega
      · rw [if_neg hs, if_neg hs]
        simp only [List.length_cons, Prod.mk.injEq, and_true]
        constructor <;> omega

theorem leading_zeros_cons (c : Char) (ds : List Char) :
    leading_zeros (c :: ds) = if c = '0' then leading_zeros ds + 1 else 0 := by
  by_cases h0 : c = '0' <;> simp [leading_zeros, h0]

theorem strip_leading_zeros_cons (c : Char) (ds : List Char) :
    strip_leading_zeros (c :: ds) = if c = '0' then strip_leading_zeros ds else c :: ds := by
  by_cases h0 : c = '0' <;> simp [strip_leading_zeros, h0]

theorem digit_counts_leading (ds : List Char) (l : Nat) :
    digit_counts ds (0, 0, l)
      = ((strip_trailing_zeros (strip_leading_zeros ds)).length,
         ds.length - leading_zeros ds - (strip_trailing_zeros (strip_leading_zeros ds)).length,
         l + leading_zeros ds) := by
  induction ds generalizing l with
  | nil => simp [digit_counts, strip_trailing_zeros, strip_leading_zeros, leading_zeros]
  | cons c ds ih =>
    have hle := (strip_trailing_zeros_decomp ds).2
    simp only [digit_counts, List.length_cons]
    rw [leading_zeros_cons, strip_leading_zeros_cons]
    by_cases h0 : c = '0'
    · simp only [h0, if_true, ih (l + 1), Prod.mk.injEq, true_and]
      constructor <;> omega
    · rw [if_neg h0, digit_counts_counting ds _ _ _ (by omega), if_neg h0, if_neg h0]
      have e1 : strip_trailing_zeros (c :: ds) = c :: strip_trailing_zeros ds := by
        rw [strip_trailing_zeros_cons, if_neg (fun h => h0 h.2)]
      rw [e1]
      by_cases hs : strip_trailing_zeros ds = []
      · rw [if_pos hs, if_pos hs]
        simp only [hs, List.length_cons, List.length_nil, Prod.mk.injEq]
        refine ⟨trivial, by omega, by omega⟩
      · rw [if_neg hs, if_neg hs]
        simp only [List.length_cons, Prod.mk.injEq]
        refine ⟨by omega, by omega, by omega⟩

theorem leading_zeros_le (ds : List Char) : leading_zeros ds ≤ ds.length := by
  unfold leading_zeros
  exact (List.takeWhile_sublist _).length_le

theorem leading_zeros_decomp (ds : List Char) :
    ds = List.replicate (leading_zeros ds) '0' ++ strip_leading_zeros ds := by
  induction ds with
  | nil => simp [leading_zeros, strip_leading_zeros]
  | cons c cs ih =>
    by_cases h0 : c = '0'
    · simp only [leading_zeros, strip_leading_zeros, h0, List.takeWhile_cons, decide_True,
        if_true, List.length_cons, List.replicate_succ, List.dropWhile_cons, List.cons_append,
        List.cons.injEq, true_and]
      exact ih
    · simp [leading_zeros, strip_leading_zeros, h0]

theorem drop_leading_zeros (ds : List Char) :
    ds.drop (leading_zeros ds) = strip_leading_zeros ds := by
  have h := leading_zeros_decomp ds
  generalize strip_leading_zeros ds = t at h ⊢
  generalize hk : leading_zeros ds = k at h ⊢
  rw [h, List.drop_left' (by simp)]

theorem strip_leading_zeros_head (ds : List Char) : (strip_leading_zeros ds).head? ≠ some '0' := by
  induction ds with
  | nil => simp [strip_leading_zeros]
  | cons c cs ih =>
    by_cases h0 : c = '0'
    · simpa [strip_leading_zeros, h0] using ih
    · simp [strip_leading_zeros, h0]

theorem strip_leading_zeros_length (ds : List Char) :
    (strip_leading_zeros ds).length + leading_zeros ds = ds.length := by
  have h := congrArg List.length (leading_zeros_decomp ds)
  simp only [List.length_append, List.length_replicate] at h
  omega

/-- The stripped form of the decimal digits in terms of their leading zeros. -/
theorem strip_trailing_zeros_leading (ds : List Char) :
    (strip_trailing_zeros ds).length
      = if strip_trailing_zeros (strip_leading_zeros ds) = [] then 0
        else leading_zeros ds + (strip_trailing_zeros (strip_leading_zeros ds)).length := by
  have h := leading_zeros_decomp ds
  have e : strip_trailing_zeros ds
      = strip_trailing_zeros (List.replicate (leading_zeros ds) '0' ++ strip_leading_zeros ds) := by
    rw [← h]
  rw [e, strip_trailing_zeros_append]
  by_cases hs : strip_trailing_zeros (strip_leading_zeros ds) = []
  · simp only [hs, if_true]
    have : ∀ n, strip_trailing_zeros (List.replicate n '0') = [] := by
      intro n
      induction n with
      | zero => simp [strip_trailing_zeros]
      | succ n ih => simp [List.replicate_succ, strip_trailing_zeros_cons, ih]
    rw [this]; rfl
  · simp [hs]

theorem loop_exponent_chars (first : Char) (expo : Option (List Char × List Char))
    (hexpo : ∀ es ds3, expo = some (es, ds3) → is_sign es ∧ is_digits ds3)
    (hlt : decimal_value (expo.getD ([], [])).2 < 2147483648)
    (index : Nat) (hd : Bool) (dsi ic dc irz ilz dlz drz : Nat) :
    number_from_string_loop first (exponent_chars expo) index false
        ⟨0, true, false, hd, dsi, ic, dc, irz, ilz, dlz, drz⟩
      = outcome.ok ⟨decimal_value (expo.getD ([], [])).2,
          !decide ((expo.getD ([], [])).1 = ['-']), expo.isSome, hd, dsi, ic, dc, irz, ilz,
          dlz, drz⟩ := by
  cases expo with
  | none => simp [exponent_chars, number_from_string_loop, decimal_value]
  | some p =>
    obtain ⟨es, ds3⟩ := p
    obtain ⟨hes, hds3⟩ := hexpo es ds3 rfl
    simp only [Option.getD_some] at hlt ⊢
    have hfin := fun i ep =>
      loop_exponent_digits first ds3 [] hds3 i 0 ep hd dsi ic dc irz ilz dlz drz (le_refl _) hlt
    simp only [List.append_nil, number_from_string_loop] at hfin
    have hhead : ∀ c, ds3.head? = some c → c ≠ '-' ∧ c ≠ '+' := by
      intro c hc
      have hm : c ∈ ds3 := by
        cases ds3 with
        | nil => simp at hc
        | cons d ds => simp at hc; subst hc; exact List.mem_cons_self _ _
      have := isDigit_ne c (hds3 c hm)
      exact ⟨this.2.2.2, this.2.2.1⟩
    rcases hes with h | h | h
    · subst h
      simp only [exponent_chars, List.nil_append, number_from_string_loop, true_and, if_true]
      have h1 : ds3.head? ≠ some '-' := fun h => (hhead _ h).1 rfl
      have h2 : ds3.head? ≠ some '+' := fun h => (hhead _ h).2 rfl
      simp only [h1, h2, decide_False, Bool.or_self, if_false]
      rw [hfin]
      simp [decimal_value]
    · subst h
      simp only [exponent_chars, number_from_string_loop, true_and, if_true, List.cons_append,
        List.nil_append, List.head?_cons]
      simp only [show (some '+' = some '-') = False by decide, decide_False, decide_True,
        Bool.false_or, if_false]
      rw [show ([] : List Char).append ds3 = ds3 from rfl, hfin]
      simp [decimal_value]
    · subst h
      simp only [exponent_chars, number_from_string_loop, true_and, if_true, List.cons_append,
        List.nil_append, List.head?_cons, decide_True, Bool.true_or]
      rw [show ([] : List Char).append ds3 = ds3 from rfl, hfin]
      simp [decimal_value]

/-- The loop of `number_from_string` on a well-formed numeral ends in `scan_final`. -/
theorem loop_numeral (first : Char) (sign ds : List Char) (frac : Option (List Char))
    (expo : Option (List Char × List Char)) (hw : well_formed sign ds frac expo)
    (hlt : decimal_value (expo.getD ([], [])).2 < 2147483648) :
    number_from_string_loop first (ds ++ (fraction_chars frac ++ exponent_chars expo))
        sign.length false scan_state.initial
      = outcome.ok (scan_final sign ds frac expo) := by
  obtain ⟨_, hds, hfrac, hexpo⟩ := hw
  unfold scan_state.initial scan_final
  rw [loop_integer_digits first ds _ hds, digit_counts_leading]
  cases frac with
  | none =>
    simp only [fraction_chars, List.nil_append, Option.getD_none, Option.isSome_none,
      Bool.false_eq_true, if_false, strip_leading_zeros, List.dropWhile_nil, strip_trailing_zeros,
      List.length_nil, leading_zeros, List.takeWhile_nil, Nat.sub_self, Nat.zero_add]
    rw [loop_exponent_chars first expo hexpo hlt]
  | some fp =>
    have hfp := hfrac fp rfl
    simp only [fraction_chars, List.cons_append, number_from_string_loop, true_and,
      show ('.' : Char) ≠ 'e' by decide, if_false, and_self, if_true, Option.getD_some,
      Option.isSome_some]
    rw [show (fp.append (exponent_chars expo)) = fp ++ exponent_chars expo from rfl,
      loop_decimal_digits first fp _ hfp, digit_counts_leading,
      loop_exponent_chars first expo hexpo hlt]
    simp

theorem body_head (ds : List Char) (frac : Option (List Char))
    (expo : Option (List Char × List Char)) (hds : is_digits ds) :
    (ds ++ (fraction_chars frac ++ exponent_chars expo)).head? ≠ some '-'
    ∧ (ds ++ (fraction_chars frac ++ exponent_chars expo)).head? ≠ some '+' := by
  cases ds with
  | cons c cs =>
    have := isDigit_ne c (hds c (List.mem_cons_self _ _))
    simp only [List.cons_append, List.head?_cons, ne_eq, Option.some.injEq]
    exact ⟨this.2.2.2, this.2.2.1⟩
  | nil =>
    cases frac with
    | some fp => simp [fraction_chars]
    | none =>
      cases expo with
      | some p => simp [fraction_chars, exponent_chars]
      | none => simp [fraction_chars, exponent_chars]

theorem numeral_sign (sign ds : List Char) (frac : Option (List Char))
    (expo : Option (List Char × List Char)) (hs : is_sign sign) (hds : is_digits ds) :
    (!decide ((numeral sign ds frac expo).head? = some '-')) = !decide (sign = ['-'])
    ∧ has_sign (numeral sign ds frac expo) = sign.length
    ∧ (numeral sign ds frac expo).drop sign.length
        = ds ++ (fraction_chars frac ++ exponent_chars expo) := by
  obtain ⟨h1, h2⟩ := body_head ds frac expo hds
  unfold has_sign numeral
  rcases hs with h | h | h
  · subst h
    simp only [List.nil_append, h1, h2, decide_False, or_self, if_false, List.length_nil,
      List.drop_zero, and_self, and_true]
    decide
  · subst h
    simp
  · subst h
    simp

theorem substr_integer (sign ds tail : List Char) :
    substr (sign ++ (ds ++ tail)) (sign.length + leading_zeros ds)
        (ds.length - leading_zeros ds)
      = strip_leading_zeros ds := by
  have hlen := strip_leading_zeros_length ds
  have hle := leading_zeros_le ds
  unfold substr
  rw [← List.drop_drop, List.drop_left' rfl, List.drop_append_of_le_length hle,
    drop_leading_zeros, List.take_left' (by omega)]

theorem substr_decimal (sign ds fp tail : List Char) (a n : Nat) (h : a + n ≤ fp.length) :
    substr (sign ++ (ds ++ ('.' :: fp ++ tail))) (sign.length + ds.length + 1 + a) n
      = (fp.drop a).take n := by
  unfold substr
  have e : sign ++ (ds ++ ('.' :: fp ++ tail)) = (sign ++ ds ++ ['.']) ++ (fp ++ tail) := by
    simp
  rw [e, show sign.length + ds.length + 1 + a = (sign ++ ds ++ ['.']).length + a by
      simp only [List.length_append, List.length_singleton],
    ← List.drop_drop, List.drop_left' rfl, List.drop_append_of_le_length (by omega),
    List.take_append_of_le_length (by simp only [List.length_drop]; omega)]

theorem substr_zero_count (l : List Char) (pos : Nat) : substr l pos 0 = [] := by
  simp [substr]

theorem decimal_value_nonneg (ds : List Char) (hds : is_digits ds) : 0 ≤ decimal_value ds :=
  foldl_decimal_le ds hds 0 (le_refl _)

theorem exponent_value_eq (expo : Option (List Char × List Char)) :
    (if (!decide ((expo.getD ([], [])).1 = ['-'])) = false
      then to_signed (decimal_value (expo.getD ([], [])).2 * -1)
      else decimal_value (expo.getD ([], [])).2) =
    if (expo.getD ([], [])).1 = ['-'] then to_signed (-decimal_value (expo.getD ([], [])).2)
      else decimal_value (expo.getD ([], [])).2 := by
  by_cases h : (expo.getD ([], [])).1 = ['-'] <;> simp [h]

theorem exponent_value_getD (expo : Option (List Char × List Char)) :
    exponent_value expo
      = if (expo.getD ([], [])).1 = ['-'] then -decimal_value (expo.getD ([], [])).2
        else decimal_value (expo.getD ([], [])).2 := by
  cases expo with
  | none => simp [exponent_value, decimal_value]
  | some p => obtain ⟨es, ds⟩ := p; simp [exponent_value]

theorem trim_strip (y : List Char) :
    trim_trailing_zeros (strip_trailing_zeros y) = outcome.ok (strip_trailing_zeros y) := by
  have h := trim_trailing_zeros_strip (strip_trailing_zeros y)
    (by rw [strip_trailing_zeros_idem]; exact em _)
  rw [h, strip_trailing_zeros_idem]

theorem strip_leading_zeros_stripped (ds : List Char) :
    (strip_trailing_zeros (strip_leading_zeros ds)).length = 0 ↔ strip_leading_zeros ds = [] := by
  constructor
  · intro h
    by_contra hne
    cases hip : strip_leading_zeros ds with
    | nil => exact hne hip
    | cons c cs =>
      have hh := strip_leading_zeros_head ds
      rw [hip] at hh
      have hc : c ≠ '0' := by
        intro hc; subst hc; simp at hh
      have := strip_trailing_zeros_head (c :: cs) c rfl hc
      rw [← hip] at this
      exact this (List.length_eq_zero.mp h)
  · intro h; rw [h]; simp [strip_trailing_zeros]

theorem decimal_part_numeral (sign ds : List Char) (frac : Option (List Char))
    (expo : Option (List Char × List Char)) (n : Nat) :
    substr (numeral sign ds frac expo)
        (if n = 0 then
          (if frac.isSome = true then sign.length + ds.length + 1 else 0)
            + leading_zeros (frac.getD [])
          else if frac.isSome = true then sign.length + ds.length + 1 else 0)
        (if n = 0 then (strip_trailing_zeros (strip_leading_zeros (frac.getD []))).length
          else if (strip_trailing_zeros (strip_leading_zeros (frac.getD []))).length ≠ 0 then
            (strip_trailing_zeros (strip_leading_zeros (frac.getD []))).length
              + leading_zeros (frac.getD [])
          else (strip_trailing_zeros (strip_leading_zeros (frac.getD []))).length)
      = if n = 0 then strip_trailing_zeros (strip_leading_zeros (frac.getD []))
        else strip_trailing_zeros (frac.getD []) := by
  cases frac with
  | none =>
    simp [strip_leading_zeros, strip_trailing_zeros, substr_zero_count]
  | some fp =>
    simp only [Option.isSome_some, if_true, Option.getD_some]
    have hlen := strip_leading_zeros_length fp
    have hsl := (strip_trailing_zeros_decomp (strip_leading_zeros fp)).2
    have hlead := strip_trailing_zeros_leading fp
    unfold numeral fraction_chars
    by_cases hn : n = 0
    · simp only [hn, if_true]
      rw [substr_decimal sign ds fp _ _ _ (by omega), drop_leading_zeros,
        strip_trailing_zeros_take]
    · simp only [hn, if_false]
      have hcount : (if (strip_trailing_zeros (strip_leading_zeros fp)).length ≠ 0 then
            (strip_trailing_zeros (strip_leading_zeros fp)).length + leading_zeros fp
          else (strip_trailing_zeros (strip_leading_zeros fp)).length)
          = (strip_trailing_zeros fp).length := by
        rw [hlead]
        by_cases hc : strip_trailing_zeros (strip_leading_zeros fp) = []
        · simp [hc]
        · have : (strip_trailing_zeros (strip_leading_zeros fp)).length ≠ 0 := by
            simpa using hc
          rw [if_pos this, if_neg hc]; omega
      rw [hcount]
      have h0 := substr_decimal sign ds fp (exponent_chars expo) 0
        (strip_trailing_zeros fp).length (by have := (strip_trailing_zeros_decomp fp).2; omega)
      simp only [Nat.add_zero, List.drop_zero] at h0
      rw [h0, strip_trailing_zeros_take]

/-- The result of `number_from_string` on a well-formed numeral whose exponent digits do
not overflow: the parts are those of `parsed`; the exponent is that of `parsed` when it
fits in `int`. -/
theorem number_from_string_parts (sign ds : List Char) (frac : Option (List Char))
    (expo : Option (List Char × List Char)) (hw : well_formed sign ds frac expo)
    (hV : decimal_value (expo.getD ([], [])).2 < 2147483648) :
    ∃ X, number_from_string (numeral sign ds frac expo)
        = outcome.ok ((parsed sign ds frac expo).1, (parsed sign ds frac expo).2.1, X,
            (parsed sign ds frac expo).2.2.2)
      ∧ (exponent_value expo + ds.length < 2147483648 →
          (strip_leading_zeros ds = [] →
            (leading_zeros (frac.getD []) : Int) - exponent_value expo ≤ 2147483648) →
          X = (parsed sign ds frac expo).2.2.1) := by
  have hw2 := hw
  obtain ⟨hs, hds, hfrac, hexpo⟩ := hw
  have hV0 : 0 ≤ decimal_value (expo.getD ([], [])).2 := by
    cases expo with
    | none => simp [decimal_value]
    | some p => obtain ⟨es, d3⟩ := p; exact decimal_value_nonneg _ (hexpo es d3 rfl).2
  obtain ⟨h1, h2, h3⟩ := numeral_sign sign ds frac expo hs hds
  have hipl := strip_leading_zeros_length ds
  have hsl := (strip_trailing_zeros_decomp (strip_leading_zeros ds)).2
  have hic := strip_leading_zeros_stripped ds
  have hcount : (if (strip_trailing_zeros (strip_leading_zeros ds)).length = 0 then
        (strip_trailing_zeros (strip_leading_zeros ds)).length
      else (strip_trailing_zeros (strip_leading_zeros ds)).length
        + (ds.length - leading_zeros ds - (strip_trailing_zeros (strip_leading_zeros ds)).length))
      = ds.length - leading_zeros ds := by
    by_cases h0 : (strip_trailing_zeros (strip_leading_zeros ds)).length = 0
    · have := congrArg List.length (hic.mp h0)
      simp only [List.length_nil] at this
      rw [if_pos h0]; omega
    · rw [if_neg h0]; omega
  have hint : substr (numeral sign ds frac expo) (sign.length + leading_zeros ds)
      (ds.length - leading_zeros ds) = strip_leading_zeros ds := by
    unfold numeral; exact substr_integer _ _ _
  have hA := to_signed_id (-decimal_value (expo.getD ([], [])).2) (by omega) (by omega)
  have hEv := exponent_value_getD expo
  unfold number_from_string
  dsimp only
  rw [h1, h2, h3, loop_numeral _ sign ds frac expo hw2 hV]
  simp only [outcome.bind, scan_final]
  rw [exponent_value_eq, decimal_part_numeral, hcount, hint]
  unfold parsed
  by_cases hip : strip_leading_zeros ds = []
  · simp only [hip, strip_trailing_zeros, List.length_nil, if_true, trim_strip, Nat.cast_zero,
      add_zero]
    refine ⟨to_signed (to_signed (if (expo.getD ([], [])).1 = ['-'] then
          to_signed (-decimal_value (expo.getD ([], [])).2)
        else decimal_value (expo.getD ([], [])).2) - ↑(leading_zeros (frac.getD []))), ?_, ?_⟩
    · by_cases hD : strip_trailing_zeros (strip_leading_zeros (frac.getD [])) = []
      · simp [hD, trim_trailing_zeros]
      · simp [hD]
    · intro _ hZ
      have hZ2 := hZ trivial
      rw [hEv] at hZ2 ⊢
      by_cases hm : (expo.getD ([], [])).1 = ['-']
      · simp only [hm, if_true] at hZ2 ⊢
        rw [hA, hA, to_signed_id _ (by omega) (by omega)]
      · simp only [hm, if_false] at hZ2 ⊢
        rw [to_signed_id (decimal_value (expo.getD ([], [])).2) (by omega) (by omega),
          to_signed_id _ (by omega) (by omega)]
  · have h0 : ¬ (strip_trailing_zeros (strip_leading_zeros ds)).length = 0 :=
      fun h => hip (hic.mp h)
    simp only [h0, if_false, hip, trim_strip]
    have htrim := trim_trailing_zeros_strip (strip_leading_zeros ds)
      (Or.inr (fun h => h0 (by rw [h]; rfl)))
    refine ⟨to_signed (to_signed ((if (expo.getD ([], [])).1 = ['-'] then
          to_signed (-decimal_value (expo.getD ([], [])).2)
        else decimal_value (expo.getD ([], [])).2)
          + ↑(strip_trailing_zeros (strip_leading_zeros ds)).length)
          + ↑(ds.length - leading_zeros ds
            - (strip_trailing_zeros (strip_leading_zeros ds)).length)), ?_, ?_⟩
    · by_cases hD : strip_trailing_zeros (frac.getD []) = []
      · simp [hD, htrim]
      · simp [hD]
    · intro hE _
      rw [hEv] at hE ⊢
      by_cases hm : (expo.getD ([], [])).1 = ['-']
      · simp only [hm, if_true] at hE ⊢
        rw [hA, to_signed_id (-decimal_value (expo.getD ([], [])).2
            + ↑(strip_trailing_zeros (strip_leading_zeros ds)).length) (by omega) (by omega),
          to_signed_id _ (by omega) (by omega)]
        omega
      · simp only [hm, if_false] at hE ⊢
        rw [to_signed_id (decimal_value (expo.getD ([], [])).2
            + ↑(strip_trailing_zeros (strip_leading_zeros ds)).length) (by omega) (by omega),
          to_signed_id _ (by omega) (by omega)]
        omega

/-- The result of `number_from_string` on a well-formed numeral whose exponent fits in
`int`. -/
theorem number_from_string_numeral (sign ds : List Char) (frac : Option (List Char))
    (expo : Option (List Char × List Char)) (hw : well_formed sign ds frac expo)
    (hV : decimal_value (expo.getD ([], [])).2 < 2147483648)
    (hE : exponent_value expo + ds.length < 2147483648)
    (hZ : strip_leading_zeros ds = [] →
      (leading_zeros (frac.getD []) : Int) - exponent_value expo ≤ 2147483648) :
    number_from_string (numeral sign ds frac expo) = outcome.ok (parsed sign ds frac expo) := by
  obtain ⟨X, h1, h2⟩ := number_from_string_parts sign ds frac expo hw hV
  rw [h1, h2 hE hZ]

theorem digit_value_zero : digit_value '0' = 0 := by decide

theorem digit_value_eq_zero (c : Char) (h : digit_value c = 0) : c = '0' := by
  unfold digit_value at h
  have h48 : c.toNat = 48 := by omega
  have : Char.ofNat c.toNat = Char.ofNat 48 := by rw [h48]
  rw [Char.ofNat_toNat] at this
  exact this

theorem strip_trailing_zeros_getLast (x : List Char) :
    (strip_trailing_zeros x).getLast? ≠ some '0' := by
  induction x using List.reverseRecOn with
  | nil => simp [strip_trailing_zeros]
  | append_singleton y c ih =>
    rw [strip_trailing_zeros_snoc]
    by_cases h : c = '0'
    · rw [if_pos h]; exact ih
    · rw [if_neg h]; simp; exact fun h2 => h h2

theorem foldl_decimal_ival (cs : List Char) (a : Int) :
    cs.foldl (fun a c => a * 10 + digit_value c) a
      = a * 10 ^ cs.length + ival 10 (cs.map digit_value) := by
  induction cs generalizing a with
  | nil => simp [ival]
  | cons c cs ih =>
    simp only [List.foldl_cons, ih, List.map_cons, ival, List.length_cons, List.length_map]
    ring

theorem ival_map_digit_value (cs : List Char) :
    ival 10 (cs.map digit_value) = decimal_value cs := by
  unfold decimal_value
  rw [foldl_decimal_ival]; simp

theorem decimal_value_append (a b : List Char) :
    decimal_value (a ++ b) = decimal_value a * 10 ^ b.length + decimal_value b := by
  unfold decimal_value
  rw [List.foldl_append, foldl_decimal_ival b, foldl_decimal_ival b 0]
  ring

theorem magnitude_append_zeros (B : Int) (ds : List Int) (k : Nat) (e : Int) :
    magnitude B (ds ++ List.replicate k 0) e = magnitude B ds e := by
  induction k with
  | zero => simp
  | succ k ih =>
    rw [List.replicate_succ', ← List.append_assoc, magnitude_append_zero, ih]

theorem magnitude_strip (cs : List Char) (e : Int) :
    magnitude 10 ((strip_trailing_zeros cs).map digit_value) e
      = magnitude 10 (cs.map digit_value) e := by
  have h := (strip_trailing_zeros_decomp cs).1
  conv_rhs => rw [h]
  rw [List.map_append, List.map_replicate, digit_value_zero, magnitude_append_zeros]

theorem strip_leading_zeros_id (ds : List Char) (c : Char) (h : ds.head? = some c)
    (hc : c ≠ '0') : strip_leading_zeros ds = ds := by
  cases ds with
  | nil => simp at h
  | cons d cs =>
    simp only [List.head?_cons, Option.some.injEq] at h
    subst h
    simp [strip_leading_zeros, hc]

/-- The constructor on a well-formed numeral whose first digit is not zero. -/
theorem of_string_nonzero (sign ds : List Char) (frac : Option (List Char))
    (expo : Option (List Char × List Char)) (hw : well_formed sign ds frac expo)
    (c : Char) (hhead : ds.head? = some c) (hc : c ≠ '0')
    (hV : decimal_value (expo.getD ([], [])).2 < 2147483648)
    (hE : exponent_value expo + ds.length < 2147483648) :
    exact_number.of_string (numeral sign ds frac expo)
      = outcome.ok ⟨(strip_trailing_zeros (ds ++ frac.getD [])).map digit_value,
          ds.length + exponent_value expo, !decide (sign = ['-'])⟩ := by
  have hid := strip_leading_zeros_id ds c hhead hc
  have hne : ds ≠ [] := by intro h; rw [h] at hhead; simp at hhead
  have hsne := strip_trailing_zeros_head ds c hhead hc
  unfold exact_number.of_string
  rw [number_from_string_numeral sign ds frac expo hw hV hE (fun h => absurd (hid ▸ h) hne)]
  simp only [outcome.bind, parsed, hid, if_neg hne]
  rw [strip_trailing_zeros_append]
  by_cases hD : strip_trailing_zeros (frac.getD []) = []
  · simp [hD, hsne]
  · simp [hD, hne]

theorem numeral_value_magnitude (ds fp : List Char) (E : Int) :
    magnitude 10 ((strip_trailing_zeros (ds ++ fp)).map digit_value) (ds.length + E)
      = (((decimal_value ds : Int) : ℚ) + ((decimal_value fp : Int) : ℚ) / (10 : ℚ) ^ fp.length)
        * (10 : ℚ) ^ E := by
  rw [magnitude_strip, magnitude_eq_ival 10 (by norm_num), ival_map_digit_value,
    decimal_value_append, List.length_map, List.length_append]
  have e1 : (ds.length : Int) + E - ((ds.length + fp.length : Nat) : Int) = E - (fp.length : Int) := by
    push_cast; ring
  rw [e1, zpow_sub₀ (by norm_num)]
  push_cast
  field_simp

/-- C25: for a numeral `[sign] D+ [. D*] [e [sign] D*]` whose first digit is not zero and
whose exponent fits in `int` (the exponent that is written, and the exponent of the
constructed number), the constructed number has the decimal digits of the numeral
without the trailing zeros, its sign flag is false exactly when the numeral starts with
`-`, and its exponent makes `sign · Σ digits[i] · 10^(exponent−1−i)` the decimal value
that the numeral denotes. -/
theorem of_string_digits (sign ds : List Char) (frac : Option (List Char))
    (expo : Option (List Char × List Char)) (hw : well_formed sign ds frac expo)
    (c : Char) (hhead : ds.head? = some c) (hc : c ≠ '0')
    (hV : decimal_value (expo.getD ([], [])).2 < 2147483648)
    (hE : exponent_value expo + ds.length < 2147483648) :
    ∃ x, exact_number.of_string (numeral sign ds frac expo) = outcome.ok x
      ∧ x.digits = (strip_trailing_zeros (ds ++ frac.getD [])).map digit_value
      ∧ (x.positive = false ↔ sign = ['-'])
      ∧ value 10 x = numeral_value sign ds frac expo := by
  refine ⟨_, of_string_nonzero sign ds frac expo hw c hhead hc hV hE, rfl, by simp, ?_⟩
  unfold value numeral_value
  dsimp only
  rw [numeral_value_magnitude]
  by_cases hs : sign = ['-']
  · simp [hs]; ring
  · simp [hs]

theorem of_string_digits_witness :
    exact_number.of_string ['-', '1', '2', '0', '.', '5', '0', 'e', '-', '3']
        = outcome.ok ⟨[1, 2, 0, 5], 0, false⟩ ∧
    ∃ x, exact_number.of_string
          (numeral ['-'] ['1', '2', '0'] (some ['5', '0']) (some (['-'], ['3']))) = outcome.ok x
      ∧ x.digits = (strip_trailing_zeros (['1', '2', '0'] ++ ['5', '0'])).map digit_value
      ∧ (x.positive = false ↔ ['-'] = ['-'])
      ∧ value 10 x
        = numeral_value ['-'] ['1', '2', '0'] (some ['5', '0']) (some (['-'], ['3'])) :=
  ⟨by decide, of_string_digits ['-'] ['1', '2', '0'] (some ['5', '0']) (some (['-'], ['3']))
    (by simp [well_formed, is_sign, is_digits]) '1' rfl (by decide) (by decide) (by decide)⟩

theorem loop_throws_octal (first : Char) (rest : List Char) (index : Nat) (skip : Bool)
    (s : scan_state)
    (h : number_from_string_loop first rest index skip s
      = outcome.throws exception.octal_input_not_supported_exception) :
    first = '0' ∧ ∃ c ∈ rest, c.isDigit = false := by
  induction rest generalizing index skip s with
  | nil => simp [number_from_string_loop] at h
  | cons c rest ih =>
    have key : ∀ i sk st, number_from_string_loop first rest i sk st
        = outcome.throws exception.octal_input_not_supported_exception →
        first = '0' ∧ ∃ c' ∈ c :: rest, c'.isDigit = false := by
      intro i sk st hh
      obtain ⟨hf, c', hc', hd⟩ := ih i sk st hh
      exact ⟨hf, c', List.mem_cons_of_mem _ hc', hd⟩
    cases skip with
    | true =>
      simp only [number_from_string_loop] at h
      exact key _ _ _ h
    | false =>
      simp only [number_from_string_loop, exponent_step_eq] at h
      split_ifs at h
      all_goals first
        | exact key _ _ _ h
        | exact ⟨by assumption, c, List.mem_cons_self _ _, by assumption⟩
        | simp at h

theorem exponent_overflows_append (t u : List Char) (h : exponent_overflows t) :
    exponent_overflows (t ++ u) := by
  obtain ⟨p, ds, q, h1, h2, h3, h4⟩ := h
  exact ⟨p, ds, q ++ u, by rw [h1]; simp, h2, h3, h4⟩

theorem decimal_value_snoc (ds : List Char) (c : Char) :
    decimal_value (ds ++ [c]) = decimal_value ds * 10 + digit_value c := by
  simp [decimal_value, List.foldl_append]

theorem exponent_invariant_keep (pre : List Char) (c : Char) (skip : Bool)
    (e : Int) (ep hd : Bool) (dsi ic dc irz ilz dlz drz : Nat)
    (ep2 hd2 : Bool) (dsi2 ic2 dc2 irz2 ilz2 dlz2 drz2 : Nat)
    (hexp : exponent_invariant pre skip ⟨e, ep, false, hd, dsi, ic, dc, irz, ilz, dlz, drz⟩) :
    exponent_invariant (pre ++ [c]) false
      ⟨e, ep2, false, hd2, dsi2, ic2, dc2, irz2, ilz2, dlz2, drz2⟩ := by
  obtain ⟨h1, h2, _, _⟩ := hexp
  exact ⟨h1, h2, fun h => by simp at h, fun h => by simp at h⟩


theorem scan_invariant_digit (pre rest : List Char) (skip : Bool) (c : Char)
    (e : Int) (ep he hd : Bool) (dsi ic dc irz ilz dlz drz : Nat)
    (e2 : Int) (ep2 : Bool) (dsi2 ic2 dc2 irz2 ilz2 dlz2 drz2 : Nat)
    (hinv : scan_invariant pre (c :: rest) skip ⟨e, ep, he, hd, dsi, ic, dc, irz, ilz, dlz, drz⟩)
    (hc : c ≠ 'e' ∧ c ≠ '.') :
    scan_invariant (pre ++ [c]) rest false
      ⟨e2, ep2, he, hd, dsi2, ic2, dc2, irz2, ilz2, dlz2, drz2⟩ := by
  obtain ⟨i1, i2, _⟩ := hinv
  refine ⟨fun h => ?_, fun h => ?_, fun h => by simp at h⟩
  · have := i1 h
    simp only [List.mem_append, List.mem_singleton, not_or]
    exact ⟨this, fun h => hc.1 h.symm⟩
  · have := i2 h
    simp only [List.mem_append, List.mem_singleton, not_or]
    exact ⟨this, fun h => hc.2 h.symm⟩

theorem loop_step (first : Char) (c : Char) (rest pre : List Char) (index : Nat) (skip : Bool)
    (s : scan_state) (hinv : scan_invariant pre (c :: rest) skip s)
    (hexp : exponent_invariant pre skip s) :
    number_from_string_loop first (c :: rest) index skip s
        = outcome.throws (if first = '0' then exception.octal_input_not_supported_exception
            else exception.invalid_string_number_exception)
    ∨ (allowed_after pre c ∧
        ((number_from_string_loop first (c :: rest) index skip s = outcome.undefined
            ∧ exponent_overflows (pre ++ [c]))
          ∨ ∃ i sk st,
            number_from_string_loop first (c :: rest) index skip s
              = number_from_string_loop first rest i sk st
            ∧ scan_invariant (pre ++ [c]) rest sk st
            ∧ exponent_invariant (pre ++ [c]) sk st)) := by
  obtain ⟨e, ep, he, hd, dsi, ic, dc, irz, ilz, dlz, drz⟩ := s
  have hinv2 := hinv
  have hexp2 := hexp
  obtain ⟨i1, i2, i3⟩ := hinv
  obtain ⟨x1, x2, x3, x4⟩ := hexp
  dsimp only at i1 i2 x1 x2 x3 x4
  cases skip with
  | true =>
    right
    obtain ⟨c', p, hc', hhead, hpre, hp⟩ := i3 rfl
    simp only [List.head?_cons, Option.some.injEq] at hhead
    subst hhead
    have hce : c ≠ 'e' ∧ c ≠ '.' := by
      rcases hc' with h | h <;> subst h <;> decide
    refine ⟨Or.inr (Or.inr (Or.inl ⟨hc', p, hpre, hp⟩)), Or.inr ⟨index + 1, false,
      ⟨e, ep, he, hd, dsi, ic, dc, irz, ilz, dlz, drz⟩, ?_,
      scan_invariant_digit pre rest true c e ep he hd dsi ic dc irz ilz dlz drz
        e ep dsi ic dc irz ilz dlz drz hinv2 hce, ?_⟩⟩
    · simp only [number_from_string_loop]
    · refine ⟨x1, x2, fun h => by simp at h, fun _ => ⟨pre ++ [c], [], by simp, ?_, ?_, ?_⟩⟩
      · rw [hpre]; simp
      · intro d hd; simp at hd
      · rw [x3 rfl]; rfl
  | false =>
    simp only [number_from_string_loop, exponent_step_eq]
    by_cases hE : he = false ∧ c = 'e'
    · right
      obtain ⟨hhe, hc⟩ := hE
      subst hc
      rw [if_pos ⟨hhe, rfl⟩]
      refine ⟨Or.inr (Or.inl ⟨rfl, i1 hhe⟩), Or.inr ⟨_, _, _, rfl, ?_, ?_⟩⟩
      · refine ⟨fun h => by simp at h, fun h => ?_, fun h => ?_⟩
        · have := i2 h
          simp only [List.mem_append, List.mem_singleton, not_or]
          exact ⟨this, by decide⟩
        · simp only [Bool.or_eq_true, decide_eq_true_eq] at h
          rcases h with h | h
          · exact ⟨'-', pre, Or.inr rfl, h, rfl, i1 hhe⟩
          · exact ⟨'+', pre, Or.inl rfl, h, rfl, i1 hhe⟩
      · refine ⟨x1, fun h => by simp at h, fun _ => x2 hhe,
          fun _ => ⟨pre ++ ['e'], [], by simp, by simp, ?_, ?_⟩⟩
        · intro d hd; simp at hd
        · rw [x2 hhe]; rfl
    · rw [if_neg hE]
      by_cases hD : he = false ∧ hd = false ∧ c = '.'
      · right
        obtain ⟨hhe, hhd, hc⟩ := hD
        subst hc
        subst hhe
        rw [if_pos ⟨rfl, hhd, rfl⟩]
        refine ⟨Or.inr (Or.inr (Or.inr ⟨rfl, i2 hhd, i1 rfl⟩)), Or.inr ⟨_, _, _, rfl, ?_,
          exponent_invariant_keep pre '.' false e ep hd dsi ic dc irz ilz dlz drz _ _ _ _ _ _ _ _ _
            hexp2⟩⟩
        refine ⟨fun h => ?_, fun h => by simp at h, fun h => by simp at h⟩
        have := i1 h
        simp only [List.mem_append, List.mem_singleton, not_or]
        exact ⟨this, by decide⟩
      · rw [if_neg hD]
        by_cases hdig : c.isDigit = false
        · left
          rw [if_pos hdig]
          by_cases hf : first = '0' <;> simp [hf]
        · rw [if_neg hdig]
          have hdig2 : c.isDigit = true := by simpa using hdig
          have hce : c ≠ 'e' ∧ c ≠ '.' := ⟨(isDigit_ne c hdig2).1, (isDigit_ne c hdig2).2.1⟩
          have hall : allowed_after pre c := Or.inl hdig2
          have hr := digit_value_range c hdig2
          have hnext := fun e2 ep2 dsi2 ic2 dc2 irz2 ilz2 dlz2 drz2 =>
            scan_invariant_digit pre rest false c e ep he hd dsi ic dc irz ilz dlz drz
              e2 ep2 dsi2 ic2 dc2 irz2 ilz2 dlz2 drz2 hinv2 hce
          right
          refine ⟨hall, ?_⟩
          cases he with
          | true =>
            obtain ⟨p, ds, hp1, hp2, hp3, hp4⟩ := x4 rfl
            have hds : is_digits (ds ++ [c]) := by
              intro d hd
              rcases List.mem_append.mp hd with h | h
              · exact hp3 d h
              · simp at h; rw [h]; exact hdig2
            have hval : decimal_value (ds ++ [c]) = e * 10 + digit_value c := by
              rw [decimal_value_snoc, hp4]
            rw [if_pos rfl]
            by_cases hrange : (-2147483647 - 1 ≤ e * 10 ∧ e * 10 ≤ 2147483647)
                ∧ (-2147483647 - 1 ≤ e * 10 + digit_value c ∧ e * 10 + digit_value c ≤ 2147483647)
            · right
              rw [if_pos hrange, if_neg (by omega)]
              refine ⟨_, _, _, rfl, hnext _ _ _ _ _ _ _ _ _, by dsimp only; omega,
                fun h => by simp at h, fun h => by simp at h,
                fun _ => ⟨p, ds ++ [c], by rw [hp1]; simp, hp2, hds, hval⟩⟩
            · left
              rw [if_neg hrange]
              refine ⟨rfl, p, ds ++ [c], [], by rw [hp1]; simp, hp2, hds, ?_⟩
              rw [hval]
              omega
          | false =>
            right
            rw [if_neg (by simp)]
            split_ifs
            all_goals exact ⟨_, _, _, rfl, hnext _ _ _ _ _ _ _ _ _,
              exponent_invariant_keep pre c false e ep hd dsi ic dc irz ilz dlz drz _ _ _ _ _ _ _ _ _
                hexp2⟩

theorem loop_disallowed (first : Char) (rest pre : List Char) (index : Nat) (skip : Bool)
    (s : scan_state) (hinv : scan_invariant pre rest skip s)
    (hexp : exponent_invariant pre skip s) (p : List Char) (c : Char) (q : List Char)
    (hr : rest = p ++ c :: q) (hna : ¬ allowed_after (pre ++ p) c) :
    number_from_string_loop first rest index skip s
        = outcome.throws (if first = '0' then exception.octal_input_not_supported_exception
            else exception.invalid_string_number_exception)
      ∨ (number_from_string_loop first rest index skip s = outcome.undefined
          ∧ exponent_overflows (pre ++ p)) := by
  induction rest generalizing pre index skip s p with
  | nil => simp at hr
  | cons c0 rest ih =>
    rcases loop_step first c0 rest pre index skip s hinv hexp with
      hthrow | ⟨hall, hrest⟩
    · exact Or.inl hthrow
    · cases p with
      | nil =>
        simp only [List.nil_append, List.cons.injEq] at hr
        rw [List.append_nil, ← hr.1] at hna
        exact absurd hall hna
      | cons d p =>
        simp only [List.cons_append, List.cons.injEq] at hr
        have hpre : pre ++ d :: p = (pre ++ [c0]) ++ p := by rw [hr.1]; simp
        rcases hrest with ⟨hu, hov⟩ | ⟨i, sk, st, heq, hinv2, hexp2⟩
        · right
          rw [hpre]
          exact ⟨hu, exponent_overflows_append _ _ hov⟩
        · rw [heq, hpre]
          refine ih (pre ++ [c0]) i sk st hinv2 hexp2 p hr.2 ?_
          rw [← hpre]
          exact hna

theorem trim_trailing_zeros_no_throw (part : List Char) (e : exception) :
    trim_trailing_zeros part ≠ outcome.throws e := by
  unfold trim_trailing_zeros
  split_ifs <;> simp

theorem number_from_string_throws (number : List Char) (e : exception)
    (h : number_from_string number = outcome.throws e) :
    number_from_string_loop (number.getD (has_sign number) (Char.ofNat 0))
        (number.drop (has_sign number)) (has_sign number) false scan_state.initial
      = outcome.throws e := by
  unfold number_from_string at h
  dsimp only at h
  rcases bind_throws _ _ e h with h1 | ⟨s, _, h2⟩
  · exact h1
  · exfalso
    rcases bind_throws _ _ e h2 with h3 | ⟨d, _, h4⟩
    · exact trim_trailing_zeros_no_throw _ e h3
    · by_cases hd : d = []
      · rw [if_pos hd] at h4
        rcases bind_throws _ _ e h4 with h5 | ⟨d2, _, h6⟩
        · exact trim_trailing_zeros_no_throw _ e h5
        · exact outcome.noConfusion h6
      · rw [if_neg hd] at h4
        exact outcome.noConfusion h4

/-- C23, the defect: an input made of an optional sign, `0` and further decimal digits,
such as `"0123"`, is accepted, where the comment `first digit must be nonzero` of the
source and the specification ask for `octal_input_not_supported_exception`:
`number_from_string` returns the digits after the leading zeros, without the trailing
zeros, as the integer part, with their number as the exponent.  The exception is thrown
only if the first character after the optional sign is `0` and some later character is
not a decimal digit. -/
theorem number_from_string_leading_zero (sign ds : List Char) (hs : is_sign sign)
    (hds : is_digits ds) (hlen : ds.length < 2147483647) :
    number_from_string (sign ++ '0' :: ds)
      = outcome.ok (strip_trailing_zeros (strip_leading_zeros ds), [],
          ((strip_leading_zeros ds).length : Int), !decide (sign = ['-']))
    ∧ ∀ number : List Char,
        number_from_string number
          = outcome.throws exception.octal_input_not_supported_exception →
        number.getD (has_sign number) (Char.ofNat 0) = '0'
        ∧ ∃ c ∈ number.drop (has_sign number), c.isDigit = false := by
  constructor
  · have hw : well_formed sign ('0' :: ds) none none := by
      refine ⟨hs, ?_, fun fp h => by simp at h, fun es d3 h => by simp at h⟩
      intro c hc
      rcases List.mem_cons.mp hc with h | h
      · subst h; decide
      · exact hds c h
    have h := number_from_string_numeral sign ('0' :: ds) none none hw
      (by simp [decimal_value]) (by simp [exponent_value]; omega)
      (fun _ => by simp [exponent_value, leading_zeros])
    have e1 : numeral sign ('0' :: ds) none none = sign ++ '0' :: ds := by
      simp [numeral, fraction_chars, exponent_chars]
    rw [e1] at h
    rw [h]
    have e2 : strip_leading_zeros ('0' :: ds) = strip_leading_zeros ds := by
      rw [strip_leading_zeros_cons, if_pos rfl]
    unfold parsed
    rw [e2]
    by_cases hip : strip_leading_zeros ds = []
    · rw [if_pos hip, hip]
      simp [strip_trailing_zeros, strip_leading_zeros, leading_zeros, exponent_value]
    · rw [if_neg hip]
      simp [strip_trailing_zeros, exponent_value]
  · intro number h
    exact loop_throws_octal _ _ _ _ _ (number_from_string_throws number _ h)

theorem number_from_string_leading_zero_witness :
    is_sign [] ∧ is_digits ['1', '2', '3']
    ∧ number_from_string ['0', '1', '2', '3'] = outcome.ok (['1', '2', '3'], [], 3, true) :=
  ⟨Or.inl rfl, by simp [is_digits],
    (number_from_string_leading_zero [] ['1', '2', '3'] (Or.inl rfl) (by simp [is_digits])
      (by decide)).1⟩

/-- C24 (amended): if the input, from the optional leading sign on, contains a
character `c` that is neither a decimal digit, nor the first `e`, nor the sign after the
first `e`, nor the first `.` with no `e` before it, then either `number_from_string`
fails, with `octal_input_not_supported_exception` if the first character after the
optional sign is `0` and with `invalid_string_number_exception` otherwise, or the
characters before `c` contain, after an `e`, digits that denote more than the largest
`int`, and the behaviour is undefined (signed overflow of `exponent`).  On a numeral
`[sign] D* [. D*] [e [sign] D*]` whose exponent fits in `int` it returns a result. -/
theorem number_from_string_errors :
    (∀ (number pre post : List Char) (c : Char),
      number.drop (has_sign number) = pre ++ c :: post → ¬ allowed_after pre c →
        number_from_string number
          = outcome.throws
            (if number.getD (has_sign number) (Char.ofNat 0) = '0'
              then exception.octal_input_not_supported_exception
              else exception.invalid_string_number_exception)
        ∨ (number_from_string number = outcome.undefined ∧ exponent_overflows pre))
    ∧ (∀ (sign ds : List Char) (frac : Option (List Char))
        (expo : Option (List Char × List Char)),
      well_formed sign ds frac expo →
      decimal_value (expo.getD ([], [])).2 < 2147483648 →
        ∃ r, number_from_string (numeral sign ds frac expo) = outcome.ok r) := by
  constructor
  · intro number pre post c hbody hna
    have hinv : scan_invariant [] (number.drop (has_sign number)) false scan_state.initial :=
      ⟨fun _ => by simp, fun _ => by simp, fun h => by simp at h⟩
    have hexp : exponent_invariant [] false scan_state.initial :=
      ⟨le_refl _, fun _ => rfl, fun _ => rfl, fun h => by simp [scan_state.initial] at h⟩
    have h := loop_disallowed (number.getD (has_sign number) (Char.ofNat 0))
      (number.drop (has_sign number)) [] (has_sign number) false scan_state.initial hinv hexp
      pre c post hbody (by simpa using hna)
    unfold number_from_string
    dsimp only
    rcases h with h | ⟨h, hov⟩
    · left; rw [h]; rfl
    · right; rw [h]; exact ⟨rfl, by simpa using hov⟩
  · intro sign ds frac expo hw hV
    obtain ⟨X, h, _⟩ := number_from_string_parts sign ds frac expo hw hV
    exact ⟨_, h⟩

theorem number_from_string_errors_witness :
    (number_from_string ['0', '1', '2', 'a']
        = outcome.throws
          (if (['0', '1', '2', 'a'] : List Char).getD (has_sign ['0', '1', '2', 'a']) (Char.ofNat 0)
              = '0'
            then exception.octal_input_not_supported_exception
            else exception.invalid_string_number_exception)
      ∨ (number_from_string ['0', '1', '2', 'a'] = outcome.undefined
          ∧ exponent_overflows ['0', '1', '2']))
    ∧ number_from_string ['0', '1', '2', 'a']
        = outcome.throws exception.octal_input_not_supported_exception
    ∧ ∃ r, number_from_string (numeral ['-'] ['1'] (some ['5']) (some (['+'], ['3'])))
        = outcome.ok r :=
  ⟨number_from_string_errors.1 ['0', '1', '2', 'a'] ['0', '1', '2'] [] 'a' (by decide)
      (by simp [allowed_after]),
    by decide,
    number_from_string_errors.2 ['-'] ['1'] (some ['5']) (some (['+'], ['3']))
      (by simp [well_formed, is_sign, is_digits]) (by decide)⟩

/-- C24 as stated fails: in `"1e3000000000x"` the character `x` is not allowed, but the
digits of the exponent come first and `exponent *= 10` leaves the range of `int` at the
tenth digit, a signed overflow: the behaviour is undefined, and no exception of the claim
is guaranteed.  (With g++ 12 the build at `-O0` throws `exponent_overflow_exception`
here, as the test `exponent < 0` intends; the build at `-O2` throws
`invalid_string_number_exception`.) -/
theorem number_from_string_errors_counterexample :
    number_from_string ['1', 'e', '3', '0', '0', '0', '0', '0', '0', '0', '0', '0', 'x']
      = outcome.undefined
    ∧ ¬ allowed_after ['1', 'e', '3', '0', '0', '0', '0', '0', '0', '0', '0', '0'] 'x'
    ∧ exponent_overflows ['1', 'e', '3', '0', '0', '0', '0', '0', '0', '0', '0', '0'] := by
  refine ⟨by decide, by simp [allowed_after], ['1', 'e'],
    ['3', '0', '0', '0', '0', '0', '0', '0', '0', '0'], [], by simp, by simp, ?_, by decide⟩
  intro c hc
  simp only [List.mem_cons, List.mem_singleton, List.not_mem_nil, or_false] at hc
  rcases hc with h | h | h | h | h | h | h | h | h | h <;> subst h <;> decide

/-! ## Decimal scenarios -/

theorem strip_trailing_zeros_subset (x : List Char) : ∀ c ∈ strip_trailing_zeros x, c ∈ x := by
  intro c hc
  have h := (strip_trailing_zeros_decomp x).1
  rw [h]
  exact List.mem_append_left _ hc

theorem strip_trailing_zeros_head_eq (x : List Char) (h : strip_trailing_zeros x ≠ []) :
    (strip_trailing_zeros x).head? = x.head? := by
  have hd := (strip_trailing_zeros_decomp x).1
  cases hs : strip_trailing_zeros x with
  | nil => exact absurd hs h
  | cons c cs =>
    rw [hs] at hd
    rw [hd]; simp

/-- The number that the constructor builds from a numeral whose first digit is not zero
is normalized, not zero, and has its digits in `[0, 9]`. -/
theorem of_string_normalized (ds fp : List Char) (e : Int) (p : Bool) (hds : is_digits ds)
    (hfp : is_digits fp) (c : Char) (hhead : ds.head? = some c) (hc : c ≠ '0') :
    is_normalized ⟨(strip_trailing_zeros (ds ++ fp)).map digit_value, e, p⟩
    ∧ digits_in 9 ((strip_trailing_zeros (ds ++ fp)).map digit_value)
    ∧ (strip_trailing_zeros (ds ++ fp)).map digit_value ≠ [0] := by
  have hh : (ds ++ fp).head? = some c := by
    cases ds with
    | nil => simp at hhead
    | cons d cs => simpa using hhead
  have hne := strip_trailing_zeros_head (ds ++ fp) c hh hc
  have hhead2 := strip_trailing_zeros_head_eq (ds ++ fp) hne
  rw [hh] at hhead2
  have hlast := strip_trailing_zeros_getLast (ds ++ fp)
  have hdig : ∀ d ∈ strip_trailing_zeros (ds ++ fp), d.isDigit = true := by
    intro d hd
    rcases List.mem_append.mp (strip_trailing_zeros_subset _ d hd) with h | h
    · exact hds d h
    · exact hfp d h
  have hv0 : digit_value c ≠ 0 := fun h => hc (digit_value_eq_zero c h)
  have hhd : ((strip_trailing_zeros (ds ++ fp)).map digit_value).head? = some (digit_value c) := by
    rw [List.head?_map, hhead2]; rfl
  have hn0 : (strip_trailing_zeros (ds ++ fp)).map digit_value ≠ [0] := by
    intro h
    rw [h] at hhd
    simp only [List.head?_cons, Option.some.injEq] at hhd
    exact hv0 hhd.symm
  refine ⟨⟨by simpa using hne, fun _ => ⟨?_, ?_⟩, fun h => absurd h hn0⟩, ?_, hn0⟩
  · dsimp only
    rw [hhd]
    intro h
    simp only [Option.some.injEq] at h
    exact hv0 h
  · dsimp only
    rw [List.getLast?_map]
    intro h
    cases hl : (strip_trailing_zeros (ds ++ fp)).getLast? with
    | none => rw [hl] at h; simp at h
    | some d =>
      rw [hl] at h
      simp only [Option.map_some', Option.some.injEq] at h
      have := digit_value_eq_zero d h
      subst this
      exact hlast hl
  · intro d hd
    obtain ⟨ch, hch, rfl⟩ := List.mem_map.mp hd
    exact digit_value_range ch (hdig ch hch)

theorem digits_in_mono (a b : Int) (ds : List Int) (hab : a ≤ b) (h : digits_in a ds) :
    digits_in b ds := fun d hd => ⟨(h d hd).1, le_trans (h d hd).2 hab⟩

set_option linter.unnecessarySeqFocus false in
theorem operator_add_normalized (T_MAX : Int) (a b : exact_number) (hT : 4 ≤ T_MAX)
    (ha : digits_in (radix T_MAX - 1) a.digits) (hb : digits_in (radix T_MAX - 1) b.digits)
    (hna : is_normalized a) (hnb : is_normalized b) (hns : ¬ (a.digits = [0] ∧ b.exponent < 0)) :
    value (radix T_MAX) (operator_add T_MAX a b)
      = value (radix T_MAX) a + value (radix T_MAX) b := by
  by_cases hs : a.positive = b.positive
  · exact operator_add_same_sign T_MAX a b hT ha hb hs
  · obtain ⟨h1, h2⟩ := subtract_branch_value T_MAX a b hT ha hb hna hnb hns
    unfold operator_add
    rw [if_neg hs]
    split
    · rename_i hc
      have := h1 hc
      unfold value
      dsimp only
      rw [this]
      cases hpa : a.positive <;> cases hpb : b.positive <;> simp_all <;> ring
    · rename_i hc
      have := h2 hc
      unfold value
      dsimp only
      rw [this]
      cases hpa : a.positive <;> cases hpb : b.positive <;> simp_all <;> ring

set_option linter.unnecessarySeqFocus false in
theorem operator_sub_normalized (T_MAX : Int) (a b : exact_number) (hT : 4 ≤ T_MAX)
    (ha : digits_in (radix T_MAX - 1) a.digits) (hb : digits_in (radix T_MAX - 1) b.digits)
    (hna : is_normalized a) (hnb : is_normalized b) (hns : ¬ (a.digits = [0] ∧ b.exponent < 0)) :
    value (radix T_MAX) (operator_sub T_MAX a b)
      = value (radix T_MAX) a - value (radix T_MAX) b := by
  by_cases hs : a.positive ≠ b.positive
  · obtain ⟨f1, f2, f3, f4, f5, _⟩ := default_base_facts T_MAX hT
    rw [← f4] at ha hb
    have hm := magnitude_add_vector a b (default_base T_MAX) f1 f2 ha hb
    rw [f3] at hm
    unfold operator_sub
    rw [if_pos hs]
    unfold value
    dsimp only
    rw [hm]
    cases hpa : a.positive <;> cases hpb : b.positive <;> simp_all <;> ring
  · obtain ⟨h1, h2⟩ := subtract_branch_value T_MAX a b hT ha hb hna hnb hns
    unfold operator_sub
    rw [if_neg hs]
    split
    · rename_i hc
      have := h1 hc
      unfold value
      dsimp only
      rw [this]
      cases hpa : a.positive <;> cases hpb : b.positive <;> simp_all <;> ring
    · rename_i hc
      have := h2 hc
      unfold value
      dsimp only
      rw [this]
      cases hpa : a.positive <;> cases hpb : b.positive <;> simp_all <;> ring

theorem operator_mul_exact (T_MAX : Int) (a b : exact_number) (hT : 4 ≤ T_MAX)
    (ha : digits_in (radix T_MAX - 1) a.digits) (hb : digits_in (radix T_MAX - 1) b.digits) :
    value (radix T_MAX) (operator_mul T_MAX a b)
      = value (radix T_MAX) a * value (radix T_MAX) b := by
  obtain ⟨_, _, _, _, f5, _⟩ := default_base_facts T_MAX hT
  have h := (multiply_vector_raw_magnitude (radix T_MAX) a b (by omega) ha hb).1
  unfold operator_mul multiply_vector value
  dsimp only
  rw [magnitude_normalize, h]
  cases hpa : a.positive <;> cases hpb : b.positive <;> simp

theorem is_digits_strip_leading (ds : List Char) (h : is_digits ds) :
    is_digits (strip_leading_zeros ds) := by
  intro c hc
  exact h c ((List.dropWhile_sublist _).subset hc)

theorem parsed_digits (sign ds : List Char) (frac : Option (List Char))
    (expo : Option (List Char × List Char)) :
    (parsed sign ds frac expo).1 ++ (parsed sign ds frac expo).2.1
      = strip_trailing_zeros (if strip_leading_zeros ds = [] then strip_leading_zeros (frac.getD [])
          else strip_leading_zeros ds ++ frac.getD []) := by
  unfold parsed
  by_cases hip : strip_leading_zeros ds = []
  · simp only [if_pos hip, List.nil_append]
  · simp only [if_neg hip]
    rw [strip_trailing_zeros_append]
    by_cases hD : strip_trailing_zeros (frac.getD []) = []
    · simp only [if_pos hD, hD, List.append_nil]
    · simp only [if_neg hD]

/-- The constructor returns a number on every well-formed numeral whose written exponent
is below `2^31`; the number is normalized and its digits are decimal digits. -/
theorem of_string_well_formed (sign ds : List Char) (frac : Option (List Char))
    (expo : Option (List Char × List Char)) (hw : well_formed sign ds frac expo)
    (hV : decimal_value (expo.getD ([], [])).2 < 2147483648) :
    ∃ x, exact_number.of_string (numeral sign ds frac expo) = outcome.ok x
      ∧ is_normalized x ∧ digits_in 9 x.digits := by
  obtain ⟨X, h, _⟩ := number_from_string_parts sign ds frac expo hw hV
  have hfp : is_digits (frac.getD []) := by
    cases frac with
    | none => intro c hc; simp at hc
    | some fp => exact hw.2.2.1 fp rfl
  unfold exact_number.of_string
  rw [h]
  simp only [outcome.bind]
  by_cases h0 : (parsed sign ds frac expo).1 = [] ∧ (parsed sign ds frac expo).2.1 = []
  · rw [if_pos h0]
    exact ⟨_, rfl, by decide, by decide⟩
  · rw [if_neg h0]
    refine ⟨_, rfl, ?_⟩
    dsimp only
    rw [← List.map_append, parsed_digits]
    have hne : (parsed sign ds frac expo).1 ++ (parsed sign ds frac expo).2.1 ≠ [] := by
      intro hh
      exact h0 (List.append_eq_nil.mp hh)
    rw [parsed_digits] at hne
    generalize hL : (if strip_leading_zeros ds = [] then strip_leading_zeros (frac.getD [])
          else strip_leading_zeros ds ++ frac.getD []) = L at hne ⊢
    have hLd : is_digits L := by
      rw [← hL]
      by_cases hip : strip_leading_zeros ds = []
      · rw [if_pos hip]; exact is_digits_strip_leading _ hfp
      · rw [if_neg hip]
        intro c hc
        rcases List.mem_append.mp hc with hc | hc
        · exact is_digits_strip_leading _ hw.2.1 c hc
        · exact hfp c hc
    have hLh : L.head? ≠ some '0' := by
      rw [← hL]
      by_cases hip : strip_leading_zeros ds = []
      · rw [if_pos hip]; exact strip_leading_zeros_head _
      · rw [if_neg hip]
        have := strip_leading_zeros_head ds
        cases hsl : strip_leading_zeros ds with
        | nil => exact absurd hsl hip
        | cons a as => rw [hsl] at this; simpa using this
    cases hLc : L with
    | nil => rw [hLc] at hne; simp [strip_trailing_zeros] at hne
    | cons c cs =>
      rw [hLc] at hLh hLd
      have hc : c ≠ '0' := by
        intro hc0; apply hLh; simp [hc0]
      have := of_string_normalized (c :: cs) [] X (parsed sign ds frac expo).2.2.2 hLd
        (by intro d hd; simp at hd) c rfl hc
      rw [List.append_nil] at this
      exact ⟨this.1, this.2.1⟩

theorem decimal_value_strip_leading (ds : List Char) :
    decimal_value (strip_leading_zeros ds) = decimal_value ds := by
  induction ds with
  | nil => rfl
  | cons c cs ih =>
    by_cases h0 : c = '0'
    · subst h0
      rw [strip_leading_zeros_cons, if_pos rfl, ih]
      have h := decimal_value_append ['0'] cs
      rw [List.singleton_append] at h
      rw [h]
      simp [decimal_value, digit_value]
    · rw [strip_leading_zeros_cons, if_neg h0]

/-- The constructor on a well-formed numeral whose exponent fits in `int`: the number it
returns has the decimal value of the numeral. -/
theorem of_string_value (sign ds : List Char) (frac : Option (List Char))
    (expo : Option (List Char × List Char)) (hw : well_formed sign ds frac expo)
    (hV : decimal_value (expo.getD ([], [])).2 < 2147483648)
    (hE : exponent_value expo + ds.length < 2147483648)
    (hZ : strip_leading_zeros ds = [] →
      (leading_zeros (frac.getD []) : Int) - exponent_value expo ≤ 2147483648) :
    ∃ y, exact_number.of_string (numeral sign ds frac expo) = outcome.ok y
      ∧ value 10 y = numeral_value sign ds frac expo
      ∧ (y.digits ≠ [0] → y.positive = !decide (sign = ['-'])) := by
  have hpd := parsed_digits sign ds frac expo
  have hpos : (parsed sign ds frac expo).2.2.2 = !decide (sign = ['-']) := by
    unfold parsed; split <;> rfl
  unfold exact_number.of_string
  rw [number_from_string_numeral sign ds frac expo hw hV hE hZ]
  simp only [outcome.bind]
  by_cases h0 : (parsed sign ds frac expo).1 = [] ∧ (parsed sign ds frac expo).2.1 = []
  · rw [if_pos h0]
    refine ⟨_, rfl, ?_, fun h => absurd rfl h⟩
    rw [h0.1, h0.2] at hpd
    by_cases hip : strip_leading_zeros ds = []
    · rw [if_pos hip] at hpd
      have hfp : strip_leading_zeros (frac.getD []) = [] :=
        (strip_leading_zeros_stripped _).mp (by rw [← hpd]; rfl)
      have e1 : decimal_value ds = 0 := by
        rw [← decimal_value_strip_leading, hip]; rfl
      have e2 : decimal_value (frac.getD []) = 0 := by
        rw [← decimal_value_strip_leading, hfp]; rfl
      simp [value, numeral_value, e1, e2, magnitude]
    · exfalso
      rw [if_neg hip] at hpd
      have hh := strip_leading_zeros_head ds
      cases hsl : strip_leading_zeros ds with
      | nil => exact hip hsl
      | cons c cs =>
        rw [hsl] at hh hpd
        have hc : c ≠ '0' := by intro hc; subst hc; simp at hh
        exact strip_trailing_zeros_head ((c :: cs) ++ frac.getD []) c rfl hc hpd.symm
  · rw [if_neg h0]
    refine ⟨_, rfl, ?_, fun _ => hpos⟩
    unfold value numeral_value
    dsimp only
    rw [← List.map_append, hpd, hpos]
    have hsign : (if (!decide (sign = ['-'])) = true then (1 : ℚ) else -1)
        = (if sign = ['-'] then (-1 : ℚ) else 1) := by
      by_cases hs : sign = ['-'] <;> simp [hs]
    rw [hsign, mul_assoc]
    congr 1
    by_cases hip : strip_leading_zeros ds = []
    · have e1 : decimal_value ds = 0 := by
        rw [← decimal_value_strip_leading, hip]; rfl
      have hlen := strip_leading_zeros_length (frac.getD [])
      have hexp : (parsed sign ds frac expo).2.2.1
          = ((strip_leading_zeros (frac.getD [])).length : Int)
            + (exponent_value expo - (frac.getD []).length) := by
        unfold parsed
        rw [if_pos hip]
        dsimp only
        omega
      rw [if_pos hip, hexp]
      have h := numeral_value_magnitude (strip_leading_zeros (frac.getD [])) []
        (exponent_value expo - (frac.getD []).length)
      rw [List.append_nil] at h
      rw [h, e1, decimal_value_strip_leading, zpow_sub₀ (by norm_num)]
      simp [decimal_value]
      ring
    · have hexp : (parsed sign ds frac expo).2.2.1
          = ((strip_leading_zeros ds).length : Int) + exponent_value expo := by
        unfold parsed
        rw [if_neg hip]
      rw [if_neg hip, hexp, numeral_value_magnitude, decimal_value_strip_leading]

theorem radix_ge_ten (T_MAX : Int) (hT : 40 ≤ T_MAX) : 9 ≤ radix T_MAX - 1 := by
  unfold radix
  rw [Int.tdiv_eq_ediv (by omega) (by omega)]
  omega

/-! ## The single-digit division and the renderer -/

/-- C21, the failing input: dividing the dividend `[0, 3]` (the value 3 with a leading
zero) by the digit 5 in base 10 gives the quotient `[1]` and the remainder `[9, 8]`,
where the claim requires the quotient 0 and the remainder 3. -/
theorem DivisionBySingleDigit_leading_zero :
    DivisionBySingleDigit [0, 3] [5] [] [] 10 = outcome.ok ([1], [9, 8])
    ∧ ival 10 [0, 3] ≠ ival 10 [1] * 5 + ival 10 [9, 8]
    ∧ ¬ ival 10 [9, 8] < 5 := by
  decide

/-- Three renderings: for the integer `B + 2` (digits `[1, 2]`, exponent 2,
`B = 1073741822`) `as_string` returns its exact decimal numeral; for `1/B` (digits `[1]`,
exponent 0) and for `0.25` (digits `[268435455, 536870911]`, exponent 0) it returns a
numeral below the value: the quotient of each fractional digit by its power of `B` is
cut after 20 and after 29 decimal places. -/
theorem as_string_truncates :
    as_string 2147483647 ⟨[1, 2], 2, true⟩
      = outcome.ok ['1', '0', '7', '3', '7', '4', '1', '8', '2', '4']
    ∧ value (radix 2147483647) ⟨[1, 2], 2, true⟩ = 1073741824
    ∧ as_string 2147483647 ⟨[1], 0, true⟩
      = outcome.ok ['0', '.', '0', '0', '0', '0', '0', '0', '0', '0', '0', '9', '3', '1', '3',
          '2', '2', '5', '7', '6', '3', '5']
    ∧ (93132257635 : ℚ) / 10 ^ 20 < value (radix 2147483647) ⟨[1], 0, true⟩
    ∧ as_string 2147483647 ⟨[268435455, 536870911], 0, true⟩
      = outcome.ok ['0', '.', '2', '4', '9', '9', '9', '9', '9', '9', '9', '9', '9', '9', '9',
          '9', '9', '9', '9', '9', '9', '9', '9', '9', '9', '9', '9', '9', '9', '9', '9']
    ∧ value (radix 2147483647) ⟨[268435455, 536870911], 0, true⟩ = 1 / 4 := by
  have hr : radix 2147483647 = 1073741822 := by decide
  refine ⟨by decide!, ?_, by decide!, ?_, by decide!, ?_⟩
  · rw [hr]; norm_num [value, magnitude]
  · rw [hr]; norm_num [value, magnitude]
  · rw [hr]; norm_num [value, magnitude]

/-- C28 as stated fails at `x = 1/B` (digits `[1]`, exponent 0, normalized): the string
that `as_string` returns denotes `93132257635 / 10^20`, which is not `1/B`. -/
theorem as_string_exact_counterexample :
    as_string 2147483647 ⟨[1], 0, true⟩
      = outcome.ok (numeral [] ['0']
          (some ['0', '0', '0', '0', '0', '0', '0', '0', '0', '9', '3', '1', '3', '2', '2', '5',
            '7', '6', '3', '5']) none)
    ∧ numeral_value [] ['0']
          (some ['0', '0', '0', '0', '0', '0', '0', '0', '0', '9', '3', '1', '3', '2', '2', '5',
            '7', '6', '3', '5']) none
        ≠ value (radix 2147483647) ⟨[1], 0, true⟩ := by
  have hr : radix 2147483647 = 1073741822 := by decide
  have hd : decimal_value ['0', '0', '0', '0', '0', '0', '0', '0', '0', '9', '3', '1', '3', '2',
      '2', '5', '7', '6', '3', '5'] = 93132257635 := by decide
  have h0 : decimal_value ['0'] = 0 := by decide
  refine ⟨by decide!, ?_⟩
  rw [hr]
  simp only [numeral_value, Option.getD_some, hd, h0, exponent_value, value, magnitude]
  norm_num

/-! ## The renderer on numbers without fractional digits -/

theorem digit_char (k : Nat) (hk : k < 10) :
    (Char.ofNat (48 + k)).isDigit = true ∧ digit_value (Char.ofNat (48 + k)) = k := by
  interval_cases k <;> decide

/-- The loop of `to_string` puts the decimal digits of `n` in front of `acc`. -/
theorem to_string_loop_spec (fuel n : Nat) (acc : List Char) (h : n < fuel) :
    ∃ s, to_string_loop fuel n acc = s ++ acc ∧ s ≠ [] ∧ is_digits s
      ∧ decimal_value s = n ∧ (n < 10 → s = [Char.ofNat (48 + n)]) := by
  induction fuel generalizing n acc with
  | zero => omega
  | succ fuel ih =>
    have hmod : n % 10 < 10 := Nat.mod_lt _ (by omega)
    obtain ⟨hd1, hd2⟩ := digit_char (n % 10) hmod
    simp only [to_string_loop]
    by_cases h0 : n / 10 = 0
    · rw [if_pos h0]
      have hn : n % 10 = n := by omega
      refine ⟨[Char.ofNat (48 + n % 10)], rfl, by simp, ?_, ?_, ?_⟩
      · intro c hc
        simp only [List.mem_singleton] at hc
        subst hc; exact hd1
      · simp only [decimal_value, List.foldl_cons, List.foldl_nil, hd2]
        omega
      · intro _; rw [hn]
    · rw [if_neg h0]
      obtain ⟨s, hs, hne, hdig, hval, _⟩ := ih (n / 10) (Char.ofNat (48 + n % 10) :: acc) (by omega)
      refine ⟨s ++ [Char.ofNat (48 + n % 10)], by rw [hs]; simp, by simp, ?_, ?_, ?_⟩
      · intro c hc
        rcases List.mem_append.mp hc with h | h
        · exact hdig c h
        · simp only [List.mem_singleton] at h
          subst h; exact hd1
      · rw [decimal_value_snoc, hval, hd2]
        omega
      · intro h10; omega

theorem to_string_spec (d : Int) (hd : 0 ≤ d) :
    to_string d ≠ [] ∧ is_digits (to_string d) ∧ decimal_value (to_string d) = d
    ∧ (d ≤ 9 → to_string d = [Char.ofNat (48 + d.toNat)]) := by
  unfold to_string
  rw [if_neg (by omega)]
  obtain ⟨s, hs, hne, hdig, hval, h10⟩ := to_string_loop_spec (d.toNat + 1) d.toNat [] (by omega)
  rw [List.append_nil] at hs
  rw [hs]
  refine ⟨hne, hdig, by rw [hval]; omega, fun h => h10 (by omega)⟩

theorem vector_to_string_spec (v : List Int) (hv : digits_in 9 v) :
    is_digits (vector_to_string v) ∧ string_to_vector (vector_to_string v) = v := by
  induction v with
  | nil => exact ⟨fun c hc => by simp [vector_to_string] at hc, rfl⟩
  | cons d ds ih =>
    obtain ⟨h0, h9⟩ := hv d (List.mem_cons_self _ _)
    obtain ⟨ih1, ih2⟩ := ih (fun x hx => hv x (List.mem_cons_of_mem _ hx))
    obtain ⟨_, hdig, _, hsingle⟩ := to_string_spec d h0
    have hs := hsingle h9
    have hk : d.toNat < 10 := by omega
    obtain ⟨_, hd2⟩ := digit_char d.toNat hk
    unfold vector_to_string string_to_vector at *
    simp only [List.flatMap_cons, List.map_append]
    refine ⟨?_, ?_⟩
    · intro c hc
      rcases List.mem_append.mp hc with h | h
      · exact hdig c h
      · exact ih1 c h
    · rw [ih2, hs]
      simp only [List.map_cons, List.map_nil, hd2, List.singleton_append, List.cons.injEq,
        and_true]
      omega

theorem normalize_front_gap (n : Nat) (ds : List Int) (e : Int) :
    (normalize_front n ds e).2 - ((normalize_front n ds e).1.length : Int)
      = e - (ds.length : Int) := by
  induction n generalizing ds e with
  | zero => rfl
  | succ n ih =>
    simp only [normalize_front]
    split
    · rename_i hc
      rw [ih]
      have : ds.tail.length = ds.length - 1 := by simp
      omega
    · rfl

theorem normalize_back_length_le (n : Nat) (ds : List Int) :
    (normalize_back n ds).length ≤ ds.length := by
  induction n generalizing ds with
  | zero => exact le_refl _
  | succ n ih =>
    simp only [normalize_back]
    split
    · have := ih ds.dropLast
      have h2 : ds.dropLast.length = ds.length - 1 := by simp
      omega
    · exact le_refl _

/-- After `normalize`, a number without fractional digits is the digit 0 alone or still
has no fractional digits. -/
theorem normalize_length (y : exact_number) (h : (y.digits.length : Int) ≤ y.exponent) :
    (normalize y).digits = [0]
    ∨ ((normalize y).digits.length : Int) ≤ (normalize y).exponent := by
  have h1 := normalize_front_gap y.digits.length y.digits y.exponent
  have h2 := normalize_back_length_le
    (normalize_front y.digits.length y.digits y.exponent).1.length
    (normalize_front y.digits.length y.digits y.exponent).1
  unfold normalize
  dsimp only
  split
  · rename_i hc
    left
    obtain ⟨hl, hh⟩ := hc
    generalize normalize_back (normalize_front y.digits.length y.digits y.exponent).1.length
      (normalize_front y.digits.length y.digits y.exponent).1 = r at hl hh
    match r, hl, hh with
    | [d], _, hh =>
      simp only [List.head?_cons, Option.some.injEq] at hh
      rw [hh]
  · right
    dsimp only
    omega

theorem ival_append_zeros (B : Int) (ds : List Int) (k : Nat) :
    ival B (ds ++ List.replicate k 0) = ival B ds * B ^ k := by
  induction ds with
  | nil =>
    simp only [List.nil_append, ival, zero_mul]
    induction k with
    | zero => rfl
    | succ k ih => simp [List.replicate_succ, ival, ih]
  | cons d ds ih =>
    rw [List.cons_append]
    simp only [ival]
    rw [ih, List.length_append, List.length_replicate]
    ring

theorem ival_dropWhile_zero (B : Int) (ds : List Int) :
    ival B (ds.dropWhile fun d => decide (d = 0)) = ival B ds := by
  induction ds with
  | nil => rfl
  | cons d ds ih =>
    by_cases h0 : d = 0
    · simp [h0, ival, ih]
    · simp [h0]

/-- The digits that `as_string` keeps of a number without fractional digits denote its
magnitude. -/
theorem padded_value (B : Int) (hB : B ≠ 0) (r : exact_number)
    (h : r.digits = [0] ∨ (r.digits.length : Int) ≤ r.exponent) :
    ((ival B (pad_zeros r).digits : Int) : ℚ) = magnitude B r.digits r.exponent := by
  have hBq : (B : ℚ) ≠ 0 := by exact_mod_cast hB
  unfold pad_zeros
  dsimp only
  rw [ival_append_zeros]
  rcases h with h | h
  · rw [h]
    simp [ival, magnitude]
  · rw [magnitude_eq_ival B hB]
    obtain ⟨k, hk⟩ := Int.eq_ofNat_of_zero_le (by omega : 0 ≤ r.exponent - (r.digits.length : Int))
    rw [hk]
    simp

theorem magnitude_of_vector (B : Int) (hB : B ≠ 0) (v : List Int) :
    magnitude B v (v.length : Int) = ((ival B v : Int) : ℚ) := by
  rw [magnitude_eq_ival B hB]
  simp

theorem digits_in_pad_zeros (b : Int) (hb : 0 ≤ b) (r : exact_number) (h : digits_in b r.digits) :
    digits_in b (pad_zeros r).digits := by
  intro d hd
  unfold pad_zeros at hd
  rcases List.mem_append.mp hd with h1 | h1
  · exact h d h1
  · rw [List.eq_of_mem_replicate h1]; omega

theorem add_vector_integer_length (a b : List Int) (base : Int) :
    (add_vector (exact_number.of_vector a) (exact_number.of_vector b) base).digits = [0]
    ∨ ((add_vector (exact_number.of_vector a) (exact_number.of_vector b) base).digits.length : Int)
      ≤ (add_vector (exact_number.of_vector a) (exact_number.of_vector b) base).exponent := by
  unfold add_vector exact_number.of_vector
  dsimp only
  have hI : (0 : Int) ≤ max (a.length : Int) (b.length : Int) := le_max_of_le_left (by omega)
  split
  · apply normalize_length
    simp only [List.length_cons, add_vector_loop_length, sub_self, max_self, zero_add]
    push_cast
    rw [Int.toNat_of_nonneg hI]
  · apply normalize_length
    simp only [add_vector_loop_length, sub_self, max_self, zero_add]
    rw [Int.toNat_of_nonneg hI]

/-- The sum that `as_string` forms of two vectors of decimal digits. -/
theorem base10_add_vectors (a b : List Int) (ha : digits_in 9 a) (hb : digits_in 9 b)
    (hne : a ≠ []) :
    digits_in 9 (pad_zeros (base10_add (exact_number.of_vector a)
        (exact_number.of_vector b))).digits
    ∧ (pad_zeros (base10_add (exact_number.of_vector a) (exact_number.of_vector b))).digits ≠ []
    ∧ ival 10 (pad_zeros (base10_add (exact_number.of_vector a)
        (exact_number.of_vector b))).digits = ival 10 a + ival 10 b := by
  have hm := magnitude_add_vector (exact_number.of_vector a) (exact_number.of_vector b) 9
    (by norm_num) (by norm_num) ha hb
  obtain ⟨hn, hd⟩ := add_vector_normalized (exact_number.of_vector a)
    (exact_number.of_vector b) 9 (by norm_num) (by norm_num) ha hb hne
  have hl := add_vector_integer_length a b 9
  have e1 : base10_add (exact_number.of_vector a) (exact_number.of_vector b)
      = ⟨(add_vector (exact_number.of_vector a) (exact_number.of_vector b) 9).digits,
        (add_vector (exact_number.of_vector a) (exact_number.of_vector b) 9).exponent, true⟩ := by
    simp [base10_add, exact_number.of_vector]
  rw [e1]
  generalize add_vector (exact_number.of_vector a) (exact_number.of_vector b) 9 = r at *
  refine ⟨digits_in_pad_zeros 9 (by norm_num) _ hd, ?_, ?_⟩
  · unfold pad_zeros
    dsimp only
    intro h
    exact hn.1 (List.append_eq_nil.mp h).1
  · have hp := padded_value 10 (by norm_num) ⟨r.digits, r.exponent, true⟩ hl
    dsimp only at hp
    rw [show (9 : Int) + 1 = 10 by norm_num] at hm
    rw [hm] at hp
    simp only [exact_number.of_vector] at hp
    rw [magnitude_of_vector 10 (by norm_num), magnitude_of_vector 10 (by norm_num)] at hp
    exact_mod_cast hp

/-- The product that `as_string` forms of two vectors of decimal digits. -/
theorem base10_mult_vectors (a b : List Int) (ha : digits_in 9 a) (hb : digits_in 9 b) :
    digits_in 9 (padded_digits (base10_mult (exact_number.of_vector a)
        (exact_number.of_vector b)))
    ∧ ival 10 (padded_digits (base10_mult (exact_number.of_vector a)
        (exact_number.of_vector b))) = ival 10 a * ival 10 b := by
  obtain ⟨hm, hd, _⟩ := multiply_vector_raw_magnitude 10 (exact_number.of_vector a)
    (exact_number.of_vector b) (by norm_num) ha hb
  have hraw : ((multiply_vector_raw (exact_number.of_vector a) (exact_number.of_vector b)
      10).digits.length : Int)
      ≤ (multiply_vector_raw (exact_number.of_vector a) (exact_number.of_vector b) 10).exponent := by
    simp [multiply_vector_raw, exact_number.of_vector]
  have hl := normalize_length _ hraw
  have hmn := magnitude_normalize 10
    (multiply_vector_raw (exact_number.of_vector a) (exact_number.of_vector b) 10)
  have hdn := digits_in_normalize (10 - 1)
    (multiply_vector_raw (exact_number.of_vector a) (exact_number.of_vector b) 10) hd
  have e1 : base10_mult (exact_number.of_vector a) (exact_number.of_vector b)
      = ⟨(normalize (multiply_vector_raw (exact_number.of_vector a)
            (exact_number.of_vector b) 10)).digits,
        (normalize (multiply_vector_raw (exact_number.of_vector a)
            (exact_number.of_vector b) 10)).exponent, true⟩ := by
    simp [base10_mult, multiply_vector, exact_number.of_vector]
  rw [e1]
  generalize normalize (multiply_vector_raw (exact_number.of_vector a)
    (exact_number.of_vector b) 10) = r at *
  rw [show (10 : Int) - 1 = 9 by norm_num] at hdn
  unfold padded_digits
  refine ⟨?_, ?_⟩
  · intro d hd2
    exact digits_in_pad_zeros 9 (by norm_num) ⟨r.digits, r.exponent, true⟩ hdn d
      ((List.dropWhile_sublist _).subset hd2)
  · rw [ival_dropWhile_zero]
    have hp := padded_value 10 (by norm_num) ⟨r.digits, r.exponent, true⟩ hl
    dsimp only at hp
    rw [hmn, hm] at hp
    simp only [exact_number.of_vector] at hp
    rw [magnitude_of_vector 10 (by norm_num), magnitude_of_vector 10 (by norm_num)] at hp
    exact_mod_cast hp

theorem base_digits_loop_spec (fuel : Nat) (b : Int) (acc : List Int) (hb : 0 ≤ b)
    (hf : b.toNat ≤ fuel) (hacc : digits_in 9 acc) :
    digits_in 9 (base_digits_loop fuel b acc)
    ∧ ival 10 (base_digits_loop fuel b acc).reverse
      = b * 10 ^ acc.length + ival 10 acc.reverse := by
  induction fuel generalizing b acc with
  | zero =>
    have : b = 0 := by omega
    subst this
    simp [base_digits_loop, hacc]
  | succ fuel ih =>
    simp only [base_digits_loop]
    by_cases h0 : b = 0
    · subst h0
      simp [hacc]
    · rw [if_pos h0]
      have hdiv : Int.tdiv b 10 = b / 10 := Int.tdiv_eq_ediv hb (by norm_num)
      have hmod : Int.tmod b 10 = b % 10 := Int.tmod_eq_emod hb (by norm_num)
      rw [hdiv, hmod]
      have hacc2 : digits_in 9 (acc ++ [b % 10]) := by
        intro d hd
        rcases List.mem_append.mp hd with h | h
        · exact hacc d h
        · simp only [List.mem_singleton] at h
          subst h; omega
      obtain ⟨i1, i2⟩ := ih (b / 10) (acc ++ [b % 10]) (by omega) (by omega) hacc2
      refine ⟨i1, ?_⟩
      rw [i2]
      simp only [List.length_append, List.length_singleton, List.reverse_append,
        List.reverse_cons, List.reverse_nil, List.nil_append, List.singleton_append, ival,
        List.length_reverse]
      have := Int.emod_add_ediv b 10
      rw [pow_succ]
      linear_combination (10 ^ acc.length) * this

/-- The vector `base` of `as_string` holds the decimal digits of `(T_MAX/4)*2`. -/
theorem base_digits_spec (T_MAX : Int) (hT : 4 ≤ T_MAX) :
    digits_in 9 (base_digits T_MAX) ∧ ival 10 (base_digits T_MAX) = radix T_MAX := by
  obtain ⟨_, _, _, _, h2, _⟩ := default_base_facts T_MAX hT
  obtain ⟨h1, h3⟩ := base_digits_loop_spec (radix T_MAX).natAbs (radix T_MAX) [] (by omega)
    (by omega) (fun d hd => by simp at hd)
  unfold base_digits
  refine ⟨fun d hd => h1 d (List.mem_reverse.mp hd), ?_⟩
  rw [h3]; simp [ival]

theorem foldl_words (B : Int) (ws : List (List Char)) (a : Int) :
    ws.foldl (fun acc w => acc * B + decimal_value w) a
      = a * B ^ ws.length + ival B (ws.map decimal_value) := by
  induction ws generalizing a with
  | nil => simp [ival]
  | cons w ws ih =>
    simp only [List.foldl_cons, ih, List.map_cons, ival, List.length_cons, List.length_map]
    ring

theorem words_value_ival (B : Int) (ws : List (List Char)) :
    words_value B ws = ival B (ws.map decimal_value) := by
  unfold words_value
  rw [foldl_words]; simp

theorem words_value_snoc (B : Int) (ws : List (List Char)) (w : List Char) :
    words_value B (ws ++ [w]) = words_value B ws * B + decimal_value w := by
  simp [words_value]

theorem words_value_map (B : Int) (f : List Char → List Char) (ws : List (List Char))
    (h : ∀ w ∈ ws, decimal_value (f w) = decimal_value w * B) :
    words_value B (ws.map f) = words_value B ws * B := by
  induction ws using List.reverseRecOn with
  | nil => simp [words_value]
  | append_singleton ws w ih =>
    rw [List.map_append, List.map_singleton, words_value_snoc, words_value_snoc,
      ih (fun v hv => h v (List.mem_append_left _ hv)), h w (by simp)]
    ring

theorem string_to_vector_spec (w : List Char) (hw : is_digits w) :
    digits_in 9 (string_to_vector w) ∧ ival 10 (string_to_vector w) = decimal_value w := by
  refine ⟨?_, ival_map_digit_value w⟩
  intro d hd
  obtain ⟨c, hc, rfl⟩ := List.mem_map.mp hd
  exact digit_value_range c (hw c hc)

/-- The loop over the integer words of `as_string` adds up the words as the digits of a
numeral in the base that `base` denotes. -/
theorem as_string_integer_loop_spec (base : List Int) (hbase : digits_in 9 base)
    (fuel : Nat) (ws : List (List Char)) (nr : List Int) (hf : ws.length ≤ fuel)
    (hws : ∀ w ∈ ws, is_digits w) (hnr : digits_in 9 nr) (hne : nr ≠ []) :
    digits_in 9 (as_string_integer_loop base fuel ws nr)
    ∧ as_string_integer_loop base fuel ws nr ≠ []
    ∧ ival 10 (as_string_integer_loop base fuel ws nr)
      = ival 10 nr + words_value (ival 10 base) ws := by
  induction fuel generalizing ws nr with
  | zero =>
    have : ws = [] := List.length_eq_zero.mp (by omega)
    subst this
    simp [as_string_integer_loop, hnr, hne, words_value]
  | succ fuel ih =>
    simp only [as_string_integer_loop]
    cases hl : ws.getLast? with
    | none =>
      have : ws = [] := List.getLast?_eq_none_iff.mp hl
      subst this
      simp [hnr, hne, words_value]
    | some num =>
      have hsplit : ws.dropLast ++ [num] = ws := List.dropLast_append_getLast? num hl
      have hnum : is_digits num := hws num (by rw [← hsplit]; simp)
      obtain ⟨hv1, hv2⟩ := string_to_vector_spec num hnum
      obtain ⟨a1, a2, a3⟩ := base10_add_vectors nr (string_to_vector num) hnr hv1 hne
      have hlen : ws.dropLast.length ≤ fuel := by
        have := congrArg List.length hsplit
        simp only [List.length_append, List.length_singleton] at this
        omega
      have hmul : ∀ w ∈ ws.dropLast,
          is_digits (vector_to_string (padded_digits (base10_mult
            (exact_number.of_vector (string_to_vector w)) (exact_number.of_vector base))))
          ∧ decimal_value (vector_to_string (padded_digits (base10_mult
            (exact_number.of_vector (string_to_vector w)) (exact_number.of_vector base))))
            = decimal_value w * ival 10 base := by
        intro w hw
        have hwd : is_digits w := hws w (by rw [← hsplit]; exact List.mem_append_left _ hw)
        obtain ⟨w1, w2⟩ := string_to_vector_spec w hwd
        obtain ⟨m1, m2⟩ := base10_mult_vectors (string_to_vector w) base w1 hbase
        obtain ⟨s1, s2⟩ := vector_to_string_spec _ m1
        refine ⟨s1, ?_⟩
        rw [← ival_map_digit_value]
        have : (vector_to_string (padded_digits (base10_mult
            (exact_number.of_vector (string_to_vector w)) (exact_number.of_vector base)))).map
            digit_value = padded_digits (base10_mult
            (exact_number.of_vector (string_to_vector w)) (exact_number.of_vector base)) := s2
        rw [this, m2, w2]
      dsimp only
      obtain ⟨i1, i2, i3⟩ := ih
        (ws.dropLast.map fun tempstr =>
          vector_to_string (padded_digits
            (base10_mult (exact_number.of_vector (string_to_vector tempstr))
              (exact_number.of_vector base))))
        (pad_zeros (base10_add (exact_number.of_vector nr)
          (exact_number.of_vector (string_to_vector num)))).digits
        (by rw [List.length_map]; exact hlen)
        (by
          intro w hw
          obtain ⟨v, hv, rfl⟩ := List.mem_map.mp hw
          exact (hmul v hv).1)
        a1 a2
      refine ⟨i1, i2, ?_⟩
      rw [i3, a3, hv2, words_value_map _ _ _ (fun w hw => (hmul w hw).2)]
      conv_rhs => rw [← hsplit, words_value_snoc]
      ring

theorem isDigit_not_space (c : Char) (h : c.isDigit = true) :
    c.isWhitespace = false ∧ c ≠ '.' ∧ c ≠ ' ' := by
  have h1 := (isDigit_ne c h).2.1
  have hs : c ≠ ' ' := by intro hc; subst hc; revert h; decide
  have ht : c ≠ '\t' := by intro hc; subst hc; revert h; decide
  have hr : c ≠ '\r' := by intro hc; subst hc; revert h; decide
  have hn : c ≠ '\n' := by intro hc; subst hc; revert h; decide
  refine ⟨?_, h1, hs⟩
  simp [Char.isWhitespace, hs, ht, hr, hn]

theorem words_loop_word (t rest w : List Char) (ht : ∀ c ∈ t, c.isWhitespace = false)
    (hne : w ++ t ≠ []) :
    words_loop (t ++ ' ' :: rest) w = (w ++ t) :: words_loop rest [] := by
  induction t generalizing w with
  | nil =>
    have hw : w ≠ [] := by simpa using hne
    simp [words_loop, hw, show (' ' : Char).isWhitespace = true by decide]
  | cons c t ih =>
    have hc := ht c (List.mem_cons_self _ _)
    simp only [List.cons_append, words_loop, hc, Bool.false_eq_true, if_false]
    rw [show t.append (' ' :: rest) = t ++ ' ' :: rest from rfl,
      ih (w ++ [c]) (fun d hd => ht d (List.mem_cons_of_mem _ hd)) (by simp)]
    simp

theorem words_loop_tokens (ts : List (List Char))
    (h : ∀ t ∈ ts, t ≠ [] ∧ ∀ c ∈ t, c.isWhitespace = false) :
    words_loop (ts.flatMap fun t => t ++ [' ']) [] = ts := by
  induction ts with
  | nil => simp [words_loop]
  | cons t ts ih =>
    obtain ⟨h1, h2⟩ := h t (List.mem_cons_self _ _)
    simp only [List.flatMap_cons, List.append_assoc, List.singleton_append]
    rw [words_loop_word t _ [] h2 (by simpa using h1),
      ih (fun u hu => h u (List.mem_cons_of_mem _ hu))]
    simp

theorem range_map_getD (l : List Int) (n : Nat) (h : l.length ≤ n) :
    (List.range n).map (fun i => l.getD i 0) = l ++ List.replicate (n - l.length) 0 := by
  apply List.ext_getElem
  · simp; omega
  · intro i h1 h2
    simp only [List.getElem_map, List.getElem_range, List.getD_eq_getElem?_getD]
    by_cases hi : i < l.length
    · rw [List.getElem_append_left hi, List.getElem?_eq_getElem hi]; rfl
    · rw [List.getElem_append_right (by omega), List.getElem?_eq_none (by omega)]
      simp

theorem to_string_zero : to_string 0 = ['0'] := by decide

/-- The first part of `as_string` on a number without fractional digits: the decimal
numerals of the digits and of the zeros up to the exponent, each followed by a space. -/
theorem internal_string_integer (x : exact_number) (hd : ∀ d ∈ x.digits, 0 ≤ d)
    (hne : x.digits ≠ []) (hexp : (x.digits.length : Int) ≤ x.exponent) :
    internal_string x
      = ((List.range x.exponent.toNat).map fun i => to_string (x.digits.getD i 0)).flatMap
          fun t => t ++ [' '] := by
  have hpos : 0 < x.digits.length := List.length_pos.mpr hne
  have hfun : ∀ i ∈ List.range x.exponent.toNat,
      ((if (i : Int) = x.exponent then ['.'] else [])
        ++ (if i < x.digits.length then to_string (x.digits.getD i 0) ++ [' ']
            else ['0', ' ']))
      = to_string (x.digits.getD i 0) ++ [' '] := by
    intro i hi
    have hi2 : i < x.exponent.toNat := List.mem_range.mp hi
    rw [if_neg (by omega)]
    by_cases hl : i < x.digits.length
    · rw [if_pos hl]; rfl
    · rw [if_neg hl, List.getD_eq_getElem?_getD, List.getElem?_eq_none (by omega)]
      simp [to_string_zero]
  have hres : ((List.range (max x.exponent (x.digits.length : Int)).toNat).flatMap fun i =>
      (if (i : Int) = x.exponent then ['.'] else [])
        ++ (if i < x.digits.length then to_string (x.digits.getD i 0) ++ [' ']
            else ['0', ' ']))
      = ((List.range x.exponent.toNat).map fun i => to_string (x.digits.getD i 0)).flatMap
          fun t => t ++ [' '] := by
    rw [max_eq_left hexp, List.flatMap_map]
    exact List.flatMap_congr hfun
  have hnodot : '.' ∉ ((List.range x.exponent.toNat).map fun i =>
      to_string (x.digits.getD i 0)).flatMap fun t => t ++ [' '] := by
    intro hmem
    obtain ⟨t, ht, hc⟩ := List.mem_flatMap.mp hmem
    obtain ⟨i, _, rfl⟩ := List.mem_map.mp ht
    have h0 : 0 ≤ x.digits.getD i 0 := by
      rw [List.getD_eq_getElem?_getD]
      cases hg : x.digits[i]? with
      | none => simp
      | some d => simp; exact hd d (List.getElem?_mem hg)
    rcases List.mem_append.mp hc with h | h
    · exact (isDigit_not_space _ ((to_string_spec _ h0).2.1 _ h)).2.1 rfl
    · simp at h
  unfold internal_string
  rw [if_neg (by omega)]
  dsimp only
  rw [hres, if_neg]
  intro hl
  exact hnodot (List.mem_of_mem_getLast? hl)

theorem vector_to_string_ne_nil (v : List Int) (hv : digits_in 9 v) (hne : v ≠ []) :
    vector_to_string v ≠ [] := by
  cases v with
  | nil => exact absurd rfl hne
  | cons d ds =>
    have h0 := (hv d (List.mem_cons_self _ _)).1
    have := (to_string_spec d h0).1
    simp [vector_to_string, this]

/-- The renderer on a number without fractional digits: the string and its value. -/
theorem as_string_integer_spec (T_MAX : Int) (x : exact_number) (hT : 4 ≤ T_MAX)
    (hd : digits_in (radix T_MAX - 1) x.digits) (hne : x.digits ≠ [])
    (hexp : (x.digits.length : Int) ≤ x.exponent) :
    ∃ s, s ≠ [] ∧ is_digits s
      ∧ as_string T_MAX x
        = outcome.ok (numeral (if x.positive = true then [] else ['-']) s none none)
      ∧ numeral_value (if x.positive = true then [] else ['-']) s none none
        = value (radix T_MAX) x := by
  obtain ⟨_, _, _, _, hB2, _⟩ := default_base_facts T_MAX hT
  obtain ⟨hb1, hb2⟩ := base_digits_spec T_MAX hT
  have hd0 : ∀ d ∈ x.digits, 0 ≤ d := fun d h => (hd d h).1
  have hget : ∀ i, 0 ≤ x.digits.getD i 0 := by
    intro i
    rw [List.getD_eq_getElem?_getD]
    cases hg : x.digits[i]? with
    | none => simp
    | some d => simp; exact hd0 d (List.getElem?_mem hg)
  have hint := internal_string_integer x hd0 hne hexp
  have htok : ∀ t ∈ (List.range x.exponent.toNat).map (fun i => to_string (x.digits.getD i 0)),
      t ≠ [] ∧ ∀ c ∈ t, c.isWhitespace = false := by
    intro t ht
    obtain ⟨i, _, rfl⟩ := List.mem_map.mp ht
    obtain ⟨h1, h2, _⟩ := to_string_spec _ (hget i)
    exact ⟨h1, fun c hc => (isDigit_not_space c (h2 c hc)).1⟩
  have hnodot : ∀ c ∈ internal_string x, (!decide (c = '.')) = true := by
    intro c hc
    rw [hint] at hc
    obtain ⟨t, ht, hc2⟩ := List.mem_flatMap.mp hc
    obtain ⟨i, _, rfl⟩ := List.mem_map.mp ht
    rcases List.mem_append.mp hc2 with h | h
    · have := (isDigit_not_space c ((to_string_spec _ (hget i)).2.1 c h)).2.1
      simp [this]
    · simp only [List.mem_singleton] at h
      subst h; decide
  have hiw : integer_words (internal_string x)
      = (List.range x.exponent.toNat).map (fun i => to_string (x.digits.getD i 0)) := by
    unfold integer_words
    rw [List.takeWhile_eq_self_iff.mpr hnodot, hint, words_loop_tokens _ htok]
  have hdw : decimal_words (internal_string x) = [] := by
    unfold decimal_words
    rw [List.dropWhile_eq_nil_iff.mpr hnodot]
    simp [words_loop]
  have hwd : ∀ w ∈ (List.range x.exponent.toNat).map (fun i => to_string (x.digits.getD i 0)),
      is_digits w := by
    intro t ht
    obtain ⟨i, _, rfl⟩ := List.mem_map.mp ht
    exact (to_string_spec _ (hget i)).2.1
  obtain ⟨l1, l2, l3⟩ := as_string_integer_loop_spec (base_digits T_MAX) hb1
    ((List.range x.exponent.toNat).map (fun i => to_string (x.digits.getD i 0))).length
    ((List.range x.exponent.toNat).map (fun i => to_string (x.digits.getD i 0))) [0]
    (le_refl _) hwd (by decide) (by simp)
  obtain ⟨s1, s2⟩ := vector_to_string_spec _ l1
  have hval : decimal_value (vector_to_string (as_string_integer_loop (base_digits T_MAX)
      ((List.range x.exponent.toNat).map (fun i => to_string (x.digits.getD i 0))).length
      ((List.range x.exponent.toNat).map (fun i => to_string (x.digits.getD i 0))) [0]))
      = ival (radix T_MAX) (pad_zeros x).digits := by
    rw [← ival_map_digit_value]
    have e0 : (vector_to_string (as_string_integer_loop (base_digits T_MAX)
        ((List.range x.exponent.toNat).map (fun i => to_string (x.digits.getD i 0))).length
        ((List.range x.exponent.toNat).map (fun i => to_string (x.digits.getD i 0))) [0])).map
        digit_value = as_string_integer_loop (base_digits T_MAX)
        ((List.range x.exponent.toNat).map (fun i => to_string (x.digits.getD i 0))).length
        ((List.range x.exponent.toNat).map (fun i => to_string (x.digits.getD i 0))) [0] := s2
    rw [e0, l3, hb2, words_value_ival, List.map_map]
    have e1 : (List.range x.exponent.toNat).map
        (decimal_value ∘ fun i => to_string (x.digits.getD i 0))
        = (List.range x.exponent.toNat).map (fun i => x.digits.getD i 0) := by
      apply List.map_congr_left
      intro i _
      exact (to_string_spec _ (hget i)).2.2.1
    rw [e1, range_map_getD _ _ (by omega)]
    unfold pad_zeros
    dsimp only
    rw [show (x.exponent - (x.digits.length : Int)).toNat = x.exponent.toNat - x.digits.length by
      omega]
    simp [ival]
  have hmag := padded_value (radix T_MAX) (by omega) x (Or.inr hexp)
  refine ⟨vector_to_string (as_string_integer_loop (base_digits T_MAX)
      ((List.range x.exponent.toNat).map (fun i => to_string (x.digits.getD i 0))).length
      ((List.range x.exponent.toNat).map (fun i => to_string (x.digits.getD i 0))) [0]),
    vector_to_string_ne_nil _ l1 l2, s1, ?_, ?_⟩
  · unfold as_string
    dsimp only
    rw [hiw, hdw]
    simp only [List.reverse_nil, List.length_nil, as_string_powers, as_string_fraction_loop,
      outcome.bind, List.getLast?_singleton, Option.getD_some, List.length_singleton,
      as_string_trim]
    simp [numeral, fraction_chars, exponent_chars, as_string_trim]
  · unfold numeral_value value
    rw [hval, hmag]
    cases x.positive <;> simp [exponent_value, decimal_value]

/-- C28 (amended): for a number without fractional digits (`exponent ≥ |digits| ≥ 1`) and
with digits in `[0, B − 1]`, `B = (T_MAX/4)·2`, `as_string` returns the optional `-` and a
non-empty string of decimal digits that denotes exactly the value
`sign · Σ digits[i] · B^(exponent − 1 − i)`. -/
theorem as_string_integer (T_MAX : Int) (x : exact_number) (hT : 4 ≤ T_MAX)
    (hd : digits_in (radix T_MAX - 1) x.digits) (hne : x.digits ≠ [])
    (hexp : (x.digits.length : Int) ≤ x.exponent) :
    ∃ s, s ≠ [] ∧ is_digits s
      ∧ as_string T_MAX x
        = outcome.ok (numeral (if x.positive = true then [] else ['-']) s none none)
      ∧ numeral_value (if x.positive = true then [] else ['-']) s none none
        = value (radix T_MAX) x :=
  as_string_integer_spec T_MAX x hT hd hne hexp

theorem as_string_integer_witness :
    (4 : Int) ≤ 2147483647 ∧ digits_in (radix 2147483647 - 1) [1, 2]
    ∧ ∃ s, s ≠ [] ∧ is_digits s
      ∧ as_string 2147483647 ⟨[1, 2], 2, true⟩
        = outcome.ok (numeral (if true = true then [] else ['-']) s none none)
      ∧ numeral_value (if true = true then [] else ['-']) s none none
        = value (radix 2147483647) ⟨[1, 2], 2, true⟩ :=
  ⟨by decide, by decide,
    as_string_integer 2147483647 ⟨[1, 2], 2, true⟩ (by decide) (by decide) (by decide)
      (by decide)⟩

/-! ## The round trip through the renderer and the constructor -/

theorem ival_base_le (B : Int) (hB : 10 ≤ B) (ds : List Int) (h0 : ∀ d ∈ ds, 0 ≤ d) :
    0 ≤ ival 10 ds ∧ ival 10 ds ≤ ival B ds := by
  induction ds with
  | nil => simp [ival]
  | cons d ds ih =>
    have hd : 0 ≤ d := h0 d (List.mem_cons_self _ _)
    obtain ⟨i1, i2⟩ := ih (fun e he => h0 e (List.mem_cons_of_mem _ he))
    have hp : (10 : Int) ^ ds.length ≤ B ^ ds.length := pow_le_pow_left₀ (by norm_num) hB _
    have hp0 : (0 : Int) ≤ 10 ^ ds.length := by positivity
    simp only [ival]
    constructor
    · have := mul_nonneg hd hp0
      omega
    · have := mul_le_mul_of_nonneg_left hp hd
      omega

theorem ival_base_lt (B : Int) (hB : 10 < B) (d : Int) (ds : List Int) (hd : 0 < d)
    (hne : ds ≠ []) (h0 : ∀ e ∈ ds, 0 ≤ e) : ival 10 (d :: ds) < ival B (d :: ds) := by
  obtain ⟨_, i2⟩ := ival_base_le B (le_of_lt hB) ds h0
  have hl : ds.length ≠ 0 := by
    intro h; exact hne (List.length_eq_zero.mp h)
  have hp : (10 : Int) ^ ds.length < B ^ ds.length := pow_lt_pow_left₀ hB (by norm_num) hl
  have := mul_lt_mul_of_pos_left hp hd
  simp only [ival]
  omega

theorem ival_head_pos (d : Int) (ds : List Int) (hd : 0 < d) (h0 : ∀ e ∈ ds, 0 ≤ e) :
    0 < ival 10 (d :: ds) := by
  obtain ⟨i1, _⟩ := ival_base_le 10 (le_refl _) ds h0
  have hp0 : (0 : Int) < 10 ^ ds.length := by positivity
  have := mul_pos hd hp0
  simp only [ival]
  omega

/-- A number without fractional digits whose decimal digits denote the same value in
base 10 and in a base above 10 is a single digit with exponent 1. -/
theorem same_value_single_digit (B : Int) (hB : 10 < B) (x : exact_number)
    (hn : is_normalized x) (hd : ∀ d ∈ x.digits, 0 ≤ d)
    (hexp : (x.digits.length : Int) ≤ x.exponent)
    (hv : magnitude 10 x.digits x.exponent = magnitude B x.digits x.exponent) :
    ∃ d, 1 ≤ d ∧ x.digits = [d] ∧ x.exponent = 1 := by
  obtain ⟨ds, e, p⟩ := x
  dsimp only at hn hd hexp hv ⊢
  obtain ⟨hne, hht, hz⟩ := hn
  dsimp only at hne hht hz
  cases ds with
  | nil => exact absurd rfl hne
  | cons d rest =>
    have hd0 : 0 ≤ d := hd d (List.mem_cons_self _ _)
    have hrest : ∀ e ∈ rest, 0 ≤ e := fun e he => hd e (List.mem_cons_of_mem _ he)
    have hdne : d ≠ 0 := by
      intro h
      subst h
      cases rest with
      | nil =>
        have := (hz rfl).1
        simp only [List.length_cons, List.length_nil] at hexp
        omega
      | cons r rs =>
        exact (hht (by simp)).1 rfl
    have hdpos : 0 < d := lt_of_le_of_ne hd0 (Ne.symm hdne)
    obtain ⟨k, hk⟩ : ∃ k : Nat, e - ((d :: rest).length : Int) = (k : Int) :=
      ⟨(e - ((d :: rest).length : Int)).toNat, by omega⟩
    rw [magnitude_eq_ival 10 (by norm_num), magnitude_eq_ival B (by omega), hk, zpow_natCast,
      zpow_natCast] at hv
    have hvi : ival 10 (d :: rest) * 10 ^ k = ival B (d :: rest) * B ^ k := by exact_mod_cast hv
    obtain ⟨_, hle⟩ := ival_base_le B (le_of_lt hB) (d :: rest) hd
    have hpos := ival_head_pos d rest hdpos hrest
    have hk0 : k = 0 := by
      by_contra hkne
      have hp : (10 : Int) ^ k < B ^ k := pow_lt_pow_left₀ hB (by norm_num) hkne
      have h1 : ival 10 (d :: rest) * 10 ^ k < ival 10 (d :: rest) * B ^ k :=
        mul_lt_mul_of_pos_left hp hpos
      have hBk : (0 : Int) ≤ B ^ k := by positivity
      have h2 : ival 10 (d :: rest) * B ^ k ≤ ival B (d :: rest) * B ^ k :=
        mul_le_mul_of_nonneg_right hle hBk
      omega
    subst hk0
    simp only [pow_zero, mul_one] at hvi
    have hr : rest = [] := by
      by_contra hrne
      have := ival_base_lt B hB d rest hdpos hrne hrest
      omega
    subst hr
    simp only [List.length_cons, List.length_nil] at hk
    exact ⟨d, by omega, rfl, by omega⟩

theorem radix_ge_twenty (T_MAX : Int) (hT : 40 ≤ T_MAX) : 20 ≤ radix T_MAX := by
  unfold radix
  rw [Int.tdiv_eq_ediv (by omega) (by omega)]
  omega

theorem magnitude_of_value (B : Int) (x y : exact_number) (hp : x.positive = y.positive)
    (hv : value B x = value B y) :
    magnitude B x.digits x.exponent = magnitude B y.digits y.exponent := by
  unfold value at hv
  rw [hp] at hv
  cases hy : y.positive with
  | true => rw [hy] at hv; simpa using hv
  | false => rw [hy] at hv; simpa using hv

/-- The round trip on a number without fractional digits: the constructor reads the
rendering as the number with the same value whose digits are decimal digits. -/
theorem round_trip_integer (T_MAX : Int) (x : exact_number) (hT : 40 ≤ T_MAX)
    (hd : digits_in (radix T_MAX - 1) x.digits) (hn : is_normalized x)
    (hexp : (x.digits.length : Int) ≤ x.exponent) :
    ∃ s, as_string T_MAX x = outcome.ok s
      ∧ (s.length < 2147483648 →
          ∃ y, exact_number.of_string s = outcome.ok y
            ∧ value 10 y = value (radix T_MAX) x
            ∧ (y = x ↔ ∃ d, 1 ≤ d ∧ d ≤ 9 ∧ x.digits = [d] ∧ x.exponent = 1)) := by
  obtain ⟨s, _, hds, has, hval⟩ := as_string_integer_spec T_MAX x (by omega) hd hn.1 hexp
  have hB := radix_ge_twenty T_MAX hT
  have hsgn : is_sign (if x.positive = true then [] else ['-']) := by
    by_cases hp : x.positive = true
    · rw [if_pos hp]; exact Or.inl rfl
    · rw [if_neg hp]; exact Or.inr (Or.inr rfl)
  have hw : well_formed (if x.positive = true then [] else ['-']) s none none :=
    ⟨hsgn, hds, fun fp h => by simp at h, fun es d3 h => by simp at h⟩
  refine ⟨_, has, fun hlen => ?_⟩
  have hlen2 : (s.length : Int) < 2147483648 := by
    simp only [numeral, fraction_chars, exponent_chars, List.append_nil, List.length_append]
      at hlen
    omega
  obtain ⟨y, hy, hyv, hyp⟩ := of_string_value (if x.positive = true then [] else ['-']) s none
    none hw (by simp [decimal_value]) (by simp only [exponent_value]; omega)
    (fun _ => by simp [leading_zeros, exponent_value])
  obtain ⟨y2, hy2, hyn, hyd⟩ := of_string_well_formed (if x.positive = true then [] else ['-'])
    s none none hw (by simp [decimal_value])
  have hyy : y2 = y := by
    rw [hy] at hy2
    exact (outcome.ok.inj hy2).symm
  subst hyy
  have hvv : value 10 y2 = value (radix T_MAX) x := hyv.trans hval
  refine ⟨y2, hy, hvv, ?_⟩
  constructor
  · intro h
    subst h
    have hm : magnitude 10 y2.digits y2.exponent
        = magnitude (radix T_MAX) y2.digits y2.exponent := by
      unfold value at hvv
      cases hp : y2.positive with
      | true => rw [hp] at hvv; simpa using hvv
      | false => rw [hp] at hvv; simpa using hvv
    obtain ⟨d, h1, h2, h3⟩ := same_value_single_digit (radix T_MAX) (by omega) y2 hn
      (fun d hd => (hyd d hd).1) hexp hm
    refine ⟨d, h1, ?_, h2, h3⟩
    exact (hyd d (by rw [h2]; exact List.mem_singleton_self d)).2
  · rintro ⟨d, h1, h9, hdig, hex⟩
    have hxv : ∀ B : Int, value B x = (if x.positive = true then 1 else -1) * (d : ℚ) := by
      intro B
      unfold value
      rw [hdig, hex]
      simp [magnitude]
    have hy0 : y2.digits ≠ [0] := by
      intro h0
      have hz : value 10 y2 = 0 := by
        unfold value
        rw [h0, magnitude_zero_digits]
        simp
      rw [hz, hxv] at hvv
      have hdq : (d : ℚ) ≠ 0 := by
        have : d ≠ 0 := by omega
        exact_mod_cast this
      cases hp : x.positive with
      | true =>
        rw [hp] at hvv
        simp only [if_true, one_mul] at hvv
        exact hdq hvv.symm
      | false =>
        rw [hp] at hvv
        simp only [Bool.false_eq_true, if_false, neg_mul, one_mul, zero_eq_neg] at hvv
        exact hdq hvv
    have hpos : y2.positive = x.positive := by
      rw [hyp hy0]
      cases hp : x.positive <;> simp
    have hm := magnitude_of_value 10 y2 x hpos (by rw [hvv, hxv, hxv])
    have hxd : digits_in (10 - 1) x.digits := by
      rw [hdig]
      intro e he
      rw [List.mem_singleton] at he
      subst he
      constructor <;> omega
    obtain ⟨e1, e2⟩ := normalized_unique 10 (by norm_num) y2 x hyn hn hyd hxd hm
    obtain ⟨yd, ye, yp⟩ := y2
    obtain ⟨xd, xe, xp⟩ := x
    dsimp only at e1 e2 hpos
    rw [e1, e2, hpos]

/-- C29 (amended): for a normalized number `x` without fractional digits
(`exponent ≥ |digits|`, digits in `[0, B − 1]`) whose rendering has fewer than `2^31`
characters, the constructor builds from `x.as_string()` the number `y` with the value
of `x` written in decimal digits, `Σ y.digits[i] · 10^(y.exponent−1−i) = value of x`, and
`y` is `x` exactly when `x` is a single digit from 1 to 9 with exponent 1; the canonical
zero is rendered as `"0"` and read back unchanged. -/
theorem as_string_round_trip (T_MAX : Int) (x : exact_number) (hT : 40 ≤ T_MAX)
    (hd : digits_in (radix T_MAX - 1) x.digits) (hn : is_normalized x)
    (hexp : (x.digits.length : Int) ≤ x.exponent) :
    (∃ s, as_string T_MAX x = outcome.ok s
      ∧ (s.length < 2147483648 →
          ∃ y, exact_number.of_string s = outcome.ok y
            ∧ value 10 y = value (radix T_MAX) x
            ∧ (y = x ↔ ∃ d, 1 ≤ d ∧ d ≤ 9 ∧ x.digits = [d] ∧ x.exponent = 1)))
    ∧ as_string 2147483647 canonical_zero = outcome.ok ['0']
    ∧ exact_number.of_string ['0'] = outcome.ok canonical_zero :=
  ⟨round_trip_integer T_MAX x hT hd hn hexp, by decide!, by decide⟩

theorem as_string_round_trip_witness :
    digits_in (radix 2147483647 - 1) [7] ∧ is_normalized ⟨[7], 1, false⟩
    ∧ as_string 2147483647 ⟨[7], 1, false⟩ = outcome.ok ['-', '7']
    ∧ exact_number.of_string ['-', '7'] = outcome.ok ⟨[7], 1, false⟩
    ∧ ∃ s, as_string 2147483647 ⟨[7], 1, false⟩ = outcome.ok s
      ∧ (s.length < 2147483648 →
          ∃ y, exact_number.of_string s = outcome.ok y
            ∧ value 10 y = value (radix 2147483647) ⟨[7], 1, false⟩
            ∧ (y = ⟨[7], 1, false⟩ ↔ ∃ d, 1 ≤ d ∧ d ≤ 9
                ∧ (⟨[7], 1, false⟩ : exact_number).digits = [d]
                ∧ (⟨[7], 1, false⟩ : exact_number).exponent = 1)) :=
  ⟨by decide, by decide, by decide!, by decide,
    (as_string_round_trip 2147483647 ⟨[7], 1, false⟩ (by decide) (by decide) (by decide)
      (by decide)).1⟩

/-- C29 as stated fails at `x = 12` (digits `[12]`, exponent 1, normalized): `as_string`
returns `"12"`, and the constructor builds from it the digits `[1, 2]` with exponent 2.
It also fails at `x = 1/2` (digits `[536870911]`, exponent 0, normalized), which is
rendered as `"0.5"` and read back as the digit 5 with exponent 0. -/
theorem as_string_round_trip_counterexample :
    as_string 2147483647 ⟨[12], 1, true⟩ = outcome.ok ['1', '2']
    ∧ exact_number.of_string ['1', '2'] = outcome.ok ⟨[1, 2], 2, true⟩
    ∧ (⟨[1, 2], 2, true⟩ : exact_number) ≠ ⟨[12], 1, true⟩
    ∧ is_normalized ⟨[536870911], 0, true⟩
    ∧ value (radix 2147483647) ⟨[536870911], 0, true⟩ = 1 / 2
    ∧ as_string 2147483647 ⟨[536870911], 0, true⟩ = outcome.ok ['0', '.', '5']
    ∧ exact_number.of_string ['0', '.', '5'] = outcome.ok ⟨[5], 0, true⟩ := by
  have hr : radix 2147483647 = 1073741822 := by decide
  refine ⟨by decide!, by decide, by decide, by decide, ?_, by decide!, by decide⟩
  rw [hr]; norm_num [value, magnitude]

/-! ## Rounding and truncation -/

theorem getD_append_mid (pre post : List Int) (d : Int) :
    (pre ++ d :: post).getD pre.length 0 = d := by
  induction pre with
  | nil => rfl
  | cons a as ih => simpa using ih

theorem set_append_mid (pre post : List Int) (d v : Int) :
    (pre ++ d :: post).set pre.length v = pre ++ v :: post := by
  induction pre with
  | nil => rfl
  | cons a as ih => simp [List.set, ih]

theorem round_up_abs_loop_stop (base : Int) (fuel : Nat) (ds : List Int) (index : Int) :
    round_up_abs_loop base fuel ds index false = (ds, index, false) := by
  cases fuel <;> simp [round_up_abs_loop]

theorem round_up_abs_loop_zero (base : Int) (fuel : Nat) (ds : List Int) (index : Int)
    (kc : Bool) (h : index ≤ 0) :
    round_up_abs_loop base fuel ds index kc = (ds, index, kc) := by
  cases fuel with
  | zero => rfl
  | succ n =>
    simp only [round_up_abs_loop]
    rw [if_neg (by omega)]

theorem round_up_abs_loop_succ (base : Int) (n : Nat) (ds : List Int) (index : Int)
    (kc : Bool) :
    round_up_abs_loop base (n + 1) ds index kc
      = if 0 < index ∧ kc = true then
          if ds.getD index.toNat 0 ≠ base then
            round_up_abs_loop base n (ds.set index.toNat (ds.getD index.toNat 0 + 1))
              (index - 1) false
          else round_up_abs_loop base n (ds.set index.toNat 0) (index - 1) true
        else (ds, index, kc) := rfl

/-- The loop of `round_up_abs` over a run of `k` digits `base`: they become 0 and the
carry goes on. -/
theorem round_up_abs_loop_run (base : Int) (k : Nat) :
    ∀ (fuel : Nat) (pre post : List Int), 1 ≤ pre.length →
      round_up_abs_loop base (fuel + k) (pre ++ (List.replicate k base ++ post))
          (((pre.length + k : Nat) : Int) - 1) true
        = round_up_abs_loop base fuel (pre ++ (List.replicate k 0 ++ post))
            ((pre.length : Int) - 1) true := by
  induction k with
  | zero => intro fuel pre post _; simp
  | succ k ih =>
    intro fuel pre post hpre
    have e1 : pre ++ (List.replicate (k + 1) base ++ post)
        = (pre ++ List.replicate k base) ++ base :: post := by
      rw [List.replicate_succ']; simp
    have e2 : pre ++ (List.replicate (k + 1) 0 ++ post)
        = pre ++ (List.replicate k 0 ++ (0 :: post)) := by
      rw [List.replicate_succ']; simp
    have hidx : (((pre.length + (k + 1) : Nat) : Int) - 1).toNat
        = (pre ++ List.replicate k base).length := by
      simp only [List.length_append, List.length_replicate]; omega
    rw [show fuel + (k + 1) = (fuel + k) + 1 by omega, round_up_abs_loop_succ]
    rw [if_pos ⟨by push_cast; omega, rfl⟩, hidx, e1, getD_append_mid]
    simp only [ne_eq, not_true_eq_false, if_false, set_append_mid]
    rw [show ((pre.length + (k + 1) : Nat) : Int) - 1 - 1 = ((pre.length + k : Nat) : Int) - 1 by
      push_cast; omega]
    rw [List.append_assoc, ih fuel pre (0 :: post) hpre, e2]

/-- The digits of a non-empty vector: a run of the digit `base` alone, or a digit other
than `base` followed by such a run. -/
theorem trailing_run (base : Int) (ds : List Int) (hne : ds ≠ []) :
    (∃ k, ds = List.replicate (k + 1) base)
    ∨ ∃ pre d k, d ≠ base ∧ ds = pre ++ d :: List.replicate k base := by
  induction ds using List.reverseRecOn with
  | nil => exact absurd rfl hne
  | append_singleton ys y ih =>
    by_cases hy : y = base
    · subst hy
      by_cases hys : ys = []
      · subst hys; exact Or.inl ⟨0, rfl⟩
      · rcases ih hys with ⟨k, hk⟩ | ⟨pre, d, k, hd, hk⟩
        · left; refine ⟨k + 1, ?_⟩
          rw [hk, ← List.replicate_succ']
        · right; refine ⟨pre, d, k + 1, hd, ?_⟩
          rw [hk, List.replicate_succ']; simp
    · exact Or.inr ⟨ys, y, 0, hy, by simp⟩

/-- The method `round_up_abs` on a digit other than `base` followed by a run of `base`. -/
theorem round_up_abs_carry (base : Int) (pre : List Int) (d : Int) (k : Nat) (e : Int)
    (p : Bool) (hd : d ≠ base) :
    round_up_abs ⟨pre ++ d :: List.replicate k base, e, p⟩ base
      = ⟨pre ++ (d + 1) :: List.replicate k 0, e, p⟩ := by
  unfold round_up_abs
  dsimp only
  have hlen : (pre ++ d :: List.replicate k base).length = (pre.length + 1) + k := by
    simp; omega
  have e1 : pre ++ d :: List.replicate k base
      = (pre ++ [d]) ++ (List.replicate k base ++ []) := by simp
  have hrun := round_up_abs_loop_run base k (pre.length + 1) (pre ++ [d]) [] (by simp)
  simp only [List.length_append, List.length_singleton] at hrun
  have e3 : pre ++ [d] ++ (List.replicate k 0 ++ []) = pre ++ d :: List.replicate k 0 := by
    simp
  rw [hlen, e1, hrun, e3]
  by_cases hp : pre = []
  · subst hp
    simp only [List.nil_append, List.length_nil, Nat.zero_add, Nat.cast_one, sub_self]
    rw [round_up_abs_loop_zero _ _ _ _ _ (le_refl _)]
    simp [hd]
  · have hpl : 1 ≤ pre.length := by
      cases pre with
      | nil => exact absurd rfl hp
      | cons a as => simp
    have hidx : (((pre.length + 1 : Nat) : Int) - 1).toNat = pre.length := by omega
    have hloop : round_up_abs_loop base (pre.length + 1) (pre ++ d :: List.replicate k 0)
        (((pre.length + 1 : Nat) : Int) - 1) true
        = (pre ++ (d + 1) :: List.replicate k 0, ((pre.length + 1 : Nat) : Int) - 1 - 1,
            false) := by
      rw [round_up_abs_loop_succ, if_pos ⟨by push_cast; omega, rfl⟩, hidx, getD_append_mid,
        if_pos hd, set_append_mid,
        round_up_abs_loop_stop]
    rw [hloop]
    simp

/-- The method `round_up_abs` on a run of the digit `base`. -/
theorem round_up_abs_all (base : Int) (k : Nat) (e : Int) (p : Bool) :
    round_up_abs ⟨List.replicate (k + 1) base, e, p⟩ base
      = ⟨1 :: List.replicate (k + 1) 0, e + 1, p⟩ := by
  have hrun := round_up_abs_loop_run base k 1 [base] [] (by simp)
  simp only [List.length_singleton, List.singleton_append, List.append_nil, Nat.cast_one,
    sub_self] at hrun
  rw [show (1 : Nat) + k = k + 1 by omega,
    round_up_abs_loop_zero base 1 (base :: List.replicate k 0) 0 true (le_refl _)] at hrun
  unfold round_up_abs
  dsimp only
  rw [List.length_replicate, List.replicate_succ, hrun]
  simp [List.replicate_succ]

theorem ival_append (B : Int) (a b : List Int) :
    ival B (a ++ b) = ival B a * B ^ b.length + ival B b := by
  induction a with
  | nil => simp [ival]
  | cons d ds ih =>
    rw [List.cons_append]
    simp only [ival]
    rw [ih, List.length_append, pow_add]
    ring

theorem ival_replicate_max (b : Int) (k : Nat) :
    ival (b + 1) (List.replicate k b) = (b + 1) ^ k - 1 := by
  induction k with
  | zero => simp [ival]
  | succ k ih =>
    simp only [List.replicate_succ, ival, ih, List.length_replicate]
    ring

theorem digits_in_append (b : Int) (l r : List Int) :
    digits_in b (l ++ r) ↔ digits_in b l ∧ digits_in b r := by
  unfold digits_in
  constructor
  · intro h
    exact ⟨fun d hd => h d (List.mem_append_left _ hd), fun d hd => h d (List.mem_append_right _ hd)⟩
  · rintro ⟨h1, h2⟩ d hd
    rcases List.mem_append.mp hd with h | h
    · exact h1 d h
    · exact h2 d h

theorem digits_in_replicate (b v : Int) (k : Nat) (hv : 0 ≤ v ∧ v ≤ b) :
    digits_in b (List.replicate k v) := by
  intro d hd
  rw [List.eq_of_mem_replicate hd]
  exact hv

theorem digits_in_cons (b d : Int) (ds : List Int) :
    digits_in b (d :: ds) ↔ (0 ≤ d ∧ d ≤ b) ∧ digits_in b ds := by
  unfold digits_in
  simp

/-- The method `round_up_abs` adds one unit in the last place. -/
theorem round_up_abs_spec (b : Int) (x : exact_number) (hb : 1 ≤ b) (hne : x.digits ≠ [])
    (hd : digits_in b x.digits) :
    magnitude (b + 1) (round_up_abs x b).digits (round_up_abs x b).exponent
      = magnitude (b + 1) x.digits x.exponent
        + ((b + 1 : Int) : ℚ) ^ (x.exponent - (x.digits.length : Int))
    ∧ digits_in b (round_up_abs x b).digits
    ∧ ((∀ d ∈ x.digits, d = b) →
        (round_up_abs x b).digits = 1 :: List.replicate x.digits.length 0
        ∧ (round_up_abs x b).exponent = x.exponent + 1)
    ∧ (¬ (∀ d ∈ x.digits, d = b) →
        (round_up_abs x b).digits.length = x.digits.length
        ∧ (round_up_abs x b).exponent = x.exponent)
    ∧ (round_up_abs x b).positive = x.positive := by
  obtain ⟨ds, e, p⟩ := x
  dsimp only at hne hd ⊢
  have hB : (b + 1 : Int) ≠ 0 := by omega
  have hBq : ((b + 1 : Int) : ℚ) ≠ 0 := by exact_mod_cast hB
  rcases trailing_run b ds hne with ⟨k, hk⟩ | ⟨pre, d, k, hdb, hk⟩
  · subst hk
    rw [round_up_abs_all]
    dsimp only
    refine ⟨?_, ?_, fun _ => ⟨by simp, rfl⟩, fun h => ?_, rfl⟩
    · rw [magnitude_eq_ival _ hB, magnitude_eq_ival _ hB, ival_replicate_max]
      simp only [ival, ival_replicate_zero, List.length_cons, List.length_replicate]
      have e1 : e + 1 - ((k + 1 + 1 : Nat) : Int) = e - ((k + 1 : Nat) : Int) := by
        push_cast; ring
      rw [e1]
      have e2 : ((b + 1 : Int) : ℚ) ^ e
          = ((b + 1 : Int) : ℚ) ^ (k + 1) * ((b + 1 : Int) : ℚ) ^ (e - ((k + 1 : Nat) : Int)) := by
        rw [← zpow_natCast, ← zpow_add₀ hBq]
        congr 1
        push_cast; ring
      push_cast at e2 ⊢
      linear_combination (0 : ℚ) * e2
    · rw [digits_in_cons]
      exact ⟨⟨by omega, hb⟩, digits_in_replicate _ _ _ ⟨le_refl _, by omega⟩⟩
    · exfalso
      apply h
      intro d hd
      exact List.eq_of_mem_replicate hd
  · subst hk
    rw [round_up_abs_carry _ _ _ _ _ _ hdb]
    dsimp only
    have hdr : 0 ≤ d ∧ d ≤ b := hd d (by simp)
    refine ⟨?_, ?_, fun h => ?_, fun _ => ⟨by simp, rfl⟩, rfl⟩
    · rw [magnitude_eq_ival _ hB, magnitude_eq_ival _ hB, ival_append, ival_append]
      simp only [ival, ival_replicate_max, ival_replicate_zero, List.length_append,
        List.length_cons, List.length_replicate]
      push_cast
      ring
    · rw [digits_in_append, digits_in_cons] at hd ⊢
      exact ⟨hd.1, ⟨by omega, by omega⟩, digits_in_replicate _ _ _ ⟨le_refl _, by omega⟩⟩
    · exact absurd (h d (by simp)) hdb

theorem round_down_abs_loop_stop (base : Int) (fuel : Nat) (ds : List Int) (index : Int) :
    round_down_abs_loop base fuel ds index false = (ds, index, false) := by
  cases fuel <;> simp [round_down_abs_loop]

theorem round_down_abs_loop_zero (base : Int) (fuel : Nat) (ds : List Int) (index : Int)
    (kc : Bool) (h : index ≤ 0) :
    round_down_abs_loop base fuel ds index kc = (ds, index, kc) := by
  cases fuel with
  | zero => rfl
  | succ n =>
    simp only [round_down_abs_loop]
    rw [if_neg (by omega)]

theorem round_down_abs_loop_succ (base : Int) (n : Nat) (ds : List Int) (index : Int)
    (kc : Bool) :
    round_down_abs_loop base (n + 1) ds index kc
      = if 0 < index ∧ kc = true then
          if ds.getD index.toNat 0 ≠ 0 then
            round_down_abs_loop base n (ds.set index.toNat (ds.getD index.toNat 0 - 1))
              (index - 1) false
          else round_down_abs_loop base n (ds.set index.toNat base) (index - 1) true
        else (ds, index, kc) := rfl

/-- The loop of `round_down_abs` over a run of `k` digits 0: they become `base` and the
borrow goes on. -/
theorem round_down_abs_loop_run (base : Int) (k : Nat) :
    ∀ (fuel : Nat) (pre post : List Int), 1 ≤ pre.length →
      round_down_abs_loop base (fuel + k) (pre ++ (List.replicate k 0 ++ post))
          (((pre.length + k : Nat) : Int) - 1) true
        = round_down_abs_loop base fuel (pre ++ (List.replicate k base ++ post))
            ((pre.length : Int) - 1) true := by
  induction k with
  | zero => intro fuel pre post _; simp
  | succ k ih =>
    intro fuel pre post hpre
    have e1 : pre ++ (List.replicate (k + 1) 0 ++ post)
        = (pre ++ List.replicate k 0) ++ 0 :: post := by
      rw [List.replicate_succ']; simp
    have e2 : pre ++ (List.replicate (k + 1) base ++ post)
        = pre ++ (List.replicate k base ++ (base :: post)) := by
      rw [List.replicate_succ']; simp
    have hidx : (((pre.length + (k + 1) : Nat) : Int) - 1).toNat
        = (pre ++ List.replicate k 0).length := by
      simp only [List.length_append, List.length_replicate]; omega
    rw [show fuel + (k + 1) = (fuel + k) + 1 by omega, round_down_abs_loop_succ]
    rw [if_pos ⟨by push_cast; omega, rfl⟩, hidx, e1, getD_append_mid]
    simp only [ne_eq, not_true_eq_false, if_false, set_append_mid]
    rw [show ((pre.length + (k + 1) : Nat) : Int) - 1 - 1 = ((pre.length + k : Nat) : Int) - 1 by
      push_cast; omega]
    rw [List.append_assoc, ih fuel pre (base :: post) hpre, e2]

/-- The method `round_down_abs` on a digit other than 0 followed by a run of zeros. -/
theorem round_down_abs_borrow (base : Int) (pre : List Int) (d : Int) (k : Nat) (e : Int)
    (p : Bool) (hd : d ≠ 0) :
    round_down_abs ⟨pre ++ d :: List.replicate k 0, e, p⟩ base
      = ⟨pre ++ (d - 1) :: List.replicate k base, e, p⟩ := by
  unfold round_down_abs
  dsimp only
  have hlen : (pre ++ d :: List.replicate k 0).length = (pre.length + 1) + k := by
    simp; omega
  have e1 : pre ++ d :: List.replicate k 0
      = (pre ++ [d]) ++ (List.replicate k 0 ++ []) := by simp
  have hrun := round_down_abs_loop_run base k (pre.length + 1) (pre ++ [d]) [] (by simp)
  simp only [List.length_append, List.length_singleton] at hrun
  have e3 : pre ++ [d] ++ (List.replicate k base ++ []) = pre ++ d :: List.replicate k base := by
    simp
  rw [hlen, e1, hrun, e3]
  by_cases hp : pre = []
  · subst hp
    simp only [List.nil_append, List.length_nil, Nat.zero_add, Nat.cast_one, sub_self]
    rw [round_down_abs_loop_zero _ _ _ _ _ (le_refl _)]
    simp
  · have hpl : 1 ≤ pre.length := by
      cases pre with
      | nil => exact absurd rfl hp
      | cons a as => simp
    have hidx : (((pre.length + 1 : Nat) : Int) - 1).toNat = pre.length := by omega
    have hloop : round_down_abs_loop base (pre.length + 1) (pre ++ d :: List.replicate k base)
        (((pre.length + 1 : Nat) : Int) - 1) true
        = (pre ++ (d - 1) :: List.replicate k base, ((pre.length + 1 : Nat) : Int) - 1 - 1,
            false) := by
      rw [round_down_abs_loop_succ, if_pos ⟨by push_cast; omega, rfl⟩, hidx, getD_append_mid,
        if_pos hd, set_append_mid, round_down_abs_loop_stop]
    rw [hloop]
    simp

/-- The method `round_down_abs` on a run of zeros: the leading digit becomes `-1`. -/
theorem round_down_abs_all (base : Int) (k : Nat) (e : Int) (p : Bool) :
    round_down_abs ⟨List.replicate (k + 1) 0, e, p⟩ base
      = ⟨(-1) :: List.replicate k base, e, p⟩ := by
  have hrun := round_down_abs_loop_run base k 1 [0] [] (by simp)
  simp only [List.length_singleton, List.singleton_append, List.append_nil, Nat.cast_one,
    sub_self] at hrun
  rw [show (1 : Nat) + k = k + 1 by omega,
    round_down_abs_loop_zero base 1 (0 :: List.replicate k base) 0 true (le_refl _)] at hrun
  unfold round_down_abs
  dsimp only
  rw [List.length_replicate, List.replicate_succ, hrun]
  simp

/-- The method `round_down_abs` takes one unit in the last place off the magnitude,
whatever the digits are. -/
theorem round_down_abs_magnitude (b : Int) (x : exact_number) (hb : 1 ≤ b)
    (hne : x.digits ≠ []) :
    magnitude (b + 1) (round_down_abs x b).digits (round_down_abs x b).exponent
      = magnitude (b + 1) x.digits x.exponent
        - ((b + 1 : Int) : ℚ) ^ (x.exponent - (x.digits.length : Int))
    ∧ (round_down_abs x b).digits.length = x.digits.length
    ∧ (round_down_abs x b).exponent = x.exponent
    ∧ (round_down_abs x b).positive = x.positive := by
  obtain ⟨ds, e, p⟩ := x
  dsimp only at hne ⊢
  have hB : (b + 1 : Int) ≠ 0 := by omega
  rcases trailing_run 0 ds hne with ⟨k, hk⟩ | ⟨pre, d, k, hdb, hk⟩
  · subst hk
    rw [round_down_abs_all]
    dsimp only
    refine ⟨?_, by simp, rfl, rfl⟩
    rw [magnitude_eq_ival _ hB, magnitude_eq_ival _ hB, ival_replicate_zero]
    simp only [ival, ival_replicate_max, List.length_cons, List.length_replicate]
    push_cast
    ring
  · subst hk
    rw [round_down_abs_borrow _ _ _ _ _ _ hdb]
    dsimp only
    refine ⟨?_, by simp, rfl, rfl⟩
    rw [magnitude_eq_ival _ hB, magnitude_eq_ival _ hB, ival_append, ival_append]
    simp only [ival, ival_replicate_max, ival_replicate_zero, List.length_append,
      List.length_cons, List.length_replicate]
    push_cast
    ring

/-- The method `round_up_abs` adds one unit in the last place to the magnitude, whatever
the digits are. -/
theorem round_up_abs_magnitude (b : Int) (x : exact_number) (hb : 1 ≤ b)
    (hne : x.digits ≠ []) :
    magnitude (b + 1) (round_up_abs x b).digits (round_up_abs x b).exponent
      = magnitude (b + 1) x.digits x.exponent
        + ((b + 1 : Int) : ℚ) ^ (x.exponent - (x.digits.length : Int)) := by
  obtain ⟨ds, e, p⟩ := x
  dsimp only at hne ⊢
  have hB : (b + 1 : Int) ≠ 0 := by omega
  have hBq : ((b + 1 : Int) : ℚ) ≠ 0 := by exact_mod_cast hB
  rcases trailing_run b ds hne with ⟨k, hk⟩ | ⟨pre, d, k, hdb, hk⟩
  · subst hk
    rw [round_up_abs_all]
    dsimp only
    rw [magnitude_eq_ival _ hB, magnitude_eq_ival _ hB, ival_replicate_max]
    simp only [ival, ival_replicate_zero, List.length_cons, List.length_replicate]
    have e1 : e + 1 - ((k + 1 + 1 : Nat) : Int) = e - ((k + 1 : Nat) : Int) := by
      push_cast; ring
    rw [e1]
    push_cast
    ring
  · subst hk
    rw [round_up_abs_carry _ _ _ _ _ _ hdb]
    dsimp only
    rw [magnitude_eq_ival _ hB, magnitude_eq_ival _ hB, ival_append, ival_append]
    simp only [ival, ival_replicate_max, ival_replicate_zero, List.length_append,
      List.length_cons, List.length_replicate]
    push_cast
    ring

/-- The method `round_down_abs` on a number that is not zero keeps the digits in range. -/
theorem round_down_abs_digits (b : Int) (x : exact_number) (hb : 1 ≤ b)
    (hd : digits_in b x.digits) (hnz : ∃ d ∈ x.digits, d ≠ 0) :
    digits_in b (round_down_abs x b).digits := by
  obtain ⟨ds, e, p⟩ := x
  dsimp only at hd hnz ⊢
  have hne : ds ≠ [] := by
    obtain ⟨d, hm, _⟩ := hnz
    exact List.ne_nil_of_mem hm
  rcases trailing_run 0 ds hne with ⟨k, hk⟩ | ⟨pre, d, k, hdb, hk⟩
  · exfalso
    obtain ⟨d, hm, h0⟩ := hnz
    rw [hk] at hm
    exact h0 (List.eq_of_mem_replicate hm)
  · subst hk
    rw [round_down_abs_borrow _ _ _ _ _ _ hdb]
    dsimp only
    have hdr : 0 ≤ d ∧ d ≤ b := hd d (by simp)
    rw [digits_in_append, digits_in_cons] at hd ⊢
    exact ⟨hd.1, ⟨by omega, by omega⟩, digits_in_replicate _ _ _ ⟨by omega, le_refl _⟩⟩

theorem round_up_abs_spec_positive (b : Int) (x : exact_number) :
    (round_up_abs x b).positive = x.positive := by
  unfold round_up_abs
  dsimp only
  split
  · split <;> rfl
  · rfl

theorem magnitude_append (B : Int) (a c : List Int) (e : Int) :
    magnitude B (a ++ c) e = magnitude B a e + magnitude B c (e - (a.length : Int)) := by
  induction a generalizing e with
  | nil => simp [magnitude]
  | cons d ds ih =>
    rw [List.cons_append]
    simp only [magnitude]
    rw [ih, List.length_cons,
      show e - 1 - (ds.length : Int) = e - ((ds.length + 1 : Nat) : Int) by push_cast; ring]
    ring

theorem digits_in_take (b : Int) (ds : List Int) (n : Nat) (h : digits_in b ds) :
    digits_in b (ds.take n) := fun d hd => h d (List.mem_of_mem_take hd)

theorem digits_in_drop (b : Int) (ds : List Int) (n : Nat) (h : digits_in b ds) :
    digits_in b (ds.drop n) := fun d hd => h d (List.mem_of_mem_drop hd)

/-- The magnitude of a number between the magnitude of its first `p` digits and one unit
of the `p`-th place more. -/
theorem magnitude_take_bounds (B : Int) (hB : 1 ≤ B) (ds : List Int) (e : Int) (p : Nat)
    (hp : p ≤ ds.length) (hd : digits_in (B - 1) ds) :
    magnitude B (ds.take p) e ≤ magnitude B ds e
    ∧ magnitude B ds e < magnitude B (ds.take p) e + (B : ℚ) ^ (e - (p : Int)) := by
  have h := magnitude_append B (ds.take p) (ds.drop p) e
  rw [List.take_append_drop, List.length_take, Nat.min_eq_left hp] at h
  have h1 := magnitude_nonneg B hB (ds.drop p) (e - (p : Int)) (digits_in_drop _ _ _ hd)
  have h2 := magnitude_lt_pow B hB (ds.drop p) (e - (p : Int)) (digits_in_drop _ _ _ hd)
  constructor <;> linarith

/-- The two directions of `up_to` bracket the value. -/
theorem up_to_spec (T_MAX : Int) (x : exact_number) (precision : Nat) (hT : 4 ≤ T_MAX)
    (hd : digits_in (radix T_MAX - 1) x.digits) :
    (x.digits.length ≤ precision → ∀ upper, up_to T_MAX x precision upper = x)
    ∧ (precision < x.digits.length →
        up_to T_MAX x precision true
          = round_up ⟨x.digits.take precision, x.exponent, x.positive⟩ (radix T_MAX - 1)
        ∧ up_to T_MAX x precision false
          = round_down ⟨x.digits.take precision, x.exponent, x.positive⟩ (radix T_MAX - 1)
        ∧ (1 ≤ precision →
            value (radix T_MAX) (up_to T_MAX x precision false) ≤ value (radix T_MAX) x
            ∧ value (radix T_MAX) x ≤ value (radix T_MAX) (up_to T_MAX x precision true))) := by
  obtain ⟨f1, _, f3, f4, f5, _⟩ := default_base_facts T_MAX hT
  obtain ⟨ds, e, pos⟩ := x
  dsimp only at hd ⊢
  constructor
  · intro h upper
    unfold up_to
    rw [if_pos h]
  · intro h
    have hnot : ¬ precision ≥ ds.length := by omega
    have e1 : up_to T_MAX ⟨ds, e, pos⟩ precision true
        = round_up ⟨ds.take precision, e, pos⟩ (radix T_MAX - 1) := by
      unfold up_to
      rw [if_neg hnot, f4]
      rfl
    have e2 : up_to T_MAX ⟨ds, e, pos⟩ precision false
        = round_down ⟨ds.take precision, e, pos⟩ (radix T_MAX - 1) := by
      unfold up_to
      rw [if_neg hnot, f4]
      rfl
    refine ⟨e1, e2, fun hp => ?_⟩
    have hne : ds.take precision ≠ [] := by
      intro h0
      have := congrArg List.length h0
      simp only [List.length_take, List.length_nil] at this
      omega
    have hb1 : 1 ≤ radix T_MAX - 1 := by omega
    obtain ⟨b1, b2⟩ := magnitude_take_bounds (radix T_MAX) (by omega) ds e
      precision (le_of_lt h) hd
    have hpow : (0 : ℚ) < ((radix T_MAX : Int) : ℚ) ^ (e - (precision : Int)) := by
      apply zpow_pos
      exact_mod_cast (by omega : (0 : Int) < radix T_MAX)
    have key : ∀ q : Bool,
        magnitude (radix T_MAX) (round_up_abs ⟨ds.take precision, e, q⟩ (radix T_MAX - 1)).digits
            (round_up_abs ⟨ds.take precision, e, q⟩ (radix T_MAX - 1)).exponent
          = magnitude (radix T_MAX) (ds.take precision) e
            + ((radix T_MAX : Int) : ℚ) ^ (e - (precision : Int))
        ∧ magnitude (radix T_MAX)
            (round_down_abs ⟨ds.take precision, e, q⟩ (radix T_MAX - 1)).digits
            (round_down_abs ⟨ds.take precision, e, q⟩ (radix T_MAX - 1)).exponent
          = magnitude (radix T_MAX) (ds.take precision) e
            - ((radix T_MAX : Int) : ℚ) ^ (e - (precision : Int))
        ∧ (round_up_abs ⟨ds.take precision, e, q⟩ (radix T_MAX - 1)).positive = q
        ∧ (round_down_abs ⟨ds.take precision, e, q⟩ (radix T_MAX - 1)).positive = q := by
      intro q
      have hup := round_up_abs_magnitude (radix T_MAX - 1) ⟨ds.take precision, e, q⟩ hb1 hne
      obtain ⟨hdn, _, _, hdp⟩ := round_down_abs_magnitude (radix T_MAX - 1)
        ⟨ds.take precision, e, q⟩ hb1 hne
      have hupp := round_up_abs_spec_positive (radix T_MAX - 1) ⟨ds.take precision, e, q⟩
      simp only [sub_add_cancel, List.length_take, Nat.min_eq_left (le_of_lt h)] at hup hdn
      exact ⟨hup, hdn, hupp, hdp⟩
    rw [e1, e2]
    unfold round_up round_down value
    dsimp only
    cases pos with
    | true =>
      obtain ⟨hup, hdn, hupp, hdp⟩ := key true
      simp only [if_true, hupp, hdp, hup, hdn, one_mul]
      constructor <;> linarith
    | false =>
      obtain ⟨hup, hdn, hupp, hdp⟩ := key false
      simp only [Bool.false_eq_true, if_false, hupp, hdp, hup, hdn, neg_mul, one_mul,
        neg_le_neg_iff]
      constructor <;> linarith

/-- C32: for a base parameter `b ≥ 1` and a number with non-empty digits in `[0, b]` and
a magnitude that is not zero, `round_down_abs(b)` decreases the magnitude by exactly one
unit of the last digit position, `(b+1)^(exponent − |digits|)`, leaves the exponent and
the number of digits unchanged, and keeps every digit in `[0, b]`. -/
theorem round_down_abs_unit (b : Int) (x : exact_number) (hb : 1 ≤ b) (hne : x.digits ≠ [])
    (hd : digits_in b x.digits) (hnz : magnitude (b + 1) x.digits x.exponent ≠ 0) :
    magnitude (b + 1) (round_down_abs x b).digits (round_down_abs x b).exponent
      = magnitude (b + 1) x.digits x.exponent
        - ((b + 1 : Int) : ℚ) ^ (x.exponent - (x.digits.length : Int))
    ∧ (round_down_abs x b).exponent = x.exponent
    ∧ (round_down_abs x b).digits.length = x.digits.length
    ∧ digits_in b (round_down_abs x b).digits := by
  obtain ⟨h1, h2, h3, _⟩ := round_down_abs_magnitude b x hb hne
  refine ⟨h1, h3, h2, round_down_abs_digits b x hb hd ?_⟩
  by_contra hall
  apply hnz
  have hd2 : digits_in (b + 1 - 1) x.digits := by
    rw [add_sub_cancel_right]; exact hd
  apply (magnitude_all_zero (b + 1) (by omega) x.digits x.exponent hd2).mp
  rw [List.all_eq_true]
  intro d hdm
  by_contra h0
  exact hall ⟨d, hdm, by simpa using h0⟩

theorem round_down_abs_unit_witness :
    (1 : Int) ≤ 9 ∧ digits_in 9 [1, 0, 0] ∧ magnitude (9 + 1) [1, 0, 0] 1 ≠ 0
    ∧ round_down_abs ⟨[1, 0, 0], 1, true⟩ 9 = ⟨[0, 9, 9], 1, true⟩
    ∧ magnitude (9 + 1) (round_down_abs ⟨[1, 0, 0], 1, true⟩ 9).digits
        (round_down_abs ⟨[1, 0, 0], 1, true⟩ 9).exponent
      = magnitude (9 + 1) [1, 0, 0] 1
        - ((9 + 1 : Int) : ℚ) ^ ((1 : Int) - (([1, 0, 0] : List Int).length : Int)) :=
  ⟨by decide, by decide, by norm_num [magnitude], by decide,
    (round_down_abs_unit 9 ⟨[1, 0, 0], 1, true⟩ (by decide) (by decide) (by decide)
      (by norm_num [magnitude])).1⟩

/-! ## The split product -/

theorem mulmod_loop_spec (T_MAX c : Int) (hc : 1 ≤ c) (hT : 2 * c ≤ T_MAX + 1) :
    ∀ (fuel : Nat) (res a b : Int), 0 ≤ res → res < c → 0 ≤ a → a < c → 0 ≤ b →
      b < (fuel : Int) →
      mulmod_loop T_MAX c fuel res a b = outcome.ok ((res + a * b) % c) := by
  intro fuel
  induction fuel with
  | zero => intro res a b _ _ _ _ hb hf; simp at hf; omega
  | succ n ih =>
    intro res a b hr0 hr1 ha0 ha1 hb0 hf
    unfold mulmod_loop
    by_cases hb : b > 0
    · rw [if_pos hb]
      have hdiv : Int.tdiv b 2 = b / 2 := Int.tdiv_eq_ediv hb0 (by norm_num)
      have hmod : Int.tmod b 2 = b % 2 := Int.tmod_eq_emod hb0 (by norm_num)
      have ha2 : checked T_MAX (a * 2) = outcome.ok (a * 2) := checked_ok _ _ (by omega)
      have hma : Int.tmod (a * 2) c = (a * 2) % c := Int.tmod_eq_emod (by omega) (by omega)
      have hm0 := Int.emod_nonneg (a * 2) (by omega : c ≠ 0)
      have hm1 := Int.emod_lt_of_pos (a * 2) (by omega : 0 < c)
      have e2 : (a * 2) % c ≡ a * 2 [ZMOD c] := Int.mod_modEq _ _
      rw [hdiv, hmod]
      by_cases hodd : b % 2 = 1
      · rw [if_pos hodd, checked_ok _ _ (by omega)]
        have hmr : Int.tmod (res + a) c = (res + a) % c :=
          Int.tmod_eq_emod (by omega) (by omega)
        simp only [outcome.bind, ha2]
        rw [hmr, hma, ih _ _ _ (Int.emod_nonneg _ (by omega)) (Int.emod_lt_of_pos _ (by omega))
          hm0 hm1 (by omega) (by omega)]
        congr 1
        have e1 : (res + a) % c ≡ res + a [ZMOD c] := Int.mod_modEq _ _
        have e3 := e1.add (e2.mul_right (b / 2))
        have e4 : res + a + a * 2 * (b / 2) = res + a * b := by
          have : b = 2 * (b / 2) + 1 := by omega
          conv_rhs => rw [this]
          ring
        rw [e4] at e3
        exact e3
      · rw [if_neg hodd]
        simp only [outcome.bind, ha2]
        rw [hma, ih _ _ _ hr0 hr1 hm0 hm1 (by omega) (by omega)]
        congr 1
        have e3 := (Int.ModEq.refl res).add (e2.mul_right (b / 2))
        have e4 : res + a * 2 * (b / 2) = res + a * b := by
          have : b = 2 * (b / 2) := by omega
          conv_rhs => rw [this]
          ring
        rw [e4] at e3
        exact e3
    · rw [if_neg hb]
      have : b = 0 := by omega
      subst this
      congr 1
      rw [mul_zero, add_zero, Int.emod_eq_of_lt hr0 hr1]

theorem mult_div_loop_spec (T_MAX c : Int) (hc : 1 ≤ c) (hT : 2 * c ≤ T_MAX + 1) (P : Int)
    (hP : P < c * c) :
    ∀ (fuel : Nat) (rem res a b : Int), 0 ≤ rem → rem < c → 0 ≤ res → 0 ≤ a → a < c → 0 ≤ b →
      b < (fuel : Int) → res * c + rem + a * b = P →
      mult_div_loop T_MAX c fuel rem res a b = outcome.ok (P / c) := by
  intro fuel
  induction fuel with
  | zero => intro rem res a b _ _ _ _ _ hb hf; simp at hf; omega
  | succ n ih =>
    intro rem res a b hr0 hr1 hs0 ha0 ha1 hb0 hf hinv
    have hres : ∀ r m x : Int, 0 ≤ m → 0 ≤ x → r * c + m + x = P → r < c := by
      intro r m x hm hx h
      by_contra hge
      have : c * c ≤ r * c := by nlinarith
      omega
    unfold mult_div_loop
    by_cases hb : b ≠ 0
    · rw [if_pos hb]
      have hdiv : Int.tdiv b 2 = b / 2 := Int.tdiv_eq_ediv hb0 (by norm_num)
      have ha2 : checked T_MAX (a * 2) = outcome.ok (a * 2) := checked_ok _ _ (by omega)
      have hab0 : 0 ≤ a * (b / 2) := mul_nonneg ha0 (by omega)
      rw [hdiv]
      have tail : ∀ (rem1 res1 : Int), 0 ≤ rem1 → rem1 < c → 0 ≤ res1 →
          res1 * c + rem1 + (a * 2) * (b / 2) = P →
          ((checked T_MAX (a * 2)).bind fun a2 =>
            (if a2 ≥ c then
                (checked T_MAX (a2 - c)).bind fun a3 =>
                  (checked T_MAX (res1 + b / 2)).bind fun res => outcome.ok (a3, res)
              else outcome.ok (a2, res1)).bind fun t =>
            mult_div_loop T_MAX c n rem1 t.2 t.1 (b / 2)) = outcome.ok (P / c) := by
        intro rem1 res1 h0 h1 h2 h3
        rw [ha2]
        simp only [outcome.bind]
        by_cases hge : a * 2 ≥ c
        · rw [if_pos hge, checked_ok _ _ (by omega)]
          simp only [outcome.bind]
          have hinv2 : (res1 + b / 2) * c + rem1 + (a * 2 - c) * (b / 2) = P := by
            rw [← h3]; ring
          have hlt := hres (res1 + b / 2) rem1 ((a * 2 - c) * (b / 2)) h0
            (mul_nonneg (by omega) (by omega)) hinv2
          rw [checked_ok _ _ (by omega)]
          exact ih rem1 (res1 + b / 2) (a * 2 - c) (b / 2) h0 h1 (by omega) (by omega) (by omega)
            (by omega) (by omega) hinv2
        · rw [if_neg hge]
          exact ih rem1 res1 (a * 2) (b / 2) h0 h1 h2 (by omega) (by omega) (by omega)
            (by omega) h3
      by_cases hodd : b % 2 ≠ 0
      · rw [if_pos hodd, checked_ok _ _ (by omega)]
        have hb2 : b = 2 * (b / 2) + 1 := by omega
        simp only [outcome.bind]
        by_cases hge : rem + a ≥ c
        · rw [if_pos hge, checked_ok _ _ (by omega)]
          have hlt := hres res rem (a * b) hr0 (mul_nonneg ha0 hb0) hinv
          simp only [outcome.bind]
          rw [checked_ok _ _ (by omega)]
          simp only [outcome.bind]
          apply tail (rem + a - c) (res + 1) (by omega) (by omega) (by omega)
          rw [← hinv]
          conv_rhs => rw [hb2]
          ring
        · rw [if_neg hge]
          simp only [outcome.bind]
          apply tail (rem + a) res (by omega) (by omega) hs0
          rw [← hinv]
          conv_rhs => rw [hb2]
          ring
      · rw [if_neg hodd]
        have hb2 : b = 2 * (b / 2) := by omega
        simp only [outcome.bind]
        apply tail rem res hr0 hr1 hs0
        rw [← hinv]
        conv_rhs => rw [hb2]
        ring
    · rw [if_neg hb]
      have hb0' : b = 0 := by
        by_contra h; exact hb h
      subst hb0'
      congr 1
      rw [mul_zero, add_zero] at hinv
      rw [← hinv, add_comm, Int.add_mul_ediv_right _ _ (by omega : c ≠ 0),
        Int.ediv_eq_zero_of_lt hr0 hr1, zero_add]

/-- The generic products and the specialisations for `int` on operands below the
modulus. -/
theorem split_product_spec (T_MAX a b c : Int) (hc : 1 ≤ c) (hT : 2 * c ≤ T_MAX + 1)
    (ha : 0 ≤ a ∧ a ≤ c - 1) (hb : 0 ≤ b ∧ b ≤ c - 1) :
    mult_div T_MAX a b c = outcome.ok (a * b / c)
    ∧ mulmod T_MAX a b c = outcome.ok (a * b % c)
    ∧ mult_div_int a b c = a * b / c
    ∧ mulmod_int a b c = a * b % c := by
  have hab : 0 ≤ a * b := mul_nonneg ha.1 hb.1
  have htm : Int.tmod a c = a := by
    rw [Int.tmod_eq_emod ha.1 (by omega)]
    exact Int.emod_eq_of_lt ha.1 (by omega)
  have htd : Int.tdiv a c = 0 := by
    rw [Int.tdiv_eq_ediv ha.1 (by omega)]
    exact Int.ediv_eq_zero_of_lt ha.1 (by omega)
  refine ⟨?_, ?_, ?_, ?_⟩
  · unfold mult_div
    rw [if_neg (by omega), htd, zero_mul, checked_ok _ _ (by omega), htm]
    simp only [outcome.bind]
    apply mult_div_loop_spec T_MAX c hc hT (a * b) (by nlinarith) _ 0 0 a b (le_refl _)
      (by omega) (le_refl _) ha.1 (by omega) hb.1 (by omega)
    ring
  · unfold mulmod
    rw [if_neg (by omega), htm, mulmod_loop_spec T_MAX c hc hT _ 0 a b (le_refl _) (by omega)
      ha.1 (by omega) hb.1 (by omega)]
    simp only [outcome.bind, zero_add]
    congr 1
    rw [Int.tmod_eq_emod (Int.emod_nonneg _ (by omega)) (by omega), Int.emod_emod_of_dvd _
      (dvd_refl c)]
  · unfold mult_div_int
    exact Int.tdiv_eq_ediv hab (by omega)
  · unfold mulmod_int
    exact Int.tmod_eq_emod hab (by omega)

/-- C34: for a modulus `c ≥ 1` with `2c ≤ T_MAX + 1` and `a, b` in `[0, c−1]`, the generic
`mult_div(a, b, c)` and `mulmod(a, b, c)` return `q = ⌊a·b/c⌋` and `rem = (a·b) mod c`,
with `q·c + rem = a·b` and `0 ≤ rem < c`, no intermediate value leaves the range of `T`,
and the specialisations for `T = int` return the same values. -/
theorem split_product (T_MAX a b c : Int) (hc : 1 ≤ c) (hT : 2 * c ≤ T_MAX + 1)
    (ha : 0 ≤ a ∧ a ≤ c - 1) (hb : 0 ≤ b ∧ b ≤ c - 1) :
    ∃ q rem, mult_div T_MAX a b c = outcome.ok q ∧ mulmod T_MAX a b c = outcome.ok rem
      ∧ q = a * b / c ∧ rem = a * b % c
      ∧ q * c + rem = a * b ∧ 0 ≤ rem ∧ rem < c
      ∧ mult_div_int a b c = q ∧ mulmod_int a b c = rem := by
  obtain ⟨h1, h2, h3, h4⟩ := split_product_spec T_MAX a b c hc hT ha hb
  exact ⟨_, _, h1, h2, rfl, rfl, Int.ediv_add_emod' _ _, Int.emod_nonneg _ (by omega),
    Int.emod_lt_of_pos _ (by omega), h3, h4⟩

theorem split_product_witness :
    (1 : Int) ≤ 1073741822 ∧ (2 : Int) * 1073741822 ≤ 2147483647 + 1
    ∧ mult_div 2147483647 1073741821 1073741820 1073741822 = outcome.ok 1073741819
    ∧ mulmod 2147483647 1073741821 1073741820 1073741822 = outcome.ok 2
    ∧ ∃ q rem, mult_div 2147483647 1073741821 1073741820 1073741822 = outcome.ok q
      ∧ mulmod 2147483647 1073741821 1073741820 1073741822 = outcome.ok rem
      ∧ q = 1073741821 * 1073741820 / 1073741822 ∧ rem = 1073741821 * 1073741820 % 1073741822
      ∧ q * 1073741822 + rem = 1073741821 * 1073741820 ∧ 0 ≤ rem ∧ rem < 1073741822
      ∧ mult_div_int 1073741821 1073741820 1073741822 = q
      ∧ mulmod_int 1073741821 1073741820 1073741822 = rem :=
  ⟨by decide, by decide, by decide, by decide,
    split_product 2147483647 1073741821 1073741820 1073741822 (by decide) (by decide)
      (by decide) (by decide)⟩

/-! ## The overflow branch of `add_vector` -/

/-- C35 (amended): for an odd base parameter `b` with `1 ≤ b < T_MAX` and digits `L`, `R`
in `[0, b]` with `b − L < R`, the digit that the loop body of `add_vector` produces
before the incoming carry is applied is `L + R − (b + 1)`, the carry out is 1, the digit
is the last of the values of the branch, and every value of the branch lies in
`[0, T_MAX]`.  For an even `b` the digit is `L + R − (b + 2)`. -/
theorem add_digit_overflow (T_MAX b L R : Int) (hb : 1 ≤ b) (hT : b < T_MAX)
    (hL : 0 ≤ L ∧ L ≤ b) (hR : 0 ≤ R ∧ R ≤ b) (hov : b - L < R) :
    (b % 2 = 1 →
      add_digit b L R 0 = (L + R - (b + 1), 1)
      ∧ (add_digit_overflow_values b L R).getLast? = some (L + R - (b + 1))
      ∧ ∀ v ∈ add_digit_overflow_values b L R, 0 ≤ v ∧ v ≤ T_MAX)
    ∧ (b % 2 = 0 → add_digit b L R 0 = (L + R - (b + 2), 1)) := by
  have hdiv : Int.tdiv b 2 = b / 2 := Int.tdiv_eq_ediv (by omega) (by norm_num)
  obtain ⟨mn, mx, hmn, hmx, hsum, hle, hmx2⟩ : ∃ mn mx : Int, min L R = mn ∧ max L R = mx
      ∧ mn + mx = L + R ∧ mn ≤ mx ∧ mx ≤ b :=
    ⟨_, _, rfl, rfl, min_add_max L R, min_le_max, max_le hL.2 hR.2⟩
  constructor
  · intro hodd
    refine ⟨?_, ?_, ?_⟩
    · unfold add_digit
      simp only [hdiv, hmn, hmx, if_pos hov, or_true, if_true, add_zero]
      split <;> (refine Prod.ext ?_ rfl; dsimp only; omega)
    · unfold add_digit_overflow_values
      simp only [hdiv, hmn, hmx]
      split
      · simp only [List.getLast?_cons_cons, List.getLast?_singleton, Option.some.injEq]
        omega
      · simp only [List.getLast?_cons_cons, List.getLast?_singleton, Option.some.injEq]
        omega
    · intro v hv
      unfold add_digit_overflow_values at hv
      simp only [hdiv, hmn, hmx] at hv
      have hmn0 : 0 ≤ mn := by rw [← hmn]; exact le_min hL.1 hR.1
      split at hv
      · simp only [List.mem_cons, List.mem_singleton, List.not_mem_nil, or_false] at hv
        rcases hv with h | h | h | h | h | h | h | h <;> (subst h; omega)
      · simp only [List.mem_cons, List.mem_singleton, List.not_mem_nil, or_false] at hv
        rcases hv with h | h | h | h | h | h | h | h <;> (subst h; omega)
  · intro heven
    unfold add_digit
    simp only [hdiv, hmn, hmx, if_pos hov, or_true, if_true, add_zero]
    split <;> (refine Prod.ext ?_ rfl; dsimp only; omega)

theorem add_digit_overflow_witness :
    (1 : Int) ≤ 9 ∧ (9 : Int) < 2147483647 ∧ (9 : Int) - 7 < 8
    ∧ add_digit 9 7 8 0 = (5, 1)
    ∧ add_digit_overflow_values 9 7 8 = [2, 7, 8, 4, 3, 4, 7, 5]
    ∧ ((9 : Int) % 2 = 1 →
      add_digit 9 7 8 0 = (7 + 8 - (9 + 1), 1)
      ∧ (add_digit_overflow_values 9 7 8).getLast? = some (7 + 8 - (9 + 1))
      ∧ ∀ v ∈ add_digit_overflow_values 9 7 8, 0 ≤ v ∧ v ≤ 2147483647) :=
  ⟨by decide, by decide, by decide, by decide, by decide,
    (add_digit_overflow 2147483647 9 7 8 (by decide) (by decide) (by decide) (by decide)
      (by decide)).1⟩

/-- C35 as stated fails for an even base parameter: with `b = 2`, `L = 2`, `R = 1` the
branch is taken (`b − L = 0 < 1`) and produces the digit `−1`, not `L + R − (b + 1) = 0`;
the value `−1` is outside `[0, T_MAX]`.  It also fails for `b = T_MAX` (odd): with
`L = R = b = 2147483647` the sum `(min − b/2) + (max − b/2)` is `T_MAX + 1`. -/
theorem add_digit_overflow_counterexample :
    (2 : Int) - 2 < 1 ∧ add_digit 2 2 1 0 = (-1, 1)
    ∧ add_digit 2 2 1 0 ≠ (2 + 1 - (2 + 1), 1)
    ∧ (-1 : Int) ∈ add_digit_overflow_values 2 2 1
    ∧ (2147483647 : Int) - 2147483647 < 2147483647
    ∧ (2147483647 + 1 : Int) ∈ add_digit_overflow_values 2147483647 2147483647 2147483647 := by
  decide

/-! ## The digit range -/

theorem add_vector_digits (a c : exact_number) (base : Int) (hb : 1 ≤ base)
    (hodd : base % 2 = 1) (ha : digits_in base a.digits) (hc : digits_in base c.digits) :
    digits_in base (add_vector a c base).digits := by
  unfold add_vector
  dsimp only
  have h := (add_vector_loop_inv a c base
    (max ((a.digits.length : Int) - a.exponent) ((c.digits.length : Int) - c.exponent))
    hb hodd ha hc
    (max ((a.digits.length : Int) - a.exponent) ((c.digits.length : Int) - c.exponent)
      + max a.exponent c.exponent).toNat).2.1
  split
  · apply digits_in_normalize
    dsimp only
    rw [digits_in_cons]
    exact ⟨⟨by omega, hb⟩, h⟩
  · apply digits_in_normalize
    exact h

theorem subtract_vector_digits (a c : exact_number) (base : Int) (hb : 0 ≤ base)
    (ha : digits_in base a.digits) (hc : digits_in base c.digits) :
    digits_in base (subtract_vector a c base).digits := by
  unfold subtract_vector
  dsimp only
  apply digits_in_normalize
  exact (subtract_vector_loop_inv a c base _ hb ha hc _).2.1

theorem multiply_vector_digits (B : Int) (a c : exact_number) (hB : 1 ≤ B)
    (ha : digits_in (B - 1) a.digits) (hc : digits_in (B - 1) c.digits) :
    digits_in (B - 1) (multiply_vector a c B).digits := by
  unfold multiply_vector
  apply digits_in_normalize
  exact (multiply_vector_raw_magnitude B a c hB ha hc).2.1

/-- The running carry of the inner loop of `multiply_vector`. -/
theorem multiply_carry_range (B : Int) (as bs : List Int) (N : Nat) (hB : 1 ≤ B)
    (has : digits_in (B - 1) as) (hbs : digits_in (B - 1) bs)
    (hN : as.length + bs.length ≤ N) (m k : Nat) (hm : m < as.length) (hk : k ≤ bs.length) :
    0 ≤ (multiply_inner B (as.getD ((as.length : Int) - 1 - (m : Int)).toNat 0) bs
          ((N : Int) - 1 - (m : Int)) (multiply_outer B as bs N m) k).2
    ∧ (multiply_inner B (as.getD ((as.length : Int) - 1 - (m : Int)).toNat 0) bs
          ((N : Int) - 1 - (m : Int)) (multiply_outer B as bs N m) k).2 ≤ B - 1 := by
  obtain ⟨o1, o2, _, _⟩ := multiply_outer_inv B as bs N hB has hbs hN m (le_of_lt hm)
  have hai := getD_range (B - 1) as ((as.length : Int) - 1 - (m : Int)).toNat (by omega) has
  obtain ⟨_, _, i3, i4, _, _⟩ := multiply_inner_inv B
    (as.getD ((as.length : Int) - 1 - (m : Int)).toNat 0) bs (multiply_outer B as bs N m) N m hB
    hai hbs o1 o2 k hk (by omega)
  exact ⟨i3, i4⟩

/-- C37: if every digit of `a` and `c` lies in `[0, B−1]`, `B = (T_MAX/4)·2`, then so does
every digit of the results of `add_vector` and `subtract_vector` with the default base
`B − 1` and of `multiply_vector` with the default base `B`, and the running carry of the
inner loop of `multiply_vector` stays in `[0, B−1]` at every iteration (`m` the iteration
of the outer loop, `k` that of the inner loop, `N ≥ |a| + |c|` the size of `temp`). -/
theorem digit_range_invariant (T_MAX : Int) (a c : exact_number) (hT : 4 ≤ T_MAX)
    (ha : digits_in (radix T_MAX - 1) a.digits) (hc : digits_in (radix T_MAX - 1) c.digits) :
    digits_in (radix T_MAX - 1) (add_vector a c (default_base T_MAX)).digits
    ∧ digits_in (radix T_MAX - 1) (subtract_vector a c (default_base T_MAX)).digits
    ∧ digits_in (radix T_MAX - 1) (multiply_vector a c (radix T_MAX)).digits
    ∧ (multiply_vector_raw a c (radix T_MAX)).digits
        = multiply_outer (radix T_MAX) a.digits c.digits
            (multiply_vector_raw a c (radix T_MAX)).digits.length a.digits.length
    ∧ ∀ (N m k : Nat), a.digits.length + c.digits.length ≤ N → m < a.digits.length →
        k ≤ c.digits.length →
        0 ≤ (multiply_inner (radix T_MAX)
              (a.digits.getD ((a.digits.length : Int) - 1 - (m : Int)).toNat 0) c.digits
              ((N : Int) - 1 - (m : Int))
              (multiply_outer (radix T_MAX) a.digits c.digits N m) k).2
        ∧ (multiply_inner (radix T_MAX)
              (a.digits.getD ((a.digits.length : Int) - 1 - (m : Int)).toNat 0) c.digits
              ((N : Int) - 1 - (m : Int))
              (multiply_outer (radix T_MAX) a.digits c.digits N m) k).2 ≤ radix T_MAX - 1 := by
  obtain ⟨f1, f2, f3, f4, f5, _⟩ := default_base_facts T_MAX hT
  refine ⟨?_, ?_, multiply_vector_digits _ a c (by omega) ha hc, ?_, ?_⟩
  · rw [← f4] at ha hc ⊢
    exact add_vector_digits a c _ f1 f2 ha hc
  · rw [← f4] at ha hc ⊢
    exact subtract_vector_digits a c _ (by omega) ha hc
  · have hlen : ∀ N : Nat, a.digits.length + c.digits.length ≤ N →
        (multiply_outer (radix T_MAX) a.digits c.digits N a.digits.length).length = N :=
      fun N hN => (multiply_outer_inv (radix T_MAX) a.digits c.digits N (by omega) ha hc hN
        a.digits.length (le_refl _)).1
    unfold multiply_vector_raw
    dsimp only
    rw [hlen _ (by split_ifs <;> omega)]
  · intro N m k hN hm hk
    exact multiply_carry_range (radix T_MAX) a.digits c.digits N (by omega) ha hc hN m k hm hk

theorem digit_range_invariant_witness :
    (4 : Int) ≤ 2147483647
    ∧ digits_in (radix 2147483647 - 1) [1073741821, 1073741821]
    ∧ add_vector ⟨[1073741821, 1073741821], 2, true⟩ ⟨[1073741821, 1073741821], 2, true⟩
        (default_base 2147483647) = ⟨[1, 1073741821, 1073741820], 3, true⟩
    ∧ digits_in (radix 2147483647 - 1)
        (add_vector ⟨[1073741821, 1073741821], 2, true⟩ ⟨[1073741821, 1073741821], 2, true⟩
          (default_base 2147483647)).digits
    ∧ digits_in (radix 2147483647 - 1)
        (multiply_vector ⟨[1073741821, 1073741821], 2, true⟩
          ⟨[1073741821, 1073741821], 2, true⟩ (radix 2147483647)).digits :=
  ⟨by decide, by decide, by decide,
    (digit_range_invariant 2147483647 ⟨[1073741821, 1073741821], 2, true⟩
      ⟨[1073741821, 1073741821], 2, true⟩ (by decide) (by decide) (by decide)).1,
    (digit_range_invariant 2147483647 ⟨[1073741821, 1073741821], 2, true⟩
      ⟨[1073741821, 1073741821], 2, true⟩ (by decide) (by decide) (by decide)).2.2.1⟩

/-! ## The normalized form under the operators -/

theorem is_normalized_abs_flag (x : exact_number) (p : Bool) (h : is_normalized x) :
    is_normalized (abs ⟨x.digits, x.exponent, p⟩) :=
  is_normalized_abs x h

/-- The results of the operators are normalized up to the sign flag. -/
theorem operators_normalized_abs (T_MAX : Int) (a b : exact_number) (hT : 4 ≤ T_MAX)
    (hna : is_normalized a) (hnb : is_normalized b)
    (ha : digits_in (radix T_MAX - 1) a.digits) (hb : digits_in (radix T_MAX - 1) b.digits) :
    is_normalized (abs (operator_add T_MAX a b))
    ∧ is_normalized (abs (operator_sub T_MAX a b))
    ∧ is_normalized (abs (operator_mul T_MAX a b)) := by
  obtain ⟨f1, f2, f3, f4, f5, _⟩ := default_base_facts T_MAX hT
  rw [← f4] at ha hb
  have hadd := (add_vector_normalized a b _ f1 f2 ha hb hna.1).1
  have hs1 := (subtract_vector_normalized a b _ (by omega) ha hb hna.1).1
  have hs2 := (subtract_vector_normalized b a _ (by omega) hb ha hnb.1).1
  refine ⟨?_, ?_, ?_⟩
  · unfold operator_add
    split
    · exact is_normalized_abs _ hadd
    · split
      · exact is_normalized_abs_flag _ _ hs1
      · exact is_normalized_abs_flag _ _ hs2
  · unfold operator_sub
    split
    · exact is_normalized_abs_flag _ _ hadd
    · split
      · exact is_normalized_abs_flag _ _ hs1
      · exact is_normalized_abs_flag _ _ hs2
  · unfold operator_mul multiply_vector
    rw [f4] at ha hb
    have hlen := (multiply_vector_raw_magnitude (radix T_MAX) a b (by omega) ha hb).2.2
    have hne : (multiply_vector_raw a b (radix T_MAX)).digits ≠ [] := by
      intro h0
      rw [h0] at hlen
      have := List.length_pos.mpr hna.1
      simp only [List.length_nil] at hlen
      omega
    exact is_normalized_abs_flag _ _ (normalize_is_normalized _ hne)

/-- C38, the failing inputs: `5 + (−5)`, `5 − 5` and `0 · (−5)` return the digit vector
`[0]` with exponent 0 and `positive = false`, which is not the canonical zero, although
the operands are normalized.  Apart from the sign flag of a zero result the results of
the three operators are normalized. -/
theorem operators_zero_not_canonical :
    operator_add 2147483647 ⟨[5], 1, true⟩ ⟨[5], 1, false⟩ = ⟨[0], 0, false⟩
    ∧ operator_sub 2147483647 ⟨[5], 1, true⟩ ⟨[5], 1, true⟩ = ⟨[0], 0, false⟩
    ∧ operator_mul 2147483647 canonical_zero ⟨[5], 1, false⟩ = ⟨[0], 0, false⟩
    ∧ is_normalized ⟨[5], 1, true⟩ ∧ is_normalized ⟨[5], 1, false⟩
    ∧ is_normalized canonical_zero
    ∧ digits_in (radix 2147483647 - 1) [5] ∧ digits_in (radix 2147483647 - 1) [0]
    ∧ ¬ is_normalized ⟨[0], 0, false⟩
    ∧ ∀ (T_MAX : Int) (a b : exact_number), 4 ≤ T_MAX → is_normalized a →
        is_normalized b → digits_in (radix T_MAX - 1) a.digits →
        digits_in (radix T_MAX - 1) b.digits →
        is_normalized (abs (operator_add T_MAX a b))
        ∧ is_normalized (abs (operator_sub T_MAX a b))
        ∧ is_normalized (abs (operator_mul T_MAX a b)) :=
  ⟨by decide, by decide, by decide, by decide, by decide, by decide, by decide, by decide,
    by decide, operators_normalized_abs⟩

/-! ## Equality on normalized numbers -/

/-- Two digit vectors without a trailing zero, neither of which is lower than the other
in the aligned comparison, are equal. -/
theorem aligned_vectors_not_lower_eq (ls rs : List Int) (hl : ls.getLast? ≠ some 0)
    (hr : rs.getLast? ≠ some 0) (h1 : aligned_vectors_is_lower ls rs false = false)
    (h2 : aligned_vectors_is_lower rs ls false = false) : ls = rs := by
  induction ls generalizing rs with
  | nil =>
    cases rs with
    | nil => rfl
    | cons r rs =>
      exfalso
      simp only [aligned_vectors_is_lower, Bool.false_and, Bool.false_eq_true, if_false,
        List.all_nil, Bool.true_and, Bool.not_eq_false'] at h1
      exact hr (all_zero_getLast _ (List.cons_ne_nil _ _) h1)
  | cons l ls ih =>
    cases rs with
    | nil =>
      exfalso
      simp only [aligned_vectors_is_lower, Bool.false_and, Bool.false_eq_true, if_false,
        List.all_nil, Bool.true_and, Bool.not_eq_false'] at h2
      exact hl (all_zero_getLast _ (List.cons_ne_nil _ _) h2)
    | cons r rs =>
      by_cases hlr : l = r
      · subst hlr
        simp only [aligned_vectors_is_lower, if_true] at h1 h2
        rw [ih rs (getLast_tail _ _ hl) (getLast_tail _ _ hr) h1 h2]
      · exfalso
        have hrl : ¬ r = l := fun h => hlr h.symm
        simp only [aligned_vectors_is_lower, if_neg hlr, if_neg hrl, decide_eq_false_iff_not,
          not_lt] at h1 h2
        exact hlr (le_antisymm h2 h1)

/-- On normalized numbers `operator==` is the equality of the triples. -/
theorem operator_eq_normalized (a b : exact_number) (ha : is_normalized a)
    (hb : is_normalized b) : operator_eq a b = true ↔ a = b := by
  constructor
  · intro h
    unfold operator_eq at h
    simp only [Bool.not_eq_true', Bool.or_eq_false_iff] at h
    obtain ⟨h1, h2⟩ := h
    obtain ⟨ad, ae, ap⟩ := a
    obtain ⟨bd, be, bp⟩ := b
    have hane : ad ≠ [] := ha.1
    have hbne : bd ≠ [] := hb.1
    unfold operator_lt at h1 h2
    dsimp only at h1 h2
    by_cases ha0 : ad = [0]
    · obtain ⟨hae, hap⟩ := ha.2.2 ha0
      dsimp only at hae hap
      subst ha0 hae hap
      by_cases hb0 : bd = [0]
      · obtain ⟨hbe, hbp⟩ := hb.2.2 hb0
        dsimp only at hbe hbp
        subst hb0 hbe hbp
        rfl
      · exfalso
        simp only [true_or, if_true, hb0, hbne, decide_False, Bool.false_or, Bool.or_false,
          Bool.not_not, Bool.not_eq_false'] at h1
        simp only [hb0, hbne, or_self, if_false, true_or, true_and] at h2
        rw [if_pos (by simpa using h1)] at h2
        exact Bool.noConfusion h2
    · by_cases hb0 : bd = [0]
      · exfalso
        obtain ⟨hbe, hbp⟩ := hb.2.2 hb0
        dsimp only at hbe hbp
        subst hb0 hbe hbp
        simp only [true_or, if_true, ha0, hane, decide_False, Bool.false_or, Bool.or_false,
          Bool.not_not, Bool.not_eq_false'] at h2
        simp only [ha0, hane, or_self, if_false, true_or, true_and] at h1
        rw [if_pos (by simpa using h2)] at h1
        exact Bool.noConfusion h1
      · have hal := is_normalized_last _ ha ha0
        have hbl := is_normalized_last _ hb hb0
        dsimp only at hal hbl
        rw [if_neg (by simp [ha0, hane]), if_neg (by simp [hb0, hbne])] at h1
        rw [if_neg (by simp [hb0, hbne]), if_neg (by simp [ha0, hane])] at h2
        by_cases hp : ap = bp
        · subst hp
          rw [if_neg (by simp)] at h1 h2
          by_cases he : ae = be
          · subst he
            simp only [if_true, ite_self] at h1 h2
            have hd : ad = bd := by
              cases ap
              · simp only [Bool.false_eq_true, if_false] at h1 h2
                exact aligned_vectors_not_lower_eq ad bd hal hbl h2 h1
              · simp only [if_true] at h1 h2
                exact aligned_vectors_not_lower_eq ad bd hal hbl h1 h2
            rw [hd]
          · exfalso
            have he2 : ¬ be = ae := fun h => he h.symm
            cases ap
            · simp only [Bool.false_eq_true, if_false, he, he2, decide_eq_false_iff_not,
                not_lt] at h1 h2
              omega
            · simp only [if_true, he, he2, if_false, decide_eq_false_iff_not, not_lt] at h1 h2
              omega
        · exfalso
          have hp2 : ¬ bp = ap := fun h => hp h.symm
          rw [if_pos hp] at h1
          rw [if_pos hp2] at h2
          cases ap <;> cases bp <;> simp_all
  · intro h
    rw [h]
    exact operator_eq_refl b

/-- C39: on normalized numbers `operator==` coincides with structural equality: `a == b`
is true exactly when `a` and `b` have the same digits, exponent and sign flag; and
`a == a` is true for every number, normalized or not. -/
theorem operator_eq_structural (a b : exact_number) (ha : is_normalized a)
    (hb : is_normalized b) :
    (operator_eq a b = true
      ↔ a.digits = b.digits ∧ a.exponent = b.exponent ∧ a.positive = b.positive)
    ∧ ∀ x : exact_number, operator_eq x x = true := by
  refine ⟨?_, operator_eq_refl⟩
  rw [operator_eq_normalized a b ha hb]
  constructor
  · intro h; rw [h]; exact ⟨rfl, rfl, rfl⟩
  · rintro ⟨h1, h2, h3⟩
    obtain ⟨ad, ae, ap⟩ := a
    obtain ⟨bd, be, bp⟩ := b
    dsimp only at h1 h2 h3
    rw [h1, h2, h3]

theorem operator_eq_structural_witness :
    is_normalized ⟨[1, 2], 1, true⟩ ∧ is_normalized ⟨[1, 2], 2, true⟩
    ∧ operator_eq ⟨[1, 2], 1, true⟩ ⟨[1, 2], 2, true⟩ = false
    ∧ operator_eq ⟨[0, 0], 5, false⟩ ⟨[0, 0], 5, false⟩ = true
    ∧ ((operator_eq ⟨[1, 2], 1, true⟩ ⟨[1, 2], 2, true⟩ = true
      ↔ ([1, 2] : List Int) = [1, 2] ∧ (1 : Int) = 2 ∧ true = true)) :=
  ⟨by decide, by decide, by decide, by decide,
    (operator_eq_structural ⟨[1, 2], 1, true⟩ ⟨[1, 2], 2, true⟩ (by decide) (by decide)).1⟩

/-! ## Integrality -/

/-- The magnitude of a normalized number other than zero is an integer exactly when the
number has no digit after the radix point. -/
theorem magnitude_integer_iff (B : Int) (hB : 2 ≤ B) (x : exact_number)
    (hn : is_normalized x) (hd : digits_in (B - 1) x.digits) (h0 : x.digits ≠ [0]) :
    (∃ n : Int, magnitude B x.digits x.exponent = (n : ℚ))
      ↔ (x.digits.length : Int) ≤ x.exponent := by
  have hBq : (B : ℚ) ≠ 0 := by exact_mod_cast (by omega : B ≠ 0)
  rw [magnitude_eq_ival B (by omega)]
  constructor
  · rintro ⟨n, hn2⟩
    by_contra hlt
    obtain ⟨m, hm⟩ : ∃ m : Nat, x.exponent - (x.digits.length : Int) = -((m + 1 : Nat) : Int) :=
      ⟨((x.digits.length : Int) - x.exponent - 1).toNat, by push_cast; omega⟩
    rw [hm, zpow_neg, zpow_natCast] at hn2
    have hpow : ((B : ℚ) ^ (m + 1)) ≠ 0 := pow_ne_zero _ hBq
    have hi : ival B x.digits = n * B ^ (m + 1) := by
      have : (ival B x.digits : ℚ) = (n : ℚ) * (B : ℚ) ^ (m + 1) := by
        field_simp at hn2
        exact hn2
      exact_mod_cast this
    have hlast := is_normalized_last x hn h0
    have hne := hn.1
    obtain ⟨init, l, hil⟩ : ∃ init l, x.digits = init ++ [l] :=
      ⟨x.digits.dropLast, x.digits.getLast hne, (List.dropLast_append_getLast hne).symm⟩
    rw [hil] at hlast hd hi
    have hl0 : l ≠ 0 := by
      intro h
      apply hlast
      rw [h]
      simp
    have hlr : 0 ≤ l ∧ l ≤ B - 1 := hd l (by simp)
    rw [ival_append] at hi
    simp only [ival, List.length_singleton, List.length_nil, pow_zero, pow_one, mul_one,
      add_zero] at hi
    have hdvd : B ∣ l := by
      have h1 : B ∣ n * B ^ (m + 1) := Dvd.dvd.mul_left (dvd_pow_self B (by omega)) n
      rw [← hi] at h1
      exact (Int.dvd_add_right (Dvd.intro_left _ rfl)).mp h1
    have := Int.le_of_dvd (by omega) hdvd
    omega
  · intro hle
    obtain ⟨k, hk⟩ : ∃ k : Nat, x.exponent - (x.digits.length : Int) = (k : Int) :=
      ⟨(x.exponent - (x.digits.length : Int)).toNat, by omega⟩
    refine ⟨ival B x.digits * B ^ k, ?_⟩
    rw [hk, zpow_natCast]
    push_cast
    rfl

/-- The method `is_integral` on a normalized number other than zero. -/
theorem is_integral_spec (B : Int) (hB : 2 ≤ B) (x : exact_number)
    (hn : is_normalized x) (hd : digits_in (B - 1) x.digits) (h0 : x.digits ≠ [0]) :
    is_integral x = true ↔ ∃ n : Int, value B x = (n : ℚ) := by
  have hlen : 0 < x.digits.length := List.length_pos.mpr hn.1
  have h1 : is_integral x = true ↔ (x.digits.length : Int) ≤ x.exponent := by
    unfold is_integral
    by_cases he : x.exponent < 0
    · rw [if_pos he]
      constructor
      · intro h; exact Bool.noConfusion h
      · intro h; omega
    · rw [if_neg he]
      simp
  rw [h1, ← magnitude_integer_iff B hB x hn hd h0]
  unfold value
  cases x.positive
  · simp only [Bool.false_eq_true, if_false, neg_mul, one_mul]
    constructor
    · rintro ⟨n, h⟩
      exact ⟨-n, by rw [h]; push_cast; ring⟩
    · rintro ⟨n, h⟩
      exact ⟨-n, by push_cast; rw [← h]; ring⟩
  · simp only [if_true, one_mul]

/-- C40, the failing input: the canonical zero is normalized and its value is the
integer 0, but `is_integral()` returns false on it.  On every normalized number other
than zero with digits in `[0, B−1]` it returns true exactly when the value is an
integer. -/
theorem is_integral_zero :
    is_integral canonical_zero = false
    ∧ is_normalized canonical_zero
    ∧ value (radix 2147483647) canonical_zero = ((0 : Int) : ℚ)
    ∧ is_integral ⟨[5], 1, true⟩ = true ∧ is_integral ⟨[5], 0, true⟩ = false
    ∧ ∀ (T_MAX : Int) (x : exact_number), 4 ≤ T_MAX → is_normalized x →
        digits_in (radix T_MAX - 1) x.digits → x.digits ≠ [0] →
        (is_integral x = true ↔ ∃ n : Int, value (radix T_MAX) x = (n : ℚ)) := by
  refine ⟨by decide, by decide, ?_, by decide, by decide, ?_⟩
  · simp [value, canonical_zero, magnitude]
  · intro T_MAX x hT hn hd h0
    obtain ⟨_, _, _, _, f5, _⟩ := default_base_facts T_MAX hT
    exact is_integral_spec (radix T_MAX) f5 x hn hd h0

/-! ## The normalization of the divisor in the long division -/

/-- The magnitude of a digit vector between its leading digit and the next one, at the
leading position. -/
theorem magnitude_head_bounds (B : Int) (hB : 1 ≤ B) (d : Int) (ds : List Int) (e : Int)
    (hd : digits_in (B - 1) (d :: ds)) :
    (d : ℚ) * (B : ℚ) ^ (e - 1) ≤ magnitude B (d :: ds) e
    ∧ magnitude B (d :: ds) e < ((d : ℚ) + 1) * (B : ℚ) ^ (e - 1) := by
  have h1 := magnitude_nonneg B hB ds (e - 1) (digits_in_tail _ _ _ hd)
  have h2 := magnitude_lt_pow B hB ds (e - 1) (digits_in_tail _ _ _ hd)
  simp only [magnitude]
  constructor <;> linarith

theorem magnitude_two (B : Int) : magnitude B [2] 1 = 2 := by
  simp [magnitude]

/-- One doubling of the dividend in the loop of `knuthDivision`. -/
theorem double_dividend (B : Int) (hB : 3 ≤ B) (u : exact_number)
    (hd : digits_in (B - 1) u.digits) :
    digits_in (B - 1) (multiply_vector u ⟨[2], 1, true⟩ B).digits
    ∧ magnitude B (multiply_vector u ⟨[2], 1, true⟩ B).digits
        (multiply_vector u ⟨[2], 1, true⟩ B).exponent
      = 2 * magnitude B u.digits u.exponent := by
  have htwo : digits_in (B - 1) (⟨[2], 1, true⟩ : exact_number).digits := by
    intro d hd2
    simp only [List.mem_singleton] at hd2
    subst hd2
    constructor <;> omega
  obtain ⟨r1, r2, _⟩ := multiply_vector_raw_magnitude B u ⟨[2], 1, true⟩ (by omega) hd htwo
  unfold multiply_vector
  refine ⟨digits_in_normalize _ _ r2, ?_⟩
  rw [magnitude_normalize, r1, magnitude_two]
  ring

/-- One doubling of the divisor in the loop of `knuthDivision`: the exponent stays and
the leading digit at least doubles. -/
theorem double_divisor (B : Int) (hB : 2 ≤ B) (x : exact_number)
    (hd : digits_in (B - 1) x.digits) (d0 : Int) (rest : List Int)
    (hx : x.digits = d0 :: rest) (h1 : 1 ≤ d0) (h2 : d0 < Int.tdiv B 2) :
    is_normalized (multiply_vector x ⟨[2], 1, true⟩ B)
    ∧ digits_in (B - 1) (multiply_vector x ⟨[2], 1, true⟩ B).digits
    ∧ magnitude B (multiply_vector x ⟨[2], 1, true⟩ B).digits
        (multiply_vector x ⟨[2], 1, true⟩ B).exponent
      = 2 * magnitude B x.digits x.exponent
    ∧ (multiply_vector x ⟨[2], 1, true⟩ B).exponent = x.exponent
    ∧ ∃ d1 rest1, (multiply_vector x ⟨[2], 1, true⟩ B).digits = d1 :: rest1
        ∧ 2 * d0 ≤ d1 := by
  have hB4 : 2 * d0 + 2 ≤ B := by
    rw [Int.tdiv_eq_ediv (by omega) (by norm_num)] at h2
    omega
  have hB1 : (1 : ℚ) ≤ (B : ℚ) := by exact_mod_cast (by omega : 1 ≤ B)
  have hBpos : (0 : ℚ) < (B : ℚ) := by linarith
  obtain ⟨y1, y2⟩ := double_dividend B (by omega) x hd
  have htwo : digits_in (B - 1) (⟨[2], 1, true⟩ : exact_number).digits := by
    intro d hd2
    simp only [List.mem_singleton] at hd2
    subst hd2
    constructor <;> omega
  have hlen := (multiply_vector_raw_magnitude B x ⟨[2], 1, true⟩ (by omega) hd htwo).2.2
  have hne : (multiply_vector_raw x ⟨[2], 1, true⟩ B).digits ≠ [] := by
    intro h0
    rw [h0] at hlen
    simp at hlen
  have hny : is_normalized (multiply_vector x ⟨[2], 1, true⟩ B) := by
    unfold multiply_vector
    exact normalize_is_normalized _ hne
  obtain ⟨b1, b2⟩ := magnitude_head_bounds B (by omega) d0 rest x.exponent (hx ▸ hd)
  rw [← hx] at b1 b2
  have hP : (0 : ℚ) < (B : ℚ) ^ (x.exponent - 1) := zpow_pos hBpos _
  have hd0q : (1 : ℚ) ≤ (d0 : ℚ) := by exact_mod_cast h1
  have hmx : (0 : ℚ) < magnitude B x.digits x.exponent := by nlinarith
  have hy0 : (multiply_vector x ⟨[2], 1, true⟩ B).digits ≠ [0] := by
    intro h0
    rw [h0, magnitude_zero_digits] at y2
    linarith
  obtain ⟨c1, c2⟩ := magnitude_normalized_bounds B (by omega) _ hny y1 hy0
  have hBe : (B : ℚ) ^ x.exponent = (B : ℚ) * (B : ℚ) ^ (x.exponent - 1) :=
    zpow_pred (B : ℚ) (by linarith) x.exponent
  have hB4q : (2 : ℚ) * (d0 : ℚ) + 2 ≤ (B : ℚ) := by exact_mod_cast hB4
  have hupper : magnitude B (multiply_vector x ⟨[2], 1, true⟩ B).digits
      (multiply_vector x ⟨[2], 1, true⟩ B).exponent < (B : ℚ) ^ x.exponent := by
    rw [y2, hBe]
    nlinarith
  have hlower : (B : ℚ) ^ (x.exponent - 1)
      ≤ magnitude B (multiply_vector x ⟨[2], 1, true⟩ B).digits
        (multiply_vector x ⟨[2], 1, true⟩ B).exponent := by
    rw [y2]
    nlinarith
  have hexp : (multiply_vector x ⟨[2], 1, true⟩ B).exponent = x.exponent := by
    rcases lt_trichotomy (multiply_vector x ⟨[2], 1, true⟩ B).exponent x.exponent with h | h | h
    · exfalso
      have := zpow_le_zpow_right₀ hB1
        (by omega : (multiply_vector x ⟨[2], 1, true⟩ B).exponent ≤ x.exponent - 1)
      linarith
    · exact h
    · exfalso
      have := zpow_le_zpow_right₀ hB1
        (by omega : x.exponent ≤ (multiply_vector x ⟨[2], 1, true⟩ B).exponent - 1)
      linarith
  refine ⟨hny, y1, y2, hexp, ?_⟩
  obtain ⟨d1, rest1, hy, _⟩ := is_normalized_head (B - 1) _ hny y1 hy0
  refine ⟨d1, rest1, hy, ?_⟩
  obtain ⟨_, e2⟩ := magnitude_head_bounds B (by omega) d1 rest1
    (multiply_vector x ⟨[2], 1, true⟩ B).exponent (hy ▸ y1)
  rw [← hy, hexp] at e2
  rw [hexp] at y2
  have hlt : (2 : ℚ) * (d0 : ℚ) < (d1 : ℚ) + 1 := by
    by_contra hge
    push_neg at hge
    have := mul_le_mul_of_nonneg_right hge (le_of_lt hP)
    rw [y2] at e2
    nlinarith
  have : 2 * d0 < d1 + 1 := by exact_mod_cast hlt
  omega

/-- The doubling loop of `knuthDivision`: it ends, the divisor keeps its exponent, its
leading digit reaches `base/2`, and divisor and dividend are multiplied by the same
power of two. -/
theorem knuth_normalization_spec (B : Int) (hB : 2 ≤ B) :
    ∀ (fuel : Nat) (x u : exact_number) (k : Nat) (d0 : Int) (rest : List Int),
      is_normalized x → digits_in (B - 1) x.digits → x.digits = d0 :: rest → 1 ≤ d0 →
      Int.tdiv B 2 - d0 < (fuel : Int) → 1 ≤ fuel → digits_in (B - 1) u.digits →
      ∃ (j : Nat) (ed eu : exact_number),
        knuth_normalization B fuel x u k = outcome.ok (ed, eu, k + j)
        ∧ is_normalized ed ∧ digits_in (B - 1) ed.digits ∧ digits_in (B - 1) eu.digits
        ∧ ed.exponent = x.exponent
        ∧ magnitude B ed.digits ed.exponent = 2 ^ j * magnitude B x.digits x.exponent
        ∧ magnitude B eu.digits eu.exponent = 2 ^ j * magnitude B u.digits u.exponent
        ∧ ∃ d r, ed.digits = d :: r ∧ Int.tdiv B 2 ≤ d ∧ 1 ≤ d := by
  intro fuel
  induction fuel with
  | zero => intro x u k d0 rest _ _ _ _ _ hf; omega
  | succ n ih =>
    intro x u k d0 rest hn hd hx h1 hf _ hu
    unfold knuth_normalization
    rw [hx]
    dsimp only
    by_cases hlt : d0 < Int.tdiv B 2
    · rw [if_pos hlt]
      have hB3 : 3 ≤ B := by
        rw [Int.tdiv_eq_ediv (by omega) (by norm_num)] at hlt
        omega
      obtain ⟨y1, y2, y3, y4, d1, rest1, y5, y6⟩ := double_divisor B hB x hd d0 rest hx h1 hlt
      obtain ⟨u1, u2⟩ := double_dividend B hB3 u hu
      obtain ⟨j, ed, eu, r1, r2, r3, r4, r5, r6, r7, r8⟩ := ih
        (multiply_vector x ⟨[2], 1, true⟩ B) (multiply_vector u ⟨[2], 1, true⟩ B) (k + 1) d1
        rest1 y1 y2 y5 (by omega) (by omega) (by omega) u1
      refine ⟨j + 1, ed, eu, ?_, r2, r3, r4, by rw [r5, y4], ?_, ?_, r8⟩
      · rw [r1]
        congr 3
        omega
      · rw [r6, y3, pow_succ, ← hx]; ring
      · rw [r7, u2, pow_succ]; ring
    · rw [if_neg hlt]
      exact ⟨0, x, u, rfl, hn, hd, hu, rfl, by rw [hx]; simp, by simp, d0, rest, hx, by omega,
        h1⟩

/-- The exponent of a normalized integer vector with a leading digit that is not zero. -/
theorem normalize_vector_exponent (B : Int) (hB : 2 ≤ B) (v0 : Int) (vrest : List Int)
    (hv : digits_in (B - 1) (v0 :: vrest)) (hv0 : v0 ≠ 0) :
    (normalize ⟨v0 :: vrest, ((v0 :: vrest).length : Int), true⟩).exponent
        = ((v0 :: vrest).length : Int)
    ∧ (normalize ⟨v0 :: vrest, ((v0 :: vrest).length : Int), true⟩).digits ≠ [0] := by
  have hB1 : (1 : ℚ) ≤ (B : ℚ) := by exact_mod_cast (by omega : 1 ≤ B)
  have hBpos : (0 : ℚ) < (B : ℚ) := by linarith
  have hn := normalize_is_normalized ⟨v0 :: vrest, ((v0 :: vrest).length : Int), true⟩
    (List.cons_ne_nil _ _)
  have hd := digits_in_normalize (B - 1) ⟨v0 :: vrest, ((v0 :: vrest).length : Int), true⟩ hv
  have hm := magnitude_normalize B ⟨v0 :: vrest, ((v0 :: vrest).length : Int), true⟩
  dsimp only at hm
  obtain ⟨b1, b2⟩ := magnitude_head_bounds B (by omega) v0 vrest ((v0 :: vrest).length : Int) hv
  have b3 := magnitude_lt_pow B (by omega) (v0 :: vrest) ((v0 :: vrest).length : Int) hv
  have hv1 : (1 : ℚ) ≤ (v0 : ℚ) := by
    have : 1 ≤ v0 := by
      have := (hv v0 (List.mem_cons_self _ _)).1
      omega
    exact_mod_cast this
  have hP : (0 : ℚ) < (B : ℚ) ^ (((v0 :: vrest).length : Int) - 1) := zpow_pos hBpos _
  have hlow : (B : ℚ) ^ (((v0 :: vrest).length : Int) - 1)
      ≤ magnitude B (v0 :: vrest) ((v0 :: vrest).length : Int) := by nlinarith
  have h0 : (normalize ⟨v0 :: vrest, ((v0 :: vrest).length : Int), true⟩).digits ≠ [0] := by
    intro h
    rw [h, magnitude_zero_digits] at hm
    linarith
  obtain ⟨c1, c2⟩ := magnitude_normalized_bounds B (by omega) _ hn hd h0
  rw [hm] at c1 c2
  refine ⟨?_, h0⟩
  rcases lt_trichotomy
    (normalize ⟨v0 :: vrest, ((v0 :: vrest).length : Int), true⟩).exponent
    ((v0 :: vrest).length : Int) with h | h | h
  · exfalso
    have := zpow_le_zpow_right₀ hB1
      (by omega : (normalize ⟨v0 :: vrest, ((v0 :: vrest).length : Int), true⟩).exponent
        ≤ ((v0 :: vrest).length : Int) - 1)
    linarith
  · exact h
  · exfalso
    have := zpow_le_zpow_right₀ hB1
      (by omega : ((v0 :: vrest).length : Int)
        ≤ (normalize ⟨v0 :: vrest, ((v0 :: vrest).length : Int), true⟩).exponent - 1)
    linarith

theorem magnitude_vector (B : Int) (hB : B ≠ 0) (v : List Int) :
    magnitude B v (v.length : Int) = (ival B v : ℚ) := by
  rw [magnitude_eq_ival B hB, sub_self, zpow_zero, mul_one]

/-- The normalization of the divisor in `knuthDivision`. -/
theorem knuth_doubling_spec (B : Int) (v0 : Int) (vrest u : List Int) (hB : 2 ≤ B)
    (hv : digits_in (B - 1) (v0 :: vrest)) (hv0 : v0 ≠ 0) (hu : digits_in (B - 1) u) :
    ∃ (k : Nat) (ed eu : exact_number),
      knuth_normalization B B.toNat.succ
          (normalize ⟨v0 :: vrest, ((v0 :: vrest).length : Int), true⟩)
          (normalize ⟨u, (u.length : Int), true⟩) 0 = outcome.ok (ed, eu, k)
      ∧ ed.exponent = ((v0 :: vrest).length : Int)
      ∧ (pad_zeros ed).digits.length = (v0 :: vrest).length
      ∧ (∃ d r, (pad_zeros ed).digits = d :: r ∧ Int.tdiv B 2 ≤ d)
      ∧ digits_in (B - 1) (pad_zeros ed).digits
      ∧ ival B (pad_zeros ed).digits = 2 ^ k * ival B (v0 :: vrest)
      ∧ magnitude B (pad_zeros eu).digits (pad_zeros eu).exponent
        = 2 ^ k * (ival B u : ℚ) := by
  have hn := normalize_is_normalized ⟨v0 :: vrest, ((v0 :: vrest).length : Int), true⟩
    (List.cons_ne_nil _ _)
  have hd := digits_in_normalize (B - 1) ⟨v0 :: vrest, ((v0 :: vrest).length : Int), true⟩ hv
  obtain ⟨hexp, h0⟩ := normalize_vector_exponent B hB v0 vrest hv hv0
  obtain ⟨d0, rest, hx, h1⟩ := is_normalized_head (B - 1) _ hn hd h0
  have hd0 := (hd d0 (by rw [hx]; exact List.mem_cons_self _ _)).2
  have hud := digits_in_normalize (B - 1) ⟨u, (u.length : Int), true⟩ hu
  obtain ⟨j, ed, eu, r1, r2, r3, r4, r5, r6, r7, d, r, r8, r9, r10⟩ :=
    knuth_normalization_spec B hB B.toNat.succ _ (normalize ⟨u, (u.length : Int), true⟩) 0 d0
      rest hn hd hx h1
      (by
        have : Int.tdiv B 2 ≤ B := by
          rw [Int.tdiv_eq_ediv (by omega) (by norm_num)]; omega
        push_cast
        omega)
      (by omega) hud
  rw [magnitude_normalize] at r6 r7
  dsimp only at r6 r7
  rw [magnitude_vector B (by omega)] at r6 r7
  rw [hexp] at r5
  have hed0 : ed.digits ≠ [0] := by
    rw [r8]
    intro h
    simp only [List.cons.injEq] at h
    omega
  have hint : (ed.digits.length : Int) ≤ ed.exponent :=
    (magnitude_integer_iff B hB ed r2 r3 hed0).mp
      ⟨2 ^ j * ival B (v0 :: vrest), by rw [r6]; push_cast; ring⟩
  have hpv := padded_value B (by omega) ed (Or.inr hint)
  refine ⟨j, ed, eu, by rw [r1, Nat.zero_add], r5, ?_,
    ⟨d, r ++ List.replicate (ed.exponent - (ed.digits.length : Int)).toNat 0, ?_, r9⟩,
    ?_, ?_, ?_⟩
  · unfold pad_zeros
    dsimp only
    rw [List.length_append, List.length_replicate]
    omega
  · unfold pad_zeros
    dsimp only
    rw [r8, List.cons_append]
  · unfold pad_zeros
    dsimp only
    rw [digits_in_append]
    exact ⟨r3, digits_in_replicate _ _ _ ⟨le_refl _, by omega⟩⟩
  · have : ((ival B (pad_zeros ed).digits : Int) : ℚ)
        = ((2 ^ j * ival B (v0 :: vrest) : Int) : ℚ) := by
      rw [hpv, r6]; push_cast; ring
    exact_mod_cast this
  · unfold pad_zeros
    dsimp only
    rw [magnitude_append_zeros, r7]

/-- C36: for a radix `B ≥ 2`, a divisor `v` with digits in `[0, B−1]` and `v[0] ≠ 0`, and a
dividend `u` with digits in `[0, B−1]`, the doubling loop of `knuthDivision` ends after
some number `k` of steps; the divisor keeps its exponent and, after the loop that pads
it with zeros, its number of digits; its leading digit is then at least `B/2`, its
digits are in `[0, B−1]`, and the divisor and the dividend are `2^k` times the
originals. -/
theorem knuth_normalization_doubling (B : Int) (v0 : Int) (vrest u : List Int) (hB : 2 ≤ B)
    (hv : digits_in (B - 1) (v0 :: vrest)) (hv0 : v0 ≠ 0) (hu : digits_in (B - 1) u) :
    ∃ (k : Nat) (ed eu : exact_number),
      knuth_normalization B B.toNat.succ
          (normalize ⟨v0 :: vrest, ((v0 :: vrest).length : Int), true⟩)
          (normalize ⟨u, (u.length : Int), true⟩) 0 = outcome.ok (ed, eu, k)
      ∧ ed.exponent = ((v0 :: vrest).length : Int)
      ∧ (pad_zeros ed).digits.length = (v0 :: vrest).length
      ∧ (∃ d r, (pad_zeros ed).digits = d :: r ∧ Int.tdiv B 2 ≤ d)
      ∧ digits_in (B - 1) (pad_zeros ed).digits
      ∧ ival B (pad_zeros ed).digits = 2 ^ k * ival B (v0 :: vrest)
      ∧ magnitude B (pad_zeros eu).digits (pad_zeros eu).exponent
        = 2 ^ k * (ival B u : ℚ) :=
  knuth_doubling_spec B v0 vrest u hB hv hv0 hu

theorem knuth_normalization_doubling_witness :
    (2 : Int) ≤ 10 ∧ digits_in (10 - 1) [1, 5] ∧ digits_in (10 - 1) [3, 0, 7]
    ∧ knuth_normalization 10 (10 : Int).toNat.succ (normalize ⟨[1, 5], 2, true⟩)
        (normalize ⟨[3, 0, 7], 3, true⟩) 0
      = outcome.ok (⟨[6], 2, true⟩, ⟨[1, 2, 2, 8], 4, true⟩, 2)
    ∧ pad_zeros ⟨[6], 2, true⟩ = ⟨[6, 0], 2, true⟩
    ∧ ∃ (k : Nat) (ed eu : exact_number),
      knuth_normalization 10 (10 : Int).toNat.succ
          (normalize ⟨[1, 5], (([1, 5] : List Int).length : Int), true⟩)
          (normalize ⟨[3, 0, 7], (([3, 0, 7] : List Int).length : Int), true⟩) 0
        = outcome.ok (ed, eu, k)
      ∧ ed.exponent = (([1, 5] : List Int).length : Int)
      ∧ (pad_zeros ed).digits.length = ([1, 5] : List Int).length
      ∧ (∃ d r, (pad_zeros ed).digits = d :: r ∧ Int.tdiv 10 2 ≤ d)
      ∧ digits_in (10 - 1) (pad_zeros ed).digits
      ∧ ival 10 (pad_zeros ed).digits = 2 ^ k * ival 10 [1, 5]
      ∧ magnitude 10 (pad_zeros eu).digits (pad_zeros eu).exponent
        = 2 ^ k * (ival 10 [3, 0, 7] : ℚ) :=
  ⟨by decide, by decide, by decide, by decide, by decide,
    knuth_normalization_doubling 10 1 [5] [3, 0, 7] (by decide) (by decide) (by decide)
      (by decide)⟩

/-! ## The arithmetic of `int` on exponents, sizes and indices -/

theorem bind_eq_ok {α β : Type} (m : outcome α) (f : α → outcome β) (r : β)
    (h : m.bind f = outcome.ok r) : ∃ a, m = outcome.ok a ∧ f a = outcome.ok r := by
  cases m with
  | ok a => exact ⟨a, rfl, h⟩
  | throws e => simp [outcome.bind] at h
  | undefined => simp [outcome.bind] at h
  | unfinished => simp [outcome.bind] at h

theorem checked_bind_eq_ok {β : Type} (M v : Int) (f : Int → outcome β) (r : β)
    (h : (checked M v).bind f = outcome.ok r) :
    (-M - 1 ≤ v ∧ v ≤ M) ∧ f v = outcome.ok r := by
  rcases checked_cases M v with ⟨h1, h2⟩ | ⟨h1, _⟩
  · rw [h1] at h
    exact ⟨h2, h⟩
  · rw [h1] at h
    simp [outcome.bind] at h

theorem checked_bind_ok {β : Type} (M v : Int) (f : Int → outcome β)
    (h : -M - 1 ≤ v ∧ v ≤ M) : (checked M v).bind f = f v := by
  rw [checked_ok M v h]; rfl

theorem normalize_front_length_le (n : Nat) (ds : List Int) (e : Int) :
    (normalize_front n ds e).1.length ≤ ds.length := by
  induction n generalizing ds e with
  | zero => exact le_refl _
  | succ n ih =>
    simp only [normalize_front]
    split
    · have := ih ds.tail (e - 1)
      have : ds.tail.length = ds.length - 1 := by simp
      omega
    · exact le_refl _

/-- The exponent the first loop of `normalize` leaves: at most the one it starts from,
and lower by at most the number of digits less one. -/
theorem normalize_front_exponent (x : exact_number) :
    (normalize_front x.digits.length x.digits x.exponent).2 ≤ x.exponent
    ∧ x.exponent - (x.digits.length : Int)
        ≤ (normalize_front x.digits.length x.digits x.exponent).2
    ∧ (x.digits ≠ [] → x.exponent - ((x.digits.length : Int) - 1)
        ≤ (normalize_front x.digits.length x.digits x.exponent).2) := by
  have hg := normalize_front_gap x.digits.length x.digits x.exponent
  have hl := normalize_front_length_le x.digits.length x.digits x.exponent
  refine ⟨by omega, by omega, fun hne => ?_⟩
  have := List.length_pos.mpr (normalize_front_ne_nil x.digits.length x.digits x.exponent hne)
  omega

theorem normalize_int_eq (x r : exact_number) (h : normalize_int x = outcome.ok r) :
    r = normalize x := by
  unfold normalize_int at h
  obtain ⟨_, h⟩ := checked_bind_eq_ok _ _ _ _ h
  simp only [outcome.ok.injEq] at h
  exact h.symm

theorem normalize_int_ok (x : exact_number) (h1 : x.exponent ≤ 2147483647)
    (h2 : -2147483648 ≤ x.exponent - (x.digits.length : Int)) :
    normalize_int x = outcome.ok (normalize x) := by
  unfold normalize_int
  obtain ⟨e1, e2, _⟩ := normalize_front_exponent x
  rw [checked_bind_ok _ _ _ ⟨by omega, by omega⟩]

theorem normalize_int_ok_ne (x : exact_number) (hne : x.digits ≠ [])
    (h1 : x.exponent ≤ 2147483647)
    (h2 : -2147483648 ≤ x.exponent - ((x.digits.length : Int) - 1)) :
    normalize_int x = outcome.ok (normalize x) := by
  unfold normalize_int
  obtain ⟨e1, _, e3⟩ := normalize_front_exponent x
  have := e3 hne
  rw [checked_bind_ok _ _ _ ⟨by omega, by omega⟩]

theorem aligned_lengths_int_eq (a other : exact_number) (l : Int × Int)
    (h : aligned_lengths_int a other = outcome.ok l) :
    l = (max ((a.digits.length : Int) - a.exponent)
            ((other.digits.length : Int) - other.exponent),
          max a.exponent other.exponent) := by
  unfold aligned_lengths_int at h
  obtain ⟨_, h⟩ := checked_bind_eq_ok _ _ _ _ h
  obtain ⟨_, h⟩ := checked_bind_eq_ok _ _ _ _ h
  obtain ⟨_, h⟩ := checked_bind_eq_ok _ _ _ _ h
  obtain ⟨_, h⟩ := checked_bind_eq_ok _ _ _ _ h
  dsimp only at h
  obtain ⟨_, h⟩ := checked_bind_eq_ok _ _ _ _ h
  obtain ⟨_, h⟩ := checked_bind_eq_ok _ _ _ _ h
  split at h
  · simp only [outcome.ok.injEq] at h
    exact h.symm
  · obtain ⟨_, h⟩ := checked_bind_eq_ok _ _ _ _ h
    obtain ⟨_, h⟩ := checked_bind_eq_ok _ _ _ _ h
    obtain ⟨_, h⟩ := checked_bind_eq_ok _ _ _ _ h
    obtain ⟨_, h⟩ := checked_bind_eq_ok _ _ _ _ h
    obtain ⟨_, h⟩ := checked_bind_eq_ok _ _ _ _ h
    simp only [outcome.ok.injEq] at h
    exact h.symm

theorem aligned_lengths_int_ok (a other : exact_number)
    (ha : exponent_within 268435456 a) (ho : exponent_within 268435456 other) :
    aligned_lengths_int a other
      = outcome.ok (max ((a.digits.length : Int) - a.exponent)
            ((other.digits.length : Int) - other.exponent),
          max a.exponent other.exponent) := by
  obtain ⟨a1, a2, a3⟩ := ha
  obtain ⟨o1, o2, o3⟩ := ho
  have hm1 := le_max_left ((a.digits.length : Int) - a.exponent)
    ((other.digits.length : Int) - other.exponent)
  have hm2 : max ((a.digits.length : Int) - a.exponent)
      ((other.digits.length : Int) - other.exponent) ≤ 536870912 := max_le (by omega) (by omega)
  have hm3 := le_max_left a.exponent other.exponent
  have hm4 : max a.exponent other.exponent ≤ 268435456 := max_le a2 o2
  unfold aligned_lengths_int
  rw [checked_bind_ok _ _ _ ⟨by omega, by omega⟩, checked_bind_ok _ _ _ ⟨by omega, by omega⟩,
    checked_bind_ok _ _ _ ⟨by omega, by omega⟩, checked_bind_ok _ _ _ ⟨by omega, by omega⟩]
  dsimp only
  rw [checked_bind_ok _ _ _ ⟨by omega, by omega⟩, checked_bind_ok _ _ _ ⟨by omega, by omega⟩]
  split
  · rfl
  · rw [checked_bind_ok _ _ _ ⟨by omega, by omega⟩, checked_bind_ok _ _ _ ⟨by omega, by omega⟩,
      checked_bind_ok _ _ _ ⟨by omega, by omega⟩, checked_bind_ok _ _ _ ⟨by omega, by omega⟩,
      checked_bind_ok _ _ _ ⟨by omega, by omega⟩]


theorem add_vector_int_eq (a other : exact_number) (base : Int) (r : exact_number)
    (h : add_vector_int a other base = outcome.ok r) : r = add_vector a other base := by
  unfold add_vector_int at h
  obtain ⟨l, hl, h⟩ := bind_eq_ok _ _ _ h
  have hl2 := aligned_lengths_int_eq a other l hl
  subst hl2
  dsimp only at h
  unfold add_vector
  dsimp only
  split at h
  · rename_i hc
    rw [if_pos hc]
    obtain ⟨_, h⟩ := checked_bind_eq_ok _ _ _ _ h
    exact normalize_int_eq _ _ h
  · rename_i hc
    rw [if_neg hc]
    exact normalize_int_eq _ _ h

theorem add_vector_int_ok (a other : exact_number) (base : Int)
    (ha : exponent_within 268435456 a) (ho : exponent_within 268435456 other) :
    add_vector_int a other base = outcome.ok (add_vector a other base) := by
  have hl := aligned_lengths_int_ok a other ha ho
  obtain ⟨a1, a2, a3⟩ := ha
  obtain ⟨o1, o2, o3⟩ := ho
  have hm1 := le_max_left ((a.digits.length : Int) - a.exponent)
    ((other.digits.length : Int) - other.exponent)
  have hm2 : max ((a.digits.length : Int) - a.exponent)
      ((other.digits.length : Int) - other.exponent) ≤ 536870912 := max_le (by omega) (by omega)
  have hm3 := le_max_left a.exponent other.exponent
  have hm4 : max a.exponent other.exponent ≤ 268435456 := max_le a2 o2
  unfold add_vector_int add_vector
  rw [hl, bind_ok_eq]
  dsimp only
  split
  · rw [checked_bind_ok _ _ _ ⟨by omega, by omega⟩]
    refine normalize_int_ok _ (by dsimp only; omega) ?_
    simp only [List.length_cons, add_vector_loop_length]
    omega
  · refine normalize_int_ok _ (by dsimp only; omega) ?_
    simp only [add_vector_loop_length]
    omega

theorem subtract_vector_int_eq (a other : exact_number) (base : Int) (r : exact_number)
    (h : subtract_vector_int a other base = outcome.ok r) :
    r = subtract_vector a other base := by
  unfold subtract_vector_int at h
  obtain ⟨l, hl, h⟩ := bind_eq_ok _ _ _ h
  have hl2 := aligned_lengths_int_eq a other l hl
  subst hl2
  exact normalize_int_eq _ _ h

theorem subtract_vector_int_ok (a other : exact_number) (base : Int)
    (ha : exponent_within 268435456 a) (ho : exponent_within 268435456 other) :
    subtract_vector_int a other base = outcome.ok (subtract_vector a other base) := by
  have hl := aligned_lengths_int_ok a other ha ho
  obtain ⟨a1, a2, a3⟩ := ha
  obtain ⟨o1, o2, o3⟩ := ho
  have hm1 := le_max_left ((a.digits.length : Int) - a.exponent)
    ((other.digits.length : Int) - other.exponent)
  have hm2 : max ((a.digits.length : Int) - a.exponent)
      ((other.digits.length : Int) - other.exponent) ≤ 536870912 := max_le (by omega) (by omega)
  have hm3 := le_max_left a.exponent other.exponent
  have hm4 : max a.exponent other.exponent ≤ 268435456 := max_le a2 o2
  unfold subtract_vector_int subtract_vector
  rw [hl, bind_ok_eq]
  dsimp only
  refine normalize_int_ok _ (by dsimp only; omega) ?_
  simp only [subtract_vector_loop_length]
  omega

theorem operator_add_int_eq (T_MAX : Int) (a other r : exact_number)
    (h : operator_add_int T_MAX a other = outcome.ok r) : r = operator_add T_MAX a other := by
  unfold operator_add_int at h
  unfold operator_add
  split at h
  · rename_i hc
    rw [if_pos hc]
    exact add_vector_int_eq _ _ _ _ h
  · rename_i hc
    rw [if_neg hc]
    split at h
    · rename_i hc2
      rw [if_pos hc2]
      obtain ⟨r0, h0, h⟩ := bind_eq_ok _ _ _ h
      rw [← subtract_vector_int_eq _ _ _ _ h0]
      simp only [outcome.ok.injEq] at h
      exact h.symm
    · rename_i hc2
      rw [if_neg hc2]
      obtain ⟨r0, h0, h⟩ := bind_eq_ok _ _ _ h
      rw [← subtract_vector_int_eq _ _ _ _ h0]
      simp only [outcome.ok.injEq] at h
      exact h.symm

theorem operator_add_int_ok (T_MAX : Int) (a other : exact_number)
    (ha : exponent_within 268435456 a) (ho : exponent_within 268435456 other) :
    operator_add_int T_MAX a other = outcome.ok (operator_add T_MAX a other) := by
  unfold operator_add_int operator_add
  split
  · exact add_vector_int_ok _ _ _ ha ho
  · split
    · rw [subtract_vector_int_ok _ _ _ ha ho]; rfl
    · rw [subtract_vector_int_ok _ _ _ ho ha]; rfl

theorem operator_sub_int_eq (T_MAX : Int) (a other r : exact_number)
    (h : operator_sub_int T_MAX a other = outcome.ok r) : r = operator_sub T_MAX a other := by
  unfold operator_sub_int at h
  unfold operator_sub
  split at h
  · rename_i hc
    rw [if_pos hc]
    obtain ⟨r0, h0, h⟩ := bind_eq_ok _ _ _ h
    rw [← add_vector_int_eq _ _ _ _ h0]
    simp only [outcome.ok.injEq] at h
    exact h.symm
  · rename_i hc
    rw [if_neg hc]
    split at h
    · rename_i hc2
      rw [if_pos hc2]
      obtain ⟨r0, h0, h⟩ := bind_eq_ok _ _ _ h
      rw [← subtract_vector_int_eq _ _ _ _ h0]
      simp only [outcome.ok.injEq] at h
      exact h.symm
    · rename_i hc2
      rw [if_neg hc2]
      obtain ⟨r0, h0, h⟩ := bind_eq_ok _ _ _ h
      rw [← subtract_vector_int_eq _ _ _ _ h0]
      simp only [outcome.ok.injEq] at h
      exact h.symm

theorem operator_sub_int_ok (T_MAX : Int) (a other : exact_number)
    (ha : exponent_within 268435456 a) (ho : exponent_within 268435456 other) :
    operator_sub_int T_MAX a other = outcome.ok (operator_sub T_MAX a other) := by
  unfold operator_sub_int operator_sub
  split
  · rw [add_vector_int_ok _ _ _ ha ho]; rfl
  · split
    · rw [subtract_vector_int_ok _ _ _ ha ho]; rfl
    · rw [subtract_vector_int_ok _ _ _ ho ha]; rfl

theorem multiply_inner_length (base ai : Int) (other : List Int) (i_n1 : Int)
    (temp : List Int) (k : Nat) :
    (multiply_inner base ai other i_n1 temp k).1.length = temp.length := by
  induction k with
  | zero => rfl
  | succ k ih => simp [multiply_inner, ih]

theorem multiply_outer_length (base : Int) (a other : List Int) (new_size m : Nat) :
    (multiply_outer base a other new_size m).length = new_size := by
  induction m with
  | zero => simp [multiply_outer]
  | succ m ih =>
    simp only [multiply_outer]
    split
    · rw [List.length_set, multiply_inner_length, ih]
    · rw [multiply_inner_length, ih]

theorem multiply_vector_raw_length (a other : exact_number) (base : Int) :
    ((multiply_vector_raw a other base).digits.length : Int)
      = (a.digits.length : Int) + (other.digits.length : Int)
        + (if a.exponent < 0 then -a.exponent else 0)
        + (if other.exponent < 0 then -other.exponent else 0) := by
  unfold multiply_vector_raw
  dsimp only
  rw [multiply_outer_length]
  split <;> split <;> omega

theorem multiply_vector_int_eq (a other : exact_number) (base : Int) (r : exact_number)
    (h : multiply_vector_int a other base = outcome.ok r) :
    r = multiply_vector a other base := by
  unfold multiply_vector_int at h
  dsimp only at h
  obtain ⟨_, h⟩ := checked_bind_eq_ok _ _ _ _ h
  obtain ⟨_, h⟩ := checked_bind_eq_ok _ _ _ _ h
  obtain ⟨_, h⟩ := checked_bind_eq_ok _ _ _ _ h
  obtain ⟨_, h⟩ := checked_bind_eq_ok _ _ _ _ h
  obtain ⟨_, h⟩ := checked_bind_eq_ok _ _ _ _ h
  obtain ⟨_, h⟩ := checked_bind_eq_ok _ _ _ _ h
  obtain ⟨_, h⟩ := checked_bind_eq_ok _ _ _ _ h
  rw [normalize_int_eq _ _ h]
  rfl

theorem multiply_vector_int_ok (a other : exact_number) (base : Int)
    (ha : exponent_within 268435456 a) (ho : exponent_within 268435456 other) :
    multiply_vector_int a other base = outcome.ok (multiply_vector a other base) := by
  obtain ⟨a1, a2, a3⟩ := ha
  obtain ⟨o1, o2, o3⟩ := ho
  have hlen := multiply_vector_raw_length a other base
  have hlen2 : ((multiply_vector_raw a other base).digits.length : Int) ≤ 1073741824 := by
    rw [hlen]; split <;> split <;> omega
  have hlen3 : (0 : Int) ≤ ((multiply_vector_raw a other base).digits.length : Int) :=
    Int.natCast_nonneg _
  unfold multiply_vector_int
  dsimp only
  rw [checked_bind_ok _ _ _ ⟨by omega, by omega⟩, checked_bind_ok _ _ _ ⟨by omega, by omega⟩,
    checked_bind_ok _ _ _ ⟨by omega, by omega⟩, checked_bind_ok _ _ _ ⟨by omega, by omega⟩,
    checked_bind_ok _ _ _ ⟨by omega, by omega⟩, checked_bind_ok _ _ _ ⟨by omega, by omega⟩,
    checked_bind_ok _ _ _ ⟨by omega, by omega⟩]
  have hraw : (⟨(multiply_vector_raw a other base).digits,
      ((multiply_vector_raw a other base).digits.length : Int)
        - ((a.digits.length : Int) - a.exponent + ((other.digits.length : Int) - other.exponent)),
      a.positive == other.positive⟩ : exact_number) = multiply_vector_raw a other base := rfl
  rw [hraw]
  have hexp : (multiply_vector_raw a other base).exponent
      = ((multiply_vector_raw a other base).digits.length : Int)
        - ((a.digits.length : Int) - a.exponent + ((other.digits.length : Int) - other.exponent)) :=
    rfl
  unfold multiply_vector
  exact normalize_int_ok _ (by rw [hexp]; omega) (by rw [hexp]; omega)

theorem operator_mul_int_eq (T_MAX : Int) (a other r : exact_number)
    (h : operator_mul_int T_MAX a other = outcome.ok r) : r = operator_mul T_MAX a other := by
  unfold operator_mul_int at h
  obtain ⟨r0, h0, h⟩ := bind_eq_ok _ _ _ h
  unfold operator_mul
  dsimp only
  rw [← multiply_vector_int_eq _ _ _ _ h0]
  simp only [outcome.ok.injEq] at h
  exact h.symm

theorem operator_mul_int_ok (T_MAX : Int) (a other : exact_number)
    (ha : exponent_within 268435456 a) (ho : exponent_within 268435456 other) :
    operator_mul_int T_MAX a other = outcome.ok (operator_mul T_MAX a other) := by
  unfold operator_mul_int
  rw [multiply_vector_int_ok _ _ _ ha ho]
  rfl

theorem round_up_abs_int_eq (x : exact_number) (base : Int) (r : exact_number)
    (h : round_up_abs_int x base = outcome.ok r) : r = round_up_abs x base := by
  unfold round_up_abs_int at h
  unfold round_up_abs
  dsimp only at h ⊢
  split at h
  · rename_i hc
    rw [if_pos hc]
    split at h
    · rename_i hc2
      rw [if_pos hc2]
      obtain ⟨_, h⟩ := checked_bind_eq_ok _ _ _ _ h
      simp only [outcome.ok.injEq] at h
      exact h.symm
    · rename_i hc2
      rw [if_neg hc2]
      simp only [outcome.ok.injEq] at h
      exact h.symm
  · rename_i hc
    rw [if_neg hc]
    simp only [outcome.ok.injEq] at h
    exact h.symm

theorem round_up_abs_int_ok (x : exact_number) (base : Int)
    (h1 : -2147483648 ≤ x.exponent + 1) (h2 : x.exponent < 2147483647) :
    round_up_abs_int x base = outcome.ok (round_up_abs x base) := by
  unfold round_up_abs_int round_up_abs
  dsimp only
  split
  · split
    · rw [checked_bind_ok _ _ _ ⟨by omega, by omega⟩]
    · rfl
  · rfl

theorem round_up_int_eq (x : exact_number) (base : Int) (r : exact_number)
    (h : round_up_int x base = outcome.ok r) : r = round_up x base := by
  unfold round_up_int at h
  unfold round_up
  split at h
  · rename_i hc
    rw [if_pos hc]
    exact round_up_abs_int_eq _ _ _ h
  · rename_i hc
    rw [if_neg hc]
    simp only [outcome.ok.injEq] at h
    exact h.symm

theorem round_down_int_eq (x : exact_number) (base : Int) (r : exact_number)
    (h : round_down_int x base = outcome.ok r) : r = round_down x base := by
  unfold round_down_int at h
  unfold round_down
  split at h
  · rename_i hc
    rw [if_pos hc]
    simp only [outcome.ok.injEq] at h
    exact h.symm
  · rename_i hc
    rw [if_neg hc]
    exact round_up_abs_int_eq _ _ _ h

theorem up_to_int_eq (T_MAX : Int) (x : exact_number) (precision : Nat) (upper : Bool)
    (r : exact_number) (h : up_to_int T_MAX x precision upper = outcome.ok r) :
    r = up_to T_MAX x precision upper := by
  unfold up_to_int at h
  unfold up_to
  split at h
  · rename_i hc
    rw [if_pos hc]
    simp only [outcome.ok.injEq] at h
    exact h.symm
  · rename_i hc
    rw [if_neg hc]
    dsimp only at h ⊢
    split at h
    · rename_i hc2
      rw [if_pos hc2]
      exact round_up_int_eq _ _ _ h
    · rename_i hc2
      rw [if_neg hc2]
      exact round_down_int_eq _ _ _ h

theorem up_to_int_ok (T_MAX : Int) (x : exact_number) (precision : Nat) (upper : Bool)
    (h1 : -2147483648 ≤ x.exponent + 1) (h2 : x.exponent < 2147483647) :
    up_to_int T_MAX x precision upper = outcome.ok (up_to T_MAX x precision upper) := by
  unfold up_to_int up_to
  split
  · rfl
  · dsimp only
    unfold round_up_int round_down_int round_up round_down
    split <;> split <;> first | rfl | exact round_up_abs_int_ok _ _ h1 h2

theorem exponent_value_abs (expo : Option (List Char × List Char)) :
    exponent_value expo ≤ decimal_value (expo.getD ([], [])).2
    ∧ -decimal_value (expo.getD ([], [])).2 ≤ exponent_value expo
      ∨ decimal_value (expo.getD ([], [])).2 < 0 := by
  by_cases h : decimal_value (expo.getD ([], [])).2 < 0
  · exact Or.inr h
  · left
    cases expo with
    | none => simp [exponent_value, decimal_value]
    | some p =>
      obtain ⟨es, d3⟩ := p
      simp only [Option.getD_some] at h ⊢
      simp only [exponent_value]
      split <;> constructor <;> omega

theorem of_string_within (sign ds : List Char) (frac : Option (List Char))
    (expo : Option (List Char × List Char)) (hw : well_formed sign ds frac expo)
    (hW : numeral_within 268435456 ds frac expo) (x : exact_number)
    (hx : exact_number.of_string (numeral sign ds frac expo) = outcome.ok x) :
    exponent_within 268435456 x := by
  unfold numeral_within at hW
  have hdv : 0 ≤ decimal_value (expo.getD ([], [])).2 := by
    cases expo with
    | none => simp [decimal_value]
    | some p =>
      obtain ⟨es, d3⟩ := p
      exact decimal_value_nonneg _ (hw.2.2.2 es d3 rfl).2
  have hev : exponent_value expo ≤ decimal_value (expo.getD ([], [])).2
      ∧ -decimal_value (expo.getD ([], [])).2 ≤ exponent_value expo := by
    rcases exponent_value_abs expo with h | h
    · exact h
    · omega
  have hlz := leading_zeros_le (frac.getD [])
  have hsl := strip_leading_zeros_length ds
  have hsf := strip_leading_zeros_length (frac.getD [])
  have hnum := number_from_string_numeral sign ds frac expo hw (by omega) (by omega)
    (fun _ => by omega)
  unfold exact_number.of_string at hx
  rw [hnum] at hx
  simp only [outcome.bind] at hx
  have hpd := congrArg List.length (parsed_digits sign ds frac expo)
  rw [List.length_append] at hpd
  have hlen : (parsed sign ds frac expo).1.length + (parsed sign ds frac expo).2.1.length
      ≤ ds.length + (frac.getD []).length := by
    rw [hpd]
    refine le_trans (strip_trailing_zeros_decomp _).2 ?_
    split
    · omega
    · rw [List.length_append]; omega
  have hexp : -268435456 ≤ (parsed sign ds frac expo).2.2.1
      ∧ (parsed sign ds frac expo).2.2.1 ≤ 268435456 := by
    unfold parsed
    split
    · dsimp only; constructor <;> omega
    · dsimp only; constructor <;> omega
  split at hx
  · simp only [outcome.ok.injEq] at hx
    rw [← hx]
    decide
  · simp only [outcome.ok.injEq] at hx
    rw [← hx]
    refine ⟨hexp.1, hexp.2, ?_⟩
    dsimp only
    rw [List.length_append, List.length_map, List.length_map]
    omega

/-! ## Claims under the arithmetic of `int` -/

/-- C10 (amended): for non-empty digits and every radix `B ≥ 2`, the number `normalize`
returns has the numeric value of `x`, `sign · Σ digits[i] · B^(exponent − 1 − i)`,
whenever its decrements of `exponent` stay in the range of `int`; they do when
`exponent − (|digits| − 1)` is not below the least `int`. -/
theorem normalize_value (B : Int) (x : exact_number) (hB : 2 ≤ B) (hne : x.digits ≠ []) :
    (∀ r, normalize_int x = outcome.ok r → value B r = value B x)
    ∧ (x.exponent ≤ 2147483647 → -2147483648 ≤ x.exponent - ((x.digits.length : Int) - 1) →
        ∃ r, normalize_int x = outcome.ok r) :=
  ⟨fun r h => by rw [normalize_int_eq x r h]; exact normalize_value_exact B x hB hne,
    fun h1 h2 => ⟨_, normalize_int_ok_ne x hne h1 h2⟩⟩

theorem normalize_value_witness :
    normalize_int ⟨[0, 0, 7, 0, 3, 0], 4, false⟩ = outcome.ok ⟨[7, 0, 3], 2, false⟩
    ∧ value 10 ⟨[7, 0, 3], 2, false⟩ = value 10 ⟨[0, 0, 7, 0, 3, 0], 4, false⟩
    ∧ ∃ r, normalize_int ⟨[0, 0, 7, 0, 3, 0], 4, false⟩ = outcome.ok r :=
  ⟨by decide,
    (normalize_value 10 ⟨[0, 0, 7, 0, 3, 0], 4, false⟩ (by decide) (by decide)).1 _ (by decide),
    (normalize_value 10 ⟨[0, 0, 7, 0, 3, 0], 4, false⟩ (by decide) (by decide)).2 (by decide)
      (by decide)⟩

/-- C10 as stated fails: on the digits `[0, 5]` with the exponent `−2147483648`, the
least `int`, the step `exponent--` for the leading zero is a signed overflow: the
behaviour is undefined and no value is kept.  (A build by g++ 12 leaves the exponent
`2147483647`.) -/
theorem normalize_value_counterexample :
    ([0, 5] : List Int) ≠ []
    ∧ normalize_int ⟨[0, 5], -2147483648, true⟩ = outcome.undefined := by
  decide

/-- C4 (amended): for every odd largest digit `b ≥ 1` (radix `b + 1`) with `b ≤ T_MAX`
and all `a`, `c` with digits in `[0, b]`, the digits and the exponent `a.add_vector(c, b)`
leaves have the magnitude `|value(a)| + |value(c)|` in radix `b + 1`, whenever the
arithmetic of `int` on the exponents, sizes and indices does not overflow; it does not
when the exponents are between `−2^28` and `2^28` and the digit vectors have at most
`2^28` digits.  The default base `(T_MAX/4)·2 − 1` and the base 9 of the renderer are
odd. -/
theorem add_vector_magnitude (T_MAX b : Int) (a c : exact_number) (hb : 1 ≤ b)
    (hodd : b % 2 = 1) (_hT : b ≤ T_MAX)
    (ha : digits_in b a.digits) (hc : digits_in b c.digits) :
    (∀ r, add_vector_int a c b = outcome.ok r →
        magnitude (b + 1) r.digits r.exponent
          = magnitude (b + 1) a.digits a.exponent + magnitude (b + 1) c.digits c.exponent)
    ∧ (exponent_within 268435456 a → exponent_within 268435456 c →
        ∃ r, add_vector_int a c b = outcome.ok r) :=
  ⟨fun r h => by
      rw [add_vector_int_eq a c b r h]; exact magnitude_add_vector a c b hb hodd ha hc,
    fun h1 h2 => ⟨_, add_vector_int_ok a c b h1 h2⟩⟩

theorem add_vector_magnitude_witness :
    ((1 : Int) ≤ 9 ∧ (9 : Int) % 2 = 1 ∧ (9 : Int) ≤ 2147483647)
    ∧ add_vector_int ⟨[9, 9, 5], 2, true⟩ ⟨[9, 5], 0, false⟩ 9
        = outcome.ok ⟨[1, 0, 0, 4, 5], 3, true⟩
    ∧ magnitude (9 + 1) [1, 0, 0, 4, 5] 3
      = magnitude (9 + 1) [9, 9, 5] 2 + magnitude (9 + 1) [9, 5] 0
    ∧ ∃ r, add_vector_int ⟨[9, 9, 5], 2, true⟩ ⟨[9, 5], 0, false⟩ 9 = outcome.ok r :=
  ⟨by decide, by decide,
    (add_vector_magnitude 2147483647 9 ⟨[9, 9, 5], 2, true⟩ ⟨[9, 5], 0, false⟩
      (by decide) (by decide) (by decide) (by decide) (by decide)).1 ⟨[1, 0, 0, 4, 5], 3, true⟩
      (by decide),
    (add_vector_magnitude 2147483647 9 ⟨[9, 9, 5], 2, true⟩ ⟨[9, 5], 0, false⟩
      (by decide) (by decide) (by decide) (by decide) (by decide)).2 (by decide) (by decide)⟩

/-- C4 as stated fails: with `a = [9]` and `c = [1]`, both of the exponent `2147483647`,
the largest `int`, and `b = 9`, the sum has a carry out of the leading digit and
`integral_length++` is a signed overflow: the behaviour is undefined.  (A build by
g++ 12 leaves the digit `1` with the exponent `−2147483648`.) -/
theorem add_vector_magnitude_counterexample :
    digits_in 9 [9] ∧ digits_in 9 [1]
    ∧ add_vector_int ⟨[9], 2147483647, true⟩ ⟨[1], 2147483647, true⟩ 9
      = outcome.undefined := by
  decide

/-- C5 (amended): for every largest digit `b ≥ 1` (radix `b + 1`) and all `a`, `c` with
digits in `[0, b]` and `|value(a)| ≥ |value(c)|`, the digits and the exponent
`a.subtract_vector(c, b)` leaves have the magnitude `|value(a)| − |value(c)|` in radix
`b + 1`, whenever the arithmetic of `int` on the exponents, sizes and indices does not
overflow; it does not when the exponents are between `−2^28` and `2^28` and the digit
vectors have at most `2^28` digits.  The borrow after the most significant position
is 0. -/
theorem subtract_vector_magnitude (b : Int) (a c : exact_number) (hb : 1 ≤ b)
    (ha : digits_in b a.digits) (hc : digits_in b c.digits)
    (hge : magnitude (b + 1) c.digits c.exponent ≤ magnitude (b + 1) a.digits a.exponent) :
    (∀ r, subtract_vector_int a c b = outcome.ok r →
        magnitude (b + 1) r.digits r.exponent
          = magnitude (b + 1) a.digits a.exponent - magnitude (b + 1) c.digits c.exponent)
    ∧ (subtract_vector_loop a c b
        (max ((a.digits.length : Int) - a.exponent) ((c.digits.length : Int) - c.exponent))
        (max ((a.digits.length : Int) - a.exponent) ((c.digits.length : Int) - c.exponent)
          + max a.exponent c.exponent).toNat).1 = 0
    ∧ (exponent_within 268435456 a → exponent_within 268435456 c →
        ∃ r, subtract_vector_int a c b = outcome.ok r) :=
  ⟨fun r h => by
      rw [subtract_vector_int_eq a c b r h]
      exact (magnitude_subtract_vector a c b (by omega) ha hc hge).1,
    (magnitude_subtract_vector a c b (by omega) ha hc hge).2,
    fun h1 h2 => ⟨_, subtract_vector_int_ok a c b h1 h2⟩⟩

theorem subtract_vector_magnitude_witness :
    subtract_vector_int ⟨[1, 0, 0], 1, true⟩ ⟨[1], -1, true⟩ 9 = outcome.ok ⟨[9, 9], 0, true⟩
    ∧ magnitude (9 + 1) [9, 9] 0 = magnitude (9 + 1) [1, 0, 0] 1 - magnitude (9 + 1) [1] (-1)
    ∧ ∃ r, subtract_vector_int ⟨[1, 0, 0], 1, true⟩ ⟨[1], -1, true⟩ 9 = outcome.ok r :=
  ⟨by decide,
    (subtract_vector_magnitude 9 ⟨[1, 0, 0], 1, true⟩ ⟨[1], -1, true⟩ (by decide) (by decide)
      (by decide) (by norm_num [magnitude])).1 ⟨[9, 9], 0, true⟩ (by decide),
    (subtract_vector_magnitude 9 ⟨[1, 0, 0], 1, true⟩ ⟨[1], -1, true⟩ (by decide) (by decide)
      (by decide) (by norm_num [magnitude])).2.2 (by decide) (by decide)⟩


theorem zpow_ten_le_one (e : Int) (h : e ≤ 0) : ((10 : Int) : ℚ) ^ e ≤ 1 := by
  have h1 : (1 : ℚ) ≤ ((10 : Int) : ℚ) := by norm_num
  exact zpow_le_one_of_nonpos₀ h1 h

/-- C5 as stated fails: with `a = [1]` of exponent 1 and `c = [1]` of the exponent
`−2147483648`, the least `int`, and `b = 9` (so `|value(a)| ≥ |value(c)|`), the
difference `(int)other.digits.size() - other.exponent` is a signed overflow: the
behaviour is undefined.  (A build by g++ 12 leaves the digit `1` with the exponent 1,
the value of `a`.) -/
theorem subtract_vector_magnitude_counterexample :
    digits_in 9 [1]
    ∧ magnitude (9 + 1) [1] (-2147483648) ≤ magnitude (9 + 1) [1] 1
    ∧ subtract_vector_int ⟨[1], 1, true⟩ ⟨[1], -2147483648, true⟩ 9 = outcome.undefined := by
  refine ⟨by decide, ?_, by decide⟩
  have h := zpow_ten_le_one (-2147483648 - 1) (by norm_num)
  simp only [magnitude, Int.cast_one, one_mul, add_zero, sub_self, zpow_zero]
  exact h


/-- C1 (amended): with digits in `[0, B − 1]`, `B = (T_MAX/4)·2`, the value of the number
`operator+` returns is `value(a) + value(b)` when the sign flags agree, and also when
they differ provided `a` and `b` are normalized and it is not the case that `a` is zero
while `b` has a negative exponent; this holds whenever the arithmetic of `int` on the
exponents, sizes and indices does not overflow, and it does not when the exponents are
between `−2^28` and `2^28` and the digit vectors have at most `2^28` digits. -/
theorem operator_add_value (T_MAX : Int) (a b : exact_number) (hT : 4 ≤ T_MAX)
    (ha : digits_in (radix T_MAX - 1) a.digits) (hb : digits_in (radix T_MAX - 1) b.digits)
    (h : a.positive = b.positive
      ∨ (is_normalized a ∧ is_normalized b ∧ ¬ (a.digits = [0] ∧ b.exponent < 0))) :
    (∀ r, operator_add_int T_MAX a b = outcome.ok r →
        value (radix T_MAX) r = value (radix T_MAX) a + value (radix T_MAX) b)
    ∧ (exponent_within 268435456 a → exponent_within 268435456 b →
        ∃ r, operator_add_int T_MAX a b = outcome.ok r) :=
  ⟨fun r hr => by
      rw [operator_add_int_eq T_MAX a b r hr]; exact operator_add_value_exact T_MAX a b hT ha hb h,
    fun h1 h2 => ⟨_, operator_add_int_ok T_MAX a b h1 h2⟩⟩

theorem operator_add_value_witness :
    (4 : Int) ≤ 2147483647
    ∧ operator_add_int 2147483647 ⟨[1, 5], 1, true⟩ ⟨[2, 1073741821], 1, false⟩
        = outcome.ok ⟨[1, 1073741816], 1, false⟩
    ∧ value (radix 2147483647) ⟨[1, 1073741816], 1, false⟩
      = value (radix 2147483647) ⟨[1, 5], 1, true⟩
        + value (radix 2147483647) ⟨[2, 1073741821], 1, false⟩
    ∧ ∃ r, operator_add_int 2147483647 ⟨[1, 5], 1, true⟩ ⟨[2, 1073741821], 1, false⟩
        = outcome.ok r :=
  ⟨by decide, by decide,
    (operator_add_value 2147483647 ⟨[1, 5], 1, true⟩ ⟨[2, 1073741821], 1, false⟩
      (by decide) (by decide) (by decide) (Or.inr ⟨by decide, by decide, by decide⟩)).1 _
      (by decide),
    (operator_add_value 2147483647 ⟨[1, 5], 1, true⟩ ⟨[2, 1073741821], 1, false⟩
      (by decide) (by decide) (by decide) (Or.inr ⟨by decide, by decide, by decide⟩)).2
      (by decide) (by decide)⟩

/-- C1 as stated fails in two ways.  `[0, 3]` with exponent 2 (the value 3 with a leading
zero digit) plus `−5` is computed as `|a| − |b|` and gives a positive number.  And
`[1073741821]` plus `[1]`, both of the exponent `2147483647`, the largest `int`
(normalized, same sign), has a carry out of the leading digit, and `integral_length++`
is a signed overflow: the behaviour is undefined.  (A build by g++ 12 returns the digit
`1` with the exponent `−2147483648`.) -/
theorem operator_add_counterexample :
    (digits_in (radix 2147483647 - 1) [0, 3] ∧ digits_in (radix 2147483647 - 1) [5]
      ∧ operator_add_int 2147483647 ⟨[0, 3], 2, true⟩ ⟨[5], 1, false⟩
          = outcome.ok ⟨[1073741821, 1073741820], 2, true⟩
      ∧ value (radix 2147483647) ⟨[1073741821, 1073741820], 2, true⟩
        ≠ value (radix 2147483647) ⟨[0, 3], 2, true⟩
          + value (radix 2147483647) ⟨[5], 1, false⟩)
    ∧ (digits_in (radix 2147483647 - 1) [1073741821] ∧ digits_in (radix 2147483647 - 1) [1]
      ∧ is_normalized ⟨[1073741821], 2147483647, true⟩
      ∧ is_normalized ⟨[1], 2147483647, true⟩
      ∧ operator_add_int 2147483647 ⟨[1073741821], 2147483647, true⟩
          ⟨[1], 2147483647, true⟩ = outcome.undefined) := by
  refine ⟨⟨by decide, by decide, by decide, ?_⟩, by decide, by decide, by decide, by decide,
    by decide⟩
  have hr : radix 2147483647 = 1073741822 := by decide
  rw [hr]
  norm_num [value, magnitude]

/-- C2 (amended): with digits in `[0, B − 1]`, `B = (T_MAX/4)·2`, the value of the number
`operator-` returns is `value(a) − value(b)` when the sign flags differ, and also when
they agree provided `a` and `b` are normalized and it is not the case that `a` is zero
while `b` has a negative exponent; this holds whenever the arithmetic of `int` on the
exponents, sizes and indices does not overflow, and it does not when the exponents are
between `−2^28` and `2^28` and the digit vectors have at most `2^28` digits. -/
theorem operator_sub_value (T_MAX : Int) (a b : exact_number) (hT : 4 ≤ T_MAX)
    (ha : digits_in (radix T_MAX - 1) a.digits) (hb : digits_in (radix T_MAX - 1) b.digits)
    (h : a.positive ≠ b.positive
      ∨ (is_normalized a ∧ is_normalized b ∧ ¬ (a.digits = [0] ∧ b.exponent < 0))) :
    (∀ r, operator_sub_int T_MAX a b = outcome.ok r →
        value (radix T_MAX) r = value (radix T_MAX) a - value (radix T_MAX) b)
    ∧ (exponent_within 268435456 a → exponent_within 268435456 b →
        ∃ r, operator_sub_int T_MAX a b = outcome.ok r) :=
  ⟨fun r hr => by
      rw [operator_sub_int_eq T_MAX a b r hr]; exact operator_sub_value_exact T_MAX a b hT ha hb h,
    fun h1 h2 => ⟨_, operator_sub_int_ok T_MAX a b h1 h2⟩⟩

theorem operator_sub_value_witness :
    (4 : Int) ≤ 2147483647
    ∧ operator_sub_int 2147483647 ⟨[1], 1, true⟩ ⟨[1], -6, true⟩
        = outcome.ok ⟨[1073741821, 1073741821, 1073741821, 1073741821, 1073741821,
            1073741821, 1073741821], 0, true⟩
    ∧ value (radix 2147483647) ⟨[1073741821, 1073741821, 1073741821, 1073741821, 1073741821,
            1073741821, 1073741821], 0, true⟩
      = value (radix 2147483647) ⟨[1], 1, true⟩ - value (radix 2147483647) ⟨[1], -6, true⟩
    ∧ ∃ r, operator_sub_int 2147483647 ⟨[1], 1, true⟩ ⟨[1], -6, true⟩ = outcome.ok r :=
  ⟨by decide, by decide,
    (operator_sub_value 2147483647 ⟨[1], 1, true⟩ ⟨[1], -6, true⟩
      (by decide) (by decide) (by decide) (Or.inr ⟨by decide, by decide, by decide⟩)).1 _
      (by decide),
    (operator_sub_value 2147483647 ⟨[1], 1, true⟩ ⟨[1], -6, true⟩
      (by decide) (by decide) (by decide) (Or.inr ⟨by decide, by decide, by decide⟩)).2
      (by decide) (by decide)⟩

/-- C2 as stated fails in two ways.  `[0, 3]` with exponent 2 (the value 3 with a leading
zero digit) minus `5` is computed as `|a| − |b|` and gives a positive number.  And
`[1073741821]` minus `−[1]`, both of the exponent `2147483647`, the largest `int`
(normalized, signs differ), is an addition with a carry out of the leading digit, and
`integral_length++` is a signed overflow: the behaviour is undefined.  (A build by
g++ 12 returns the digit `1` with the exponent `−2147483648`.) -/
theorem operator_sub_counterexample :
    (digits_in (radix 2147483647 - 1) [0, 3] ∧ digits_in (radix 2147483647 - 1) [5]
      ∧ operator_sub_int 2147483647 ⟨[0, 3], 2, true⟩ ⟨[5], 1, true⟩
          = outcome.ok ⟨[1073741821, 1073741820], 2, true⟩
      ∧ value (radix 2147483647) ⟨[1073741821, 1073741820], 2, true⟩
        ≠ value (radix 2147483647) ⟨[0, 3], 2, true⟩
          - value (radix 2147483647) ⟨[5], 1, true⟩)
    ∧ (digits_in (radix 2147483647 - 1) [1073741821] ∧ digits_in (radix 2147483647 - 1) [1]
      ∧ is_normalized ⟨[1073741821], 2147483647, true⟩
      ∧ is_normalized ⟨[1], 2147483647, false⟩
      ∧ operator_sub_int 2147483647 ⟨[1073741821], 2147483647, true⟩
          ⟨[1], 2147483647, false⟩ = outcome.undefined) := by
  refine ⟨⟨by decide, by decide, by decide, ?_⟩, by decide, by decide, by decide, by decide,
    by decide⟩
  have hr : radix 2147483647 = 1073741822 := by decide
  rw [hr]
  norm_num [value, magnitude]

/-- C3 (amended): for every radix `B ≥ 2` and all `a`, `b` with non-empty digits in
`[0, B − 1]`, the number `a.multiply_vector(b, B)` leaves has the magnitude
`|value(a)| · |value(b)|` in radix `B` and the sign flag `(a.positive == b.positive)` when
the product is not zero and `true` when it is, whenever the arithmetic of `int` on the
sizes and exponents does not overflow; it does not when the exponents are between `−2^28`
and `2^28` and the digit vectors have at most `2^28` digits.  The exponent assigned
before `normalize` is `|result| − ((|a.digits| − a.exp) + (|b.digits| − b.exp))`. -/
theorem multiply_vector_product (B : Int) (a b : exact_number) (hB : 2 ≤ B)
    (hane : a.digits ≠ []) (hbne : b.digits ≠ [])
    (had : digits_in (B - 1) a.digits) (hbd : digits_in (B - 1) b.digits) :
    (∀ r, multiply_vector_int a b B = outcome.ok r →
        magnitude B r.digits r.exponent
          = magnitude B a.digits a.exponent * magnitude B b.digits b.exponent
        ∧ (magnitude B a.digits a.exponent * magnitude B b.digits b.exponent ≠ 0 →
            r.positive = (a.positive == b.positive))
        ∧ (magnitude B a.digits a.exponent * magnitude B b.digits b.exponent = 0 →
            r.positive = true))
    ∧ (multiply_vector_raw a b B).exponent
      = ((multiply_vector_raw a b B).digits.length : Int)
        - (((a.digits.length : Int) - a.exponent) + ((b.digits.length : Int) - b.exponent))
    ∧ (exponent_within 268435456 a → exponent_within 268435456 b →
        ∃ r, multiply_vector_int a b B = outcome.ok r) := by
  obtain ⟨h1, h2, h3, h4⟩ := multiply_vector_product_exact B a b hB hane hbne had hbd
  refine ⟨fun r hr => ?_, h2, fun w1 w2 => ⟨_, multiply_vector_int_ok a b B w1 w2⟩⟩
  rw [multiply_vector_int_eq a b B r hr]
  exact ⟨h1, h3, h4⟩

theorem multiply_vector_product_witness :
    multiply_vector_int ⟨[9, 9], 0, true⟩ ⟨[9, 9, 9], -1, false⟩ 10
      = outcome.ok ⟨[9, 8, 9, 0, 1], -1, false⟩
    ∧ magnitude 10 [9, 8, 9, 0, 1] (-1) = magnitude 10 [9, 9] 0 * magnitude 10 [9, 9, 9] (-1)
    ∧ ∃ r, multiply_vector_int ⟨[9, 9], 0, true⟩ ⟨[9, 9, 9], -1, false⟩ 10 = outcome.ok r :=
  ⟨by decide,
    ((multiply_vector_product 10 ⟨[9, 9], 0, true⟩ ⟨[9, 9, 9], -1, false⟩ (by decide)
      (by decide) (by decide) (by decide) (by decide)).1 ⟨[9, 8, 9, 0, 1], -1, false⟩
        (by decide)).1,
    (multiply_vector_product 10 ⟨[9, 9], 0, true⟩ ⟨[9, 9, 9], -1, false⟩ (by decide)
      (by decide) (by decide) (by decide) (by decide)).2.2 (by decide) (by decide)⟩

/-- C3 as stated fails in two ways.  On the sign flag: zero times the negative number
`−5` is left with `positive = true`, while `(a.positive == b.positive)` is `false`.  And
with `a = b = [1]` of the exponent `1073741825` and `B = 10`, `fractional_part` is
`−2147483648` and `result_exponent = (int)temp.size() - fractional_part` is a signed
overflow: the behaviour is undefined.  (A build by g++ 12 leaves the digit `1` with the
exponent `−2147483647`.) -/
theorem multiply_vector_sign_counterexample :
    (digits_in (10 - 1) [0] ∧ digits_in (10 - 1) [5]
      ∧ multiply_vector_int ⟨[0], 0, true⟩ ⟨[5], 1, false⟩ 10 = outcome.ok ⟨[0], 0, true⟩
      ∧ (⟨[0], 0, true⟩ : exact_number).positive
        ≠ ((⟨[0], 0, true⟩ : exact_number).positive
            == (⟨[5], 1, false⟩ : exact_number).positive))
    ∧ (digits_in (10 - 1) [1]
      ∧ multiply_vector_int ⟨[1], 1073741825, true⟩ ⟨[1], 1073741825, true⟩ 10
        = outcome.undefined) := by
  decide

/-- C12 (amended): for every normalized `x` with digits in `[0, B − 1]`, the number
`x + zero` with the canonical zero has the digits, the exponent and the sign flag of `x`,
and compares equal to `x`, whenever the arithmetic of `int` on the exponents, sizes and
indices does not overflow; it does not when the exponent of `x` is between `−2^28` and
`2^28` and `x` has at most `2^28` digits. -/
theorem operator_add_zero (T_MAX : Int) (x : exact_number) (hT : 4 ≤ T_MAX)
    (hx : is_normalized x) (hd : digits_in (radix T_MAX - 1) x.digits) :
    (∀ r, operator_add_int T_MAX x ⟨[0], 0, true⟩ = outcome.ok r →
        r = x ∧ operator_eq r x = true)
    ∧ (exponent_within 268435456 x →
        operator_add_int T_MAX x ⟨[0], 0, true⟩ = outcome.ok x) := by
  obtain ⟨h1, h2⟩ := operator_add_zero_exact T_MAX x hT hx hd
  constructor
  · intro r hr
    rw [operator_add_int_eq T_MAX x _ r hr]
    exact ⟨h1, h2⟩
  · intro hw
    rw [operator_add_int_ok T_MAX x _ hw (by decide), h1]

theorem operator_add_zero_witness :
    (4 : Int) ≤ 2147483647
    ∧ operator_add_int 2147483647 ⟨[5, 0, 7], -1, false⟩ ⟨[0], 0, true⟩
      = outcome.ok ⟨[5, 0, 7], -1, false⟩
    ∧ operator_eq ⟨[5, 0, 7], -1, false⟩ ⟨[5, 0, 7], -1, false⟩ = true :=
  ⟨by decide,
    (operator_add_zero 2147483647 ⟨[5, 0, 7], -1, false⟩ (by decide) (by decide)
      (by decide)).2 (by decide),
    ((operator_add_zero 2147483647 ⟨[5, 0, 7], -1, false⟩ (by decide) (by decide)
      (by decide)).1 ⟨[5, 0, 7], -1, false⟩ (by decide)).2⟩

/-- C12 as stated fails: for the normalized `x = [5]` of the exponent `−2147483648`, the
least `int`, the difference `(int)this->digits.size() - this->exponent` of `add_vector`
is a signed overflow: the behaviour is undefined.  (A build by g++ 12 returns the
canonical zero for `x + zero`.) -/
theorem operator_add_zero_counterexample :
    is_normalized ⟨[5], -2147483648, true⟩ ∧ digits_in (radix 2147483647 - 1) [5]
    ∧ operator_add_int 2147483647 ⟨[5], -2147483648, true⟩ ⟨[0], 0, true⟩
      = outcome.undefined := by
  decide

/-- C13 (amended): for every normalized `x` with digits in `[0, B − 1]`, the numbers
`x − x` and `x + (x with its sign flipped)` compare equal (`operator==`) to the canonical
zero, whenever the arithmetic of `int` on the exponents, sizes and indices does not
overflow; it does not when the exponent of `x` is between `−2^28` and `2^28` and `x` has
at most `2^28` digits. -/
theorem operator_sub_self (T_MAX : Int) (x : exact_number) (hT : 4 ≤ T_MAX)
    (hx : is_normalized x) (hd : digits_in (radix T_MAX - 1) x.digits) :
    (∀ r, operator_sub_int T_MAX x x = outcome.ok r → operator_eq r ⟨[0], 0, true⟩ = true)
    ∧ (∀ r, operator_add_int T_MAX x ⟨x.digits, x.exponent, !x.positive⟩ = outcome.ok r →
        operator_eq r ⟨[0], 0, true⟩ = true)
    ∧ (exponent_within 268435456 x →
        (∃ r, operator_sub_int T_MAX x x = outcome.ok r)
        ∧ ∃ r, operator_add_int T_MAX x ⟨x.digits, x.exponent, !x.positive⟩ = outcome.ok r) := by
  obtain ⟨h1, h2⟩ := operator_sub_self_exact T_MAX x hT hx hd
  refine ⟨fun r hr => ?_, fun r hr => ?_, fun hw => ⟨⟨_, operator_sub_int_ok T_MAX x x hw hw⟩,
    ⟨_, operator_add_int_ok T_MAX x _ hw hw⟩⟩⟩
  · rw [operator_sub_int_eq T_MAX x x r hr]; exact h1
  · rw [operator_add_int_eq T_MAX x _ r hr]; exact h2

theorem operator_sub_self_witness :
    (4 : Int) ≤ 2147483647
    ∧ operator_sub_int 2147483647 ⟨[5, 0, 7], -1, false⟩ ⟨[5, 0, 7], -1, false⟩
        = outcome.ok ⟨[0], 0, true⟩
    ∧ operator_eq ⟨[0], 0, true⟩ ⟨[0], 0, true⟩ = true
    ∧ ((∃ r, operator_sub_int 2147483647 ⟨[5, 0, 7], -1, false⟩ ⟨[5, 0, 7], -1, false⟩
          = outcome.ok r)
      ∧ ∃ r, operator_add_int 2147483647 ⟨[5, 0, 7], -1, false⟩ ⟨[5, 0, 7], -1, !false⟩
          = outcome.ok r) :=
  ⟨by decide, by decide,
    (operator_sub_self 2147483647 ⟨[5, 0, 7], -1, false⟩ (by decide) (by decide)
      (by decide)).1 ⟨[0], 0, true⟩ (by decide),
    (operator_sub_self 2147483647 ⟨[5, 0, 7], -1, false⟩ (by decide) (by decide)
      (by decide)).2.2 (by decide)⟩

/-- C13 as stated fails: for the normalized `x = [5]` of the exponent `−2147483648`, the
least `int`, the difference `(int)this->digits.size() - this->exponent` of
`subtract_vector` is a signed overflow: the behaviour is undefined, for `x − x` and for
`x + (−x)`.  (A build by g++ 12 does not return from `x − x` within 20 seconds.) -/
theorem operator_sub_self_counterexample :
    is_normalized ⟨[5], -2147483648, true⟩ ∧ digits_in (radix 2147483647 - 1) [5]
    ∧ operator_sub_int 2147483647 ⟨[5], -2147483648, true⟩ ⟨[5], -2147483648, true⟩
      = outcome.undefined
    ∧ operator_add_int 2147483647 ⟨[5], -2147483648, true⟩ ⟨[5], -2147483648, false⟩
      = outcome.undefined := by
  decide

/-- C26 (amended): for two well-formed numerals `[sign] D* [. D*] [e [sign] D*]` whose
written exponents are below `2^31`, the constructor returns numbers `x` and `y`, and the
numbers `x + y` and `x − y` that the operators return are the exact sum and difference of
`x` and `y` read in the default working base `B = (T_MAX/4)·2`, that is, with the decimal
digits of the numerals taken as digits of base `B` (left out: `x` zero and `y` of negative
exponent), whenever the arithmetic of `int` on the exponents, sizes and indices does not
overflow; it does not when for each numeral the written exponent plus the number of
digits is at most `2^28`. -/
theorem of_string_add_sub (T_MAX : Int) (hT : 40 ≤ T_MAX)
    (sign1 ds1 : List Char) (frac1 : Option (List Char))
    (expo1 : Option (List Char × List Char))
    (sign2 ds2 : List Char) (frac2 : Option (List Char))
    (expo2 : Option (List Char × List Char))
    (hw1 : well_formed sign1 ds1 frac1 expo1) (hw2 : well_formed sign2 ds2 frac2 expo2)
    (hV1 : decimal_value (expo1.getD ([], [])).2 < 2147483648)
    (hV2 : decimal_value (expo2.getD ([], [])).2 < 2147483648) :
    ∃ x y, exact_number.of_string (numeral sign1 ds1 frac1 expo1) = outcome.ok x
      ∧ exact_number.of_string (numeral sign2 ds2 frac2 expo2) = outcome.ok y
      ∧ (¬ (x.digits = [0] ∧ y.exponent < 0) →
          (∀ r, operator_add_int T_MAX x y = outcome.ok r →
            value (radix T_MAX) r = value (radix T_MAX) x + value (radix T_MAX) y)
          ∧ (∀ r, operator_sub_int T_MAX x y = outcome.ok r →
            value (radix T_MAX) r = value (radix T_MAX) x - value (radix T_MAX) y))
      ∧ (numeral_within 268435456 ds1 frac1 expo1 → numeral_within 268435456 ds2 frac2 expo2 →
          (∃ r, operator_add_int T_MAX x y = outcome.ok r)
          ∧ ∃ r, operator_sub_int T_MAX x y = outcome.ok r) := by
  obtain ⟨x, hx, n1, d1⟩ := of_string_well_formed sign1 ds1 frac1 expo1 hw1 hV1
  obtain ⟨y, hy, n2, d2⟩ := of_string_well_formed sign2 ds2 frac2 expo2 hw2 hV2
  have h9 := radix_ge_ten T_MAX hT
  refine ⟨x, y, hx, hy, fun hns => ⟨fun r hr => ?_, fun r hr => ?_⟩, fun w1 w2 => ?_⟩
  · rw [operator_add_int_eq T_MAX x y r hr]
    exact operator_add_normalized T_MAX _ _ (by omega) (digits_in_mono _ _ _ h9 d1)
      (digits_in_mono _ _ _ h9 d2) n1 n2 hns
  · rw [operator_sub_int_eq T_MAX x y r hr]
    exact operator_sub_normalized T_MAX _ _ (by omega) (digits_in_mono _ _ _ h9 d1)
      (digits_in_mono _ _ _ h9 d2) n1 n2 hns
  · have wx := of_string_within sign1 ds1 frac1 expo1 hw1 w1 x hx
    have wy := of_string_within sign2 ds2 frac2 expo2 hw2 w2 y hy
    exact ⟨⟨_, operator_add_int_ok T_MAX x y wx wy⟩, ⟨_, operator_sub_int_ok T_MAX x y wx wy⟩⟩

theorem of_string_add_sub_witness :
    (exact_number.of_string ['1', '.', '5'] = outcome.ok ⟨[1, 5], 1, true⟩
      ∧ exact_number.of_string ['2', '.', '2', '5'] = outcome.ok ⟨[2, 2, 5], 1, true⟩
      ∧ exact_number.of_string ['3', '.', '7', '5'] = outcome.ok ⟨[3, 7, 5], 1, true⟩
      ∧ operator_add_int 2147483647 ⟨[1, 5], 1, true⟩ ⟨[2, 2, 5], 1, true⟩
        = outcome.ok ⟨[3, 7, 5], 1, true⟩)
    ∧ well_formed [] ['1'] none none
    ∧ well_formed [] ['0'] (some ['0', '0', '0', '0', '0', '0', '1']) none
    ∧ ∃ x y, exact_number.of_string (numeral [] ['1'] none none) = outcome.ok x
      ∧ exact_number.of_string
          (numeral [] ['0'] (some ['0', '0', '0', '0', '0', '0', '1']) none) = outcome.ok y
      ∧ (¬ (x.digits = [0] ∧ y.exponent < 0) →
          (∀ r, operator_add_int 2147483647 x y = outcome.ok r →
            value (radix 2147483647) r
              = value (radix 2147483647) x + value (radix 2147483647) y)
          ∧ (∀ r, operator_sub_int 2147483647 x y = outcome.ok r →
            value (radix 2147483647) r
              = value (radix 2147483647) x - value (radix 2147483647) y))
      ∧ (numeral_within 268435456 ['1'] none none
          → numeral_within 268435456 ['0'] (some ['0', '0', '0', '0', '0', '0', '1']) none →
          (∃ r, operator_add_int 2147483647 x y = outcome.ok r)
          ∧ ∃ r, operator_sub_int 2147483647 x y = outcome.ok r) :=
  ⟨⟨by decide, by decide, by decide, by decide⟩,
    by simp [well_formed, is_sign, is_digits], by simp [well_formed, is_sign, is_digits],
    of_string_add_sub 2147483647 (by decide) [] ['1'] none none [] ['0']
      (some ['0', '0', '0', '0', '0', '0', '1']) none
      (by simp [well_formed, is_sign, is_digits]) (by simp [well_formed, is_sign, is_digits])
      (by decide) (by decide)⟩

/-- C26 as stated fails in two ways.  At its second witness `"1" − "0.0000001"` is
computed with borrows in the base `B − 1 = 1073741821` of `subtract_vector` and gives
seven digits `1073741821`, not the digits `9` of the number parsed from `"0.9999999"`.
And `"1e2147483647"`, whose written exponent is below `2^31`, is parsed to the digit `1`
with the exponent `−2147483648`, on which the difference
`(int)this->digits.size() - this->exponent` of `add_vector` is a signed overflow: the
sum of the number with itself is undefined behaviour. -/
theorem of_string_add_sub_counterexample :
    (exact_number.of_string ['1'] = outcome.ok ⟨[1], 1, true⟩
      ∧ exact_number.of_string ['0', '.', '0', '0', '0', '0', '0', '0', '1']
        = outcome.ok ⟨[1], -6, true⟩
      ∧ exact_number.of_string ['0', '.', '9', '9', '9', '9', '9', '9', '9']
        = outcome.ok ⟨[9, 9, 9, 9, 9, 9, 9], 0, true⟩
      ∧ operator_sub_int 2147483647 ⟨[1], 1, true⟩ ⟨[1], -6, true⟩
        = outcome.ok ⟨[1073741821, 1073741821, 1073741821, 1073741821, 1073741821,
            1073741821, 1073741821], 0, true⟩)
    ∧ (exact_number.of_string ['1', 'e', '2', '1', '4', '7', '4', '8', '3', '6', '4', '7']
        = outcome.ok ⟨[1], -2147483648, true⟩
      ∧ operator_add_int 2147483647 ⟨[1], -2147483648, true⟩ ⟨[1], -2147483648, true⟩
        = outcome.undefined) := by
  decide

/-- C27 (amended): for two well-formed numerals `[sign] D* [. D*] [e [sign] D*]` whose
written exponents are below `2^31`, the constructor returns numbers `x` and `y`, and the
number `x * y` that the operator returns is the exact product of `x` and `y` read in the
default working base `B = (T_MAX/4)·2`, that is, with the decimal digits of the numerals
taken as digits of base `B`, whenever the arithmetic of `int` on the sizes and exponents
does not overflow; it does not when for each numeral the written exponent plus the
number of digits is at most `2^28`. -/
theorem of_string_mul (T_MAX : Int) (hT : 40 ≤ T_MAX)
    (sign1 ds1 : List Char) (frac1 : Option (List Char))
    (expo1 : Option (List Char × List Char))
    (sign2 ds2 : List Char) (frac2 : Option (List Char))
    (expo2 : Option (List Char × List Char))
    (hw1 : well_formed sign1 ds1 frac1 expo1) (hw2 : well_formed sign2 ds2 frac2 expo2)
    (hV1 : decimal_value (expo1.getD ([], [])).2 < 2147483648)
    (hV2 : decimal_value (expo2.getD ([], [])).2 < 2147483648) :
    ∃ x y, exact_number.of_string (numeral sign1 ds1 frac1 expo1) = outcome.ok x
      ∧ exact_number.of_string (numeral sign2 ds2 frac2 expo2) = outcome.ok y
      ∧ (∀ r, operator_mul_int T_MAX x y = outcome.ok r →
          value (radix T_MAX) r = value (radix T_MAX) x * value (radix T_MAX) y)
      ∧ (numeral_within 268435456 ds1 frac1 expo1 → numeral_within 268435456 ds2 frac2 expo2 →
          ∃ r, operator_mul_int T_MAX x y = outcome.ok r) := by
  obtain ⟨x, hx, _, d1⟩ := of_string_well_formed sign1 ds1 frac1 expo1 hw1 hV1
  obtain ⟨y, hy, _, d2⟩ := of_string_well_formed sign2 ds2 frac2 expo2 hw2 hV2
  have h9 := radix_ge_ten T_MAX hT
  refine ⟨x, y, hx, hy, fun r hr => ?_, fun w1 w2 => ?_⟩
  · rw [operator_mul_int_eq T_MAX x y r hr]
    exact operator_mul_exact T_MAX _ _ (by omega) (digits_in_mono _ _ _ h9 d1)
      (digits_in_mono _ _ _ h9 d2)
  · exact ⟨_, operator_mul_int_ok T_MAX x y
      (of_string_within sign1 ds1 frac1 expo1 hw1 w1 x hx)
      (of_string_within sign2 ds2 frac2 expo2 hw2 w2 y hy)⟩

theorem of_string_mul_witness :
    (exact_number.of_string ['1', '2'] = outcome.ok ⟨[1, 2], 2, true⟩
      ∧ exact_number.of_string ['3'] = outcome.ok ⟨[3], 1, true⟩
      ∧ exact_number.of_string ['3', '6'] = outcome.ok ⟨[3, 6], 2, true⟩
      ∧ operator_mul_int 2147483647 ⟨[1, 2], 2, true⟩ ⟨[3], 1, true⟩
        = outcome.ok ⟨[3, 6], 2, true⟩)
    ∧ well_formed [] ['1', '2'] none none ∧ well_formed ['-'] ['0'] (some ['3']) none
    ∧ ∃ x y, exact_number.of_string (numeral [] ['1', '2'] none none) = outcome.ok x
      ∧ exact_number.of_string (numeral ['-'] ['0'] (some ['3']) none) = outcome.ok y
      ∧ (∀ r, operator_mul_int 2147483647 x y = outcome.ok r →
          value (radix 2147483647) r
            = value (radix 2147483647) x * value (radix 2147483647) y)
      ∧ (numeral_within 268435456 ['1', '2'] none none
          → numeral_within 268435456 ['0'] (some ['3']) none →
          ∃ r, operator_mul_int 2147483647 x y = outcome.ok r) :=
  ⟨⟨by decide, by decide, by decide, by decide⟩,
    by simp [well_formed, is_sign, is_digits], by simp [well_formed, is_sign, is_digits],
    of_string_mul 2147483647 (by decide) [] ['1', '2'] none none ['-'] ['0'] (some ['3']) none
      (by simp [well_formed, is_sign, is_digits]) (by simp [well_formed, is_sign, is_digits])
      (by decide) (by decide)⟩

/-- C27 as stated fails in two ways.  At its witness `"123456789" * "987654321"` is the
product of the digit sequences in base `B`, whose digits are the sums of the products of
the decimal digits (9, 26, 50, ...), not the number parsed from `"121932631112635269"`.
And `"1e1073741824"` is parsed to the digit `1` with the exponent `1073741825`, and in
the product of the number with itself `result_exponent` is a signed overflow: the
behaviour is undefined. -/
theorem of_string_mul_counterexample :
    (exact_number.of_string ['1', '2', '3', '4', '5', '6', '7', '8', '9']
        = outcome.ok ⟨[1, 2, 3, 4, 5, 6, 7, 8, 9], 9, true⟩
      ∧ exact_number.of_string ['9', '8', '7', '6', '5', '4', '3', '2', '1']
        = outcome.ok ⟨[9, 8, 7, 6, 5, 4, 3, 2, 1], 9, true⟩
      ∧ exact_number.of_string ['1', '2', '1', '9', '3', '2', '6', '3', '1', '1', '1', '2',
          '6', '3', '5', '2', '6', '9']
        = outcome.ok ⟨[1, 2, 1, 9, 3, 2, 6, 3, 1, 1, 1, 2, 6, 3, 5, 2, 6, 9], 18, true⟩
      ∧ operator_mul_int 2147483647 ⟨[1, 2, 3, 4, 5, 6, 7, 8, 9], 9, true⟩
          ⟨[9, 8, 7, 6, 5, 4, 3, 2, 1], 9, true⟩
        = outcome.ok ⟨[9, 26, 50, 80, 115, 154, 196, 240, 285, 240, 196, 154, 115, 80, 50,
            26, 9], 17, true⟩)
    ∧ (exact_number.of_string ['1', 'e', '1', '0', '7', '3', '7', '4', '1', '8', '2', '4']
        = outcome.ok ⟨[1], 1073741825, true⟩
      ∧ operator_mul_int 2147483647 ⟨[1], 1073741825, true⟩ ⟨[1], 1073741825, true⟩
        = outcome.undefined) := by
  refine ⟨⟨by decide, by decide, by decide, by decide!⟩, by decide, by decide⟩

/-- C31 (amended): for every largest digit `b ≥ 1` (radix `b + 1`) and every `x` with
non-empty digits in `[0, b]`, the number `round_up_abs(b)` leaves has the magnitude of
`x` plus one unit of the last digit position, `(b+1)^(exponent − |digits|)`, digits in
`[0, b]` and the sign flag of `x`; when all digits of `x` are `b`, so that the carry
leaves the most significant digit, it is `1` followed by zeros with the exponent
incremented by one, and otherwise it has as many digits as `x` and the same exponent.
This holds whenever the step `++exponent` does not overflow: always when some digit of
`x` is not `b`, and when the exponent of `x` is an `int` below the largest one. -/
theorem round_up_abs_unit (b : Int) (x : exact_number) (hb : 1 ≤ b) (hne : x.digits ≠ [])
    (hd : digits_in b x.digits) :
    (∀ r, round_up_abs_int x b = outcome.ok r →
        magnitude (b + 1) r.digits r.exponent
          = magnitude (b + 1) x.digits x.exponent
            + ((b + 1 : Int) : ℚ) ^ (x.exponent - (x.digits.length : Int))
        ∧ digits_in b r.digits
        ∧ ((∀ d ∈ x.digits, d = b) →
            r.digits = 1 :: List.replicate x.digits.length 0 ∧ r.exponent = x.exponent + 1)
        ∧ (¬ (∀ d ∈ x.digits, d = b) →
            r.digits.length = x.digits.length ∧ r.exponent = x.exponent)
        ∧ r.positive = x.positive)
    ∧ (¬ (∀ d ∈ x.digits, d = b) → ∃ r, round_up_abs_int x b = outcome.ok r)
    ∧ (-2147483648 ≤ x.exponent → x.exponent < 2147483647 →
        ∃ r, round_up_abs_int x b = outcome.ok r) := by
  have hs := round_up_abs_spec b x hb hne hd
  refine ⟨fun r hr => ?_, fun hall => ?_, fun h1 h2 =>
    ⟨_, round_up_abs_int_ok x b (by omega) h2⟩⟩
  · rw [round_up_abs_int_eq x b r hr]; exact hs
  · have he := (hs.2.2.2.1 hall).2
    unfold round_up_abs at he
    unfold round_up_abs_int
    dsimp only at he ⊢
    split
    · rename_i hc
      rw [if_pos hc] at he
      split
      · rename_i hc2
        rw [if_pos hc2] at he
        dsimp only at he
        omega
      · exact ⟨_, rfl⟩
    · exact ⟨_, rfl⟩

theorem round_up_abs_unit_witness :
    round_up_abs_int ⟨[9, 9], 0, false⟩ 9 = outcome.ok ⟨[1, 0, 0], 1, false⟩
    ∧ magnitude (9 + 1) [1, 0, 0] 1
      = magnitude (9 + 1) [9, 9] 0 + ((9 + 1 : Int) : ℚ) ^ ((0 : Int) - (2 : Nat))
    ∧ (∃ r, round_up_abs_int ⟨[9, 9], 0, false⟩ 9 = outcome.ok r)
    ∧ ∃ r, round_up_abs_int ⟨[1, 9], 2147483647, true⟩ 9 = outcome.ok r :=
  ⟨by decide,
    ((round_up_abs_unit 9 ⟨[9, 9], 0, false⟩ (by decide) (by decide) (by decide)).1
      ⟨[1, 0, 0], 1, false⟩ (by decide)).1,
    (round_up_abs_unit 9 ⟨[9, 9], 0, false⟩ (by decide) (by decide) (by decide)).2.2
      (by decide) (by decide),
    (round_up_abs_unit 9 ⟨[1, 9], 2147483647, true⟩ (by decide) (by decide) (by decide)).2.1
      (by decide)⟩

/-- C31 as stated fails: for `x = [9]` of the exponent `2147483647`, the largest `int`,
and `b = 9`, the carry leaves the most significant digit and `++exponent` is a signed
overflow: the behaviour is undefined.  (A build by g++ 12 leaves the digits `[1, 0]`
with the exponent `−2147483648`.) -/
theorem round_up_abs_unit_counterexample :
    ([9] : List Int) ≠ [] ∧ digits_in 9 [9]
    ∧ round_up_abs_int ⟨[9], 2147483647, true⟩ 9 = outcome.undefined := by
  decide

/-- C33 (amended): `up_to(precision, upper)` returns `x` unchanged when
`precision ≥ |digits|`; otherwise it returns the first `precision` digits of `x` after one
step of `round_up` or `round_down`, and for `1 ≤ precision < |digits|` and digits in
`[0, B − 1]` the values satisfy
`value(x.up_to(precision, false)) ≤ value(x) ≤ value(x.up_to(precision, true))`; this
holds whenever the step `++exponent` of the rounding does not overflow, and it does not
when the exponent of `x` is an `int` below the largest one. -/
theorem up_to_bounds (T_MAX : Int) (x : exact_number) (precision : Nat) (hT : 4 ≤ T_MAX)
    (hd : digits_in (radix T_MAX - 1) x.digits) :
    (x.digits.length ≤ precision → ∀ upper, up_to_int T_MAX x precision upper = outcome.ok x)
    ∧ (precision < x.digits.length →
        up_to_int T_MAX x precision true
          = round_up_int ⟨x.digits.take precision, x.exponent, x.positive⟩ (radix T_MAX - 1)
        ∧ up_to_int T_MAX x precision false
          = round_down_int ⟨x.digits.take precision, x.exponent, x.positive⟩ (radix T_MAX - 1)
        ∧ (1 ≤ precision →
            (∀ lo, up_to_int T_MAX x precision false = outcome.ok lo →
              value (radix T_MAX) lo ≤ value (radix T_MAX) x)
            ∧ (∀ hi, up_to_int T_MAX x precision true = outcome.ok hi →
              value (radix T_MAX) x ≤ value (radix T_MAX) hi)))
    ∧ (-2147483648 ≤ x.exponent → x.exponent < 2147483647 →
        ∀ upper, ∃ r, up_to_int T_MAX x precision upper = outcome.ok r) := by
  obtain ⟨s1, s2⟩ := up_to_spec T_MAX x precision hT hd
  have hbase : default_base T_MAX = radix T_MAX - 1 := rfl
  refine ⟨fun h upper => ?_, fun h => ⟨?_, ?_, fun hp => ⟨fun lo hlo => ?_, fun hi hhi => ?_⟩⟩,
    fun h1 h2 upper => ⟨_, up_to_int_ok T_MAX x precision upper (by omega) h2⟩⟩
  · unfold up_to_int
    rw [if_pos h]
  · unfold up_to_int
    rw [if_neg (by omega)]
    simp only [if_true, hbase]
  · unfold up_to_int
    rw [if_neg (by omega)]
    simp only [Bool.false_eq_true, if_false, hbase]
  · rw [up_to_int_eq T_MAX x precision false lo hlo]
    exact ((s2 h).2.2 hp).1
  · rw [up_to_int_eq T_MAX x precision true hi hhi]
    exact ((s2 h).2.2 hp).2

theorem up_to_bounds_witness :
    up_to_int 2147483647 ⟨[1, 5, 7], 1, true⟩ 2 false = outcome.ok ⟨[1, 4], 1, true⟩
    ∧ up_to_int 2147483647 ⟨[1, 5, 7], 1, true⟩ 2 true = outcome.ok ⟨[1, 6], 1, true⟩
    ∧ value (radix 2147483647) ⟨[1, 4], 1, true⟩ ≤ value (radix 2147483647) ⟨[1, 5, 7], 1, true⟩
    ∧ value (radix 2147483647) ⟨[1, 5, 7], 1, true⟩ ≤ value (radix 2147483647) ⟨[1, 6], 1, true⟩
    ∧ ∃ r, up_to_int 2147483647 ⟨[1, 5, 7], 1, true⟩ 2 true = outcome.ok r :=
  ⟨by decide, by decide,
    (((up_to_bounds 2147483647 ⟨[1, 5, 7], 1, true⟩ 2 (by decide) (by decide)).2.1
      (by decide)).2.2 (by decide)).1 _ (by decide),
    (((up_to_bounds 2147483647 ⟨[1, 5, 7], 1, true⟩ 2 (by decide) (by decide)).2.1
      (by decide)).2.2 (by decide)).2 _ (by decide),
    (up_to_bounds 2147483647 ⟨[1, 5, 7], 1, true⟩ 2 (by decide) (by decide)).2.2
      (by decide) (by decide) true⟩

/-- C33 as stated fails: for `x = [1073741821, 5]` of the exponent `2147483647`, the
largest `int`, the precision 1 and `upper = true`, the kept digit is the largest digit,
the carry of `round_up_abs` leaves it and `++exponent` is a signed overflow: the
behaviour is undefined.  (A build by g++ 12 returns the digits `[1, 0]` with the exponent
`−2147483648`.) -/
theorem up_to_bounds_counterexample :
    digits_in (radix 2147483647 - 1) [1073741821, 5]
    ∧ up_to_int 2147483647 ⟨[1073741821, 5], 2147483647, true⟩ 1 true
      = outcome.undefined := by
  decide

end BoostReal
